import Mathlib

/-!
# cartograph: tile maps, node groups and A* path finding

A shallow embedding of the `cartograph` library (types.h, directions.h,
tile_traits.cpp, node_group.tcc, traversal_traits.cpp, heuristics.tcc,
pathfinding.tcc) together with theorems about it.

Conventions of the embedding

* `unit_t` is a signed machine integer in the source (`int64_t` when available).
  It is embedded as `Int`; `invalid_unit` is the least `int64_t`.  Arithmetic is
  the mathematical one: signed overflow is undefined behaviour in the source and
  is outside of every statement below.
* A `std::map` is a list of key/value pairs kept in key order; `find`, `erase` and
  `operator[]` are the list operations of the namespace `std_map`.
* A `shared_ptr` that may be null is an `Option`, or a type with a `null`
  constructor.
* Code that throws, fails an assertion or has undefined behaviour returns an
  `Except fault _`.
-/

namespace cartograph

/-! ## types.h -/

/-- The basic unit type `unit_t` (types.h), `int64_t` in the first branch of its
definition. -/
abbrev unit_t := Int

/-- The constant `invalid_unit` (types.cpp): the least value of `unit_t`. -/
def invalid_unit : unit_t := -9223372036854775808

/-- The enumeration `join_t` (types.h) is a bit set; it is embedded as the number
whose bits are set. -/
abbrev join_t := Nat

/-- Edge-to-edge joined tiles. -/
def EDGES : join_t := 1
/-- Tiles joined by a corner, directly opposite each other. -/
def CORNERS_FACING : join_t := 2
/-- Tiles joined by a corner, not directly opposite each other. -/
def CORNERS_OBLIQUE : join_t := 4
/-- Both corner types. -/
def CORNERS : join_t := CORNERS_FACING ||| CORNERS_OBLIQUE
/-- The default join type of path finding. -/
def PATHFINDING_DEFAULT : join_t := EDGES ||| CORNERS_FACING
/-- All join types. -/
def ALL_JOIN_TYPES : join_t := EDGES ||| CORNERS

/-- The test `join_type & flag` of the source. -/
def join_t.has (join_type flag : join_t) : Bool := (join_type &&& flag) != 0

/-- The 2D vector type `vector_t` (types.h). -/
structure vector_t where
  m_x : unit_t
  m_y : unit_t
deriving DecidableEq, Repr

/-- The constant `invalid_vector` (types.cpp), the default constructed vector. -/
def invalid_vector : vector_t := ⟨invalid_unit, invalid_unit⟩

/-- The member `vector_t::operator<`. -/
def vector_t.lt (a b : vector_t) : Bool :=
  if a.m_x < b.m_x then true else (a.m_x == b.m_x) && decide (a.m_y < b.m_y)

/-- The member `vector_t::operator+`. -/
def vector_t.add (a b : vector_t) : vector_t := ⟨a.m_x + b.m_x, a.m_y + b.m_y⟩

/-- The member `vector_t::operator-`. -/
def vector_t.sub (a b : vector_t) : vector_t := ⟨a.m_x - b.m_x, a.m_y - b.m_y⟩

instance : Add vector_t := ⟨vector_t.add⟩
instance : Sub vector_t := ⟨vector_t.sub⟩

/-! ## directions.h -/

/-- The enumeration `directions_t` (directions.h): sixteen compass directions between
the two sentinels `DIR_START = -1` and `DIR_END = 16`. -/
inductive directions_t where
  | DIR_START
  | NORTH
  | NORTH_NORTH_EAST
  | NORTH_EAST
  | EAST_NORTH_EAST
  | EAST
  | EAST_SOUTH_EAST
  | SOUTH_EAST
  | SOUTH_SOUTH_EAST
  | SOUTH
  | SOUTH_SOUTH_WEST
  | SOUTH_WEST
  | WEST_SOUTH_WEST
  | WEST
  | WEST_NORTH_WEST
  | NORTH_WEST
  | NORTH_NORTH_WEST
  | DIR_END
deriving DecidableEq, Repr

open directions_t

/-- The integer value of an enumerator of `directions_t`. -/
def directions_t.toInt : directions_t → Int
  | DIR_START => -1
  | NORTH => 0
  | NORTH_NORTH_EAST => 1
  | NORTH_EAST => 2
  | EAST_NORTH_EAST => 3
  | EAST => 4
  | EAST_SOUTH_EAST => 5
  | SOUTH_EAST => 6
  | SOUTH_SOUTH_EAST => 7
  | SOUTH => 8
  | SOUTH_SOUTH_WEST => 9
  | SOUTH_WEST => 10
  | WEST_SOUTH_WEST => 11
  | WEST => 12
  | WEST_NORTH_WEST => 13
  | NORTH_WEST => 14
  | NORTH_NORTH_WEST => 15
  | DIR_END => 16

/-! ## error.h -/

/-- The error codes `error_t` (error.h). -/
inductive error_t where
  | CG_OK
  | CG_INVALID_COORDS
  | CG_INVALID_DIR
deriving DecidableEq, Repr

open error_t

/-- The numeric value of an error code (error.h). -/
def error_t.code : error_t → Nat
  | CG_OK => 0
  | CG_INVALID_COORDS => 50
  | CG_INVALID_DIR => 51

/-- The ways in which a call does not return: a thrown `cartograph::exception`, a failed
`assert`, and the undefined behaviours that the modelled code can run into. -/
inductive fault where
  /-- An instance of `exception(err)` was thrown. -/
  | thrown (err : error_t)
  /-- An `assert` failed. -/
  | assertion_failed
  /-- The array returned by `available_dirs` was `NULL` and was read. -/
  | null_dirs
  /-- An array of directions was read past its last element (no `DIR_END`). -/
  | unterminated_dirs
  /-- The iterator `end()` of the open list was dereferenced. -/
  | open_list_exhausted
  /-- A null pointer was dereferenced. -/
  | null_dereference
  /-- The iteration bound of the embedding was used up (never the case, see
  `a_star_never_out_of_fuel`). -/
  | out_of_fuel
deriving DecidableEq, Repr

deriving instance DecidableEq for Except

/-! ## std::map -/

namespace std_map

/-- The call `m.find(k)`, `none` standing for `m.end()`. -/
def find {K V : Type} [DecidableEq K] (m : List (K × V)) (k : K) : Option V :=
  match m with
  | [] => none
  | (k1, v1) :: rest => if k1 = k then some v1 else find rest k

/-- The call `m.erase(m.find(k))` for a key that was found: the element with that key
is removed. -/
def erase {K V : Type} [DecidableEq K] (m : List (K × V)) (k : K) : List (K × V) :=
  match m with
  | [] => []
  | (k1, v1) :: rest => if k1 = k then rest else (k1, v1) :: erase rest k

/-- The assignment `m[k] = v`: the value of an element with key `k` is replaced, and
otherwise a new element is put at its place in the key order `lt`. -/
def assign {K V : Type} (lt : K → K → Bool) (m : List (K × V)) (k : K) (v : V) :
    List (K × V) :=
  match m with
  | [] => [(k, v)]
  | (k1, v1) :: rest =>
    if lt k1 k then (k1, v1) :: assign lt rest k v
    else if lt k k1 then (k, v) :: (k1, v1) :: rest
    else (k, v) :: rest

/-- The call `m.insert(std::make_pair(k, v))`: nothing happens when the key is there. -/
def insert {K V : Type} [DecidableEq K] (lt : K → K → Bool) (m : List (K × V)) (k : K)
    (v : V) : List (K × V) :=
  if (find m k).isSome then m else assign lt m k v

end std_map

/-! ## tile_traits.h, tile_traits.cpp -/

/-- The three static members that a tile traits class provides (`TileTraitsConcept`).
An array of directions is the list of its elements, the terminating `DIR_END`
included; `none` is the `NULL` array. -/
structure tile_traits where
  available_dirs : vector_t → join_t → Option (List directions_t)
  get_relative : vector_t → directions_t → vector_t
  is_valid : vector_t → Bool

namespace rectangular_tile_traits

/-- The array `edges` of `rectangular_tile_traits::available_dirs`. -/
def edges : List directions_t := [NORTH, EAST, SOUTH, WEST, DIR_END]
/-- The array `corners` of `rectangular_tile_traits::available_dirs`. -/
def corners : List directions_t := [NORTH_EAST, SOUTH_EAST, SOUTH_WEST, NORTH_WEST, DIR_END]
/-- The array `all` of `rectangular_tile_traits::available_dirs`. -/
def all : List directions_t :=
  [NORTH, NORTH_EAST, EAST, SOUTH_EAST, SOUTH, SOUTH_WEST, WEST, NORTH_WEST, DIR_END]

/-- The function `rectangular_tile_traits::available_dirs`. -/
def available_dirs (_coords : vector_t) (join_type : join_t) : Option (List directions_t) :=
  if join_type.has EDGES then
    if join_type.has CORNERS_FACING then some all else some edges
  else if join_type.has CORNERS_FACING then some corners
  else none

/-- The function `rectangular_tile_traits::get_relative`. -/
def get_relative (coords : vector_t) (dir : directions_t) : vector_t :=
  match dir with
  | NORTH => coords + ⟨0, -1⟩
  | NORTH_EAST => coords + ⟨1, -1⟩
  | EAST => coords + ⟨1, 0⟩
  | SOUTH_EAST => coords + ⟨1, 1⟩
  | SOUTH => coords + ⟨0, 1⟩
  | SOUTH_WEST => coords + ⟨-1, 1⟩
  | WEST => coords + ⟨-1, 0⟩
  | NORTH_WEST => coords + ⟨-1, -1⟩
  | _ => invalid_vector

/-- The function `rectangular_tile_traits::is_valid`. -/
def is_valid (coords : vector_t) : Bool := coords != invalid_vector

end rectangular_tile_traits

/-- The traits class `rectangular_tile_traits` (tile_traits.h). -/
def rectangular_tile_traits : tile_traits :=
  ⟨rectangular_tile_traits.available_dirs, rectangular_tile_traits.get_relative,
    rectangular_tile_traits.is_valid⟩

namespace triangular_tile_traits

/-- The arrays of `detail::available_dirs_triangular_up`. -/
def up_edges : List directions_t := [EAST, SOUTH, WEST, DIR_END]
def up_facing : List directions_t := [NORTH, SOUTH_EAST, SOUTH_WEST, DIR_END]
def up_oblique : List directions_t :=
  [NORTH_EAST, EAST_SOUTH_EAST, SOUTH_SOUTH_EAST, SOUTH_SOUTH_WEST, WEST_SOUTH_WEST,
    NORTH_WEST, DIR_END]
def up_edges_facing : List directions_t :=
  [NORTH, EAST, SOUTH_EAST, SOUTH, SOUTH_WEST, WEST, DIR_END]
def up_edges_oblique : List directions_t :=
  [NORTH_EAST, EAST, EAST_SOUTH_EAST, SOUTH_SOUTH_EAST, SOUTH, SOUTH_SOUTH_WEST,
    WEST_SOUTH_WEST, WEST, NORTH_WEST, DIR_END]
def up_facing_oblique : List directions_t :=
  [NORTH, NORTH_EAST, EAST_SOUTH_EAST, SOUTH_EAST, SOUTH_SOUTH_EAST, SOUTH_SOUTH_WEST,
    SOUTH_WEST, WEST_SOUTH_WEST, NORTH_WEST, DIR_END]
def up_all : List directions_t :=
  [NORTH, NORTH_EAST, EAST, EAST_SOUTH_EAST, SOUTH_EAST, SOUTH_SOUTH_EAST, SOUTH,
    SOUTH_SOUTH_WEST, SOUTH_WEST, WEST_SOUTH_WEST, WEST, NORTH_WEST, DIR_END]

/-- The function `detail::available_dirs_triangular_up`. -/
def available_dirs_triangular_up (join_type : join_t) : Option (List directions_t) :=
  if join_type.has EDGES then
    if join_type.has CORNERS_FACING then
      if join_type.has CORNERS_OBLIQUE then some up_all else some up_edges_facing
    else if join_type.has CORNERS_OBLIQUE then some up_edges_oblique
    else some up_edges
  else if join_type.has CORNERS_FACING then
    if join_type.has CORNERS_OBLIQUE then some up_facing_oblique else some up_facing
  else if join_type.has CORNERS_OBLIQUE then some up_oblique
  else none

/-- The arrays of `detail::available_dirs_triangular_down`. -/
def down_edges : List directions_t := [NORTH, EAST, WEST, DIR_END]
def down_facing : List directions_t := [NORTH_EAST, SOUTH, NORTH_WEST, DIR_END]
def down_oblique : List directions_t :=
  [NORTH_NORTH_EAST, EAST_NORTH_EAST, SOUTH_EAST, SOUTH_WEST, WEST_NORTH_WEST,
    NORTH_NORTH_WEST, DIR_END]
def down_edges_facing : List directions_t :=
  [NORTH, NORTH_EAST, EAST, SOUTH, WEST, NORTH_WEST, DIR_END]
def down_edges_oblique : List directions_t :=
  [NORTH, NORTH_NORTH_EAST, EAST_NORTH_EAST, EAST, SOUTH_EAST, SOUTH_WEST, WEST,
    WEST_NORTH_WEST, NORTH_NORTH_WEST, DIR_END]
def down_facing_oblique : List directions_t :=
  [NORTH_NORTH_EAST, NORTH_EAST, EAST_NORTH_EAST, SOUTH_EAST, SOUTH, SOUTH_WEST,
    WEST_NORTH_WEST, NORTH_WEST, NORTH_NORTH_WEST, DIR_END]
def down_all : List directions_t :=
  [NORTH, NORTH_NORTH_EAST, NORTH_EAST, EAST_NORTH_EAST, EAST, SOUTH_EAST, SOUTH,
    SOUTH_WEST, WEST, WEST_NORTH_WEST, NORTH_WEST, NORTH_NORTH_WEST, DIR_END]

/-- The function `detail::available_dirs_triangular_down`. -/
def available_dirs_triangular_down (join_type : join_t) : Option (List directions_t) :=
  if join_type.has EDGES then
    if join_type.has CORNERS_FACING then
      if join_type.has CORNERS_OBLIQUE then some down_all else some down_edges_facing
    else if join_type.has CORNERS_OBLIQUE then some down_edges_oblique
    else some down_edges
  else if join_type.has CORNERS_FACING then
    if join_type.has CORNERS_OBLIQUE then some down_facing_oblique else some down_facing
  else if join_type.has CORNERS_OBLIQUE then some down_oblique
  else none

/-- The function `triangular_tile_traits::available_dirs`; `sum % 2` is the remainder of
the division that truncates. -/
def available_dirs (coords : vector_t) (join_type : join_t) : Option (List directions_t) :=
  let sum := coords.m_x + coords.m_y
  if Int.tmod sum 2 ≠ 0 then available_dirs_triangular_down join_type
  else available_dirs_triangular_up join_type

/-- The table `relative_up` of `triangular_tile_traits::get_relative`. -/
def relative_up : directions_t → vector_t
  | NORTH => ⟨0, -1⟩
  | NORTH_NORTH_EAST => invalid_vector
  | NORTH_EAST => ⟨1, -1⟩
  | EAST_NORTH_EAST => invalid_vector
  | EAST => ⟨1, 0⟩
  | EAST_SOUTH_EAST => ⟨2, 0⟩
  | SOUTH_EAST => ⟨2, 1⟩
  | SOUTH_SOUTH_EAST => ⟨1, 1⟩
  | SOUTH => ⟨0, 1⟩
  | SOUTH_SOUTH_WEST => ⟨-1, 1⟩
  | SOUTH_WEST => ⟨-2, 1⟩
  | WEST_SOUTH_WEST => ⟨-2, 0⟩
  | WEST => ⟨-1, 0⟩
  | WEST_NORTH_WEST => invalid_vector
  | NORTH_WEST => ⟨-1, -1⟩
  | NORTH_NORTH_WEST => invalid_vector
  | _ => invalid_vector

/-- The table `relative_down` of `triangular_tile_traits::get_relative`. -/
def relative_down : directions_t → vector_t
  | NORTH => ⟨0, -1⟩
  | NORTH_NORTH_EAST => ⟨1, -1⟩
  | NORTH_EAST => ⟨2, -1⟩
  | EAST_NORTH_EAST => ⟨2, 0⟩
  | EAST => ⟨1, 0⟩
  | EAST_SOUTH_EAST => invalid_vector
  | SOUTH_EAST => ⟨1, 1⟩
  | SOUTH_SOUTH_EAST => invalid_vector
  | SOUTH => ⟨0, 1⟩
  | SOUTH_SOUTH_WEST => invalid_vector
  | SOUTH_WEST => ⟨-1, 1⟩
  | WEST_SOUTH_WEST => invalid_vector
  | WEST => ⟨-1, 0⟩
  | WEST_NORTH_WEST => ⟨-2, 0⟩
  | NORTH_WEST => ⟨-2, -1⟩
  | NORTH_NORTH_WEST => ⟨-1, -1⟩
  | _ => invalid_vector

/-- The function `triangular_tile_traits::get_relative`. The two sentinels yield the
invalid vector; for every other direction the entry of the table is added to the
coordinates (the tables have sixteen entries, so that the test of `dir` against their
size never holds). -/
def get_relative (coords : vector_t) (dir : directions_t) : vector_t :=
  if dir = DIR_START ∨ dir.toInt ≥ DIR_END.toInt then invalid_vector
  else
    let sum := coords.m_x + coords.m_y
    if Int.tmod sum 2 ≠ 0 then
      if dir.toInt > 16 then invalid_vector else coords + relative_down dir
    else
      if dir.toInt > 16 then invalid_vector else coords + relative_up dir

/-- The function `triangular_tile_traits::is_valid`. -/
def is_valid (coords : vector_t) : Bool := coords != invalid_vector

end triangular_tile_traits

/-- The traits class `triangular_tile_traits` (tile_traits.h). -/
def triangular_tile_traits : tile_traits :=
  ⟨triangular_tile_traits.available_dirs, triangular_tile_traits.get_relative,
    triangular_tile_traits.is_valid⟩

namespace hexagonal_tile_traits

/-- The array `dirs` of `hexagonal_tile_traits::available_dirs`. -/
def dirs : List directions_t :=
  [NORTH, NORTH_EAST, SOUTH_EAST, SOUTH, SOUTH_WEST, NORTH_WEST, DIR_END]

/-- The function `hexagonal_tile_traits::available_dirs`. -/
def available_dirs (_coords : vector_t) (join_type : join_t) : Option (List directions_t) :=
  if join_type.has EDGES then some dirs else none

/-- The function `hexagonal_tile_traits::get_relative`. -/
def get_relative (coords : vector_t) (dir : directions_t) : vector_t :=
  match dir with
  | NORTH => coords + ⟨0, -2⟩
  | NORTH_EAST => coords + ⟨1, -1⟩
  | SOUTH_EAST => coords + ⟨1, 1⟩
  | SOUTH => coords + ⟨0, 2⟩
  | SOUTH_WEST => coords + ⟨-1, 1⟩
  | NORTH_WEST => coords + ⟨-1, -1⟩
  | _ => invalid_vector

/-- The function `hexagonal_tile_traits::is_valid`; `sum % 2` is the remainder of the
division that truncates. -/
def is_valid (coords : vector_t) : Bool :=
  if coords = invalid_vector then false
  else
    let sum := coords.m_x + coords.m_y
    if Int.tmod sum 2 ≠ 0 then false else true

end hexagonal_tile_traits

/-- The traits class `hexagonal_tile_traits` (tile_traits.h). -/
def hexagonal_tile_traits : tile_traits :=
  ⟨hexagonal_tile_traits.available_dirs, hexagonal_tile_traits.get_relative,
    hexagonal_tile_traits.is_valid⟩

/-! ## node_group.h, node_group.tcc -/

/-- The identifier type `node_id_t` of `simple_id_generator`. -/
abbrev node_id_t := unit_t

/-- The default id generator `simple_id_generator` (node_group.h). -/
structure simple_id_generator where
  m_current : node_id_t
deriving DecidableEq, Repr

namespace simple_id_generator

/-- The constructor: `m_current` is value-initialised. -/
def init : simple_id_generator := ⟨0⟩

/-- The member `get_unique_id`: the current value is returned and incremented. The
increment is on unbounded integers; the counter of the source, a `unit_t`, overflows
only at the greatest `unit_t`, after 2^63 calls. -/
def get_unique_id (gen : simple_id_generator) : node_id_t × simple_id_generator :=
  (gen.m_current, ⟨gen.m_current + 1⟩)

/-- The member `reset`. -/
def reset (_gen : simple_id_generator) : simple_id_generator := ⟨0⟩

end simple_id_generator

/-- The private structure `node_group::node_data_wrapper`; the `shared_ptr` to the user
data is an `Option`. -/
structure node_data_wrapper (α : Type) where
  m_coords : vector_t
  m_data : Option α
deriving DecidableEq, Repr

/-- The state of a `node_group<node_dataT, tile_traitsT>` with the default id generator:
the map from coordinates to ids, the map from ids to user data and the generator. The
tile traits are a parameter of the type, as in the source. -/
structure node_group (T : tile_traits) (α : Type) where
  m_nodes : List (vector_t × node_id_t)
  m_node_data : List (node_id_t × node_data_wrapper α)
  m_id_generator : simple_id_generator

/-- The class `node_group::node`, a handle on a position of a group. Its member
`m_group` is the group that is passed to the operations below. -/
structure node (T : tile_traits) (α : Type) where
  m_id : node_id_t
  m_coords : vector_t
deriving DecidableEq, Repr

/-- The key order of `node_data_map_t`. -/
def node_id_lt (a b : node_id_t) : Bool := decide (a < b)

namespace node_group

variable {T : tile_traits} {α : Type}

/-- The default constructor `node_group()`. -/
def empty : node_group T α := ⟨[], [], simple_id_generator.init⟩

/-- The member `is_valid(coords)`. -/
def is_valid (_group : node_group T α) (coords : vector_t) : Bool := T.is_valid coords

/-- The member `operator()(coords)`: a handle for the position, with the id recorded for
it or else a new id of the (mutable) generator. Throws for invalid coordinates. -/
def operator_call (group : node_group T α) (coords : vector_t) :
    Except fault (node T α × node_group T α) :=
  if !group.is_valid coords then .error (.thrown CG_INVALID_COORDS)
  else
    match std_map.find group.m_nodes coords with
    | none =>
      let r := group.m_id_generator.get_unique_id
      .ok (⟨r.1, coords⟩, ⟨group.m_nodes, group.m_node_data, r.2⟩)
    | some id => .ok (⟨id, coords⟩, group)

/-- The private member `get(id)`. -/
def get (group : node_group T α) (id : node_id_t) : Option α :=
  match std_map.find group.m_node_data id with
  | none => none
  | some w => w.m_data

/-- The member `clear()`. -/
def clear (group : node_group T α) : node_group T α :=
  ⟨[], [], group.m_id_generator.reset⟩

/-- The member `is_empty(coords)`. -/
def is_empty (group : node_group T α) (coords : vector_t) : Bool :=
  (std_map.find group.m_nodes coords).isNone

/-- One round of the loop of `min_coords()`. -/
def min_step (ret : vector_t) (first : vector_t) : vector_t :=
  ⟨if ret.m_x = invalid_unit then first.m_x else min ret.m_x first.m_x,
   if ret.m_y = invalid_unit then first.m_y else min ret.m_y first.m_y⟩

/-- One round of the loop of `max_coords()`. -/
def max_step (ret : vector_t) (first : vector_t) : vector_t :=
  ⟨if ret.m_x = invalid_unit then first.m_x else max ret.m_x first.m_x,
   if ret.m_y = invalid_unit then first.m_y else max ret.m_y first.m_y⟩

/-- The member `min_coords()`. -/
def min_coords (group : node_group T α) : vector_t :=
  (group.m_nodes.map Prod.fst).foldl min_step invalid_vector

/-- The member `max_coords()`. The two increments at its end are on unbounded integers;
in the source they overflow when a greatest coordinate is the greatest `unit_t`. -/
def max_coords (group : node_group T α) : vector_t :=
  let ret := (group.m_nodes.map Prod.fst).foldl max_step invalid_vector
  ⟨ret.m_x + 1, ret.m_y + 1⟩

/-- The member `size()`. -/
def size (group : node_group T α) : Nat := group.m_node_data.length

/-- The private member `set(id, coords, data)`. -/
def set (group : node_group T α) (id : node_id_t) (coords : vector_t) (data : α) :
    node_group T α :=
  ⟨std_map.assign vector_t.lt group.m_nodes coords id,
   std_map.assign node_id_lt group.m_node_data id ⟨coords, some data⟩,
   group.m_id_generator⟩

/-- The member `move(from, to)`: the result and the group afterwards. -/
def move (group : node_group T α) (src dst : vector_t) : Bool × node_group T α :=
  match std_map.find group.m_nodes src with
  | none => (false, group)
  | some id =>
    match std_map.find group.m_nodes dst with
    | some _ => (false, group)
    | none =>
      (true, ⟨std_map.assign vector_t.lt (std_map.erase group.m_nodes src) dst id,
              group.m_node_data, group.m_id_generator⟩)

/-- The member `erase(coords)`: the result and the group afterwards. -/
def erase (group : node_group T α) (coords : vector_t) : Bool × node_group T α :=
  match std_map.find group.m_nodes coords with
  | none => (false, group)
  | some id =>
    (true, ⟨std_map.erase group.m_nodes coords, std_map.erase group.m_node_data id,
            group.m_id_generator⟩)

end node_group

namespace node

variable {T : tile_traits} {α : Type}

/-- The member `node::id()`. -/
def id (n : node T α) : node_id_t := n.m_id

/-- The member `node::coordinates()`. -/
def coordinates (n : node T α) : vector_t := n.m_coords

/-- The member `node::get()` (and `operator->`): the user data of the handle's id in the
group, `none` for the null pointer. -/
def get (n : node T α) (group : node_group T α) : Option α := group.get n.m_id

/-- The member `node::operator bool()`. -/
def to_bool (n : node T α) (group : node_group T α) : Bool := (group.get n.m_id).isSome

/-- The member `node::operator=(data)`: the group afterwards. -/
def assign (n : node T α) (group : node_group T α) (data : α) : node_group T α :=
  group.set n.m_id n.m_coords data

/-- The member `node::get_relative(dir)`. -/
def get_relative (n : node T α) (group : node_group T α) (dir : directions_t) :
    Except fault (node T α × node_group T α) :=
  let coords := T.get_relative n.m_coords dir
  if coords = invalid_vector then .error (.thrown CG_INVALID_DIR)
  else group.operator_call coords

/-- The member `node::move_to(coords)`: the result, the handle and the group afterwards. -/
def move_to (n : node T α) (group : node_group T α) (coords : vector_t) :
    Bool × node T α × node_group T α :=
  let r := group.move n.m_coords coords
  if r.1 then (true, ⟨n.m_id, coords⟩, r.2) else (false, n, r.2)

/-- The member `node::available_dirs(join_type)`. -/
def available_dirs (n : node T α) (join_type : join_t) : Option (List directions_t) :=
  T.available_dirs n.m_coords join_type

end node

/-! ## traversal_traits.h, traversal_traits.cpp -/

/-- The members that a traversal traits class provides (`TraversalTraitsConcept`). -/
structure traversal_traits where
  join_types : join_t
  is_impassable : vector_t → directions_t → Bool
  traversal_cost : vector_t → directions_t → unit_t
  average_traversal_cost : unit_t

/-- The two static members of a specialisation of `default_costs`. -/
structure default_costs where
  average_traversal_cost : unit_t
  traversal_cost : vector_t → directions_t → unit_t

/-- The member `default_costs<rectangular_tile_traits>::traversal_cost`. -/
def default_costs_rectangular_traversal_cost (_coords : vector_t) (dir : directions_t) :
    unit_t :=
  match dir with
  | NORTH | EAST | SOUTH | WEST => 10
  | NORTH_EAST | SOUTH_EAST | SOUTH_WEST | NORTH_WEST => 14
  | _ => invalid_unit

/-- The specialisation `default_costs<rectangular_tile_traits>`. -/
def default_costs_rectangular : default_costs :=
  ⟨12, default_costs_rectangular_traversal_cost⟩

/-- The class `simple_traversal_traits<node_groupT>`, for the `default_costs` of the
tile traits of the group. -/
def simple_traversal_traits (costs : default_costs) : traversal_traits :=
  ⟨PATHFINDING_DEFAULT, fun _ _ => false, costs.traversal_cost, costs.average_traversal_cost⟩

/-! ## heuristics.h, heuristics.tcc -/

/-- The signature `heuristic_t` of a heuristic function: group, start, current, end and
traversal traits. -/
abbrev heuristic_t (T : tile_traits) (α : Type) :=
  node_group T α → vector_t → vector_t → vector_t → traversal_traits → unit_t

/-- The function `heuristics::dijkstra`. -/
def dijkstra {T : tile_traits} {α : Type} : heuristic_t T α := fun _ _ _ _ _ => 0

/-! ## pathfinding.h, pathfinding.tcc -/

/-- The pointer type `ol_entry_ptr` to an entry `ol_entry_t` of the open list: null, or
an entry with its coordinates, costs and parent. An entry is never changed once it is
made, and every parent is held by the closed list for the whole search, so that
`m_parent.lock()` yields the parent. -/
inductive ol_entry_ptr where
  | null
  | entry (m_coords : vector_t) (m_g_cost m_f_cost : unit_t) (m_parent : ol_entry_ptr)
deriving DecidableEq, Repr

namespace ol_entry_ptr

/-- The member `m_coords` of the entry pointed to. -/
def m_coords : ol_entry_ptr → vector_t
  | null => invalid_vector
  | entry c _ _ _ => c

/-- The member `m_g_cost` of the entry pointed to. -/
def m_g_cost : ol_entry_ptr → unit_t
  | null => 0
  | entry _ g _ _ => g

/-- The member `m_f_cost` of the entry pointed to. -/
def m_f_cost : ol_entry_ptr → unit_t
  | null => 0
  | entry _ _ f _ => f

/-- The member `m_parent` of the entry pointed to, locked. -/
def m_parent : ol_entry_ptr → ol_entry_ptr
  | null => null
  | entry _ _ _ p => p

/-- The loop `while (current_ptr) { result.push_front(...); current_ptr = parent; }` of
`find_path`. -/
def walk_back : ol_entry_ptr → List vector_t → List vector_t
  | null, result => result
  | entry c _ _ p, result => walk_back p (c :: result)

end ol_entry_ptr

/-- The container `open_list_t`: the entries in the order of the `f_cost_index`; the
`vector_index` admits one entry per coordinates. -/
abbrev open_list_t := List ol_entry_ptr

namespace open_list_t

/-- The call `ol_vector_index.find(coords)`, `none` standing for `end()`. -/
def find (ol : open_list_t) (coords : vector_t) : Option ol_entry_ptr :=
  match ol with
  | [] => none
  | e :: rest => if e.m_coords = coords then some e else find rest coords

/-- The call `ol_vector_index.erase(v_iter)` for the entry found for `coords`. -/
def erase (ol : open_list_t) (coords : vector_t) : open_list_t :=
  match ol with
  | [] => []
  | e :: rest => if e.m_coords = coords then rest else e :: erase rest coords

/-- The place of a new entry in the `f_cost_index`: behind the entries whose cost is not
greater than its own. -/
def link (ol : open_list_t) (e : ol_entry_ptr) : open_list_t :=
  match ol with
  | [] => [e]
  | x :: rest => if e.m_f_cost < x.m_f_cost then e :: x :: rest else x :: link rest e

/-- The call `m_new_open_list.insert(node_ptr)`: refused by the unique `vector_index`
when there is an entry for the coordinates. -/
def insert (ol : open_list_t) (e : ol_entry_ptr) : open_list_t :=
  if (find ol e.m_coords).isSome then ol else link ol e

/-- The call `ol_f_cost_index.lower_bound(0)`: the first entry in cost order whose
`m_f_cost` is not less than zero, `none` standing for `end()`. -/
def lower_bound_zero (ol : open_list_t) : Option ol_entry_ptr :=
  match ol with
  | [] => none
  | e :: rest => if e.m_f_cost < 0 then lower_bound_zero rest else some e

end open_list_t

/-- The container `closed_list_t`, a `std::map` from coordinates to entries. -/
abbrev closed_list_t := List (vector_t × ol_entry_ptr)

/-- The structure `detail::pathfinder`, without its two lists, which are passed along. -/
structure pathfinder (T : tile_traits) (α : Type) where
  m_group : node_group T α
  m_start : vector_t
  m_end : vector_t
  m_traversal_traits : traversal_traits
  m_heuristic : heuristic_t T α
  m_join_types : join_t

/-- What the loop over the directions of one entry ends with: the end node was found,
or all directions were seen and the open list is the given one, or a fault. -/
inductive expand_result where
  | found
  | next (ol : open_list_t)
  | failed (f : fault)
deriving DecidableEq, Repr

namespace pathfinder

variable {T : tile_traits} {α : Type}

/-- The entry that `find_path` makes for a neighbour `n_coords` reached at cost
`g_cost` from `current_ptr`. -/
def new_entry (pf : pathfinder T α) (current_ptr : ol_entry_ptr) (n_coords : vector_t)
    (g_cost : unit_t) : ol_entry_ptr :=
  .entry n_coords g_cost
    (g_cost + pf.m_heuristic pf.m_group pf.m_start n_coords pf.m_end pf.m_traversal_traits)
    current_ptr

/-- The body of the loop `for (d = dirs ; *d != DIR_END ; ++d)` of `find_path` for the
entry `current_ptr` and the direction `d`; a `continue` yields the open list as it is.
The `assert` is in force, as in a build without `NDEBUG`. -/
def visit (pf : pathfinder T α) (current_ptr : ol_entry_ptr) (closed : closed_list_t)
    (d : directions_t) (ol : open_list_t) : expand_result :=
  let n_coords := T.get_relative current_ptr.m_coords d
  if n_coords = invalid_vector then .failed .assertion_failed
  else if n_coords = pf.m_end then .found
  else if pf.m_group.is_empty n_coords then .next ol
  else if pf.m_traversal_traits.is_impassable current_ptr.m_coords d then .next ol
  else if (std_map.find closed n_coords).isSome then .next ol
  else
    let g_cost := current_ptr.m_g_cost
      + pf.m_traversal_traits.traversal_cost current_ptr.m_coords d
    match open_list_t.find ol n_coords with
    | some e =>
      if e.m_g_cost > g_cost then
        .next (open_list_t.insert (open_list_t.erase ol n_coords)
          (pf.new_entry current_ptr n_coords g_cost))
      else .next ol
    | none => .next (open_list_t.insert ol (pf.new_entry current_ptr n_coords g_cost))

/-- The loop `for (d = dirs ; *d != DIR_END ; ++d)` of `find_path` for the entry
`current_ptr`, on the rest `dirs` of the array of directions. -/
def expand (pf : pathfinder T α) (current_ptr : ol_entry_ptr) (closed : closed_list_t) :
    List directions_t → open_list_t → expand_result
  | [], _ => .failed .unterminated_dirs
  | d :: dirs, ol =>
    if d = DIR_END then .next ol
    else
      match pf.visit current_ptr closed d ol with
      | .next ol2 => expand pf current_ptr closed dirs ol2
      | .found => .found
      | .failed f => .failed f

/-- The loop `do { ... } while (true)` of `find_path`, entered with the entry
`current_ptr` and bounded by `fuel` rounds. The handle `m_group(coords)` is used for its
directions only; that the call advances the mutable id generator of the group, when the
start node has no id, is no part of what `a_star` returns and is left out. -/
def find_path_loop (pf : pathfinder T α) (result : List vector_t) :
    Nat → open_list_t → closed_list_t → ol_entry_ptr → Except fault (error_t × List vector_t)
  | 0, _, _, _ => .error .out_of_fuel
  | fuel + 1, ol, closed, current_ptr =>
    match current_ptr with
    | .null => .error .null_dereference
    | .entry coords _ _ _ =>
      let ol1 := open_list_t.erase ol coords
      let closed1 := std_map.insert vector_t.lt closed coords current_ptr
      match pf.m_group.operator_call coords with
      | .error f => .error f
      | .ok (current_node, _) =>
        match current_node.available_dirs pf.m_join_types with
        | none => .error .null_dirs
        | some dirs =>
          match pf.expand current_ptr closed1 dirs ol1 with
          | .failed f => .error f
          | .found => .ok (CG_OK, current_ptr.walk_back result ++ [pf.m_end])
          | .next ol2 =>
            match open_list_t.lower_bound_zero ol2 with
            | none => .error .open_list_exhausted
            | some next_ptr => find_path_loop pf result fuel ol2 closed1 next_ptr

/-- The member `pathfinder::find_path(result)`. Every round of its loop puts coordinates
into the closed list that were not there, the start or coordinates of the group, which
bounds the number of rounds: the bound given here is never used up
(`a_star_never_out_of_fuel`). -/
def find_path (pf : pathfinder T α) (result : List vector_t) :
    Except fault (error_t × List vector_t) :=
  let h_cost := pf.m_heuristic pf.m_group pf.m_start pf.m_start pf.m_end pf.m_traversal_traits
  let current_ptr := ol_entry_ptr.entry pf.m_start 0 h_cost .null
  find_path_loop pf result (pf.m_group.m_nodes.length + 2)
    (open_list_t.insert [] current_ptr) [] current_ptr

end pathfinder

/-- The function `pathfinding::a_star`: the status, and the deque `result` afterwards. -/
def a_star {T : tile_traits} {α : Type} (result : List vector_t) (group : node_group T α)
    (start m_end : vector_t) (traversal_traits : traversal_traits)
    (heuristic : heuristic_t T α) : Except fault (error_t × List vector_t) :=
  if !group.is_valid start || !group.is_valid m_end then .ok (CG_INVALID_COORDS, result)
  else
    let pf : pathfinder T α :=
      ⟨group, start, m_end, traversal_traits, heuristic, traversal_traits.join_types⟩
    pf.find_path result

/-! ## The maps and traits of the tests (pathfinding_tests.cpp) -/

/-- The node data `test_node` of the pathfinding tests. -/
structure test_node where
  m_blocked : Bool
deriving DecidableEq, Repr

/-- The statement `if (map.is_valid(x, y)) map(x, y) = data;` of `setUp`. -/
def node_group.put {T : tile_traits} {α : Type} (group : node_group T α) (coords : vector_t)
    (data : α) : node_group T α :=
  if group.is_valid coords then
    match group.operator_call coords with
    | .ok (n, group2) => n.assign group2 data
    | .error _ => group
  else group

/-- The coordinates that the two loops of `setUp` run through, in their order: for `x`
below `W`, for `y` below `H`. -/
def set_up_coords (W H : Nat) : List vector_t :=
  (List.range W).flatMap
    (fun (x : Nat) => (List.range H).map (fun (y : Nat) => (⟨(x : Int), (y : Int)⟩ : vector_t)))

/-- A map as `setUp` fills it: a node at every valid position of the `W` times `H`
rectangle, blocked where `blocked` says so. -/
def set_up (T : tile_traits) (W H : Nat) (blocked : vector_t → Bool) :
    node_group T test_node :=
  (set_up_coords W H).foldl (fun group c => group.put c ⟨blocked c⟩) node_group.empty

/-- The member `test_map` of the test fixture after `setUp`. -/
def test_map (T : tile_traits) : node_group T test_node := set_up T 50 50 (fun _ => false)

/-- The traversal traits `tt` with other join types, as the traits of the tests are built
with or without `edges_only`. -/
def traversal_traits.with_join_types (tt : traversal_traits) (join_types : join_t) :
    traversal_traits :=
  ⟨join_types, tt.is_impassable, tt.traversal_cost, tt.average_traversal_cost⟩

/-! ## Well-formed containers -/

/-- The invariant of a `std::map`: the keys increase strictly along the elements. -/
def std_map.ordered {K V : Type} (lt : K → K → Bool) (m : List (K × V)) : Prop :=
  m.Pairwise (fun a b => lt a.1 b.1 = true)

instance {K V : Type} (lt : K → K → Bool) (m : List (K × V)) :
    Decidable (std_map.ordered lt m) := by
  unfold std_map.ordered; infer_instance

/-! ## Routes: the vocabulary of the statements about paths -/

/-- The directions that a loop `for (d = dirs ; *d != DIR_END ; ++d)` visits: the elements
of the array before its first `DIR_END`. -/
def listed_dirs (dirs : List directions_t) : List directions_t :=
  dirs.takeWhile (fun d => d != DIR_END)

/-- The directions listed by `available_dirs(p, join_type)`, none for the `NULL` array. -/
def tile_traits.listed (T : tile_traits) (p : vector_t) (join_type : join_t) :
    List directions_t :=
  match T.available_dirs p join_type with
  | none => []
  | some dirs => listed_dirs dirs

/-- The coordinates reached from `p` by moving along the directions `ds` in turn. -/
def tile_traits.follow (T : tile_traits) (p : vector_t) : List directions_t → vector_t
  | [] => p
  | d :: ds => T.follow (T.get_relative p d) ds

/-- The coordinates visited from `p` along the directions `ds`, those of `p` first. -/
def tile_traits.route (T : tile_traits) (p : vector_t) : List directions_t → List vector_t
  | [] => [p]
  | d :: ds => p :: T.route (T.get_relative p d) ds

/-- The sum of `traversal_cost` over the moves from `p` along the directions `ds`. -/
def route_cost (T : tile_traits) (tt : traversal_traits) (p : vector_t) :
    List directions_t → unit_t
  | [] => 0
  | d :: ds => tt.traversal_cost p d + route_cost T tt (T.get_relative p d) ds

/-- Every move from `p` along `ds` is in a listed direction, is not impassable, and
enters an occupied cell of the group. -/
def passable_route {T : tile_traits} {α : Type} (group : node_group T α)
    (tt : traversal_traits) (p : vector_t) : List directions_t → Bool
  | [] => true
  | d :: ds =>
    decide (d ∈ T.listed p tt.join_types) && !tt.is_impassable p d
      && !group.is_empty (T.get_relative p d)
      && passable_route group tt (T.get_relative p d) ds

/-- The coordinates `c` lie in the rectangle of `W` columns and `H` rows at the origin. -/
def in_rectangle (W H : Nat) (c : vector_t) : Prop :=
  0 ≤ c.m_x ∧ c.m_x < W ∧ 0 ≤ c.m_y ∧ c.m_y < H

/-- The direction of rectangular tiles that leads from `s` towards `t`: diagonal as long
as column and row both differ. -/
def toward (s t : vector_t) : directions_t :=
  if s.m_x < t.m_x then
    if s.m_y < t.m_y then SOUTH_EAST else if t.m_y < s.m_y then NORTH_EAST else EAST
  else if t.m_x < s.m_x then
    if s.m_y < t.m_y then SOUTH_WEST else if t.m_y < s.m_y then NORTH_WEST else WEST
  else
    if s.m_y < t.m_y then SOUTH else NORTH

/-! ## Invariants of the search -/

/-- The entries that a search makes: the entry of the start node, and an entry made from a
sound entry `p` for the neighbour in a listed direction `d` that is not the end node, is
occupied and is entered by a passable move. -/
inductive pathfinder.sound {T : tile_traits} {α : Type} (pf : pathfinder T α) :
    ol_entry_ptr → Prop
  | start :
    pathfinder.sound pf (.entry pf.m_start 0
      (pf.m_heuristic pf.m_group pf.m_start pf.m_start pf.m_end pf.m_traversal_traits) .null)
  | step (p : ol_entry_ptr) (d : directions_t) :
    pathfinder.sound pf p →
    d ∈ T.listed p.m_coords pf.m_join_types →
    T.get_relative p.m_coords d ≠ pf.m_end →
    pf.m_group.is_empty (T.get_relative p.m_coords d) = false →
    pf.m_traversal_traits.is_impassable p.m_coords d = false →
    pathfinder.sound pf (pf.new_entry p (T.get_relative p.m_coords d)
      (p.m_g_cost + pf.m_traversal_traits.traversal_cost p.m_coords d))

/-- The state of a search between two rounds of the loop of `find_path`: the entries of
both lists are sound, each list has one entry per coordinates, the lists share no
coordinates, the open list is in the order of its `f_cost_index`, and an entry of the
closed list is filed under its own coordinates. -/
structure pathfinder.inv {T : tile_traits} {α : Type} (pf : pathfinder T α)
    (ol : open_list_t) (closed : closed_list_t) : Prop where
  ol_sound : ∀ e ∈ ol, pf.sound e
  ol_nodup : (ol.map ol_entry_ptr.m_coords).Nodup
  ol_sorted : ol.Pairwise (fun a b => a.m_f_cost ≤ b.m_f_cost)
  disjoint : ∀ e ∈ ol, std_map.find closed e.m_coords = none
  closed_sound : ∀ p ∈ closed, p.2.m_coords = p.1 ∧ pf.sound p.2
  closed_nodup : (closed.map Prod.fst).Nodup

/-- The coordinates `c` are on the closed list, or on the open list, with a cost `g` of
at most `k`. -/
def pathfinder.covers (ol : open_list_t) (closed : closed_list_t) (c : vector_t)
    (k : unit_t) : Prop :=
  (∃ q, (c, q) ∈ closed ∧ q.m_g_cost ≤ k) ∨ (∃ e ∈ ol, e.m_coords = c ∧ e.m_g_cost ≤ k)

/-- The coordinates `c` are on the closed list with a cost `g` of at most `k`, or some
entry of the open list has a cost `g` of at most `k`. -/
def pathfinder.within (ol : open_list_t) (closed : closed_list_t) (c : vector_t)
    (k : unit_t) : Prop :=
  (∃ q, (c, q) ∈ closed ∧ q.m_g_cost ≤ k) ∨ (∃ e ∈ ol, e.m_g_cost ≤ k)

/-- What a search with the zero heuristic and costs that are not negative keeps between
two rounds, besides `pathfinder.inv`: no closed entry is dearer than an open one; every
closed entry has been expanded, so that none of its listed neighbours is the end node
and each one that is occupied and entered by a passable move is covered at the cost of
the move; the start node is covered at cost zero. -/
structure pathfinder.dinv {T : tile_traits} {α : Type} (pf : pathfinder T α)
    (ol : open_list_t) (closed : closed_list_t) : Prop where
  mono : ∀ p ∈ closed, ∀ e ∈ ol, p.2.m_g_cost ≤ e.m_g_cost
  relaxed : ∀ p ∈ closed, ∀ d ∈ T.listed p.1 pf.m_join_types,
    T.get_relative p.1 d ≠ pf.m_end ∧
    (pf.m_group.is_empty (T.get_relative p.1 d) = false →
      pf.m_traversal_traits.is_impassable p.1 d = false →
      pathfinder.covers ol closed (T.get_relative p.1 d)
        (p.2.m_g_cost + pf.m_traversal_traits.traversal_cost p.1 d))
  start_covered : pathfinder.covers ol closed pf.m_start 0

/-- The state of such a search at the head of the loop: the current entry is an open
entry of least cost. -/
structure pathfinder.dstate {T : tile_traits} {α : Type} (pf : pathfinder T α)
    (ol : open_list_t) (closed : closed_list_t) (cur : ol_entry_ptr) : Prop where
  base : pf.inv ol closed
  dij : pf.dinv ol closed
  cur_mem : cur ∈ ol
  cur_min : ∀ e ∈ ol, cur.m_g_cost ≤ e.m_g_cost

/-- The search uses the zero heuristic, no move in a listed direction has a negative
cost, and the join types are those of the traversal traits. -/
structure pathfinder.dijkstra_like {T : tile_traits} {α : Type} (pf : pathfinder T α) :
    Prop where
  zero_heuristic : ∀ c,
    pf.m_heuristic pf.m_group pf.m_start c pf.m_end pf.m_traversal_traits = 0
  cost_nonneg : ∀ c d, d ∈ T.listed c pf.m_join_types →
    0 ≤ pf.m_traversal_traits.traversal_cost c d
  join_types_eq : pf.m_join_types = pf.m_traversal_traits.join_types

/-- No round of the search ends in a fault of the tile traits: at the start node and at
every occupied cell the coordinates are valid, `available_dirs` returns an array that
has a `DIR_END`, and every listed direction has a neighbour. -/
def pathfinder.fault_free {T : tile_traits} {α : Type} (pf : pathfinder T α) : Prop :=
  ∀ c, (c = pf.m_start ∨ pf.m_group.is_empty c = false) →
    T.is_valid c = true ∧
    ∃ dirs, T.available_dirs c pf.m_join_types = some dirs ∧ DIR_END ∈ dirs ∧
      ∀ d ∈ listed_dirs dirs, T.get_relative c d ≠ invalid_vector

/-- There is a route of passable moves over occupied cells from the start node to a cell
that has the end node as a neighbour in a listed direction. -/
def pathfinder.end_reachable {T : tile_traits} {α : Type} (pf : pathfinder T α) : Prop :=
  ∃ ds d, passable_route pf.m_group pf.m_traversal_traits pf.m_start ds = true ∧
    d ∈ T.listed (T.follow pf.m_start ds) pf.m_join_types ∧
    T.get_relative (T.follow pf.m_start ds) d = pf.m_end

/-! ## Groups and traversal traits of the examples -/

/-- A group of rectangular tiles with three nodes in a row: (0, 0), (1, 0), (2, 0). -/
def three_in_a_row : node_group rectangular_tile_traits Nat :=
  ⟨[(⟨0, 0⟩, 0), (⟨1, 0⟩, 1), (⟨2, 0⟩, 2)],
   [(0, ⟨⟨0, 0⟩, some 7⟩), (1, ⟨⟨1, 0⟩, some 8⟩), (2, ⟨⟨2, 0⟩, some 9⟩)], ⟨3⟩⟩

/-- The traversal traits `simple_traversal_traits` of a group of rectangular tiles. -/
def simple_rectangular : traversal_traits := simple_traversal_traits default_costs_rectangular

/-- A group of rectangular tiles, filled as `setUp` fills a map, in which a column and a
diagonal lead from (4, 4) towards (2, 0). -/
def detour_group : node_group rectangular_tile_traits test_node :=
  ([⟨1, 1⟩, ⟨2, 0⟩, ⟨2, 2⟩, ⟨3, 0⟩, ⟨3, 3⟩, ⟨4, 1⟩, ⟨4, 2⟩, ⟨4, 3⟩, ⟨4, 4⟩] :
    List vector_t).foldl (fun group c => group.put c ⟨false⟩) node_group.empty

/-- A group of rectangular tiles with the three nodes (0, 0), (0, 1) and (1, 0). -/
def corner_group : node_group rectangular_tile_traits Nat :=
  ⟨[(⟨0, 0⟩, 0), (⟨0, 1⟩, 1), (⟨1, 0⟩, 2)],
   [(0, ⟨⟨0, 0⟩, some 7⟩), (1, ⟨⟨0, 1⟩, some 8⟩), (2, ⟨⟨1, 0⟩, some 9⟩)], ⟨3⟩⟩

/-- Traversal traits for which nothing is impassable, the move east from (0, 0) costs 100
and every other move costs 1. -/
def dear_east : traversal_traits :=
  ⟨PATHFINDING_DEFAULT, fun _ _ => false,
    fun c d => if c = ⟨0, 0⟩ ∧ d = EAST then 100 else 1, 1⟩

/-! ## The invariant of a group -/

/-- The state of a group in which both maps agree: they are `std::map`s (strictly
increasing keys), every occupied coordinate has an identifier with user data, every
identifier with data is anchored at some coordinate, no identifier is anchored at two
coordinates, and every identifier with data was issued by the generator. -/
structure node_group.consistent {T : tile_traits} {α : Type} (g : node_group T α) : Prop where
  nodes_ordered : std_map.ordered vector_t.lt g.m_nodes
  data_ordered : std_map.ordered node_id_lt g.m_node_data
  has_data : ∀ c id, std_map.find g.m_nodes c = some id →
    ∃ w d, std_map.find g.m_node_data id = some w ∧ w.m_data = some d
  anchored : ∀ id w, std_map.find g.m_node_data id = some w →
    ∃ c, std_map.find g.m_nodes c = some id
  unique : ∀ c1 c2 id, std_map.find g.m_nodes c1 = some id →
    std_map.find g.m_nodes c2 = some id → c1 = c2
  issued : ∀ id w, std_map.find g.m_node_data id = some w →
    0 ≤ id ∧ id < g.m_id_generator.m_current
  counter_nonneg : 0 ≤ g.m_id_generator.m_current

/-! ## The calls of a client -/

/-- A call that a client makes on a group. The handles that `operator()` returned are kept
and named by their position in the order of these calls. -/
inductive client_call (α : Type) where
  /-- The call `group(coords)`, whose handle is kept. -/
  | handle_at (coords : vector_t)
  /-- The assignment `h = data` through the kept handle number `h`. -/
  | assign (h : Nat) (data : α)
  /-- The call `group.move(src, dst)`. -/
  | move (src dst : vector_t)
  /-- The call `h.move_to(coords)` on the kept handle number `h`. -/
  | move_to (h : Nat) (coords : vector_t)
  /-- The call `group.erase(coords)`. -/
  | erase (coords : vector_t)
  /-- The call `group.clear()`. -/
  | clear

/-- A group together with the handles that its client holds. -/
structure client_state (T : tile_traits) (α : Type) where
  m_group : node_group T α
  m_handles : List (node T α)

/-- The state after one call. An exception of `operator()` leaves everything as it was,
and so does a call that names a handle the client does not hold. -/
def client_state.step {T : tile_traits} {α : Type} (s : client_state T α) :
    client_call α → client_state T α
  | .handle_at coords =>
    match s.m_group.operator_call coords with
    | .ok (n, g2) => ⟨g2, s.m_handles ++ [n]⟩
    | .error _ => s
  | .assign h data =>
    match s.m_handles[h]? with
    | some n => ⟨n.assign s.m_group data, s.m_handles⟩
    | none => s
  | .move src dst => ⟨(s.m_group.move src dst).2, s.m_handles⟩
  | .move_to h coords =>
    match s.m_handles[h]? with
    | some n =>
      let r := n.move_to s.m_group coords
      ⟨r.2.2, s.m_handles.set h r.2.1⟩
    | none => s
  | .erase coords => ⟨(s.m_group.erase coords).2, s.m_handles⟩
  | .clear => ⟨s.m_group.clear, s.m_handles⟩

/-- The state after a sequence of calls on a default constructed group. -/
def client_run {T : tile_traits} {α : Type} (calls : List (client_call α)) :
    client_state T α :=
  calls.foldl client_state.step ⟨node_group.empty, []⟩

/-! ## Units that are coordinate values -/

/-- A unit strictly between the least `unit_t`, which is the reserved `invalid_unit`, and
the greatest `unit_t`, whose increment overflows. -/
def proper_unit (x : unit_t) : Prop := invalid_unit < x ∧ x < 9223372036854775807

instance (x : unit_t) : Decidable (proper_unit x) := by
  unfold proper_unit; infer_instance

/-! ## The states of a group under current handles -/

/-- The states that a default constructed group reaches by calls of its members and of
the members of its handles, where each handle is used in the statement that obtains it:
`group(c)`, `group(c) = data`, `group.move(src, dst)`, `group(c).move_to(dst)`,
`group.erase(c)` and `group.clear()`. -/
inductive node_group.current_use {T : tile_traits} {α : Type} : node_group T α → Prop where
  | empty : node_group.current_use node_group.empty
  | handle_at (g : node_group T α) (c : vector_t) (n : node T α) (g2 : node_group T α) :
      node_group.current_use g → g.operator_call c = .ok (n, g2) →
      node_group.current_use g2
  | assign (g : node_group T α) (c : vector_t) (n : node T α) (g2 : node_group T α)
      (data : α) :
      node_group.current_use g → g.operator_call c = .ok (n, g2) →
      node_group.current_use (n.assign g2 data)
  | move (g : node_group T α) (src dst : vector_t) :
      node_group.current_use g → node_group.current_use (g.move src dst).2
  | move_to (g : node_group T α) (c : vector_t) (n : node T α) (g2 : node_group T α)
      (dst : vector_t) :
      node_group.current_use g → g.operator_call c = .ok (n, g2) →
      node_group.current_use (n.move_to g2 dst).2.2
  | erase (g : node_group T α) (c : vector_t) :
      node_group.current_use g → node_group.current_use (g.erase c).2
  | clear (g : node_group T α) :
      node_group.current_use g → node_group.current_use g.clear

/-! ## traversal_traits.cpp: the other default costs -/

/-- The table `cost_up` of `default_costs<triangular_tile_traits>::traversal_cost`. -/
def default_costs_triangular_cost_up : directions_t → unit_t
  | NORTH => 400
  | NORTH_NORTH_EAST => invalid_unit
  | NORTH_EAST => 350
  | EAST_NORTH_EAST => invalid_unit
  | EAST => 200
  | EAST_SOUTH_EAST => 350
  | SOUTH_EAST => 400
  | SOUTH_SOUTH_EAST => 350
  | SOUTH => 200
  | SOUTH_SOUTH_WEST => 350
  | SOUTH_WEST => 400
  | WEST_SOUTH_WEST => 350
  | WEST => 200
  | WEST_NORTH_WEST => invalid_unit
  | NORTH_WEST => 350
  | NORTH_NORTH_WEST => invalid_unit
  | _ => invalid_unit

/-- The table `cost_down` of `default_costs<triangular_tile_traits>::traversal_cost`. -/
def default_costs_triangular_cost_down : directions_t → unit_t
  | NORTH => 200
  | NORTH_NORTH_EAST => 350
  | NORTH_EAST => 400
  | EAST_NORTH_EAST => 350
  | EAST => 200
  | EAST_SOUTH_EAST => invalid_unit
  | SOUTH_EAST => 350
  | SOUTH_SOUTH_EAST => invalid_unit
  | SOUTH => 400
  | SOUTH_SOUTH_WEST => invalid_unit
  | SOUTH_WEST => 350
  | WEST_SOUTH_WEST => invalid_unit
  | WEST => 200
  | WEST_NORTH_WEST => 350
  | NORTH_WEST => 400
  | NORTH_NORTH_WEST => 350
  | _ => invalid_unit

/-- The member `default_costs<triangular_tile_traits>::traversal_cost`; the two sentinels
are answered before the tables are read. -/
def default_costs_triangular_traversal_cost (coords : vector_t) (dir : directions_t) :
    unit_t :=
  if dir = DIR_START ∨ dir.toInt ≥ DIR_END.toInt then invalid_unit
  else
    let sum := coords.m_x + coords.m_y
    if Int.tmod sum 2 ≠ 0 then default_costs_triangular_cost_down dir
    else default_costs_triangular_cost_up dir

/-- The specialisation `default_costs<triangular_tile_traits>`. -/
def default_costs_triangular : default_costs :=
  ⟨325, default_costs_triangular_traversal_cost⟩

/-- The member `default_costs<hexagonal_tile_traits>::traversal_cost`. -/
def default_costs_hexagonal_traversal_cost (_coords : vector_t) (_dir : directions_t) :
    unit_t := 1

/-- The specialisation `default_costs<hexagonal_tile_traits>`. -/
def default_costs_hexagonal : default_costs :=
  ⟨1, default_costs_hexagonal_traversal_cost⟩

/-! ## heuristics.tcc: the Manhattan and the diagonal heuristics -/

/-- The function `heuristics::manhattan`, which compiles for rectangular tiles only. The
arithmetic of `unit_t` is that of the integers, as long as nothing overflows. -/
def manhattan {α : Type} : heuristic_t rectangular_tile_traits α :=
  fun _group _start current m_end traversal_traits =>
    traversal_traits.average_traversal_cost * abs (m_end.m_x - current.m_x)
      + abs (m_end.m_y - current.m_y)

/-- The call operator of `detail::diagonal<rectangular_tile_traits, ...>`. -/
def diagonal_rectangular {α : Type} : heuristic_t rectangular_tile_traits α :=
  fun _group _start current m_end traversal_traits =>
    let x_diff := abs (current.m_x - m_end.m_x)
    let y_diff := abs (current.m_y - m_end.m_y)
    let h_diagonal := min x_diff y_diff
    let h_straight := x_diff + y_diff
    let s_cost := traversal_traits.traversal_cost ⟨0, 0⟩ NORTH
    let d_cost := traversal_traits.traversal_cost ⟨0, 0⟩ NORTH_EAST
    (d_cost * h_diagonal) + (s_cost * (h_straight - 2 * h_diagonal))

/-- The call operator of `detail::diagonal<hexagonal_tile_traits, ...>`; `h_straight /= 2`
is the division that truncates. -/
def diagonal_hexagonal {α : Type} : heuristic_t hexagonal_tile_traits α :=
  fun _group _start current m_end traversal_traits =>
    let x_diff := abs (current.m_x - m_end.m_x)
    let y_diff := abs (current.m_y - m_end.m_y)
    let h_diagonal := min x_diff y_diff
    let h_straight := max x_diff y_diff - h_diagonal
    let h_straight := if x_diff < y_diff then Int.tdiv h_straight 2 else h_straight
    traversal_traits.average_traversal_cost * (h_diagonal + h_straight)

/-- The call operator of `detail::diagonal<triangular_tile_traits, ...>`. -/
def diagonal_triangular {α : Type} : heuristic_t triangular_tile_traits α :=
  fun _group _start current m_end traversal_traits =>
    traversal_traits.average_traversal_cost * abs (m_end.m_x - current.m_x)
      + abs (m_end.m_y - current.m_y)

/-! ## Arrays of directions with a terminator -/

/-- The result of `available_dirs` is an array (not `NULL`) that ends in `DIR_END` and has
no `DIR_END` before its end. -/
def terminated_dirs (dirs : Option (List directions_t)) : Prop :=
  ∃ ds, dirs = some (ds ++ [DIR_END]) ∧ DIR_END ∉ ds

/-! ## Units away from the ends of `unit_t` -/

/-- A unit more than two above the least `unit_t`, the reserved `invalid_unit`, and more
than two below the greatest `unit_t`: a step of a neighbour table, at most two on an
axis, neither reaches the reserved value nor overflows. -/
def inner_unit (x : unit_t) : Prop :=
  invalid_unit + 2 < x ∧ x < 9223372036854775807 - 2

instance (x : unit_t) : Decidable (inner_unit x) := by
  unfold inner_unit; infer_instance

/-! ## Moving towards a coordinate on hexagonal tiles -/

/-- The direction of hexagonal tiles that leads from `s` towards `t`: diagonal as long as
the columns differ, vertical then. -/
def toward_hexagonal (s t : vector_t) : directions_t :=
  if s.m_x < t.m_x then
    if s.m_y < t.m_y then SOUTH_EAST else NORTH_EAST
  else if t.m_x < s.m_x then
    if s.m_y < t.m_y then SOUTH_WEST else NORTH_WEST
  else
    if s.m_y < t.m_y then SOUTH else NORTH

/-! ## heuristics.tcc: the tiebreaker -/

/-- The function `detail::line_of_sight_crossproduct`. -/
def line_of_sight_crossproduct (start current m_end : vector_t) : unit_t :=
  let dx1 := current.m_x - m_end.m_x
  let dy1 := current.m_y - m_end.m_y
  let dx2 := start.m_x - m_end.m_x
  let dy2 := start.m_y - m_end.m_y
  abs ((dx1 * dy2) - (dx2 * dy1))

/-- The function `detail::generic_tiebreaker`. The two divisions are divisions of integers,
which truncate; a division by zero, undefined in the source, yields `none`. The
arithmetic of `unit_t` is that of the integers, as long as nothing overflows. -/
def generic_tiebreaker {T : tile_traits} {α : Type} (group : node_group T α)
    (start current m_end : vector_t) (traversal_traits : traversal_traits)
    (heuristic : heuristic_t T α) : Option unit_t :=
  let h := heuristic group start current m_end traversal_traits
  let cross := line_of_sight_crossproduct start current m_end
  let total := heuristic group start start m_end traversal_traits
  let avg := traversal_traits.average_traversal_cost
  if avg = 0 then none
  else
    let h := Int.tdiv (h * (total + avg)) avg
    let h := h + cross
    if total + avg = 0 then none
    else
      let h := Int.tdiv (h * avg) (total + avg)
      some h

/-- The function `heuristics::manhattan_tiebreaker`. -/
def manhattan_tiebreaker {α : Type} (group : node_group rectangular_tile_traits α)
    (start current m_end : vector_t) (traversal_traits : traversal_traits) : Option unit_t :=
  generic_tiebreaker group start current m_end traversal_traits manhattan

/-! ## Calls that move a node to valid coordinates -/

/-- The call does not move a node to coordinates that the tile traits reject: the
destination of `move` and of `move_to` is valid. -/
def client_call.valid_destination (T : tile_traits) {α : Type} : client_call α → Prop
  | .move _ dst => T.is_valid dst = true
  | .move_to _ coords => T.is_valid coords = true
  | _ => True

/-! ## The states of a search -/

/-- The states that the loop `do { ... } while (true)` of `find_path` runs through, as
`reached k phase ol closed cur`: `k` rounds have been begun, `ol` and `closed` are the two
lists and `cur` is `current_ptr`. In the phase `none` the search is at the head of the
loop, where `cur` has been selected and is still on the open list; in the phase
`some dirs` it is in the loop over the directions, `cur` is on the closed list and `dirs`
is the rest of the array of directions, from `*d` on.

* `start`: the state in which `find_path` enters the loop.
* `close`: the current entry is dropped from the open list and put on the closed list,
  and the array of its directions is fetched.
* `visit`: the body of the loop over the directions, for a direction that is not
  `DIR_END` and does not lead to the end node.
* `select`: at `DIR_END` the entry for the next round is taken from the open list. -/
inductive pathfinder.reached {T : tile_traits} {α : Type} (pf : pathfinder T α) :
    Nat → Option (List directions_t) → open_list_t → closed_list_t → ol_entry_ptr → Prop
  | start :
    pathfinder.reached pf 0 none
      (open_list_t.insert [] (.entry pf.m_start 0
        (pf.m_heuristic pf.m_group pf.m_start pf.m_start pf.m_end pf.m_traversal_traits) .null))
      []
      (.entry pf.m_start 0
        (pf.m_heuristic pf.m_group pf.m_start pf.m_start pf.m_end pf.m_traversal_traits) .null)
  | close (k : Nat) (ol : open_list_t) (closed : closed_list_t) (cur : ol_entry_ptr)
      (current_node : node T α) (group2 : node_group T α) (dirs : List directions_t) :
    pathfinder.reached pf k none ol closed cur →
    cur ≠ .null →
    pf.m_group.operator_call cur.m_coords = .ok (current_node, group2) →
    current_node.available_dirs pf.m_join_types = some dirs →
    pathfinder.reached pf (k + 1) (some dirs) (open_list_t.erase ol cur.m_coords)
      (std_map.insert vector_t.lt closed cur.m_coords cur) cur
  | visit (k : Nat) (d : directions_t) (dirs : List directions_t) (ol ol2 : open_list_t)
      (closed : closed_list_t) (cur : ol_entry_ptr) :
    pathfinder.reached pf k (some (d :: dirs)) ol closed cur →
    d ≠ DIR_END →
    pf.visit cur closed d ol = .next ol2 →
    pathfinder.reached pf k (some dirs) ol2 closed cur
  | select (k : Nat) (dirs : List directions_t) (ol : open_list_t) (closed : closed_list_t)
      (cur next_ptr : ol_entry_ptr) :
    pathfinder.reached pf k (some (DIR_END :: dirs)) ol closed cur →
    open_list_t.lower_bound_zero ol = some next_ptr →
    pathfinder.reached pf k none ol closed next_ptr

/-- The parent references of a state of the search: the parent of every entry of the open
and of the closed list is null or held by the closed list, the chain of parents of every
entry runs over coordinates that are pairwise different, and the chain of a closed entry
runs over coordinates of the closed list. -/
structure pathfinder.linked (ol : open_list_t) (closed : closed_list_t) : Prop where
  ol_parent : ∀ e ∈ ol, e.m_parent = .null ∨ (e.m_parent.m_coords, e.m_parent) ∈ closed
  closed_parent : ∀ p ∈ closed,
    p.2.m_parent = .null ∨ (p.2.m_parent.m_coords, p.2.m_parent) ∈ closed
  ol_chain : ∀ e ∈ ol, (e.walk_back []).Nodup
  closed_chain : ∀ p ∈ closed,
    (p.2.walk_back []).Nodup ∧ ∀ c ∈ p.2.walk_back [], c ∈ closed.map Prod.fst

/-! ## The searches of the examples -/

/-- The search on `three_in_a_row` from (0, 0) for (2, 0), with the default costs and the
zero heuristic. -/
def row_search : pathfinder rectangular_tile_traits Nat :=
  ⟨three_in_a_row, ⟨0, 0⟩, ⟨2, 0⟩, simple_rectangular, dijkstra,
    simple_rectangular.join_types⟩

/-- A search on `corner_group` from (0, 0) for the unoccupied (5, 5), with the default
costs and a heuristic whose value is -100 at (0, 1) and zero elsewhere. -/
def biased_search : pathfinder rectangular_tile_traits Nat :=
  ⟨corner_group, ⟨0, 0⟩, ⟨5, 5⟩, simple_rectangular,
    fun _ _ current _ _ => if current = ⟨0, 1⟩ then -100 else 0,
    simple_rectangular.join_types⟩

/-! ## What the three tile shapes have in common -/

/-- Properties of tile traits that the three shapes of tile_traits.cpp share: a move in a
listed direction changes the coordinates, by not less than -2 in the column; the adjacency
is symmetric within a join type; whether `available_dirs` returns an array, which then has
a `DIR_END`, depends on the join type only; and a neighbour of valid coordinates in a
listed direction is valid unless it is the invalid vector. -/
structure tile_traits.regular (T : tile_traits) : Prop where
  step : ∀ c d join_type, d ∈ T.listed c join_type →
    ∃ v : vector_t, -2 ≤ v.m_x ∧ T.get_relative c d = c + v ∧ c + v ≠ c
  symmetric : ∀ c d join_type, d ∈ T.listed c join_type →
    ∃ d2, d2 ∈ T.listed (T.get_relative c d) join_type ∧
      T.get_relative (T.get_relative c d) d2 = c
  terminated : ∀ c c2 join_type, T.available_dirs c join_type ≠ none →
    ∃ dirs, T.available_dirs c2 join_type = some dirs ∧ DIR_END ∈ dirs
  valid_neighbour : ∀ c d join_type, T.is_valid c = true → d ∈ T.listed c join_type →
    T.get_relative c d ≠ invalid_vector → T.is_valid (T.get_relative c d) = true

/-- A group of rectangular tiles with one node, at (`invalid_unit` + 1, `invalid_unit` + 1),
next to the least coordinates. -/
def edge_group : node_group rectangular_tile_traits Nat :=
  ⟨[(⟨invalid_unit + 1, invalid_unit + 1⟩, 0)],
   [(0, ⟨⟨invalid_unit + 1, invalid_unit + 1⟩, some 7⟩)], ⟨1⟩⟩

/-! # Theorems -/

/-! ## Facts about the key orders -/

theorem vector_t.lt_irrefl (a : vector_t) : vector_t.lt a a = false := by
  simp [vector_t.lt]

theorem vector_t.eq_of_not_lt (a b : vector_t) (h1 : vector_t.lt a b = false)
    (h2 : vector_t.lt b a = false) : a = b := by
  obtain ⟨ax, ay⟩ := a
  obtain ⟨bx, bY⟩ := b
  simp only [vector_t.lt] at h1 h2
  have hx : ax = bx := by
    by_contra hne
    rcases lt_or_gt_of_ne hne with h | h
    · simp [h] at h1
    · simp [h] at h2
  subst hx
  simp at h1 h2
  have hy : ay = bY := le_antisymm h2 h1
  subst hy
  rfl

/-! ## Facts about `std::map` -/

namespace std_map

variable {K V : Type} [DecidableEq K]

theorem find_assign (lt : K → K → Bool) (hirr : ∀ a, lt a a = false)
    (htri : ∀ a b, lt a b = false → lt b a = false → a = b)
    (m : List (K × V)) (k : K) (v : V) (k2 : K) :
    find (assign lt m k v) k2 = if k = k2 then some v else find m k2 := by
  induction m with
  | nil => simp [assign, find]
  | cons p rest ih =>
    obtain ⟨k1, v1⟩ := p
    simp only [assign]
    by_cases h1 : lt k1 k = true
    · have hne : k1 ≠ k := by
        intro h; subst h; rw [hirr] at h1; cases h1
      simp only [h1, if_true, find, ih]
      by_cases h2 : k1 = k2
      · subst h2
        have : ¬ k = k1 := fun h => hne h.symm
        simp [this]
      · simp [h2]
    · by_cases h3 : lt k k1 = true
      · simp only [h1, h3, if_true, find]
      · have hk : k1 = k := htri k1 k (by simpa using h1) (by simpa using h3)
        subst hk
        simp only [h1, h3, find]
        by_cases h2 : k1 = k2
        · simp [h2]
        · simp [h2]

theorem find_erase_ne (m : List (K × V)) (k k2 : K) (h : k ≠ k2) :
    find (erase m k) k2 = find m k2 := by
  induction m with
  | nil => rfl
  | cons p rest ih =>
    obtain ⟨k1, v1⟩ := p
    simp only [erase]
    by_cases h1 : k1 = k
    · subst h1
      simp [find, h]
    · simp [h1, find, ih]

theorem find_none_of_lt (lt : K → K → Bool) (hirr : ∀ a, lt a a = false)
    (m : List (K × V)) (k : K) (h : ∀ p ∈ m, lt k p.1 = true) : find m k = none := by
  induction m with
  | nil => rfl
  | cons p rest ih =>
    obtain ⟨k1, v1⟩ := p
    have hk : k1 ≠ k := by
      intro e
      have := h (k1, v1) (List.mem_cons_self _ _)
      rw [e] at this
      simp [hirr] at this
    simp only [find, hk, if_false]
    exact ih (fun p hp => h p (List.mem_cons_of_mem _ hp))

theorem find_erase_self (lt : K → K → Bool) (hirr : ∀ a, lt a a = false)
    (m : List (K × V)) (k : K) (hm : ordered lt m) : find (erase m k) k = none := by
  induction m with
  | nil => rfl
  | cons p rest ih =>
    obtain ⟨k1, v1⟩ := p
    have hp := List.pairwise_cons.mp hm
    simp only [erase]
    by_cases h1 : k1 = k
    · subst h1
      simp only [if_true]
      exact find_none_of_lt lt hirr rest k1 (fun p hp2 => hp.1 p hp2)
    · simp only [h1, if_false, find]
      exact ih hp.2

end std_map


/-! ## Moving a node (node_group.tcc) -/

/-- Claim C9. A failed move changes nothing: when `src` has no entry or `dst` is
occupied, `move(src, dst)` returns false and the group afterwards is the group before
(so are its occupied coordinates, identifiers, data, `size()`, `min_coords()` and
`max_coords()`), and `move_to(dst)` on a handle at `src` returns false and leaves the
handle, with its cached coordinates, as it was. -/
theorem move_failure_is_noop {T : tile_traits} {α : Type} (g : node_group T α)
    (src dst : vector_t) (h : g.is_empty src = true ∨ g.is_empty dst = false) :
    g.move src dst = (false, g) ∧
    ∀ n : node T α, n.m_coords = src → n.move_to g dst = (false, n, g) := by
  have hm : g.move src dst = (false, g) := by
    unfold node_group.move
    unfold node_group.is_empty at h
    cases hs : std_map.find g.m_nodes src with
    | none => rfl
    | some id =>
      cases hd : std_map.find g.m_nodes dst with
      | none => simp [hs, hd] at h
      | some id2 => rfl
  refine ⟨hm, ?_⟩
  intro n hn
  subst hn
  simp [node.move_to, hm]

/-- A concrete instance of `move_failure_is_noop`: a move onto an occupied position. -/
theorem move_failure_is_noop_witness :
    let g : node_group rectangular_tile_traits Nat :=
      ⟨[(⟨0, 0⟩, 0), (⟨1, 0⟩, 1)], [(0, ⟨⟨0, 0⟩, some 7⟩), (1, ⟨⟨1, 0⟩, some 8⟩)], ⟨2⟩⟩
    (g.is_empty ⟨0, 0⟩ = true ∨ g.is_empty ⟨1, 0⟩ = false) ∧
    g.move ⟨0, 0⟩ ⟨1, 0⟩ = (false, g) ∧
    ∀ n : node rectangular_tile_traits Nat, n.m_coords = ⟨0, 0⟩ →
      n.move_to g ⟨1, 0⟩ = (false, n, g) :=
  ⟨Or.inr (by decide), move_failure_is_noop _ _ _ (Or.inr (by decide))⟩

/-- Claim C10. A successful move keeps identity and data: when `src` is occupied, with
identifier `id`, and `dst` is not, `move(src, dst)` returns true; afterwards `src` is
empty, `dst` is occupied, a handle obtained for `dst` carries `id` and dereferences to
the data that `id` had before, `size()` is the same, and the entry of every other
coordinate and all the user data are unchanged. -/
theorem move_success_keeps_identity {T : tile_traits} {α : Type} (g : node_group T α)
    (src dst : vector_t) (hord : std_map.ordered vector_t.lt g.m_nodes)
    (hsrc : g.is_empty src = false) (hdst : g.is_empty dst = true) :
    ∃ id, std_map.find g.m_nodes src = some id ∧
      (g.move src dst).1 = true ∧
      (g.move src dst).2.is_empty src = true ∧
      (g.move src dst).2.is_empty dst = false ∧
      (T.is_valid dst = true →
        (g.move src dst).2.operator_call dst = .ok (⟨id, dst⟩, (g.move src dst).2)) ∧
      (∀ n g2, (g.move src dst).2.operator_call dst = .ok (n, g2) →
        n.id = id ∧ n.coordinates = dst ∧ n.get g2 = g.get id) ∧
      (g.move src dst).2.size = g.size ∧
      (∀ c, c ≠ src → c ≠ dst →
        std_map.find (g.move src dst).2.m_nodes c = std_map.find g.m_nodes c) ∧
      (g.move src dst).2.m_node_data = g.m_node_data := by
  unfold node_group.is_empty at hsrc hdst
  cases hs : std_map.find g.m_nodes src with
  | none => simp [hs] at hsrc
  | some id =>
    cases hd : std_map.find g.m_nodes dst with
    | some id2 => simp [hd] at hdst
    | none =>
      have hne : src ≠ dst := by
        intro e; rw [e] at hs; rw [hs] at hd; cases hd
      have hmove : g.move src dst = (true,
          ⟨std_map.assign vector_t.lt (std_map.erase g.m_nodes src) dst id,
            g.m_node_data, g.m_id_generator⟩) := by
        simp [node_group.move, hs, hd]
      have hfind : ∀ c, std_map.find
          (std_map.assign vector_t.lt (std_map.erase g.m_nodes src) dst id) c
            = if dst = c then some id else std_map.find (std_map.erase g.m_nodes src) c :=
        fun c => std_map.find_assign vector_t.lt vector_t.lt_irrefl vector_t.eq_of_not_lt _ _ _ c
      have hcall : (g.move src dst).2.operator_call dst =
          if T.is_valid dst then .ok (⟨id, dst⟩, (g.move src dst).2)
          else .error (.thrown CG_INVALID_COORDS) := by
        rw [hmove]
        simp only [node_group.operator_call, node_group.is_valid, hfind]
        cases T.is_valid dst <;> simp
      refine ⟨id, rfl, ?_, ?_, ?_, ?_, ?_, ?_, ?_, ?_⟩
      · rw [hmove]
      · rw [hmove]
        simp only [node_group.is_empty, hfind, if_neg (Ne.symm hne)]
        rw [std_map.find_erase_self vector_t.lt vector_t.lt_irrefl _ _ hord]
        rfl
      · rw [hmove]
        simp [node_group.is_empty, hfind]
      · intro hv
        rw [hcall, hv]
        rfl
      · intro n g2 hn
        rw [hcall] at hn
        cases hv : T.is_valid dst with
        | false => simp [hv] at hn
        | true =>
          simp only [hv, if_true, Except.ok.injEq, Prod.mk.injEq] at hn
          obtain ⟨h1, h2⟩ := hn
          subst h1
          subst h2
          rw [hmove]
          exact ⟨rfl, rfl, rfl⟩
      · rw [hmove]
        rfl
      · intro c hc1 hc2
        rw [hmove]
        simp only [hfind, if_neg (Ne.symm hc2)]
        exact std_map.find_erase_ne _ _ _ (Ne.symm hc1)
      · rw [hmove]

/-- A concrete instance of `move_success_keeps_identity`: the node at (0, 0) is moved
to the free position (5, 5). -/
theorem move_success_keeps_identity_witness :
    let g : node_group rectangular_tile_traits Nat :=
      ⟨[(⟨0, 0⟩, 0), (⟨1, 0⟩, 1)], [(0, ⟨⟨0, 0⟩, some 7⟩), (1, ⟨⟨1, 0⟩, some 8⟩)], ⟨2⟩⟩
    std_map.ordered vector_t.lt g.m_nodes ∧ g.is_empty ⟨0, 0⟩ = false ∧
    g.is_empty ⟨5, 5⟩ = true ∧
    ∃ id, std_map.find g.m_nodes ⟨0, 0⟩ = some id ∧
      (g.move ⟨0, 0⟩ ⟨5, 5⟩).1 = true ∧
      (g.move ⟨0, 0⟩ ⟨5, 5⟩).2.is_empty ⟨0, 0⟩ = true ∧
      (g.move ⟨0, 0⟩ ⟨5, 5⟩).2.is_empty ⟨5, 5⟩ = false ∧
      (rectangular_tile_traits.is_valid ⟨5, 5⟩ = true →
        (g.move ⟨0, 0⟩ ⟨5, 5⟩).2.operator_call ⟨5, 5⟩
          = .ok (⟨id, ⟨5, 5⟩⟩, (g.move ⟨0, 0⟩ ⟨5, 5⟩).2)) ∧
      (∀ n g2, (g.move ⟨0, 0⟩ ⟨5, 5⟩).2.operator_call ⟨5, 5⟩ = .ok (n, g2) →
        n.id = id ∧ n.coordinates = ⟨5, 5⟩ ∧ n.get g2 = g.get id) ∧
      (g.move ⟨0, 0⟩ ⟨5, 5⟩).2.size = g.size ∧
      (∀ c, c ≠ ⟨0, 0⟩ → c ≠ ⟨5, 5⟩ →
        std_map.find (g.move ⟨0, 0⟩ ⟨5, 5⟩).2.m_nodes c = std_map.find g.m_nodes c) ∧
      (g.move ⟨0, 0⟩ ⟨5, 5⟩).2.m_node_data = g.m_node_data :=
  ⟨by decide, by decide, by decide,
    move_success_keeps_identity _ _ _ (by decide) (by decide) (by decide)⟩


/-! ## Validation of the start and end coordinates (pathfinding.tcc) -/

/-- The loop of `find_path` returns no other status than `CG_OK`. -/
theorem pathfinder.find_path_loop_status {T : tile_traits} {α : Type} (pf : pathfinder T α)
    (result : List vector_t) (fuel : Nat) :
    ∀ (ol : open_list_t) (closed : closed_list_t) (cur : ol_entry_ptr)
      (status : error_t) (path : List vector_t),
      pf.find_path_loop result fuel ol closed cur = .ok (status, path) → status = CG_OK := by
  induction fuel with
  | zero => intro ol closed cur status path h; simp [pathfinder.find_path_loop] at h
  | succ fuel ih =>
    intro ol closed cur status path h
    cases cur with
    | null => simp [pathfinder.find_path_loop] at h
    | entry c g f p =>
      simp only [pathfinder.find_path_loop] at h
      split at h
      · cases h
      · split at h
        · cases h
        · split at h
          · cases h
          · simp only [Except.ok.injEq, Prod.mk.injEq] at h
            exact h.1.symm
          · split at h
            · cases h
            · exact ih _ _ _ _ _ h

/-- Claim C5. When the group's `is_valid` rejects `start` or `end`, `a_star` returns
`CG_INVALID_COORDS` with the result sequence as it was, whatever the traversal traits
and the heuristic are (they are not consulted); when both are valid, `a_star` does not
return `CG_INVALID_COORDS`. -/
theorem a_star_validates_coordinates {T : tile_traits} {α : Type} (result : List vector_t)
    (group : node_group T α) (start m_end : vector_t) (tt : traversal_traits)
    (heuristic : heuristic_t T α) :
    ((group.is_valid start = false ∨ group.is_valid m_end = false) →
      a_star result group start m_end tt heuristic = .ok (CG_INVALID_COORDS, result) ∧
      ∀ (tt2 : traversal_traits) (heuristic2 : heuristic_t T α),
        a_star result group start m_end tt2 heuristic2
          = a_star result group start m_end tt heuristic) ∧
    (group.is_valid start = true → group.is_valid m_end = true →
      ∀ path, a_star result group start m_end tt heuristic ≠ .ok (CG_INVALID_COORDS, path)) := by
  constructor
  · intro h
    have key : ∀ (tt2 : traversal_traits) (heuristic2 : heuristic_t T α),
        a_star result group start m_end tt2 heuristic2 = .ok (CG_INVALID_COORDS, result) := by
      intro tt2 heuristic2
      unfold a_star
      rcases h with h | h <;> simp [h]
    exact ⟨key tt heuristic, fun tt2 heuristic2 => (key tt2 heuristic2).trans (key tt heuristic).symm⟩
  · intro h1 h2 path hret
    unfold a_star at hret
    simp only [h1, h2, Bool.not_true, Bool.or_self, Bool.false_eq_true, if_false] at hret
    have := pathfinder.find_path_loop_status _ _ _ _ _ _ _ _ hret
    cases this

/-- A concrete instance of `a_star_validates_coordinates`: a search from the invalid
vector is refused, a search between two valid coordinates of a one-node group is not. -/
theorem a_star_validates_coordinates_witness :
    let g : node_group rectangular_tile_traits Nat := ⟨[(⟨0, 0⟩, 0)], [(0, ⟨⟨0, 0⟩, some 7⟩)], ⟨1⟩⟩
    let tt := simple_traversal_traits default_costs_rectangular
    (g.is_valid invalid_vector = false ∨ g.is_valid ⟨1, 0⟩ = false) ∧
    a_star [⟨9, 9⟩] g invalid_vector ⟨1, 0⟩ tt dijkstra = .ok (CG_INVALID_COORDS, [⟨9, 9⟩]) ∧
    g.is_valid ⟨0, 0⟩ = true ∧ g.is_valid ⟨1, 0⟩ = true ∧
    ∀ path, a_star [] g ⟨0, 0⟩ ⟨1, 0⟩ tt dijkstra ≠ .ok (CG_INVALID_COORDS, path) :=
  ⟨Or.inl (by decide),
    ((a_star_validates_coordinates _ _ _ _ _ _).1 (Or.inl (by decide))).1,
    by decide, by decide,
    (a_star_validates_coordinates _ _ _ _ _ _).2 (by decide) (by decide)⟩


/-! ## Evaluations of the search -/

/-- Claim C4 (evaluation of the code). On a group with the single node (0, 0), the search
from (0, 0) for the unreachable (5, 5) returns no status: after the first round the open
list is empty and `find_path` dereferences its `end()` iterator. -/
theorem a_star_unreachable_reads_empty_open_list :
    a_star [] (⟨[(⟨0, 0⟩, 0)], [(0, ⟨⟨0, 0⟩, some 7⟩)], ⟨1⟩⟩ : node_group rectangular_tile_traits Nat)
      ⟨0, 0⟩ ⟨5, 5⟩ (simple_traversal_traits default_costs_rectangular) dijkstra
      = .error .open_list_exhausted := by
  decide

/-- Claim C2 (evaluation of the code). With traversal traits for which every move is
impassable, the search from (0, 0) for its neighbour (1, 0) returns `CG_OK` and the path
(0, 0), (1, 0), whose only move, east from (0, 0), is impassable. -/
theorem a_star_enters_end_by_impassable_move :
    let tt : traversal_traits :=
      ⟨PATHFINDING_DEFAULT, fun _ _ => true, default_costs_rectangular.traversal_cost, 12⟩
    a_star [] (⟨[(⟨0, 0⟩, 0), (⟨1, 0⟩, 1)], [(0, ⟨⟨0, 0⟩, some 7⟩), (1, ⟨⟨1, 0⟩, some 8⟩)], ⟨2⟩⟩ :
        node_group rectangular_tile_traits Nat) ⟨0, 0⟩ ⟨1, 0⟩ tt dijkstra
      = .ok (CG_OK, [⟨0, 0⟩, ⟨1, 0⟩]) ∧
    rectangular_tile_traits.get_relative ⟨0, 0⟩ EAST = ⟨1, 0⟩ ∧
    (∀ d, rectangular_tile_traits.get_relative ⟨0, 0⟩ d = ⟨1, 0⟩ → d = EAST) ∧
    tt.is_impassable ⟨0, 0⟩ EAST = true := by
  refine ⟨by decide, by decide, ?_, rfl⟩
  intro d
  cases d <;> decide

/-- Claim C3 (evaluation of the code). On `detour_group`, with the default costs and the
zero heuristic, the search from (4, 4) for (2, 0) returns the path along the diagonal,
(4, 4), (3, 3), (2, 2), (1, 1), (2, 0), of cost 56, although the route along the column,
(4, 4), (4, 3), (4, 2), (4, 1), (3, 0), (2, 0), is allowed, passable, runs over occupied
cells and costs 54. -/
theorem a_star_dijkstra_returns_dearer_path :
    (∀ c d, d ∈ tile_traits.listed rectangular_tile_traits c simple_rectangular.join_types →
      0 ≤ simple_rectangular.traversal_cost c d) ∧
    a_star [] detour_group ⟨4, 4⟩ ⟨2, 0⟩ simple_rectangular dijkstra
      = .ok (CG_OK, tile_traits.route rectangular_tile_traits ⟨4, 4⟩
          [NORTH_WEST, NORTH_WEST, NORTH_WEST, NORTH_EAST]) ∧
    tile_traits.route rectangular_tile_traits ⟨4, 4⟩
        [NORTH_WEST, NORTH_WEST, NORTH_WEST, NORTH_EAST]
      = [⟨4, 4⟩, ⟨3, 3⟩, ⟨2, 2⟩, ⟨1, 1⟩, ⟨2, 0⟩] ∧
    route_cost rectangular_tile_traits simple_rectangular ⟨4, 4⟩
        [NORTH_WEST, NORTH_WEST, NORTH_WEST, NORTH_EAST] = 56 ∧
    passable_route detour_group simple_rectangular ⟨4, 4⟩
        [NORTH, NORTH, NORTH, NORTH_WEST, WEST] = true ∧
    tile_traits.route rectangular_tile_traits ⟨4, 4⟩ [NORTH, NORTH, NORTH, NORTH_WEST, WEST]
      = [⟨4, 4⟩, ⟨4, 3⟩, ⟨4, 2⟩, ⟨4, 1⟩, ⟨3, 0⟩, ⟨2, 0⟩] ∧
    route_cost rectangular_tile_traits simple_rectangular ⟨4, 4⟩
        [NORTH, NORTH, NORTH, NORTH_WEST, WEST] = 54 := by
  refine ⟨?_, by decide, by decide, by decide, by decide, by decide, by decide⟩
  intro c d
  show d ∈ tile_traits.listed rectangular_tile_traits c (EDGES ||| CORNERS_FACING) →
    0 ≤ default_costs_rectangular_traversal_cost c d
  intro h
  have h2 : d ∈ [NORTH, NORTH_EAST, EAST, SOUTH_EAST, SOUTH, SOUTH_WEST, WEST, NORTH_WEST] := h
  have h3 : default_costs_rectangular_traversal_cost c d
      = default_costs_rectangular_traversal_cost ⟨0, 0⟩ d := rfl
  rw [h3]
  revert h2
  cases d <;> decide

/-! ## Facts about the open list -/

namespace open_list_t

theorem find_some {ol : open_list_t} {c : vector_t} {e : ol_entry_ptr}
    (h : find ol c = some e) : e ∈ ol ∧ e.m_coords = c := by
  induction ol with
  | nil => simp [find] at h
  | cons x rest ih =>
    simp only [find] at h
    split at h
    · rename_i hx
      cases h
      exact ⟨List.mem_cons_self _ _, hx⟩
    · exact ⟨List.mem_cons_of_mem _ (ih h).1, (ih h).2⟩

theorem find_eq_none {ol : open_list_t} {c : vector_t} :
    find ol c = none ↔ ∀ e ∈ ol, e.m_coords ≠ c := by
  induction ol with
  | nil => simp [find]
  | cons x rest ih =>
    simp only [find]
    split
    · rename_i hx
      simp [hx]
    · rename_i hx
      simp [ih, hx]

theorem erase_sublist (ol : open_list_t) (c : vector_t) : List.Sublist (erase ol c) ol := by
  induction ol with
  | nil => exact List.Sublist.slnil
  | cons x rest ih =>
    simp only [erase]
    split
    · exact List.sublist_cons_self _ _
    · exact List.Sublist.cons₂ _ ih

theorem mem_of_mem_erase {ol : open_list_t} {c : vector_t} {e : ol_entry_ptr}
    (h : e ∈ erase ol c) : e ∈ ol :=
  (erase_sublist ol c).subset h

theorem erase_of_find_none {ol : open_list_t} {c : vector_t} (h : find ol c = none) :
    erase ol c = ol := by
  induction ol with
  | nil => rfl
  | cons x rest ih =>
    simp only [find] at h
    split at h
    · cases h
    · rename_i hx
      simp only [erase, hx, if_false, ih h]

theorem link_perm (ol : open_list_t) (e : ol_entry_ptr) : List.Perm (link ol e) (e :: ol) := by
  induction ol with
  | nil => exact List.Perm.refl _
  | cons x rest ih =>
    simp only [link]
    split
    · exact List.Perm.refl _
    · exact (List.Perm.cons x ih).trans (List.Perm.swap e x rest)

theorem mem_link {ol : open_list_t} {e x : ol_entry_ptr} : x ∈ link ol e ↔ x = e ∨ x ∈ ol := by
  rw [(link_perm ol e).mem_iff, List.mem_cons]

theorem mem_insert {ol : open_list_t} {e x : ol_entry_ptr} (h : x ∈ insert ol e) :
    x = e ∨ x ∈ ol := by
  unfold insert at h
  split at h
  · exact Or.inr h
  · exact mem_link.mp h

theorem lower_bound_zero_mem {ol : open_list_t} {e : ol_entry_ptr}
    (h : lower_bound_zero ol = some e) : e ∈ ol := by
  induction ol with
  | nil => simp [lower_bound_zero] at h
  | cons x rest ih =>
    simp only [lower_bound_zero] at h
    split at h
    · exact List.mem_cons_of_mem _ (ih h)
    · cases h
      exact List.mem_cons_self _ _

end open_list_t

/-! ## Soundness of the entries of a search -/

namespace ol_entry_ptr

theorem walk_back_append (e : ol_entry_ptr) (acc : List vector_t) :
    e.walk_back acc = e.walk_back [] ++ acc := by
  induction e generalizing acc with
  | null => rfl
  | entry c g f p ih =>
    simp only [walk_back]
    rw [ih (c :: acc), ih [c]]
    simp

end ol_entry_ptr

namespace pathfinder

variable {T : tile_traits} {α : Type}

theorem sound_ne_null {pf : pathfinder T α} {e : ol_entry_ptr} (h : pf.sound e) :
    e ≠ .null := by
  cases h <;> simp [new_entry]

/-- What the body of the loop over the directions does to the open list: nothing, or the
entry of an occupied neighbour, not the end node, entered by a passable move and not on
the closed list, takes the place of a dearer or missing entry for the same coordinates. -/
theorem visit_next {pf : pathfinder T α} {cur : ol_entry_ptr} {closed : closed_list_t}
    {d : directions_t} {ol ol2 : open_list_t} (h : pf.visit cur closed d ol = .next ol2) :
    T.get_relative cur.m_coords d ≠ pf.m_end ∧
    (ol2 = ol ∨
      (pf.m_group.is_empty (T.get_relative cur.m_coords d) = false ∧
       pf.m_traversal_traits.is_impassable cur.m_coords d = false ∧
       std_map.find closed (T.get_relative cur.m_coords d) = none ∧
       (∀ e, open_list_t.find ol (T.get_relative cur.m_coords d) = some e →
          cur.m_g_cost + pf.m_traversal_traits.traversal_cost cur.m_coords d < e.m_g_cost) ∧
       ol2 = open_list_t.insert (open_list_t.erase ol (T.get_relative cur.m_coords d))
          (pf.new_entry cur (T.get_relative cur.m_coords d)
            (cur.m_g_cost + pf.m_traversal_traits.traversal_cost cur.m_coords d)))) := by
  unfold visit at h
  simp only at h
  split at h
  · cases h
  · split at h
    · cases h
    · rename_i hend
      refine ⟨hend, ?_⟩
      split at h
      · left; cases h; rfl
      · rename_i hemp
        split at h
        · left; cases h; rfl
        · rename_i himp
          split at h
          · left; cases h; rfl
          · rename_i hcl
            split at h
            · rename_i e he
              split at h
              · rename_i hg
                right
                cases h
                refine ⟨by simpa using hemp, by simpa using himp, by simpa using hcl, ?_, rfl⟩
                intro e2 he2
                rw [he] at he2
                cases he2
                exact hg
              · left; cases h; rfl
            · rename_i he
              right
              cases h
              refine ⟨by simpa using hemp, by simpa using himp, by simpa using hcl, ?_, ?_⟩
              · intro e2 he2
                rw [he] at he2
                cases he2
              · rw [open_list_t.erase_of_find_none he]

/-- A property of open lists that the body of the loop keeps is kept by the loop. -/
theorem expand_next_induction {pf : pathfinder T α} {cur : ol_entry_ptr}
    {closed : closed_list_t} (P : open_list_t → Prop) (dirs : List directions_t) :
    ∀ (ol ol2 : open_list_t),
      (∀ d ∈ listed_dirs dirs, ∀ a b, P a → pf.visit cur closed d a = .next b → P b) →
      P ol → pf.expand cur closed dirs ol = .next ol2 → P ol2 := by
  induction dirs with
  | nil => intro ol ol2 _ _ h; simp [expand] at h
  | cons d dirs ih =>
    intro ol ol2 hstep hP h
    simp only [expand] at h
    by_cases hd : d = DIR_END
    · simp only [hd, if_true, expand_result.next.injEq] at h
      rw [← h]; exact hP
    · simp only [hd, if_false] at h
      have hl : listed_dirs (d :: dirs) = d :: listed_dirs dirs := by
        simp [listed_dirs, List.takeWhile_cons, hd]
      cases hv : pf.visit cur closed d ol with
      | found => rw [hv] at h; cases h
      | failed f => rw [hv] at h; cases h
      | next ol1 =>
        rw [hv] at h
        refine ih ol1 ol2 ?_ ?_ h
        · intro d2 hd2 a b
          exact hstep d2 (by rw [hl]; exact List.mem_cons_of_mem _ hd2) a b
        · exact hstep d (by rw [hl]; exact List.mem_cons_self _ _) ol ol1 hP hv

/-- When the loop over the directions finds the end node, it is the neighbour of the
current entry in a listed direction. -/
theorem expand_found {pf : pathfinder T α} {cur : ol_entry_ptr} {closed : closed_list_t}
    (dirs : List directions_t) :
    ∀ (ol : open_list_t), pf.expand cur closed dirs ol = .found →
      ∃ d ∈ listed_dirs dirs, T.get_relative cur.m_coords d = pf.m_end := by
  induction dirs with
  | nil => intro ol h; simp [expand] at h
  | cons d dirs ih =>
    intro ol h
    simp only [expand] at h
    by_cases hd : d = DIR_END
    · simp [hd] at h
    · simp only [hd, if_false] at h
      have hl : listed_dirs (d :: dirs) = d :: listed_dirs dirs := by
        simp [listed_dirs, List.takeWhile_cons, hd]
      cases hv : pf.visit cur closed d ol with
      | failed f => rw [hv] at h; cases h
      | next ol1 =>
        rw [hv] at h
        obtain ⟨d2, hd2, he⟩ := ih ol1 h
        exact ⟨d2, by rw [hl]; exact List.mem_cons_of_mem _ hd2, he⟩
      | found =>
        refine ⟨d, by rw [hl]; exact List.mem_cons_self _ _, ?_⟩
        unfold visit at hv
        simp only at hv
        split at hv
        · cases hv
        · split at hv
          · assumption
          · split at hv
            · cases hv
            · split at hv
              · cases hv
              · split at hv
                · cases hv
                · split at hv
                  · split at hv <;> cases hv
                  · cases hv

end pathfinder


namespace node_group

variable {T : tile_traits} {α : Type}

theorem operator_call_coords {group group2 : node_group T α} {coords : vector_t}
    {n : node T α} (h : group.operator_call coords = .ok (n, group2)) :
    n.m_coords = coords ∧ T.is_valid coords = true := by
  unfold operator_call at h
  split at h
  · cases h
  · rename_i hv
    have hv2 : T.is_valid coords = true := by simpa [is_valid] using hv
    split at h
    · simp only [Except.ok.injEq, Prod.mk.injEq] at h
      rw [← h.1]; exact ⟨rfl, hv2⟩
    · simp only [Except.ok.injEq, Prod.mk.injEq] at h
      rw [← h.1]; exact ⟨rfl, hv2⟩

end node_group

namespace pathfinder

variable {T : tile_traits} {α : Type}

theorem visit_sound {pf : pathfinder T α} {cur : ol_entry_ptr} {closed : closed_list_t}
    {d : directions_t} {ol ol2 : open_list_t} (hcur : pf.sound cur)
    (hd : d ∈ T.listed cur.m_coords pf.m_join_types) (hol : ∀ e ∈ ol, pf.sound e)
    (h : pf.visit cur closed d ol = .next ol2) : ∀ e ∈ ol2, pf.sound e := by
  obtain ⟨hend, hcase⟩ := visit_next h
  rcases hcase with h1 | ⟨hemp, himp, _, _, h2⟩
  · rw [h1]; exact hol
  · intro e he
    rw [h2] at he
    rcases open_list_t.mem_insert he with h3 | h3
    · rw [h3]
      exact sound.step cur d hcur hd hend hemp himp
    · exact hol e (open_list_t.mem_of_mem_erase h3)

/-- A search that returns went from a sound entry to the end node in a listed direction,
and its result is the chain of that entry, put before `result`, and the end node. -/
theorem find_path_loop_sound (pf : pathfinder T α) (result : List vector_t) (fuel : Nat) :
    ∀ (ol : open_list_t) (closed : closed_list_t) (cur : ol_entry_ptr)
      (status : error_t) (path : List vector_t),
      (∀ e ∈ ol, pf.sound e) → pf.sound cur →
      pf.find_path_loop result fuel ol closed cur = .ok (status, path) →
      ∃ last d, pf.sound last ∧ d ∈ T.listed last.m_coords pf.m_join_types ∧
        T.get_relative last.m_coords d = pf.m_end ∧
        path = last.walk_back result ++ [pf.m_end] := by
  induction fuel with
  | zero => intro ol closed cur status path _ _ h; simp [find_path_loop] at h
  | succ fuel ih =>
    intro ol closed cur status path hol hcur h
    cases cur with
    | null => simp [find_path_loop] at h
    | entry c g f p =>
      simp only [find_path_loop] at h
      cases hcall : pf.m_group.operator_call c with
      | error e => rw [hcall] at h; cases h
      | ok r =>
        obtain ⟨nd, g2⟩ := r
        rw [hcall] at h
        simp only at h
        have hnd := (node_group.operator_call_coords hcall).1
        cases hdirs : nd.available_dirs pf.m_join_types with
        | none => rw [hdirs] at h; cases h
        | some dirs =>
          rw [hdirs] at h
          simp only at h
          have hlisted : T.listed (ol_entry_ptr.entry c g f p).m_coords pf.m_join_types
              = listed_dirs dirs := by
            simp only [node.available_dirs, hnd] at hdirs
            simp [tile_traits.listed, ol_entry_ptr.m_coords, hdirs]
          cases hexp : pf.expand (.entry c g f p)
              (std_map.insert vector_t.lt closed c (.entry c g f p)) dirs
              (open_list_t.erase ol c) with
          | failed e => rw [hexp] at h; cases h
          | found =>
            rw [hexp] at h
            simp only [Except.ok.injEq, Prod.mk.injEq] at h
            obtain ⟨d, hd, he⟩ := expand_found dirs _ hexp
            exact ⟨.entry c g f p, d, hcur, by rw [hlisted]; exact hd, he, h.2.symm⟩
          | next ol2 =>
            rw [hexp] at h
            simp only at h
            have hol2 : ∀ e ∈ ol2, pf.sound e := by
              refine expand_next_induction (fun l => ∀ e ∈ l, pf.sound e) dirs _ ol2 ?_ ?_ hexp
              · intro d hd a b ha hv
                exact visit_sound hcur (by rw [hlisted]; exact hd) ha hv
              · intro e he
                exact hol e (open_list_t.mem_of_mem_erase he)
            cases hlb : open_list_t.lower_bound_zero ol2 with
            | none => rw [hlb] at h; cases h
            | some nxt =>
              rw [hlb] at h
              simp only at h
              exact ih ol2 _ nxt status path hol2
                (hol2 nxt (open_list_t.lower_bound_zero_mem hlb)) h

/-- The chain of a sound entry starts at the start node, runs over occupied coordinates
to the coordinates of the entry, and each of its moves is in a listed direction. -/
theorem sound_chain {pf : pathfinder T α} {e : ol_entry_ptr} (h : pf.sound e) :
    ∃ mid, e.walk_back [] = pf.m_start :: mid ∧
      (∀ c ∈ mid, pf.m_group.is_empty c = false) ∧
      (e.walk_back []).getLast? = some e.m_coords ∧
      (e.walk_back []).Chain'
        (fun a b => ∃ d, d ∈ T.listed a pf.m_join_types ∧ b = T.get_relative a d) := by
  induction h with
  | start =>
    exact ⟨[], rfl, by simp, rfl, List.chain'_singleton _⟩
  | step p d hp hd hend hemp himp ih =>
    obtain ⟨mid, h1, h2, h3, h4⟩ := ih
    have hw : (pf.new_entry p (T.get_relative p.m_coords d)
        (p.m_g_cost + pf.m_traversal_traits.traversal_cost p.m_coords d)).walk_back []
        = p.walk_back [] ++ [T.get_relative p.m_coords d] := by
      simp only [new_entry, ol_entry_ptr.walk_back]
      exact ol_entry_ptr.walk_back_append p _
    rw [hw]
    refine ⟨mid ++ [T.get_relative p.m_coords d], ?_, ?_, ?_, ?_⟩
    · rw [h1]; rfl
    · intro c hc
      rcases List.mem_append.mp hc with hc | hc
      · exact h2 c hc
      · rw [List.mem_singleton.mp hc]; exact hemp
    · simp [new_entry, ol_entry_ptr.m_coords]
    · refine List.Chain'.append h4 (List.chain'_singleton _) ?_
      intro x hx y hy
      rw [h3] at hx
      simp only [Option.mem_def, Option.some.injEq] at hx
      simp only [List.head?_cons, Option.mem_def, Option.some.injEq] at hy
      subst hx
      subst hy
      exact ⟨d, hd, rfl⟩

/-- What `find_path` returns: the start node, occupied coordinates and the coordinates
`last` of the entry at which the end node was found, each reached from the one before by
a move in a listed direction; then the content of `result`; then the end node, which
is the neighbour of `last` in a listed direction. -/
theorem find_path_shape (pf : pathfinder T α) (result : List vector_t) (status : error_t)
    (path : List vector_t) (h : pf.find_path result = .ok (status, path)) :
    ∃ (chain : List vector_t) (mid : List vector_t) (last : vector_t) (d : directions_t),
      path = chain ++ result ++ [pf.m_end] ∧ chain = pf.m_start :: mid ∧
      (∀ c ∈ mid, pf.m_group.is_empty c = false) ∧
      chain.getLast? = some last ∧
      d ∈ T.listed last pf.m_join_types ∧ T.get_relative last d = pf.m_end ∧
      chain.Chain' (fun a b => ∃ d, d ∈ T.listed a pf.m_join_types ∧ b = T.get_relative a d) := by
  unfold find_path at h
  simp only at h
  have hs : pf.sound (.entry pf.m_start 0
      (pf.m_heuristic pf.m_group pf.m_start pf.m_start pf.m_end pf.m_traversal_traits) .null) :=
    sound.start
  obtain ⟨last, d, hl, hd, he, hp⟩ := find_path_loop_sound pf result _ _ _ _ status path
    (by
      intro e he
      simp only [open_list_t.insert, open_list_t.find, Option.isSome_none, Bool.false_eq_true,
        if_false, open_list_t.link, List.mem_singleton] at he
      rw [he]; exact hs) hs h
  obtain ⟨mid, h1, h2, h3, h4⟩ := sound_chain hl
  refine ⟨last.walk_back [], mid, last.m_coords, d, ?_, h1, h2, h3, hd, he, h4⟩
  rw [hp, ol_entry_ptr.walk_back_append]

end pathfinder


/-! ## The path that a search returns -/

/-- Claim C1. When `a_star`, called with an empty result sequence, returns `CG_OK`, the
result is a path from start to end in the adjacency of the tiles: its first element is
`start`, its last element is `end`, and each element is followed by its neighbour in a
direction that `available_dirs` lists for it and the join types of the traversal
traits. -/
theorem a_star_returns_adjacent_path {T : tile_traits} {α : Type} (group : node_group T α)
    (start m_end : vector_t) (tt : traversal_traits) (heuristic : heuristic_t T α)
    (path : List vector_t)
    (h : a_star [] group start m_end tt heuristic = .ok (CG_OK, path)) :
    path.head? = some start ∧ path.getLast? = some m_end ∧
    path.Chain' (fun p q => ∃ d, d ∈ T.listed p tt.join_types ∧ q = T.get_relative p d) := by
  unfold a_star at h
  split at h
  · cases h
  · obtain ⟨chain, mid, last, d, hp, hc, _, hlast, hd, he, hch⟩ :=
      pathfinder.find_path_shape _ _ _ _ h
    simp only [List.append_nil] at hp
    subst hp
    refine ⟨by rw [hc]; rfl, by simp, ?_⟩
    refine List.Chain'.append hch (List.chain'_singleton _) ?_
    intro x hx y hy
    rw [hlast] at hx
    simp only [Option.mem_def, Option.some.injEq] at hx
    simp only [List.head?_cons, Option.mem_def, Option.some.injEq] at hy
    subst hx
    subst hy
    exact ⟨d, hd, he.symm⟩

/-- A concrete instance of `a_star_returns_adjacent_path`: three nodes in a row. -/
theorem a_star_returns_adjacent_path_witness :
    a_star [] three_in_a_row ⟨0, 0⟩ ⟨2, 0⟩ simple_rectangular dijkstra
      = .ok (CG_OK, [⟨0, 0⟩, ⟨1, 0⟩, ⟨2, 0⟩]) ∧
    ([⟨0, 0⟩, ⟨1, 0⟩, ⟨2, 0⟩] : List vector_t).head? = some ⟨0, 0⟩ ∧
    ([⟨0, 0⟩, ⟨1, 0⟩, ⟨2, 0⟩] : List vector_t).getLast? = some ⟨2, 0⟩ ∧
    ([⟨0, 0⟩, ⟨1, 0⟩, ⟨2, 0⟩] : List vector_t).Chain'
      (fun p q => ∃ d, d ∈ rectangular_tile_traits.listed p simple_rectangular.join_types ∧
        q = rectangular_tile_traits.get_relative p d) :=
  ⟨by decide, a_star_returns_adjacent_path three_in_a_row ⟨0, 0⟩ ⟨2, 0⟩ simple_rectangular
    dijkstra [⟨0, 0⟩, ⟨1, 0⟩, ⟨2, 0⟩] (by decide)⟩

/-- Claim C8. Only occupied cells are traversed. When `a_star` returns `CG_OK`, what it
has put in front of the content of `result` is `start` followed by occupied coordinates,
and what it has put behind is `end`; so, called with an empty result sequence, every
coordinate of the returned path strictly between its first and its last element is
occupied. -/
theorem a_star_traverses_occupied_cells {T : tile_traits} {α : Type} (result : List vector_t)
    (group : node_group T α) (start m_end : vector_t) (tt : traversal_traits)
    (heuristic : heuristic_t T α) (path : List vector_t)
    (h : a_star result group start m_end tt heuristic = .ok (CG_OK, path)) :
    (∃ mid, path = start :: (mid ++ result ++ [m_end]) ∧
      ∀ c ∈ mid, group.is_empty c = false) ∧
    (result = [] → ∀ (i : Nat) (c : vector_t), 0 < i → i + 1 < path.length →
      path[i]? = some c → group.is_empty c = false) := by
  unfold a_star at h
  split at h
  · cases h
  · obtain ⟨chain, mid, last, d, hp, hc, hmid, _, _, _, _⟩ :=
      pathfinder.find_path_shape _ _ _ _ h
    simp only at hp hc hmid
    subst hc
    have hshape : path = start :: (mid ++ result ++ [m_end]) := by
      rw [hp]; simp
    refine ⟨⟨mid, hshape, hmid⟩, ?_⟩
    intro hres i c hi hlen hget
    subst hres
    have hshape2 : path = start :: (mid ++ [m_end]) := by rw [hshape]; simp
    rw [hshape2] at hget hlen
    simp only [List.length_cons, List.length_append, List.length_nil] at hlen
    obtain ⟨j, rfl⟩ : ∃ j, i = j + 1 := ⟨i - 1, by omega⟩
    simp only [List.getElem?_cons_succ] at hget
    rw [List.getElem?_append_left (by omega)] at hget
    exact hmid c (List.getElem?_mem hget)

/-- A concrete instance of `a_star_traverses_occupied_cells`: three nodes in a row. -/
theorem a_star_traverses_occupied_cells_witness :
    a_star [] three_in_a_row ⟨0, 0⟩ ⟨2, 0⟩ simple_rectangular dijkstra
      = .ok (CG_OK, [⟨0, 0⟩, ⟨1, 0⟩, ⟨2, 0⟩]) ∧
    (∃ mid, ([⟨0, 0⟩, ⟨1, 0⟩, ⟨2, 0⟩] : List vector_t) = ⟨0, 0⟩ :: (mid ++ [] ++ [⟨2, 0⟩]) ∧
      ∀ c ∈ mid, three_in_a_row.is_empty c = false) ∧
    (([] : List vector_t) = [] → ∀ (i : Nat) (c : vector_t), 0 < i →
      i + 1 < ([⟨0, 0⟩, ⟨1, 0⟩, ⟨2, 0⟩] : List vector_t).length →
      ([⟨0, 0⟩, ⟨1, 0⟩, ⟨2, 0⟩] : List vector_t)[i]? = some c →
      three_in_a_row.is_empty c = false) :=
  ⟨by decide, a_star_traverses_occupied_cells [] three_in_a_row ⟨0, 0⟩ ⟨2, 0⟩
    simple_rectangular dijkstra [⟨0, 0⟩, ⟨1, 0⟩, ⟨2, 0⟩] (by decide)⟩


/-! ## More facts about `std::map` and the open list -/

namespace std_map

variable {K V : Type} [DecidableEq K]

theorem find_eq_none_iff {m : List (K × V)} {k : K} :
    find m k = none ↔ k ∉ m.map Prod.fst := by
  induction m with
  | nil => simp [find]
  | cons p rest ih =>
    obtain ⟨k1, v1⟩ := p
    simp only [find]
    split
    · rename_i h; simp [h]
    · rename_i h
      simp only [ih, List.map_cons, List.mem_cons, not_or]
      exact ⟨fun h2 => ⟨fun e => h e.symm, h2⟩, fun h2 => h2.2⟩

theorem mem_of_find {m : List (K × V)} {k : K} {v : V} (h : find m k = some v) :
    (k, v) ∈ m := by
  induction m with
  | nil => simp [find] at h
  | cons p rest ih =>
    obtain ⟨k1, v1⟩ := p
    simp only [find] at h
    split at h
    · rename_i hk
      cases h
      rw [hk]
      exact List.mem_cons_self _ _
    · exact List.mem_cons_of_mem _ (ih h)

theorem find_of_mem {m : List (K × V)} {k : K} {v : V} (hn : (m.map Prod.fst).Nodup)
    (h : (k, v) ∈ m) : find m k = some v := by
  induction m with
  | nil => cases h
  | cons p rest ih =>
    obtain ⟨k1, v1⟩ := p
    simp only [List.map_cons, List.nodup_cons] at hn
    simp only [find]
    rcases List.mem_cons.mp h with h1 | h1
    · cases h1
      simp
    · have hne : k1 ≠ k := by
        intro e
        apply hn.1
        rw [e]
        exact List.mem_map_of_mem Prod.fst h1
      simp only [hne, if_false]
      exact ih hn.2 h1

theorem assign_perm (lt : K → K → Bool)
    (htri : ∀ a b, lt a b = false → lt b a = false → a = b)
    (m : List (K × V)) (k : K) (v : V) (h : find m k = none) :
    List.Perm (assign lt m k v) ((k, v) :: m) := by
  induction m with
  | nil => exact List.Perm.refl _
  | cons p rest ih =>
    obtain ⟨k1, v1⟩ := p
    simp only [find] at h
    split at h
    · cases h
    · rename_i hk
      simp only [assign]
      by_cases h1 : lt k1 k = true
      · simp only [h1, if_true]
        exact (List.Perm.cons _ (ih h)).trans (List.Perm.swap _ _ _)
      · by_cases h3 : lt k k1 = true
        · simp only [h1, h3, if_true]
          exact List.Perm.refl _
        · exact absurd (htri k1 k (by simpa using h1) (by simpa using h3)) hk

theorem insert_perm (lt : K → K → Bool)
    (htri : ∀ a b, lt a b = false → lt b a = false → a = b)
    (m : List (K × V)) (k : K) (v : V) (h : find m k = none) :
    List.Perm (insert lt m k v) ((k, v) :: m) := by
  unfold insert
  simp only [h, Option.isSome_none, Bool.false_eq_true, if_false]
  exact assign_perm lt htri m k v h

end std_map

namespace open_list_t

theorem find_none_iff_coords {ol : open_list_t} {c : vector_t} :
    find ol c = none ↔ c ∉ ol.map ol_entry_ptr.m_coords := by
  rw [find_eq_none]
  simp only [List.mem_map, not_exists, not_and]

theorem find_entry_of_mem {ol : open_list_t} {e : ol_entry_ptr}
    (hn : (ol.map ol_entry_ptr.m_coords).Nodup) (h : e ∈ ol) :
    find ol e.m_coords = some e := by
  induction ol with
  | nil => cases h
  | cons x rest ih =>
    simp only [List.map_cons, List.nodup_cons] at hn
    simp only [find]
    rcases List.mem_cons.mp h with h1 | h1
    · rw [h1]; simp
    · have hne : x.m_coords ≠ e.m_coords := by
        intro e2
        apply hn.1
        rw [e2]
        exact List.mem_map_of_mem _ h1
      simp only [hne, if_false]
      exact ih hn.2 h1

theorem erase_nodup {ol : open_list_t} (c : vector_t)
    (hn : (ol.map ol_entry_ptr.m_coords).Nodup) :
    ((erase ol c).map ol_entry_ptr.m_coords).Nodup :=
  List.Nodup.sublist ((erase_sublist ol c).map _) hn

theorem find_erase_coords {ol : open_list_t} (c : vector_t)
    (hn : (ol.map ol_entry_ptr.m_coords).Nodup) : find (erase ol c) c = none := by
  induction ol with
  | nil => rfl
  | cons x rest ih =>
    simp only [List.map_cons, List.nodup_cons] at hn
    simp only [erase]
    split
    · rename_i hx
      rw [find_none_iff_coords, ← hx]
      exact hn.1
    · rename_i hx
      simp only [find, hx, if_false]
      exact ih hn.2

theorem mem_erase_of_ne {ol : open_list_t} {c : vector_t} {e : ol_entry_ptr}
    (h : e ∈ ol) (hne : e.m_coords ≠ c) : e ∈ erase ol c := by
  induction ol with
  | nil => cases h
  | cons x rest ih =>
    simp only [erase]
    rcases List.mem_cons.mp h with h1 | h1
    · subst h1
      simp only [hne, if_false]
      exact List.mem_cons_self _ _
    · split
      · exact h1
      · exact List.mem_cons_of_mem _ (ih h1)

theorem coords_ne_of_mem_erase {ol : open_list_t} {c : vector_t} {e : ol_entry_ptr}
    (hn : (ol.map ol_entry_ptr.m_coords).Nodup) (h : e ∈ erase ol c) : e.m_coords ≠ c := by
  intro hc
  have h1 := find_erase_coords c hn
  rw [find_eq_none] at h1
  exact h1 e h hc

theorem insert_of_find_none {ol : open_list_t} {e : ol_entry_ptr}
    (h : find ol e.m_coords = none) : insert ol e = link ol e := by
  simp [insert, h]

theorem link_sorted {ol : open_list_t} (e : ol_entry_ptr)
    (hs : ol.Pairwise (fun a b => a.m_f_cost ≤ b.m_f_cost)) :
    (link ol e).Pairwise (fun a b => a.m_f_cost ≤ b.m_f_cost) := by
  induction ol with
  | nil => simp [link]
  | cons x rest ih =>
    have hp := List.pairwise_cons.mp hs
    simp only [link]
    split
    · rename_i hlt
      refine List.pairwise_cons.mpr ⟨?_, hs⟩
      intro y hy
      rcases List.mem_cons.mp hy with h1 | h1
      · rw [h1]; exact le_of_lt hlt
      · exact le_trans (le_of_lt hlt) (hp.1 y h1)
    · rename_i hlt
      refine List.pairwise_cons.mpr ⟨?_, ih hp.2⟩
      intro y hy
      rcases mem_link.mp hy with h1 | h1
      · rw [h1]; exact not_lt.mp hlt
      · exact hp.1 y h1

theorem erase_sorted {ol : open_list_t} (c : vector_t)
    (hs : ol.Pairwise (fun a b => a.m_f_cost ≤ b.m_f_cost)) :
    (erase ol c).Pairwise (fun a b => a.m_f_cost ≤ b.m_f_cost) :=
  List.Pairwise.sublist (erase_sublist ol c) hs

end open_list_t


/-! ## The invariant of the search -/

namespace pathfinder

variable {T : tile_traits} {α : Type}

theorem new_entry_coords (pf : pathfinder T α) (cur : ol_entry_ptr) (n : vector_t)
    (g : unit_t) : (pf.new_entry cur n g).m_coords = n := rfl

theorem new_entry_g_cost (pf : pathfinder T α) (cur : ol_entry_ptr) (n : vector_t)
    (g : unit_t) : (pf.new_entry cur n g).m_g_cost = g := rfl

/-- The entry of the start node alone, with an empty closed list, is a state of the
search. -/
theorem inv_init (pf : pathfinder T α) :
    pf.inv (open_list_t.insert [] (.entry pf.m_start 0
      (pf.m_heuristic pf.m_group pf.m_start pf.m_start pf.m_end pf.m_traversal_traits) .null))
      [] := by
  have h : open_list_t.insert [] (.entry pf.m_start 0
      (pf.m_heuristic pf.m_group pf.m_start pf.m_start pf.m_end pf.m_traversal_traits) .null)
      = [.entry pf.m_start 0
      (pf.m_heuristic pf.m_group pf.m_start pf.m_start pf.m_end pf.m_traversal_traits) .null] :=
    rfl
  rw [h]
  refine ⟨?_, by simp, by simp, ?_, by simp, by simp⟩
  · intro e he
    rw [List.mem_singleton.mp he]
    exact sound.start
  · intro e _
    rfl

/-- Moving the current entry from the open to the closed list keeps the invariant. -/
theorem inv_close {pf : pathfinder T α} {ol : open_list_t} {closed : closed_list_t}
    {cur : ol_entry_ptr} (hinv : pf.inv ol closed) (hcur : cur ∈ ol) :
    pf.inv (open_list_t.erase ol cur.m_coords)
      (std_map.insert vector_t.lt closed cur.m_coords cur) ∧
    List.Perm (std_map.insert vector_t.lt closed cur.m_coords cur)
      ((cur.m_coords, cur) :: closed) := by
  have hnone := hinv.disjoint cur hcur
  have hperm := std_map.insert_perm vector_t.lt vector_t.eq_of_not_lt closed cur.m_coords cur
    hnone
  refine ⟨⟨?_, ?_, ?_, ?_, ?_, ?_⟩, hperm⟩
  · exact fun e he => hinv.ol_sound e (open_list_t.mem_of_mem_erase he)
  · exact open_list_t.erase_nodup _ hinv.ol_nodup
  · exact open_list_t.erase_sorted _ hinv.ol_sorted
  · intro e he
    have hne := open_list_t.coords_ne_of_mem_erase hinv.ol_nodup he
    have hold := hinv.disjoint e (open_list_t.mem_of_mem_erase he)
    unfold std_map.insert
    simp only [hnone, Option.isSome_none, Bool.false_eq_true, if_false]
    rw [std_map.find_assign vector_t.lt vector_t.lt_irrefl vector_t.eq_of_not_lt]
    simp only [Ne.symm hne, if_false]
    exact hold
  · intro p hp
    rcases List.mem_cons.mp (hperm.mem_iff.mp hp) with h1 | h1
    · rw [h1]
      exact ⟨rfl, hinv.ol_sound cur hcur⟩
    · exact hinv.closed_sound p h1
  · have h2 := (hperm.map Prod.fst).nodup_iff.mpr
    apply h2
    simp only [List.map_cons, List.nodup_cons]
    exact ⟨std_map.find_eq_none_iff.mp hnone, hinv.closed_nodup⟩

/-- The body of the loop over the directions keeps the invariant. -/
theorem inv_visit {pf : pathfinder T α} {cur : ol_entry_ptr} {closed : closed_list_t}
    {d : directions_t} {ol ol2 : open_list_t} (hinv : pf.inv ol closed) (hcur : pf.sound cur)
    (hd : d ∈ T.listed cur.m_coords pf.m_join_types)
    (h : pf.visit cur closed d ol = .next ol2) : pf.inv ol2 closed := by
  obtain ⟨hend, hcase⟩ := visit_next h
  rcases hcase with h1 | ⟨hemp, himp, hcl, _, h2⟩
  · rw [h1]; exact hinv
  · have hfind : open_list_t.find (open_list_t.erase ol (T.get_relative cur.m_coords d))
        (pf.new_entry cur (T.get_relative cur.m_coords d)
          (cur.m_g_cost + pf.m_traversal_traits.traversal_cost cur.m_coords d)).m_coords
        = none := open_list_t.find_erase_coords _ hinv.ol_nodup
    rw [open_list_t.insert_of_find_none hfind] at h2
    have hperm := open_list_t.link_perm (open_list_t.erase ol (T.get_relative cur.m_coords d))
      (pf.new_entry cur (T.get_relative cur.m_coords d)
          (cur.m_g_cost + pf.m_traversal_traits.traversal_cost cur.m_coords d))
    rw [← h2] at hperm
    refine ⟨visit_sound hcur hd hinv.ol_sound h, ?_, ?_, ?_, hinv.closed_sound,
      hinv.closed_nodup⟩
    · apply ((hperm.map ol_entry_ptr.m_coords).nodup_iff).mpr
      simp only [List.map_cons, List.nodup_cons]
      exact ⟨open_list_t.find_none_iff_coords.mp hfind, open_list_t.erase_nodup _ hinv.ol_nodup⟩
    · rw [h2]
      exact open_list_t.link_sorted _ (open_list_t.erase_sorted _ hinv.ol_sorted)
    · intro e he
      rcases List.mem_cons.mp (hperm.mem_iff.mp he) with h3 | h3
      · rw [h3]; exact hcl
      · exact hinv.disjoint e (open_list_t.mem_of_mem_erase h3)

/-- The loop over the directions keeps the invariant. -/
theorem inv_expand {pf : pathfinder T α} {cur : ol_entry_ptr} {closed : closed_list_t}
    {dirs : List directions_t} {ol ol2 : open_list_t} (hinv : pf.inv ol closed)
    (hcur : pf.sound cur)
    (hdirs : ∀ d ∈ listed_dirs dirs, d ∈ T.listed cur.m_coords pf.m_join_types)
    (h : pf.expand cur closed dirs ol = .next ol2) : pf.inv ol2 closed :=
  expand_next_induction (fun l => pf.inv l closed) dirs ol ol2
    (fun d hd _ _ ha hv => inv_visit ha hcur (hdirs d hd) hv) hinv h

theorem sound_coords {pf : pathfinder T α} {e : ol_entry_ptr} (h : pf.sound e) :
    e.m_coords = pf.m_start ∨ pf.m_group.is_empty e.m_coords = false := by
  cases h with
  | start => exact Or.inl rfl
  | step p d hp hd hend hemp himp => exact Or.inr hemp

/-- The closed list has no more entries than the group has nodes, but for the start. -/
theorem inv_closed_length {pf : pathfinder T α} {ol : open_list_t} {closed : closed_list_t}
    (hinv : pf.inv ol closed) : closed.length ≤ pf.m_group.m_nodes.length + 1 := by
  have hsub : closed.map Prod.fst ⊆ pf.m_start :: pf.m_group.m_nodes.map Prod.fst := by
    intro k hk
    obtain ⟨p, hp, hpk⟩ := List.mem_map.mp hk
    obtain ⟨hc, hs⟩ := hinv.closed_sound p hp
    rcases sound_coords hs with h1 | h1
    · rw [← hpk, ← hc, h1]; exact List.mem_cons_self _ _
    · apply List.mem_cons_of_mem
      rw [← hpk, ← hc]
      by_contra hnot
      have := std_map.find_eq_none_iff.mpr hnot
      simp [node_group.is_empty, this] at h1
  have := (List.subperm_of_subset hinv.closed_nodup hsub).length_le
  simpa using this

/-- The bound on the rounds of the loop of `find_path` is never used up. -/
theorem find_path_loop_fuel (pf : pathfinder T α) (result : List vector_t) (fuel : Nat) :
    ∀ (ol : open_list_t) (closed : closed_list_t) (cur : ol_entry_ptr),
      pf.inv ol closed → cur ∈ ol → pf.m_group.m_nodes.length + 2 ≤ closed.length + fuel →
      pf.find_path_loop result fuel ol closed cur ≠ .error .out_of_fuel := by
  induction fuel with
  | zero =>
    intro ol closed cur hinv hcur hlen
    obtain ⟨hinv1, hperm⟩ := inv_close hinv hcur
    have h1 := inv_closed_length hinv1
    rw [hperm.length_eq] at h1
    simp only [List.length_cons] at h1
    omega
  | succ fuel ih =>
    intro ol closed cur hinv hcur hlen
    obtain ⟨hinv1, hperm⟩ := inv_close hinv hcur
    have hsound := hinv.ol_sound cur hcur
    cases cur with
    | null => exact absurd rfl (sound_ne_null hsound)
    | entry c g f p =>
      simp only [find_path_loop]
      cases hcall : pf.m_group.operator_call c with
      | error e =>
        simp only
        unfold node_group.operator_call at hcall
        split at hcall
        · cases hcall; simp
        · split at hcall <;> cases hcall
      | ok r =>
        obtain ⟨nd, g2⟩ := r
        simp only
        have hnd := (node_group.operator_call_coords hcall).1
        cases hdirs : nd.available_dirs pf.m_join_types with
        | none => simp
        | some dirs =>
          simp only
          have hlisted : T.listed (ol_entry_ptr.entry c g f p).m_coords pf.m_join_types
              = listed_dirs dirs := by
            simp only [node.available_dirs, hnd] at hdirs
            simp [tile_traits.listed, ol_entry_ptr.m_coords, hdirs]
          cases hexp : pf.expand (.entry c g f p)
              (std_map.insert vector_t.lt closed c (.entry c g f p)) dirs
              (open_list_t.erase ol c) with
          | failed e =>
            simp only
            intro he
            simp only [Except.error.injEq] at he
            subst he
            -- the loop over the directions does not fail in this way
            have : ∀ (ds : List directions_t) (l : open_list_t),
                pf.expand (.entry c g f p)
                  (std_map.insert vector_t.lt closed c (.entry c g f p)) ds l
                  ≠ .failed .out_of_fuel := by
              intro ds
              induction ds with
              | nil => intro l; simp [expand]
              | cons d ds ihd =>
                intro l
                simp only [expand]
                split
                · simp
                · cases hv : pf.visit (.entry c g f p)
                      (std_map.insert vector_t.lt closed c (.entry c g f p)) d l with
                  | next l2 => simp only; exact ihd l2
                  | found => simp
                  | failed e2 =>
                    simp only
                    intro he2
                    simp only [expand_result.failed.injEq] at he2
                    subst he2
                    unfold visit at hv
                    simp only at hv
                    repeat' split at hv
                    all_goals cases hv
            exact this dirs _ hexp
          | found => simp
          | next ol2 =>
            simp only
            have hinv2 : pf.inv ol2 (std_map.insert vector_t.lt closed c (.entry c g f p)) :=
              inv_expand hinv1 hsound (by rw [hlisted]; exact fun d hd => hd) hexp
            cases hlb : open_list_t.lower_bound_zero ol2 with
            | none => simp
            | some nxt =>
              simp only
              refine ih ol2 _ nxt hinv2 (open_list_t.lower_bound_zero_mem hlb) ?_
              have hl := hperm.length_eq
              simp only [ol_entry_ptr.m_coords, List.length_cons] at hl
              rw [hl]
              omega

end pathfinder

/-- The iteration bound of the embedding is never the reason for which `a_star` does not
return: the loop of `find_path` always ends, by a return or by a fault of the source. -/
theorem a_star_never_out_of_fuel {T : tile_traits} {α : Type} (result : List vector_t)
    (group : node_group T α) (start m_end : vector_t) (tt : traversal_traits)
    (heuristic : heuristic_t T α) :
    a_star result group start m_end tt heuristic ≠ .error .out_of_fuel := by
  unfold a_star
  split
  · simp
  · unfold pathfinder.find_path
    simp only
    refine pathfinder.find_path_loop_fuel _ result _ _ _ _ (pathfinder.inv_init _) ?_ ?_
    · exact List.mem_singleton.mpr rfl
    · simp


/-! ## The search with the zero heuristic -/

namespace pathfinder

variable {T : tile_traits} {α : Type}

theorem covers_within {ol : open_list_t} {closed : closed_list_t} {c : vector_t}
    {k k2 : unit_t} (h : covers ol closed c k) (hk : k ≤ k2) : within ol closed c k2 := by
  rcases h with ⟨q, hq, hg⟩ | ⟨e, he, _, hg⟩
  · exact Or.inl ⟨q, hq, le_trans hg hk⟩
  · exact Or.inr ⟨e, he, le_trans hg hk⟩

theorem sound_f_cost {pf : pathfinder T α} (hd : pf.dijkstra_like) {e : ol_entry_ptr}
    (h : pf.sound e) : e.m_f_cost = e.m_g_cost := by
  cases h with
  | start => simp [ol_entry_ptr.m_f_cost, ol_entry_ptr.m_g_cost, hd.zero_heuristic]
  | step p d hp hd2 hend hemp himp =>
    simp [new_entry, ol_entry_ptr.m_f_cost, ol_entry_ptr.m_g_cost, hd.zero_heuristic]

theorem sound_g_nonneg {pf : pathfinder T α} (hd : pf.dijkstra_like) {e : ol_entry_ptr}
    (h : pf.sound e) : 0 ≤ e.m_g_cost := by
  induction h with
  | start => simp [ol_entry_ptr.m_g_cost]
  | step p d hp hd2 hend hemp himp ih =>
    rw [new_entry_g_cost]
    have := hd.cost_nonneg p.m_coords d hd2
    linarith

/-- Along a passable route, from coordinates that are within a cost, the coordinates
reached are within that cost and the cost of the route. -/
theorem within_route {pf : pathfinder T α} (hd : pf.dijkstra_like) {ol : open_list_t}
    {closed : closed_list_t} (hdij : pf.dinv ol closed) (ds : List directions_t) :
    ∀ (p : vector_t) (k : unit_t), within ol closed p k →
      passable_route pf.m_group pf.m_traversal_traits p ds = true →
      within ol closed (T.follow p ds) (k + route_cost T pf.m_traversal_traits p ds) := by
  induction ds with
  | nil =>
    intro p k hw _
    simpa [tile_traits.follow, route_cost] using hw
  | cons d ds ih =>
    intro p k hw hr
    simp only [passable_route, Bool.and_eq_true, decide_eq_true_eq, Bool.not_eq_true',
      ← hd.join_types_eq] at hr
    obtain ⟨⟨⟨hl, himp⟩, hemp⟩, hrest⟩ := hr
    have hc := hd.cost_nonneg p d hl
    simp only [tile_traits.follow, route_cost]
    rw [← add_assoc]
    apply ih _ _ _ hrest
    rcases hw with ⟨q, hq, hg⟩ | ⟨e, he, hg⟩
    · exact covers_within ((hdij.relaxed (p, q) hq d hl).2 hemp himp) (by simp only; linarith)
    · exact Or.inr ⟨e, he, by linarith⟩

/-- A passable route from the start to coordinates that have the end node as a listed
neighbour costs at least as much as some open entry. -/
theorem open_entry_below_route {pf : pathfinder T α} (hd : pf.dijkstra_like)
    {ol : open_list_t} {closed : closed_list_t} (hdij : pf.dinv ol closed)
    (ds : List directions_t)
    (hr : passable_route pf.m_group pf.m_traversal_traits pf.m_start ds = true)
    (d : directions_t) (hl : d ∈ T.listed (T.follow pf.m_start ds) pf.m_join_types)
    (he : T.get_relative (T.follow pf.m_start ds) d = pf.m_end) :
    ∃ e ∈ ol, e.m_g_cost ≤ route_cost T pf.m_traversal_traits pf.m_start ds := by
  have h := within_route hd hdij ds pf.m_start 0 (covers_within hdij.start_covered (le_refl _)) hr
  rw [zero_add] at h
  rcases h with ⟨q, hq, _⟩ | h
  · exact absurd he (hdij.relaxed _ hq d hl).1
  · exact h

end pathfinder


namespace pathfinder

variable {T : tile_traits} {α : Type}

/-- What is covered stays covered when the current entry is moved to the closed list. -/
theorem covers_close {pf : pathfinder T α} {ol : open_list_t} {closed : closed_list_t}
    {cur : ol_entry_ptr} (hinv : pf.inv ol closed) (hcur : cur ∈ ol) {n : vector_t}
    {k : unit_t} (h : covers ol closed n k) :
    covers (open_list_t.erase ol cur.m_coords)
      (std_map.insert vector_t.lt closed cur.m_coords cur) n k := by
  have hperm := (inv_close hinv hcur).2
  rcases h with ⟨q, hq, hg⟩ | ⟨e, he, hc, hg⟩
  · exact Or.inl ⟨q, hperm.mem_iff.mpr (List.mem_cons_of_mem _ hq), hg⟩
  · by_cases hce : e.m_coords = cur.m_coords
    · have h1 := open_list_t.find_entry_of_mem hinv.ol_nodup he
      have h2 := open_list_t.find_entry_of_mem hinv.ol_nodup hcur
      rw [hce, h2] at h1
      cases h1
      left
      exact ⟨cur, hperm.mem_iff.mpr (by rw [← hc]; exact List.mem_cons_self _ _), hg⟩
    · exact Or.inr ⟨e, open_list_t.mem_erase_of_ne he hce, hc, hg⟩

/-- The body of the loop over the directions makes no coordinates of the open list
dearer. -/
theorem visit_mono {pf : pathfinder T α} {cur : ol_entry_ptr} {closed : closed_list_t}
    {d : directions_t} {a b : open_list_t} (hinv : pf.inv a closed)
    (h : pf.visit cur closed d a = .next b) :
    ∀ e ∈ a, ∃ e2 ∈ b, e2.m_coords = e.m_coords ∧ e2.m_g_cost ≤ e.m_g_cost := by
  obtain ⟨_, hcase⟩ := visit_next h
  rcases hcase with h1 | ⟨_, _, _, hlt, h2⟩
  · rw [h1]
    exact fun e he => ⟨e, he, rfl, le_refl _⟩
  · have hfind : open_list_t.find (open_list_t.erase a (T.get_relative cur.m_coords d))
        (pf.new_entry cur (T.get_relative cur.m_coords d)
          (cur.m_g_cost + pf.m_traversal_traits.traversal_cost cur.m_coords d)).m_coords
        = none := open_list_t.find_erase_coords _ hinv.ol_nodup
    rw [open_list_t.insert_of_find_none hfind] at h2
    intro e he
    by_cases hc : e.m_coords = T.get_relative cur.m_coords d
    · have hf := open_list_t.find_entry_of_mem hinv.ol_nodup he
      rw [hc] at hf
      refine ⟨pf.new_entry cur (T.get_relative cur.m_coords d)
          (cur.m_g_cost + pf.m_traversal_traits.traversal_cost cur.m_coords d), ?_, ?_, ?_⟩
      · rw [h2]; exact open_list_t.mem_link.mpr (Or.inl rfl)
      · rw [new_entry_coords, hc]
      · rw [new_entry_g_cost]; exact le_of_lt (hlt e hf)
    · refine ⟨e, ?_, rfl, le_refl _⟩
      rw [h2]
      exact open_list_t.mem_link.mpr (Or.inr (open_list_t.mem_erase_of_ne he hc))

theorem covers_visit {pf : pathfinder T α} {cur : ol_entry_ptr} {closed : closed_list_t}
    {d : directions_t} {a b : open_list_t} (hinv : pf.inv a closed)
    (h : pf.visit cur closed d a = .next b) {n : vector_t} {k : unit_t}
    (hc : covers a closed n k) : covers b closed n k := by
  rcases hc with hc | ⟨e, he, hco, hg⟩
  · exact Or.inl hc
  · obtain ⟨e2, he2, hc2, hg2⟩ := visit_mono hinv h e he
    exact Or.inr ⟨e2, he2, hc2.trans hco, le_trans hg2 hg⟩

/-- After the body of the loop for the direction `d`, the neighbour in that direction is
not the end node, and it is covered at the cost of the move when it is occupied and the
move is passable. -/
theorem visit_relaxes {pf : pathfinder T α} {cur : ol_entry_ptr} {closed : closed_list_t}
    {d : directions_t} {a b : open_list_t} (hinv : pf.inv a closed)
    (hcl : ∀ p ∈ closed, p.2.m_g_cost ≤ cur.m_g_cost)
    (hw : 0 ≤ pf.m_traversal_traits.traversal_cost cur.m_coords d)
    (h : pf.visit cur closed d a = .next b) :
    T.get_relative cur.m_coords d ≠ pf.m_end ∧
    (pf.m_group.is_empty (T.get_relative cur.m_coords d) = false →
      pf.m_traversal_traits.is_impassable cur.m_coords d = false →
      covers b closed (T.get_relative cur.m_coords d)
        (cur.m_g_cost + pf.m_traversal_traits.traversal_cost cur.m_coords d)) := by
  refine ⟨(visit_next h).1, ?_⟩
  intro hemp himp
  unfold visit at h
  simp only [hemp, himp, Bool.false_eq_true, if_false] at h
  split at h
  · cases h
  · split at h
    · cases h
    · split at h
      · rename_i hsome
        obtain ⟨q, hq⟩ := Option.isSome_iff_exists.mp hsome
        left
        refine ⟨q, std_map.mem_of_find hq, ?_⟩
        have := hcl _ (std_map.mem_of_find hq)
        simp only at this
        linarith
      · right
        split at h
        · rename_i e he
          split at h
          · cases h
            have hfind : open_list_t.find
                (open_list_t.erase a (T.get_relative cur.m_coords d))
                (pf.new_entry cur (T.get_relative cur.m_coords d)
                  (cur.m_g_cost
                    + pf.m_traversal_traits.traversal_cost cur.m_coords d)).m_coords
                = none := open_list_t.find_erase_coords _ hinv.ol_nodup
            rw [open_list_t.insert_of_find_none hfind]
            exact ⟨_, open_list_t.mem_link.mpr (Or.inl rfl), rfl, le_refl _⟩
          · rename_i hg
            cases h
            exact ⟨e, (open_list_t.find_some he).1, (open_list_t.find_some he).2,
              not_lt.mp hg⟩
        · rename_i he
          cases h
          rw [open_list_t.insert_of_find_none (by rw [new_entry_coords]; exact he)]
          exact ⟨_, open_list_t.mem_link.mpr (Or.inl rfl), rfl, le_refl _⟩

/-- After the loop over the directions, every listed neighbour of the current entry is
dealt with as in `visit_relaxes`. -/
theorem expand_relaxes {pf : pathfinder T α} {cur : ol_entry_ptr} {closed : closed_list_t}
    (hd : pf.dijkstra_like) (hcur : pf.sound cur)
    (hcl : ∀ p ∈ closed, p.2.m_g_cost ≤ cur.m_g_cost) (dirs : List directions_t) :
    ∀ (ol ol2 : open_list_t), pf.inv ol closed →
      (∀ d ∈ listed_dirs dirs, d ∈ T.listed cur.m_coords pf.m_join_types) →
      pf.expand cur closed dirs ol = .next ol2 →
      ∀ d ∈ listed_dirs dirs,
        T.get_relative cur.m_coords d ≠ pf.m_end ∧
        (pf.m_group.is_empty (T.get_relative cur.m_coords d) = false →
          pf.m_traversal_traits.is_impassable cur.m_coords d = false →
          covers ol2 closed (T.get_relative cur.m_coords d)
            (cur.m_g_cost + pf.m_traversal_traits.traversal_cost cur.m_coords d)) := by
  induction dirs with
  | nil => intro ol ol2 _ _ h; simp [expand] at h
  | cons d dirs ih =>
    intro ol ol2 hinv hdirs h
    simp only [expand] at h
    by_cases hde : d = DIR_END
    · intro d2 hd2
      simp [listed_dirs, List.takeWhile_cons, hde] at hd2
    · simp only [hde, if_false] at h
      have hl : listed_dirs (d :: dirs) = d :: listed_dirs dirs := by
        simp [listed_dirs, List.takeWhile_cons, hde]
      rw [hl] at hdirs ⊢
      cases hv : pf.visit cur closed d ol with
      | found => rw [hv] at h; cases h
      | failed f => rw [hv] at h; cases h
      | next ol1 =>
        rw [hv] at h
        simp only at h
        have hdl := hdirs d (List.mem_cons_self _ _)
        have hinv1 := inv_visit hinv hcur hdl hv
        have hrest : ∀ d2 ∈ listed_dirs dirs, d2 ∈ T.listed cur.m_coords pf.m_join_types :=
          fun d2 hd2 => hdirs d2 (List.mem_cons_of_mem _ hd2)
        intro d2 hd2
        rcases List.mem_cons.mp hd2 with h1 | h1
        · subst h1
          have hr := visit_relaxes hinv hcl (hd.cost_nonneg _ _ hdl) hv
          refine ⟨hr.1, fun hemp himp => ?_⟩
          have hc1 := hr.2 hemp himp
          have := expand_next_induction
            (fun l => pf.inv l closed ∧ covers l closed (T.get_relative cur.m_coords d2)
              (cur.m_g_cost + pf.m_traversal_traits.traversal_cost cur.m_coords d2))
            dirs ol1 ol2
            (fun d3 hd3 a b ha hvis =>
              ⟨inv_visit ha.1 hcur (hrest d3 hd3) hvis, covers_visit ha.1 hvis ha.2⟩)
            ⟨hinv1, hc1⟩ h
          exact this.2
        · exact ih ol1 ol2 hinv1 hrest h d2 h1

/-- One round of the loop keeps the invariants of a search with the zero heuristic. -/
theorem dstate_step {pf : pathfinder T α} (hd : pf.dijkstra_like) {ol : open_list_t}
    {closed : closed_list_t} {cur : ol_entry_ptr} (hs : pf.dstate ol closed cur)
    {dirs : List directions_t}
    (hlisted : T.listed cur.m_coords pf.m_join_types = listed_dirs dirs) {ol2 : open_list_t}
    (h : pf.expand cur (std_map.insert vector_t.lt closed cur.m_coords cur) dirs
      (open_list_t.erase ol cur.m_coords) = .next ol2) :
    pf.inv ol2 (std_map.insert vector_t.lt closed cur.m_coords cur) ∧
    pf.dinv ol2 (std_map.insert vector_t.lt closed cur.m_coords cur) := by
  obtain ⟨hinv1, hperm⟩ := inv_close hs.base hs.cur_mem
  have hsound := hs.base.ol_sound cur hs.cur_mem
  have hdirs : ∀ d ∈ listed_dirs dirs, d ∈ T.listed cur.m_coords pf.m_join_types := by
    rw [hlisted]; exact fun d hd => hd
  have hcl : ∀ p ∈ std_map.insert vector_t.lt closed cur.m_coords cur,
      p.2.m_g_cost ≤ cur.m_g_cost := by
    intro p hp
    rcases List.mem_cons.mp (hperm.mem_iff.mp hp) with h1 | h1
    · rw [h1]
    · exact hs.dij.mono p h1 cur hs.cur_mem
  have hinv2 := inv_expand hinv1 hsound hdirs h
  have hkeep := expand_next_induction
    (fun l => pf.inv l (std_map.insert vector_t.lt closed cur.m_coords cur) ∧
      (∀ p ∈ std_map.insert vector_t.lt closed cur.m_coords cur, ∀ e ∈ l,
        p.2.m_g_cost ≤ e.m_g_cost) ∧
      (∀ n k, covers (open_list_t.erase ol cur.m_coords)
          (std_map.insert vector_t.lt closed cur.m_coords cur) n k →
        covers l (std_map.insert vector_t.lt closed cur.m_coords cur) n k))
    dirs (open_list_t.erase ol cur.m_coords) ol2
    (by
      intro d hdd a b ha hv
      refine ⟨inv_visit ha.1 hsound (hdirs d hdd) hv, ?_, ?_⟩
      · intro p hp e he
        obtain ⟨_, hcase⟩ := visit_next hv
        rcases hcase with h1 | ⟨_, _, _, _, h2⟩
        · rw [h1] at he; exact ha.2.1 p hp e he
        · rw [h2] at he
          rcases open_list_t.mem_insert he with h3 | h3
          · rw [h3, new_entry_g_cost]
            have := hcl p hp
            have := hd.cost_nonneg _ _ (hdirs d hdd)
            linarith
          · exact ha.2.1 p hp e (open_list_t.mem_of_mem_erase h3)
      · intro n k hc
        exact covers_visit ha.1 hv (ha.2.2 n k hc))
    ⟨hinv1, by
      intro p hp e he
      have he2 := open_list_t.mem_of_mem_erase he
      rcases List.mem_cons.mp (hperm.mem_iff.mp hp) with h1 | h1
      · rw [h1]; exact hs.cur_min e he2
      · exact hs.dij.mono p h1 e he2,
     fun n k hc => hc⟩ h
  have hrel := expand_relaxes hd hsound hcl dirs _ ol2 hinv1 hdirs h
  refine ⟨hinv2, ⟨hkeep.2.1, ?_, ?_⟩⟩
  · intro p hp d hdl
    rcases List.mem_cons.mp (hperm.mem_iff.mp hp) with h1 | h1
    · rw [h1] at hdl ⊢
      simp only at hdl ⊢
      rw [hlisted] at hdl
      exact hrel d hdl
    · obtain ⟨hne, hcov⟩ := hs.dij.relaxed p h1 d hdl
      exact ⟨hne, fun hemp himp =>
        hkeep.2.2 _ _ (covers_close hs.base hs.cur_mem (hcov hemp himp))⟩
  · exact hkeep.2.2 _ _ (covers_close hs.base hs.cur_mem hs.dij.start_covered)

end pathfinder


/-! ## Routes and chains -/

theorem follow_append (T : tile_traits) (ds es : List directions_t) :
    ∀ p, T.follow p (ds ++ es) = T.follow (T.follow p ds) es := by
  induction ds with
  | nil => intro p; rfl
  | cons d ds ih =>
    intro p
    show T.follow (T.get_relative p d) (ds ++ es) = T.follow (T.follow (T.get_relative p d) ds) es
    exact ih _

theorem route_cost_append (T : tile_traits) (tt : traversal_traits)
    (ds es : List directions_t) :
    ∀ p, route_cost T tt p (ds ++ es)
      = route_cost T tt p ds + route_cost T tt (T.follow p ds) es := by
  induction ds with
  | nil => intro p; simp [route_cost, tile_traits.follow]
  | cons d ds ih =>
    intro p
    show tt.traversal_cost p d + route_cost T tt (T.get_relative p d) (ds ++ es)
      = tt.traversal_cost p d + route_cost T tt (T.get_relative p d) ds
        + route_cost T tt (T.follow (T.get_relative p d) ds) es
    rw [ih]
    ring

theorem passable_route_append {T : tile_traits} {α : Type} (group : node_group T α)
    (tt : traversal_traits) (ds es : List directions_t) :
    ∀ p, passable_route group tt p (ds ++ es)
      = (passable_route group tt p ds && passable_route group tt (T.follow p ds) es) := by
  induction ds with
  | nil => intro p; simp [passable_route, tile_traits.follow]
  | cons d ds ih =>
    intro p
    show (decide (d ∈ T.listed p tt.join_types) && !tt.is_impassable p d
        && !group.is_empty (T.get_relative p d)
        && passable_route group tt (T.get_relative p d) (ds ++ es))
      = ((decide (d ∈ T.listed p tt.join_types) && !tt.is_impassable p d
        && !group.is_empty (T.get_relative p d)
        && passable_route group tt (T.get_relative p d) ds)
        && passable_route group tt (T.follow (T.get_relative p d) ds) es)
    rw [ih]
    simp only [Bool.and_assoc]

theorem route_append_singleton (T : tile_traits) (ds : List directions_t)
    (d : directions_t) :
    ∀ p, T.route p (ds ++ [d]) = T.route p ds ++ [T.get_relative (T.follow p ds) d] := by
  induction ds with
  | nil => intro p; rfl
  | cons d2 ds ih =>
    intro p
    show p :: T.route (T.get_relative p d2) (ds ++ [d])
      = p :: T.route (T.get_relative p d2) ds
        ++ [T.get_relative (T.follow (T.get_relative p d2) ds) d]
    rw [ih]
    rfl

theorem route_length (T : tile_traits) (ds : List directions_t) :
    ∀ p, (T.route p ds).length = ds.length + 1 := by
  induction ds with
  | nil => intro p; rfl
  | cons d ds ih => intro p; simp only [tile_traits.route, List.length_cons, ih]

namespace pathfinder

variable {T : tile_traits} {α : Type}

/-- The chain of a sound entry is a passable route from the start node to the
coordinates of the entry, and the cost `g` of the entry is the cost of that route. -/
theorem sound_route {pf : pathfinder T α}
    (hj : pf.m_join_types = pf.m_traversal_traits.join_types) {e : ol_entry_ptr}
    (h : pf.sound e) :
    ∃ ds, passable_route pf.m_group pf.m_traversal_traits pf.m_start ds = true ∧
      T.follow pf.m_start ds = e.m_coords ∧
      route_cost T pf.m_traversal_traits pf.m_start ds = e.m_g_cost ∧
      e.walk_back [] = T.route pf.m_start ds := by
  induction h with
  | start => exact ⟨[], rfl, rfl, rfl, rfl⟩
  | step p d hp hd hend hemp himp ih =>
    obtain ⟨ds, h1, h2, h3, h4⟩ := ih
    refine ⟨ds ++ [d], ?_, ?_, ?_, ?_⟩
    · rw [passable_route_append, h1, h2]
      simp [passable_route, ← hj, hd, hemp, himp]
    · rw [follow_append, h2]; rfl
    · rw [route_cost_append, h2, h3, new_entry_g_cost]
      simp [route_cost]
    · rw [route_append_singleton, h2, ← h4]
      simp only [new_entry, ol_entry_ptr.walk_back]
      exact ol_entry_ptr.walk_back_append p _

end pathfinder

/-! ## Optimality and termination of the search with the zero heuristic -/

namespace open_list_t

theorem lower_bound_zero_head {ol : open_list_t} (h : ∀ e ∈ ol, 0 ≤ e.m_f_cost) :
    lower_bound_zero ol = ol.head? := by
  cases ol with
  | nil => rfl
  | cons x rest =>
    have := h x (List.mem_cons_self _ _)
    simp [lower_bound_zero, not_lt.mpr this]

end open_list_t

namespace pathfinder

variable {T : tile_traits} {α : Type}

theorem dstate_init (pf : pathfinder T α) :
    pf.dstate (open_list_t.insert [] (.entry pf.m_start 0
      (pf.m_heuristic pf.m_group pf.m_start pf.m_start pf.m_end pf.m_traversal_traits) .null))
      [] (.entry pf.m_start 0
      (pf.m_heuristic pf.m_group pf.m_start pf.m_start pf.m_end pf.m_traversal_traits) .null) := by
  refine ⟨inv_init pf, ⟨?_, ?_, ?_⟩, List.mem_singleton.mpr rfl, ?_⟩
  · intro p hp; cases hp
  · intro p hp; cases hp
  · exact Or.inr ⟨_, List.mem_singleton.mpr rfl, rfl, le_refl _⟩
  · intro e he
    have : e = .entry pf.m_start 0
      (pf.m_heuristic pf.m_group pf.m_start pf.m_start pf.m_end pf.m_traversal_traits) .null :=
      List.mem_singleton.mp he
    rw [this]

/-- The entry that the search continues with is an open entry of least cost. -/
theorem dstate_select {pf : pathfinder T α} (hd : pf.dijkstra_like) {ol : open_list_t}
    {closed : closed_list_t} (hinv : pf.inv ol closed) (hdij : pf.dinv ol closed)
    {nxt : ol_entry_ptr} (h : open_list_t.lower_bound_zero ol = some nxt) :
    pf.dstate ol closed nxt := by
  have hnn : ∀ e ∈ ol, 0 ≤ e.m_f_cost := by
    intro e he
    rw [sound_f_cost hd (hinv.ol_sound e he)]
    exact sound_g_nonneg hd (hinv.ol_sound e he)
  rw [open_list_t.lower_bound_zero_head hnn] at h
  refine ⟨hinv, hdij, List.mem_of_mem_head? h, ?_⟩
  intro e he
  cases ol with
  | nil => cases he
  | cons x rest =>
    simp only [List.head?_cons, Option.some.injEq] at h
    subst h
    rcases List.mem_cons.mp he with h1 | h1
    · rw [h1]
    · have := (List.pairwise_cons.mp hinv.ol_sorted).1 e h1
      rw [sound_f_cost hd (hinv.ol_sound x (List.mem_cons_self _ _)),
        sound_f_cost hd (hinv.ol_sound e he)] at this
      exact this

/-- A search with the zero heuristic that returns has found the end node at an entry
that costs no more than any passable route from the start node to a cell with the end
node as a listed neighbour. -/
theorem find_path_loop_optimal (pf : pathfinder T α) (hd : pf.dijkstra_like)
    (result : List vector_t) (fuel : Nat) :
    ∀ (ol : open_list_t) (closed : closed_list_t) (cur : ol_entry_ptr)
      (status : error_t) (path : List vector_t),
      pf.dstate ol closed cur →
      pf.find_path_loop result fuel ol closed cur = .ok (status, path) →
      ∃ last d, pf.sound last ∧ d ∈ T.listed last.m_coords pf.m_join_types ∧
        T.get_relative last.m_coords d = pf.m_end ∧
        path = last.walk_back result ++ [pf.m_end] ∧
        ∀ ds d2, passable_route pf.m_group pf.m_traversal_traits pf.m_start ds = true →
          d2 ∈ T.listed (T.follow pf.m_start ds) pf.m_join_types →
          T.get_relative (T.follow pf.m_start ds) d2 = pf.m_end →
          last.m_g_cost ≤ route_cost T pf.m_traversal_traits pf.m_start ds := by
  induction fuel with
  | zero => intro ol closed cur status path _ h; simp [find_path_loop] at h
  | succ fuel ih =>
    intro ol closed cur status path hs h
    have hcur := hs.base.ol_sound cur hs.cur_mem
    cases cur with
    | null => simp [find_path_loop] at h
    | entry c g f p =>
      simp only [find_path_loop] at h
      cases hcall : pf.m_group.operator_call c with
      | error e => rw [hcall] at h; cases h
      | ok r =>
        obtain ⟨nd, g2⟩ := r
        rw [hcall] at h
        simp only at h
        have hnd := (node_group.operator_call_coords hcall).1
        cases hdirs : nd.available_dirs pf.m_join_types with
        | none => rw [hdirs] at h; cases h
        | some dirs =>
          rw [hdirs] at h
          simp only at h
          have hlisted : T.listed (ol_entry_ptr.entry c g f p).m_coords pf.m_join_types
              = listed_dirs dirs := by
            simp only [node.available_dirs, hnd] at hdirs
            simp [tile_traits.listed, ol_entry_ptr.m_coords, hdirs]
          cases hexp : pf.expand (.entry c g f p)
              (std_map.insert vector_t.lt closed c (.entry c g f p)) dirs
              (open_list_t.erase ol c) with
          | failed e => rw [hexp] at h; cases h
          | found =>
            rw [hexp] at h
            simp only [Except.ok.injEq, Prod.mk.injEq] at h
            obtain ⟨d, hdl, he⟩ := expand_found dirs _ hexp
            refine ⟨.entry c g f p, d, hcur, by rw [hlisted]; exact hdl, he, h.2.symm, ?_⟩
            intro ds d2 hr hl2 he2
            obtain ⟨e, hmem, hle⟩ := open_entry_below_route hd hs.dij ds hr d2 hl2 he2
            exact le_trans (hs.cur_min e hmem) hle
          | next ol2 =>
            rw [hexp] at h
            simp only at h
            obtain ⟨hinv2, hdij2⟩ := dstate_step hd hs hlisted hexp
            cases hlb : open_list_t.lower_bound_zero ol2 with
            | none => rw [hlb] at h; cases h
            | some nxt =>
              rw [hlb] at h
              simp only at h
              exact ih ol2 _ nxt status path (dstate_select hd hinv2 hdij2 hlb) h

theorem visit_failed {pf : pathfinder T α} {cur : ol_entry_ptr} {closed : closed_list_t}
    {d : directions_t} {ol : open_list_t} {f : fault}
    (h : pf.visit cur closed d ol = .failed f) :
    T.get_relative cur.m_coords d = invalid_vector := by
  unfold visit at h
  simp only at h
  split at h
  · assumption
  · repeat' split at h
    all_goals cases h

theorem expand_ne_failed {pf : pathfinder T α} {cur : ol_entry_ptr} {closed : closed_list_t}
    (dirs : List directions_t) (hend : DIR_END ∈ dirs)
    (hrel : ∀ d ∈ listed_dirs dirs, T.get_relative cur.m_coords d ≠ invalid_vector) :
    ∀ (ol : open_list_t) (f : fault), pf.expand cur closed dirs ol ≠ .failed f := by
  induction dirs with
  | nil => cases hend
  | cons d dirs ih =>
    intro ol f
    simp only [expand]
    by_cases hde : d = DIR_END
    · simp [hde]
    · simp only [hde, if_false]
      have hl : listed_dirs (d :: dirs) = d :: listed_dirs dirs := by
        simp [listed_dirs, List.takeWhile_cons, hde]
      rw [hl] at hrel
      have hend2 : DIR_END ∈ dirs := by
        rcases List.mem_cons.mp hend with h1 | h1
        · exact absurd h1.symm hde
        · exact h1
      cases hv : pf.visit cur closed d ol with
      | found => simp
      | failed f2 => exact absurd (visit_failed hv) (hrel d (List.mem_cons_self _ _))
      | next ol1 =>
        simp only
        exact ih hend2 (fun d2 hd2 => hrel d2 (List.mem_cons_of_mem _ hd2)) ol1 f

/-- A search with the zero heuristic on fault free tiles, for an end node that can be
reached, returns `CG_OK` unless the bound on its rounds is used up. -/
theorem find_path_loop_returns (pf : pathfinder T α) (hd : pf.dijkstra_like)
    (hff : pf.fault_free) (hreach : pf.end_reachable) (result : List vector_t) (fuel : Nat) :
    ∀ (ol : open_list_t) (closed : closed_list_t) (cur : ol_entry_ptr),
      pf.dstate ol closed cur →
      (∃ path, pf.find_path_loop result fuel ol closed cur = .ok (CG_OK, path)) ∨
      pf.find_path_loop result fuel ol closed cur = .error .out_of_fuel := by
  induction fuel with
  | zero => intro ol closed cur _; right; rfl
  | succ fuel ih =>
    intro ol closed cur hs
    have hcur := hs.base.ol_sound cur hs.cur_mem
    cases cur with
    | null => exact absurd rfl (sound_ne_null hcur)
    | entry c g f p =>
      obtain ⟨hvalid, dirs, hav, hde, hrel⟩ := hff c (sound_coords hcur)
      have hcall : ∃ nd g2, pf.m_group.operator_call c = .ok (nd, g2) ∧ nd.m_coords = c := by
        unfold node_group.operator_call
        simp only [node_group.is_valid, hvalid, Bool.not_true, Bool.false_eq_true, if_false]
        split
        · exact ⟨_, _, rfl, rfl⟩
        · exact ⟨_, _, rfl, rfl⟩
      obtain ⟨nd, g2, hcall, hnd⟩ := hcall
      have hdirs : nd.available_dirs pf.m_join_types = some dirs := by
        simp only [node.available_dirs, hnd, hav]
      have hlisted : T.listed (ol_entry_ptr.entry c g f p).m_coords pf.m_join_types
          = listed_dirs dirs := by
        simp [tile_traits.listed, ol_entry_ptr.m_coords, hav]
      simp only [find_path_loop, hcall, hdirs]
      cases hexp : pf.expand (.entry c g f p)
          (std_map.insert vector_t.lt closed c (.entry c g f p)) dirs
          (open_list_t.erase ol c) with
      | failed e => exact absurd hexp (expand_ne_failed dirs hde hrel _ e)
      | found => left; exact ⟨_, rfl⟩
      | next ol2 =>
        simp only
        obtain ⟨hinv2, hdij2⟩ := dstate_step hd hs hlisted hexp
        obtain ⟨ds, d2, hr, hl2, he2⟩ := hreach
        obtain ⟨e, hmem, _⟩ := open_entry_below_route hd hdij2 ds hr d2 hl2 he2
        cases hlb : open_list_t.lower_bound_zero ol2 with
        | none =>
          have hnn : ∀ e ∈ ol2, 0 ≤ e.m_f_cost := by
            intro e he
            rw [sound_f_cost hd (hinv2.ol_sound e he)]
            exact sound_g_nonneg hd (hinv2.ol_sound e he)
          rw [open_list_t.lower_bound_zero_head hnn] at hlb
          cases ol2 with
          | nil => cases hmem
          | cons x rest => simp at hlb
        | some nxt =>
          simp only
          exact ih ol2 _ nxt (dstate_select hd hinv2 hdij2 hlb)

/-- The search with the zero heuristic and costs that are not negative: the path that
`find_path` returns is a passable route `ds` from the start node, put before the content
of `result`, and the end node, which is a listed neighbour of the last cell of the
route; no passable route from the start node to a cell with the end node as a listed
neighbour is cheaper than `ds`. -/
theorem find_path_optimal (pf : pathfinder T α) (hd : pf.dijkstra_like)
    (result : List vector_t) (status : error_t) (path : List vector_t)
    (h : pf.find_path result = .ok (status, path)) :
    ∃ ds d, passable_route pf.m_group pf.m_traversal_traits pf.m_start ds = true ∧
      d ∈ T.listed (T.follow pf.m_start ds) pf.m_join_types ∧
      T.get_relative (T.follow pf.m_start ds) d = pf.m_end ∧
      path = T.route pf.m_start ds ++ result ++ [pf.m_end] ∧
      ∀ ds2 d2, passable_route pf.m_group pf.m_traversal_traits pf.m_start ds2 = true →
        d2 ∈ T.listed (T.follow pf.m_start ds2) pf.m_join_types →
        T.get_relative (T.follow pf.m_start ds2) d2 = pf.m_end →
        route_cost T pf.m_traversal_traits pf.m_start ds
          ≤ route_cost T pf.m_traversal_traits pf.m_start ds2 := by
  unfold find_path at h
  simp only at h
  obtain ⟨last, d, hs, hl, he, hp, hopt⟩ :=
    find_path_loop_optimal pf hd result _ _ _ _ status path (dstate_init pf) h
  obtain ⟨ds, h1, h2, h3, h4⟩ := sound_route hd.join_types_eq hs
  refine ⟨ds, d, h1, by rw [h2]; exact hl, by rw [h2]; exact he, ?_, ?_⟩
  · rw [hp, ol_entry_ptr.walk_back_append, h4]
  · intro ds2 d2 hr hl2 he2
    rw [h3]
    exact hopt ds2 d2 hr hl2 he2

/-- The search with the zero heuristic and costs that are not negative, on fault free
tiles and for an end node that can be reached, returns `CG_OK`. -/
theorem find_path_returns (pf : pathfinder T α) (hd : pf.dijkstra_like)
    (hff : pf.fault_free) (hreach : pf.end_reachable) (result : List vector_t) :
    ∃ path, pf.find_path result = .ok (CG_OK, path) := by
  have h1 := find_path_loop_returns pf hd hff hreach result
    (pf.m_group.m_nodes.length + 2) _ _ _ (dstate_init pf)
  have h2 := find_path_loop_fuel pf result (pf.m_group.m_nodes.length + 2) _ _ _
    (inv_init pf) (List.mem_singleton.mpr rfl) (by simp)
  rcases h1 with h1 | h1
  · exact h1
  · exact absurd h1 h2

end pathfinder


/-! ## Edges only against edges and corners -/

theorem rectangular_listed_edges (p : vector_t) :
    rectangular_tile_traits.listed p EDGES = [NORTH, EAST, SOUTH, WEST] := rfl

theorem rectangular_listed_default (p : vector_t) :
    rectangular_tile_traits.listed p (EDGES ||| CORNERS_FACING)
      = [NORTH, NORTH_EAST, EAST, SOUTH_EAST, SOUTH, SOUTH_WEST, WEST, NORTH_WEST] := rfl

theorem simple_rectangular_cost (p : vector_t) (d : directions_t) :
    simple_rectangular.traversal_cost p d
      = default_costs_rectangular_traversal_cost ⟨0, 0⟩ d := rfl

theorem rectangular_edges_listed (p : vector_t) (d : directions_t)
    (h : d ∈ rectangular_tile_traits.listed p EDGES) :
    d ∈ rectangular_tile_traits.listed p (EDGES ||| CORNERS_FACING) := by
  revert h
  rw [rectangular_listed_edges, rectangular_listed_default]
  cases d <;> decide

theorem hexagonal_edges_listed (p : vector_t) (d : directions_t)
    (h : d ∈ hexagonal_tile_traits.listed p EDGES) :
    d ∈ hexagonal_tile_traits.listed p (EDGES ||| CORNERS_FACING) := h

theorem triangular_listed (p : vector_t) (join_type : join_t) :
    triangular_tile_traits.listed p join_type
      = if Int.tmod (p.m_x + p.m_y) 2 ≠ 0 then
          (match triangular_tile_traits.available_dirs_triangular_down join_type with
            | none => []
            | some dirs => listed_dirs dirs)
        else
          (match triangular_tile_traits.available_dirs_triangular_up join_type with
            | none => []
            | some dirs => listed_dirs dirs) := by
  unfold tile_traits.listed
  show (match triangular_tile_traits.available_dirs p join_type with
    | none => []
    | some dirs => listed_dirs dirs) = _
  unfold triangular_tile_traits.available_dirs
  simp only
  split_ifs <;> rfl

theorem triangular_edges_listed (p : vector_t) (d : directions_t)
    (h : d ∈ triangular_tile_traits.listed p EDGES) :
    d ∈ triangular_tile_traits.listed p (EDGES ||| CORNERS_FACING) := by
  revert h
  rw [triangular_listed, triangular_listed]
  split_ifs
  · cases d <;> decide
  · cases d <;> decide

theorem passable_route_listed {T : tile_traits} {α : Type} (group : node_group T α)
    (tt : traversal_traits) (ds : List directions_t) :
    ∀ p, passable_route group tt p ds = true →
      ∀ (lo : unit_t), (∀ q d, d ∈ T.listed q tt.join_types → lo ≤ tt.traversal_cost q d) →
        lo * ds.length ≤ route_cost T tt p ds := by
  induction ds with
  | nil => intro p _ lo _; simp [route_cost]
  | cons d ds ih =>
    intro p hr lo hlo
    simp only [passable_route, Bool.and_eq_true, decide_eq_true_eq] at hr
    have h1 := hlo p d hr.1.1.1
    have h2 := ih _ hr.2 lo hlo
    simp only [route_cost, List.length_cons, Nat.cast_add, Nat.cast_one]
    linarith

theorem passable_route_cost_le {T : tile_traits} {α : Type} (group : node_group T α)
    (tt : traversal_traits) (ds : List directions_t) :
    ∀ p, passable_route group tt p ds = true →
      ∀ (hi : unit_t), (∀ q d, d ∈ T.listed q tt.join_types → tt.traversal_cost q d ≤ hi) →
        route_cost T tt p ds ≤ hi * ds.length := by
  induction ds with
  | nil => intro p _ hi _; simp [route_cost]
  | cons d ds ih =>
    intro p hr hi hhi
    simp only [passable_route, Bool.and_eq_true, decide_eq_true_eq] at hr
    have h1 := hhi p d hr.1.1.1
    have h2 := ih _ hr.2 hi hhi
    simp only [route_cost, List.length_cons, Nat.cast_add, Nat.cast_one]
    linarith

theorem passable_route_mono {T : tile_traits} {α : Type} (group : node_group T α)
    (tt : traversal_traits) (j1 j2 : join_t)
    (hsub : ∀ p d, d ∈ T.listed p j1 → d ∈ T.listed p j2) (ds : List directions_t) :
    ∀ p, passable_route group (tt.with_join_types j1) p ds = true →
      passable_route group (tt.with_join_types j2) p ds = true := by
  induction ds with
  | nil => intro p _; rfl
  | cons d ds ih =>
    intro p hr
    simp only [passable_route, traversal_traits.with_join_types, Bool.and_eq_true,
      decide_eq_true_eq] at hr ⊢
    exact ⟨⟨⟨hsub p d hr.1.1.1, hr.1.1.2⟩, hr.1.2⟩, ih _ hr.2⟩

theorem route_cost_with_join_types (T : tile_traits) (tt : traversal_traits) (j : join_t)
    (ds : List directions_t) :
    ∀ p, route_cost T (tt.with_join_types j) p ds = route_cost T tt p ds := by
  induction ds with
  | nil => intro p; rfl
  | cons d ds ih =>
    intro p
    show tt.traversal_cost p d + route_cost T (tt.with_join_types j) (T.get_relative p d) ds
      = tt.traversal_cost p d + route_cost T tt (T.get_relative p d) ds
    rw [ih]

/-- Claim C7 (counterexample). On the group with nodes (0, 0), (0, 1), (1, 0), where the
move east from (0, 0) costs 100 and every other move costs 1, the search with the zero
heuristic from (0, 0) for (2, 0) returns three coordinates with the join types `EDGES`
and four coordinates with `EDGES | CORNERS_FACING`: the restricted search has the
shorter path. -/
theorem edges_only_path_can_be_shorter :
    a_star [] corner_group ⟨0, 0⟩ ⟨2, 0⟩ (dear_east.with_join_types EDGES) dijkstra
      = .ok (CG_OK, [⟨0, 0⟩, ⟨1, 0⟩, ⟨2, 0⟩]) ∧
    a_star [] corner_group ⟨0, 0⟩ ⟨2, 0⟩
      (dear_east.with_join_types (EDGES ||| CORNERS_FACING)) dijkstra
      = .ok (CG_OK, [⟨0, 0⟩, ⟨0, 1⟩, ⟨1, 0⟩, ⟨2, 0⟩]) ∧
    ¬ (([⟨0, 0⟩, ⟨0, 1⟩, ⟨1, 0⟩, ⟨2, 0⟩] : List vector_t).length
        ≤ ([⟨0, 0⟩, ⟨1, 0⟩, ⟨2, 0⟩] : List vector_t).length) := by
  refine ⟨by decide, by decide, by decide⟩

/-- Claim C7 (amended). Restricting the join types does not shorten the path when the
heuristic is zero and no edge move costs more than some `c > 0` while no move along an
edge or a facing corner costs less than `c` (as with each table of `default_costs`): for
tile traits whose `EDGES` directions are listed for `EDGES | CORNERS_FACING` too, every
group, start and end, if the search with `EDGES` returns `CG_OK` with the path `P_e` and
the search with `EDGES | CORNERS_FACING`, the same costs and the same impassable moves
returns `CG_OK` with the path `P_c`, then `P_e` has at least as many coordinates as
`P_c`. -/
theorem edges_only_path_not_shorter {T : tile_traits} {α : Type} (group : node_group T α)
    (start m_end : vector_t) (tt : traversal_traits) (c : unit_t) (P_e P_c : List vector_t)
    (hsub : ∀ p d, d ∈ T.listed p EDGES → d ∈ T.listed p (EDGES ||| CORNERS_FACING))
    (hc : 0 < c)
    (hedge : ∀ p d, d ∈ T.listed p EDGES → tt.traversal_cost p d ≤ c)
    (hall : ∀ p d, d ∈ T.listed p (EDGES ||| CORNERS_FACING) → c ≤ tt.traversal_cost p d)
    (he : a_star [] group start m_end (tt.with_join_types EDGES) dijkstra = .ok (CG_OK, P_e))
    (hcor : a_star [] group start m_end (tt.with_join_types (EDGES ||| CORNERS_FACING))
      dijkstra = .ok (CG_OK, P_c)) :
    P_c.length ≤ P_e.length := by
  unfold a_star at he hcor
  split at he
  · cases he
  · split at hcor
    · cases hcor
    · have hde : pathfinder.dijkstra_like (⟨group, start, m_end, tt.with_join_types EDGES,
          dijkstra, (tt.with_join_types EDGES).join_types⟩ : pathfinder T α) :=
        ⟨fun _ => rfl, fun p d hd => le_trans (le_of_lt hc) (hall p d (hsub p d hd)), rfl⟩
      have hdc : pathfinder.dijkstra_like (⟨group, start, m_end,
          tt.with_join_types (EDGES ||| CORNERS_FACING), dijkstra,
          (tt.with_join_types (EDGES ||| CORNERS_FACING)).join_types⟩ : pathfinder T α) :=
        ⟨fun _ => rfl, fun p d hd => le_trans (le_of_lt hc) (hall p d hd), rfl⟩
      obtain ⟨ds, d, hr, hl, hend, hp, _⟩ := pathfinder.find_path_optimal _ hde _ _ _ he
      obtain ⟨ds2, d2, hr2, hl2, hend2, hp2, hopt⟩ :=
        pathfinder.find_path_optimal _ hdc _ _ _ hcor
      simp only at hr hl hend hp hr2 hl2 hend2 hp2 hopt
      have h1 := hopt ds d (passable_route_mono group tt _ _ hsub ds _ hr) (hsub _ _ hl) hend
      have h2 := passable_route_listed group _ ds2 _ hr2 c hall
      have h3 := passable_route_cost_le group _ ds _ hr c hedge
      rw [route_cost_with_join_types] at h1 h2 h3
      rw [route_cost_with_join_types] at h1
      have h5 : c * (ds2.length : Int) ≤ c * (ds.length : Int) := by linarith
      have h6 : (ds2.length : Int) ≤ ds.length := le_of_mul_le_mul_left h5 hc
      rw [hp, hp2]
      simp only [List.length_append, route_length, List.length_nil, List.length_singleton]
      omega

/-- A concrete instance of `edges_only_path_not_shorter`: three nodes in a row with the
default costs of rectangular tiles, for which both searches return the same path. -/
theorem edges_only_path_not_shorter_witness :
    (∀ p d, d ∈ rectangular_tile_traits.listed p EDGES →
      d ∈ rectangular_tile_traits.listed p (EDGES ||| CORNERS_FACING)) ∧
    (0 : unit_t) < 10 ∧
    (∀ p d, d ∈ rectangular_tile_traits.listed p EDGES →
      simple_rectangular.traversal_cost p d ≤ 10) ∧
    (∀ p d, d ∈ rectangular_tile_traits.listed p (EDGES ||| CORNERS_FACING) →
      10 ≤ simple_rectangular.traversal_cost p d) ∧
    a_star [] three_in_a_row ⟨0, 0⟩ ⟨2, 0⟩ (simple_rectangular.with_join_types EDGES)
      dijkstra = .ok (CG_OK, [⟨0, 0⟩, ⟨1, 0⟩, ⟨2, 0⟩]) ∧
    a_star [] three_in_a_row ⟨0, 0⟩ ⟨2, 0⟩
      (simple_rectangular.with_join_types (EDGES ||| CORNERS_FACING)) dijkstra
      = .ok (CG_OK, [⟨0, 0⟩, ⟨1, 0⟩, ⟨2, 0⟩]) ∧
    ([⟨0, 0⟩, ⟨1, 0⟩, ⟨2, 0⟩] : List vector_t).length
      ≤ ([⟨0, 0⟩, ⟨1, 0⟩, ⟨2, 0⟩] : List vector_t).length :=
  have h1 : ∀ p d, d ∈ rectangular_tile_traits.listed p EDGES →
      simple_rectangular.traversal_cost p d ≤ 10 := by
    intro p d
    rw [rectangular_listed_edges, simple_rectangular_cost]
    cases d <;> decide
  have h2 : ∀ p d, d ∈ rectangular_tile_traits.listed p (EDGES ||| CORNERS_FACING) →
      10 ≤ simple_rectangular.traversal_cost p d := by
    intro p d
    rw [rectangular_listed_default, simple_rectangular_cost]
    cases d <;> decide
  ⟨rectangular_edges_listed, by decide, h1, h2, by decide, by decide,
    edges_only_path_not_shorter three_in_a_row ⟨0, 0⟩ ⟨2, 0⟩ simple_rectangular 10
      [⟨0, 0⟩, ⟨1, 0⟩, ⟨2, 0⟩] [⟨0, 0⟩, ⟨1, 0⟩, ⟨2, 0⟩] rectangular_edges_listed (by decide)
      h1 h2 (by decide) (by decide)⟩


/-! ## The search on an unobstructed rectangular map -/

/-- A move of rectangular tiles in a listed direction changes column and row by at most
one; it costs 10 when one of them stays and 14 otherwise. -/
theorem rectangular_step (s : vector_t) (d : directions_t)
    (h : d ∈ rectangular_tile_traits.listed s (EDGES ||| CORNERS_FACING)) :
    ∃ (dx dy w : Int),
      tile_traits.get_relative rectangular_tile_traits s d = ⟨s.m_x + dx, s.m_y + dy⟩ ∧
      simple_rectangular.traversal_cost s d = w ∧
      -1 ≤ dx ∧ dx ≤ 1 ∧ -1 ≤ dy ∧ dy ≤ 1 ∧
      ((w = 10 ∧ (dx = 0 ∨ dy = 0)) ∨ w = 14) := by
  rw [rectangular_listed_default] at h
  rw [simple_rectangular_cost]
  simp only [List.mem_cons, List.mem_singleton, List.not_mem_nil, or_false] at h
  rcases h with h | h | h | h | h | h | h | h <;> subst h
  · exact ⟨0, -1, 10, rfl, rfl, by decide⟩
  · exact ⟨1, -1, 14, rfl, rfl, by decide⟩
  · exact ⟨1, 0, 10, rfl, rfl, by decide⟩
  · exact ⟨1, 1, 14, rfl, rfl, by decide⟩
  · exact ⟨0, 1, 10, rfl, rfl, by decide⟩
  · exact ⟨-1, 1, 14, rfl, rfl, by decide⟩
  · exact ⟨-1, 0, 10, rfl, rfl, by decide⟩
  · exact ⟨-1, -1, 14, rfl, rfl, by decide⟩

/-- A route of `n` listed moves of rectangular tiles, `a` of them at cost 14, costs
`10 n + 4 a`; it changes column and row by at most `n` each and their sum by at most
`n + a`. -/
theorem rectangular_route_bounds (ds : List directions_t) :
    ∀ s : vector_t,
      (∀ d ∈ ds, ∀ p, d ∈ rectangular_tile_traits.listed p (EDGES ||| CORNERS_FACING)) →
      ∃ a : Int, 0 ≤ a ∧
        route_cost rectangular_tile_traits simple_rectangular s ds = 10 * ds.length + 4 * a ∧
        ((rectangular_tile_traits.follow s ds).m_x - s.m_x).natAbs ≤ ds.length ∧
        ((rectangular_tile_traits.follow s ds).m_y - s.m_y).natAbs ≤ ds.length ∧
        (((rectangular_tile_traits.follow s ds).m_x - s.m_x).natAbs : Int)
          + ((rectangular_tile_traits.follow s ds).m_y - s.m_y).natAbs ≤ ds.length + a := by
  induction ds with
  | nil =>
    intro s _
    exact ⟨0, le_refl _, by simp [route_cost], by simp [tile_traits.follow],
      by simp [tile_traits.follow], by simp [tile_traits.follow]⟩
  | cons d ds ih =>
    intro s hl
    obtain ⟨dx, dy, w, hrel, hcost, h1, h2, h3, h4, hw⟩ :=
      rectangular_step s d (hl d (List.mem_cons_self _ _) s)
    obtain ⟨a, ha, hc, hx, hy, hxy⟩ :=
      ih (tile_traits.get_relative rectangular_tile_traits s d)
        (fun d2 hd2 => hl d2 (List.mem_cons_of_mem _ hd2))
    have hrel2 : tile_traits.get_relative rectangular_tile_traits s d = ⟨s.m_x + dx, s.m_y + dy⟩ := hrel
    simp only [tile_traits.follow, route_cost, List.length_cons, Nat.cast_add, Nat.cast_one]
    rw [hc, hcost]
    rw [hrel2] at hx hy hxy ⊢
    simp only at hx hy hxy ⊢
    generalize (rectangular_tile_traits.follow ⟨s.m_x + dx, s.m_y + dy⟩ ds).m_x = tx at *
    generalize (rectangular_tile_traits.follow ⟨s.m_x + dx, s.m_y + dy⟩ ds).m_y = ty at *
    generalize s.m_x = sx at *
    generalize s.m_y = sy at *
    unfold unit_t at *
    rcases hw with ⟨hw10, hz⟩ | hw14
    · refine ⟨a, ha, by omega, by omega, by omega, by omega⟩
    · refine ⟨a + 1, by omega, by omega, by omega, by omega, by omega⟩

/-- The direction towards a different cell is listed, and the move in it closes in on the
cell by one column, when the columns differ, and by one row, when the rows differ; it
costs 14 when both differ and 10 otherwise. -/
theorem toward_step (s t : vector_t) (hne : s ≠ t) :
    toward s t ∈ rectangular_tile_traits.listed s (EDGES ||| CORNERS_FACING) ∧
    ∃ (dx dy w : Int),
      tile_traits.get_relative rectangular_tile_traits s (toward s t) = ⟨s.m_x + dx, s.m_y + dy⟩ ∧
      simple_rectangular.traversal_cost s (toward s t) = w ∧
      ((s.m_x < t.m_x ∧ dx = 1) ∨ (t.m_x < s.m_x ∧ dx = -1) ∨ (s.m_x = t.m_x ∧ dx = 0)) ∧
      ((s.m_y < t.m_y ∧ dy = 1) ∨ (t.m_y < s.m_y ∧ dy = -1) ∨ (s.m_y = t.m_y ∧ dy = 0)) ∧
      ((w = 14 ∧ dx ≠ 0 ∧ dy ≠ 0) ∨ (w = 10 ∧ (dx = 0 ∨ dy = 0))) := by
  rw [rectangular_listed_default, simple_rectangular_cost]
  have hxy : s.m_x ≠ t.m_x ∨ s.m_y ≠ t.m_y := by
    by_contra hcon
    push_neg at hcon
    apply hne
    cases s; cases t
    simp only at hcon
    simp [hcon.1, hcon.2]
  unfold toward
  unfold unit_t at *
  split_ifs with h1 h2 h3 h4 h5 h6 h7
  · exact ⟨by decide, 1, 1, 14, rfl, rfl, by omega⟩
  · exact ⟨by decide, 1, -1, 14, rfl, rfl, by omega⟩
  · exact ⟨by decide, 1, 0, 10, rfl, rfl, by omega⟩
  · exact ⟨by decide, -1, 1, 14, rfl, rfl, by omega⟩
  · exact ⟨by decide, -1, -1, 14, rfl, rfl, by omega⟩
  · exact ⟨by decide, -1, 0, 10, rfl, rfl, by omega⟩
  · exact ⟨by decide, 0, 1, 10, rfl, rfl, by omega⟩
  · exact ⟨by decide, 0, -1, 10, rfl, rfl, by omega⟩


theorem vector_t.eq_mk {t : vector_t} {x y : unit_t} (hx : t.m_x = x) (hy : t.m_y = y) :
    (⟨x, y⟩ : vector_t) = t := by
  cases t
  simp only at hx hy
  rw [hx, hy]

/-- The arithmetic of the last move of `rectangular_canonical_route`. -/
theorem toward_arrives (sx sy tx ty dx dy : Int)
    (hx : (sx < tx ∧ dx = 1) ∨ (tx < sx ∧ dx = -1) ∨ (sx = tx ∧ dx = 0))
    (hy : (sy < ty ∧ dy = 1) ∨ (ty < sy ∧ dy = -1) ∨ (sy = ty ∧ dy = 0))
    (hmax : max (tx - sx).natAbs (ty - sy).natAbs = 0 + 1) :
    tx = sx + dx ∧ ty = sy + dy := by
  omega

/-- The arithmetic of a move of `rectangular_canonical_route` that is not the last: the
cell reached is in the rectangle and one move closer. -/
theorem toward_closes_in (W H k : Nat) (sx sy tx ty dx dy : Int)
    (hx : (sx < tx ∧ dx = 1) ∨ (tx < sx ∧ dx = -1) ∨ (sx = tx ∧ dx = 0))
    (hy : (sy < ty ∧ dy = 1) ∨ (ty < sy ∧ dy = -1) ∨ (sy = ty ∧ dy = 0))
    (hmax : max (tx - sx).natAbs (ty - sy).natAbs = k + 1 + 1)
    (hs : 0 ≤ sx ∧ sx < W ∧ 0 ≤ sy ∧ sy < H) (ht : 0 ≤ tx ∧ tx < W ∧ 0 ≤ ty ∧ ty < H) :
    (0 ≤ sx + dx ∧ sx + dx < W ∧ 0 ≤ sy + dy ∧ sy + dy < H) ∧
    max (tx - (sx + dx)).natAbs (ty - (sy + dy)).natAbs = k + 1 := by
  rcases hx with ⟨h1, rfl⟩ | ⟨h1, rfl⟩ | ⟨h1, rfl⟩ <;>
    rcases hy with ⟨h2, rfl⟩ | ⟨h2, rfl⟩ | ⟨h2, rfl⟩ <;> omega

/-- The arithmetic of a move of `rectangular_canonical_route` that is not the last: the
bound on the cost. -/
theorem toward_cost (k : Nat) (sx sy tx ty dx dy w c2 : Int)
    (hx : (sx < tx ∧ dx = 1) ∨ (tx < sx ∧ dx = -1) ∨ (sx = tx ∧ dx = 0))
    (hy : (sy < ty ∧ dy = 1) ∨ (ty < sy ∧ dy = -1) ∨ (sy = ty ∧ dy = 0))
    (hw : (w = 14 ∧ dx ≠ 0 ∧ dy ≠ 0) ∨ (w = 10 ∧ (dx = 0 ∨ dy = 0)))
    (hc : c2 ≤ 10 * (k : Int)
      + 4 * (min (tx - (sx + dx)).natAbs (ty - (sy + dy)).natAbs : Nat)) :
    w + c2 ≤ 10 * ((k + 1 : Nat) : Int)
      + 4 * (min (tx - sx).natAbs (ty - sy).natAbs : Nat) := by
  rcases hx with ⟨h1, rfl⟩ | ⟨h1, rfl⟩ | ⟨h1, rfl⟩ <;>
    rcases hy with ⟨h2, rfl⟩ | ⟨h2, rfl⟩ | ⟨h2, rfl⟩ <;> omega

/-- On a group whose nodes are the cells of a rectangle there is, between two different
cells `s` and `t` of it, a passable route from `s` to a neighbour of `t` that is as cheap
as moving diagonally first and straight then. -/
theorem rectangular_canonical_route {α : Type} (W H : Nat)
    (group : node_group rectangular_tile_traits α)
    (hgrid : ∀ c, group.is_empty c = false ↔ in_rectangle W H c)
    (t : vector_t) (ht : in_rectangle W H t) :
    ∀ (k : Nat) (s : vector_t), in_rectangle W H s →
      max (t.m_x - s.m_x).natAbs (t.m_y - s.m_y).natAbs = k + 1 →
      ∃ ds d, passable_route group simple_rectangular s ds = true ∧
        d ∈ tile_traits.listed rectangular_tile_traits
          (tile_traits.follow rectangular_tile_traits s ds) (EDGES ||| CORNERS_FACING) ∧
        tile_traits.get_relative rectangular_tile_traits
          (tile_traits.follow rectangular_tile_traits s ds) d = t ∧
        route_cost rectangular_tile_traits simple_rectangular s ds
          ≤ 10 * k + 4 * (min (t.m_x - s.m_x).natAbs (t.m_y - s.m_y).natAbs : Nat) := by
  intro k
  induction k with
  | zero =>
    intro s hs hmax
    have hne : s ≠ t := by
      intro e; subst e; simp at hmax
    obtain ⟨hl, dx, dy, w, hrel, _, hx, hy, _⟩ := toward_step s t hne
    obtain ⟨h1, h2⟩ := toward_arrives s.m_x s.m_y t.m_x t.m_y dx dy hx hy hmax
    refine ⟨[], toward s t, rfl, hl, ?_, ?_⟩
    · show tile_traits.get_relative rectangular_tile_traits s (toward s t) = t
      rw [hrel]
      exact vector_t.eq_mk h1 h2
    · simp only [route_cost]
      positivity
  | succ k ih =>
    intro s hs hmax
    have hne : s ≠ t := by
      intro e; subst e; simp at hmax
    obtain ⟨hl, dx, dy, w, hrel, hcost, hx, hy, hw⟩ := toward_step s t hne
    obtain ⟨hs2, hmax2⟩ :=
      toward_closes_in W H k s.m_x s.m_y t.m_x t.m_y dx dy hx hy hmax hs ht
    obtain ⟨ds, d, hr, hdl, hend, hc⟩ := ih ⟨s.m_x + dx, s.m_y + dy⟩ hs2 hmax2
    simp only at hc
    refine ⟨toward s t :: ds, d, ?_, ?_, ?_, ?_⟩
    · simp only [passable_route, Bool.and_eq_true, decide_eq_true_eq, Bool.not_eq_true']
      rw [hrel]
      exact ⟨⟨⟨hl, rfl⟩, (hgrid _).mpr hs2⟩, hr⟩
    · simp only [tile_traits.follow]
      rw [hrel]; exact hdl
    · simp only [tile_traits.follow]
      rw [hrel]; exact hend
    · simp only [route_cost]
      rw [hrel, hcost]
      exact toward_cost k s.m_x s.m_y t.m_x t.m_y dx dy w _ hx hy hw hc

/-- The arithmetic of `rectangular_dijkstra_length`: a route of `n + 1` moves, `a` of them
diagonal, that spans `X` columns and `Y` rows and is, but for its last move, as cheap as
`k` moves of which the lesser of `X` and `Y` are diagonal, has as many moves as the
greater of `X` and `Y`. -/
theorem chebyshev_count (n k X Y : Nat) (a c1 c2 w : Int)
    (hk : max X Y = k + 1) (hc2 : c2 ≤ 10 * (k : Int) + 4 * (min X Y : Nat))
    (hc1 : c1 ≤ c2) (hcost : c1 + w = 10 * ((n : Int) + 1) + 4 * a)
    (hx : X ≤ n + 1) (hy : Y ≤ n + 1) (hxy : (X : Int) + Y ≤ (n : Int) + 1 + a)
    (hw : w = 10 ∨ w = 14) : n + 1 + 0 + 1 = max X Y + 1 := by
  omega

theorem passable_route_all_listed {α : Type} (group : node_group rectangular_tile_traits α)
    (ds : List directions_t) :
    ∀ s, passable_route group simple_rectangular s ds = true →
      ∀ d ∈ ds, ∀ p,
        d ∈ tile_traits.listed rectangular_tile_traits p (EDGES ||| CORNERS_FACING) := by
  induction ds with
  | nil => intro s _ d hd; cases hd
  | cons d1 ds ih =>
    intro s hr d hd p
    simp only [passable_route, Bool.and_eq_true, decide_eq_true_eq] at hr
    rcases List.mem_cons.mp hd with h1 | h1
    · rw [h1]; exact hr.1.1.1
    · exact ih _ hr.2 d h1 p

/-- The search with the zero heuristic and the default costs on an unobstructed
rectangular map: between two different cells of the map `a_star` returns `CG_OK` and a
path from `start` to `end` that has one coordinate more than the greater of the column
and row distances. -/
theorem rectangular_dijkstra_length {α : Type} (W H : Nat)
    (group : node_group rectangular_tile_traits α)
    (hgrid : ∀ c, group.is_empty c = false ↔ in_rectangle W H c)
    (start m_end : vector_t) (hs : in_rectangle W H start) (he : in_rectangle W H m_end)
    (hne : start ≠ m_end) :
    ∃ path, a_star [] group start m_end simple_rectangular dijkstra = .ok (CG_OK, path) ∧
      path.length = max (m_end.m_x - start.m_x).natAbs (m_end.m_y - start.m_y).natAbs + 1 ∧
      path.head? = some start ∧ path.getLast? = some m_end := by
  have hvalid : ∀ c, in_rectangle W H c → group.is_valid c = true := by
    intro c hc
    simp only [node_group.is_valid, rectangular_tile_traits, rectangular_tile_traits.is_valid,
      bne_iff_ne, ne_eq]
    intro e
    rw [e] at hc
    exact absurd hc.1 (by decide)
  have hd : pathfinder.dijkstra_like (⟨group, start, m_end, simple_rectangular, dijkstra,
      simple_rectangular.join_types⟩ : pathfinder rectangular_tile_traits α) := by
    refine ⟨fun _ => rfl, ?_, rfl⟩
    intro c d hl
    obtain ⟨dx, dy, w, _, hcost, _, _, _, _, hw⟩ := rectangular_step c d hl
    simp only
    rw [hcost]
    rcases hw with ⟨h, _⟩ | h <;> rw [h] <;> decide
  have hff : pathfinder.fault_free (⟨group, start, m_end, simple_rectangular, dijkstra,
      simple_rectangular.join_types⟩ : pathfinder rectangular_tile_traits α) := by
    intro c hc
    have hin : in_rectangle W H c := by
      rcases hc with h | h
      · rw [h]; exact hs
      · exact (hgrid c).mp h
    have hav : tile_traits.available_dirs rectangular_tile_traits c
        simple_rectangular.join_types = some rectangular_tile_traits.all := by rfl
    refine ⟨hvalid c hin, rectangular_tile_traits.all, hav, by decide, ?_⟩
    intro d hdl
    obtain ⟨dx, dy, w, hrel, _, h1, _, _, _, _⟩ := rectangular_step c d hdl
    rw [hrel]
    intro e
    have hx : c.m_x + dx = invalid_unit := congrArg vector_t.m_x e
    have := hin.1
    unfold invalid_unit at hx
    unfold unit_t at *
    omega
  have hM : ∃ k : Nat,
      max (m_end.m_x - start.m_x).natAbs (m_end.m_y - start.m_y).natAbs = k + 1 := by
    refine ⟨max (m_end.m_x - start.m_x).natAbs (m_end.m_y - start.m_y).natAbs - 1, ?_⟩
    have : start.m_x ≠ m_end.m_x ∨ start.m_y ≠ m_end.m_y := by
      by_contra hcon
      push_neg at hcon
      exact hne (vector_t.eq_mk hcon.1.symm hcon.2.symm ▸ rfl)
    unfold unit_t at *
    omega
  obtain ⟨k, hk⟩ := hM
  obtain ⟨cs, cd, hcr, hcl, hcend, hccost⟩ :=
    rectangular_canonical_route W H group hgrid m_end he k start hs hk
  have hreach : pathfinder.end_reachable (⟨group, start, m_end, simple_rectangular,
      dijkstra, simple_rectangular.join_types⟩ : pathfinder rectangular_tile_traits α) :=
    ⟨cs, cd, hcr, hcl, hcend⟩
  obtain ⟨path, hpath⟩ := pathfinder.find_path_returns _ hd hff hreach []
  obtain ⟨ds, d, hr, hl, hend, hp, hopt⟩ := pathfinder.find_path_optimal _ hd _ _ _ hpath
  simp only at hr hl hend hp hopt
  have hc1 := hopt cs cd hcr hcl hcend
  have hall : ∀ d2 ∈ ds ++ [d], ∀ p,
      d2 ∈ tile_traits.listed rectangular_tile_traits p (EDGES ||| CORNERS_FACING) := by
    intro d2 hd2 p
    rcases List.mem_append.mp hd2 with h1 | h1
    · exact passable_route_all_listed group ds start hr d2 h1 p
    · rw [List.mem_singleton.mp h1]; exact hl
  obtain ⟨a, ha, hcost, hx, hy, hxy⟩ := rectangular_route_bounds (ds ++ [d]) start hall
  have hfol : tile_traits.follow rectangular_tile_traits start (ds ++ [d]) = m_end := by
    rw [follow_append]; exact hend
  rw [hfol] at hx hy hxy
  rw [route_cost_append] at hcost
  obtain ⟨dx, dy, w, _, hw, _, _, _, _, hw2⟩ :=
    rectangular_step (tile_traits.follow rectangular_tile_traits start ds) d hl
  have hlast : route_cost rectangular_tile_traits simple_rectangular
      (tile_traits.follow rectangular_tile_traits start ds) [d] = w := by
    simp only [route_cost, add_zero]; exact hw
  rw [hlast] at hcost
  refine ⟨path, ?_, ?_, ?_, ?_⟩
  · unfold a_star
    simp only [hvalid start hs, hvalid m_end he, Bool.not_true, Bool.or_self,
      Bool.false_eq_true, if_false]
    exact hpath
  · rw [hp]
    simp only [List.length_append, route_length, List.length_nil, List.length_singleton,
      List.length_cons] at hx hy hxy hcost ⊢
    exact chebyshev_count ds.length k _ _ a _ _ w hk hccost hc1 hcost hx hy hxy
      (by rcases hw2 with ⟨h10, _⟩ | h14
          · exact Or.inl h10
          · exact Or.inr h14)
  · rw [hp]
    cases ds <;> rfl
  · rw [hp]
    simp


/-! ## The map of the tests -/

theorem node_group.operator_call_valid {T : tile_traits} {α : Type} (group : node_group T α)
    (coords : vector_t) (hv : T.is_valid coords = true) :
    ∃ id g2, group.operator_call coords = .ok (⟨id, coords⟩, g2) ∧
      g2.m_nodes = group.m_nodes := by
  unfold node_group.operator_call
  simp only [node_group.is_valid, hv, Bool.not_true, Bool.false_eq_true, if_false]
  cases std_map.find group.m_nodes coords with
  | none => exact ⟨_, _, rfl, rfl⟩
  | some id => exact ⟨_, _, rfl, rfl⟩

theorem node_group.is_empty_put {T : tile_traits} {α : Type} (group : node_group T α)
    (coords : vector_t) (data : α) (c : vector_t) :
    (group.put coords data).is_empty c
      = if T.is_valid coords = true ∧ coords = c then false else group.is_empty c := by
  unfold node_group.put
  by_cases hv : T.is_valid coords = true
  · obtain ⟨id, g2, hcall, hnodes⟩ := node_group.operator_call_valid group coords hv
    simp only [node_group.is_valid, hv, if_true, true_and, hcall]
    simp only [node.assign, node_group.set, node_group.is_empty, hnodes]
    rw [std_map.find_assign vector_t.lt vector_t.lt_irrefl vector_t.eq_of_not_lt]
    split <;> simp
  · simp [node_group.is_valid, hv]

theorem node_group.is_empty_foldl_put {T : tile_traits} {α : Type} (f : vector_t → α)
    (cs : List vector_t) :
    ∀ (group : node_group T α) (c : vector_t),
      (cs.foldl (fun g c2 => g.put c2 (f c2)) group).is_empty c = false ↔
        ((c ∈ cs ∧ T.is_valid c = true) ∨ group.is_empty c = false) := by
  induction cs with
  | nil => intro group c; simp
  | cons c1 cs ih =>
    intro group c
    simp only [List.foldl_cons]
    rw [ih, node_group.is_empty_put]
    by_cases h : T.is_valid c1 = true ∧ c1 = c
    · obtain ⟨hv, rfl⟩ := h
      rw [if_pos ⟨hv, rfl⟩]
      exact ⟨fun _ => Or.inl ⟨List.mem_cons_self _ _, hv⟩, fun _ => Or.inr rfl⟩
    · simp only [h, if_false, List.mem_cons]
      constructor
      · rintro (⟨h1, h2⟩ | h1)
        · exact Or.inl ⟨Or.inr h1, h2⟩
        · exact Or.inr h1
      · rintro (⟨h1 | h1, h2⟩ | h1)
        · exact absurd ⟨by rw [← h1]; exact h2, h1.symm⟩ h
        · exact Or.inl ⟨h1, h2⟩
        · exact Or.inr h1

theorem mem_set_up_coords (W H : Nat) (c : vector_t) :
    c ∈ set_up_coords W H ↔ in_rectangle W H c := by
  unfold set_up_coords in_rectangle
  simp only [List.mem_flatMap, List.mem_range, List.mem_map]
  constructor
  · rintro ⟨x, hx, y, hy, rfl⟩
    simp only
    refine ⟨by positivity, by exact_mod_cast hx, by positivity, by exact_mod_cast hy⟩
  · rintro ⟨h1, h2, h3, h4⟩
    refine ⟨c.m_x.toNat, ?_, c.m_y.toNat, ?_, ?_⟩
    · unfold unit_t at *; omega
    · unfold unit_t at *; omega
    · apply vector_t.eq_mk
      · show (c.m_x : Int) = ((c.m_x.toNat : Nat) : Int)
        unfold unit_t at *; omega
      · show (c.m_y : Int) = ((c.m_y.toNat : Nat) : Int)
        unfold unit_t at *; omega

/-- The nodes of a rectangular map filled by `setUp` are the cells of its rectangle. -/
theorem set_up_rectangular (W H : Nat) (blocked : vector_t → Bool) (c : vector_t) :
    (set_up rectangular_tile_traits W H blocked).is_empty c = false ↔ in_rectangle W H c := by
  unfold set_up
  rw [node_group.is_empty_foldl_put (fun c => (⟨blocked c⟩ : test_node)), mem_set_up_coords]
  constructor
  · rintro (⟨h, _⟩ | h)
    · exact h
    · simp [node_group.is_empty, node_group.empty, std_map.find] at h
  · intro h
    left
    refine ⟨h, ?_⟩
    show rectangular_tile_traits.is_valid c = true
    simp only [rectangular_tile_traits.is_valid, bne_iff_ne, ne_eq]
    intro e
    rw [e] at h
    exact absurd h.1 (by decide)


/-- Claim C6 (counterexample). On the unobstructed map of 3 times 1 cells, filled as
`setUp` does, the search from (0, 0) for (2, 0) returns three coordinates, one more than
the greater of the column and row distances, which is 2. -/
theorem chebyshev_count_is_exceeded :
    (∀ c, (set_up rectangular_tile_traits 3 1 (fun _ => false)).is_empty c = false
      ↔ in_rectangle 3 1 c) ∧
    a_star [] (set_up rectangular_tile_traits 3 1 (fun _ => false)) ⟨0, 0⟩ ⟨2, 0⟩
      simple_rectangular dijkstra = .ok (CG_OK, [⟨0, 0⟩, ⟨1, 0⟩, ⟨2, 0⟩]) ∧
    ([⟨0, 0⟩, ⟨1, 0⟩, ⟨2, 0⟩] : List vector_t).length
      ≠ max ((2 : Int) - 0).natAbs ((0 : Int) - 0).natAbs :=
  ⟨set_up_rectangular 3 1 _, by decide, by decide⟩

/-- Claim C6 (amended). On an unobstructed rectangular map (a node at every cell of a `W`
times `H` rectangle and nowhere else, the default costs of `simple_traversal_traits`,
the zero heuristic), for every two different coordinates `start` and `end` of the
rectangle `a_star` returns `CG_OK` and a sequence from `start` to `end` whose number of
coordinates is the greater of the column and row distances plus one; for the 50 times 50
map of the tests and (4, 4), (45, 37) the sequence has exactly 42 coordinates, the first
being (4, 4) and the last (45, 37). -/
theorem unobstructed_rectangular_path_length :
    (∀ (α : Type) (W H : Nat) (group : node_group rectangular_tile_traits α)
      (start m_end : vector_t),
      (∀ c, group.is_empty c = false ↔ in_rectangle W H c) →
      in_rectangle W H start → in_rectangle W H m_end → start ≠ m_end →
      ∃ path, a_star [] group start m_end simple_rectangular dijkstra = .ok (CG_OK, path) ∧
        path.length
          = max (m_end.m_x - start.m_x).natAbs (m_end.m_y - start.m_y).natAbs + 1 ∧
        path.head? = some start ∧ path.getLast? = some m_end) ∧
    (∃ path, a_star [] (test_map rectangular_tile_traits) ⟨4, 4⟩ ⟨45, 37⟩ simple_rectangular
        dijkstra = .ok (CG_OK, path) ∧
      path.length = 42 ∧ path.head? = some ⟨4, 4⟩ ∧ path.getLast? = some ⟨45, 37⟩) := by
  constructor
  · intro α W H group start m_end hgrid hs he hne
    exact rectangular_dijkstra_length W H group hgrid start m_end hs he hne
  · obtain ⟨path, h1, h2, h3, h4⟩ := rectangular_dijkstra_length 50 50
      (test_map rectangular_tile_traits) (set_up_rectangular 50 50 _) ⟨4, 4⟩ ⟨45, 37⟩
      ⟨by decide, by decide, by decide, by decide⟩
      ⟨by decide, by decide, by decide, by decide⟩ (by decide)
    exact ⟨path, h1, h2, h3, h4⟩

/-- A concrete instance of `unobstructed_rectangular_path_length`: a map of 2 times 2
cells as `setUp` fills it, from (0, 0) to (1, 1). -/
theorem unobstructed_rectangular_path_length_witness :
    (∀ c, (set_up rectangular_tile_traits 2 2 (fun _ => false)).is_empty c = false
      ↔ in_rectangle 2 2 c) ∧
    in_rectangle 2 2 ⟨0, 0⟩ ∧ in_rectangle 2 2 ⟨1, 1⟩ ∧ (⟨0, 0⟩ : vector_t) ≠ ⟨1, 1⟩ ∧
    ∃ path, a_star [] (set_up rectangular_tile_traits 2 2 (fun _ => false)) ⟨0, 0⟩ ⟨1, 1⟩
        simple_rectangular dijkstra = .ok (CG_OK, path) ∧
      path.length = max ((1 : Int) - 0).natAbs ((1 : Int) - 0).natAbs + 1 ∧
      path.head? = some ⟨0, 0⟩ ∧ path.getLast? = some ⟨1, 1⟩ :=
  ⟨set_up_rectangular 2 2 _, ⟨by decide, by decide, by decide, by decide⟩,
    ⟨by decide, by decide, by decide, by decide⟩, by decide,
    unobstructed_rectangular_path_length.1 test_node 2 2
      (set_up rectangular_tile_traits 2 2 (fun _ => false)) ⟨0, 0⟩ ⟨1, 1⟩
      (set_up_rectangular 2 2 _) ⟨by decide, by decide, by decide, by decide⟩
      ⟨by decide, by decide, by decide, by decide⟩ (by decide)⟩


/-! ## More facts about the key orders and `std::map` -/

theorem vector_t.lt_asymm (a b : vector_t) (h : vector_t.lt a b = true) :
    vector_t.lt b a = false := by
  obtain ⟨ax, ay⟩ := a
  obtain ⟨bx, bY⟩ := b
  simp only [vector_t.lt] at h ⊢
  by_cases h1 : ax < bx
  · have h2 : ¬ bx < ax := not_lt.mpr (le_of_lt h1)
    have h3 : ¬ bx = ax := fun e => by rw [e] at h1; exact Int.lt_irrefl _ h1
    simp [h2, h3]
  · simp only [h1, if_false, Bool.and_eq_true, beq_iff_eq, decide_eq_true_eq] at h
    obtain ⟨hx, hy⟩ := h
    subst hx
    have h4 : ¬ bY < ay := not_lt.mpr (le_of_lt hy)
    simp [h4]

theorem vector_t.lt_trans (a b c : vector_t) (h1 : vector_t.lt a b = true)
    (h2 : vector_t.lt b c = true) : vector_t.lt a c = true := by
  obtain ⟨ax, ay⟩ := a
  obtain ⟨bx, bY⟩ := b
  obtain ⟨cx, cy⟩ := c
  simp only [vector_t.lt] at h1 h2 ⊢
  have e1 : ax < bx ∨ (ax = bx ∧ ay < bY) := by
    by_cases h : ax < bx
    · exact Or.inl h
    · simp only [h, if_false, Bool.and_eq_true, beq_iff_eq, decide_eq_true_eq] at h1
      exact Or.inr h1
  have e2 : bx < cx ∨ (bx = cx ∧ bY < cy) := by
    by_cases h : bx < cx
    · exact Or.inl h
    · simp only [h, if_false, Bool.and_eq_true, beq_iff_eq, decide_eq_true_eq] at h2
      exact Or.inr h2
  rcases e1 with e1 | ⟨e1, e1y⟩ <;> rcases e2 with e2 | ⟨e2, e2y⟩
  · simp [Int.lt_trans e1 e2]
  · subst e2; simp [e1]
  · subst e1; simp [e2]
  · subst e1; subst e2; simp [Int.lt_trans e1y e2y]

theorem node_id_lt_irrefl (a : node_id_t) : node_id_lt a a = false := by
  simp [node_id_lt]

theorem node_id_eq_of_not_lt (a b : node_id_t) (h1 : node_id_lt a b = false)
    (h2 : node_id_lt b a = false) : a = b := by
  simp only [node_id_lt, decide_eq_false_iff_not, not_lt] at h1 h2
  exact le_antisymm h2 h1

theorem node_id_lt_asymm (a b : node_id_t) (h : node_id_lt a b = true) :
    node_id_lt b a = false := by
  simp only [node_id_lt, decide_eq_true_eq, decide_eq_false_iff_not, not_lt] at h ⊢
  exact le_of_lt h

theorem node_id_lt_trans (a b c : node_id_t) (h1 : node_id_lt a b = true)
    (h2 : node_id_lt b c = true) : node_id_lt a c = true := by
  simp only [node_id_lt, decide_eq_true_eq] at h1 h2 ⊢
  exact lt_trans h1 h2

theorem std_map.mem_assign {K V : Type} (lt : K → K → Bool) (m : List (K × V)) (k : K) (v : V) (p : K × V)
    (h : p ∈ assign lt m k v) : p = (k, v) ∨ p ∈ m := by
  induction m with
  | nil => simpa [std_map.assign] using h
  | cons q rest ih =>
    obtain ⟨k1, v1⟩ := q
    simp only [std_map.assign] at h
    by_cases h1 : lt k1 k = true
    · simp only [h1, if_true, List.mem_cons] at h
      rcases h with h | h
      · exact Or.inr (by rw [h]; exact List.mem_cons_self _ _)
      · rcases ih h with h | h
        · exact Or.inl h
        · exact Or.inr (List.mem_cons_of_mem _ h)
    · by_cases h2 : lt k k1 = true
      · simp only [h1, h2, if_true, Bool.false_eq_true, if_false, List.mem_cons] at h
        rcases h with h3 | h3 | h3
        · exact Or.inl h3
        · exact Or.inr (by rw [h3]; exact List.mem_cons_self _ _)
        · exact Or.inr (List.mem_cons_of_mem _ h3)
      · simp only [h1, h2, Bool.false_eq_true, if_false, List.mem_cons] at h
        rcases h with h | h
        · exact Or.inl h
        · exact Or.inr (List.mem_cons_of_mem _ h)

theorem std_map.assign_ordered {K V : Type} (lt : K → K → Bool)
    (htri : ∀ a b, lt a b = false → lt b a = false → a = b)
    (htrans : ∀ a b c, lt a b = true → lt b c = true → lt a c = true)
    (m : List (K × V)) (k : K) (v : V) (hm : std_map.ordered lt m) :
    std_map.ordered lt (std_map.assign lt m k v) := by
  induction m with
  | nil => simp [std_map.assign, std_map.ordered]
  | cons q rest ih =>
    obtain ⟨k1, v1⟩ := q
    have hp := List.pairwise_cons.mp hm
    simp only [std_map.assign]
    by_cases h1 : lt k1 k = true
    · simp only [h1, if_true]
      refine List.pairwise_cons.mpr ⟨?_, ih hp.2⟩
      intro p hpm
      rcases std_map.mem_assign lt rest k v p hpm with h | h
      · rw [h]; exact h1
      · exact hp.1 p h
    · by_cases h2 : lt k k1 = true
      · simp only [h1, h2, if_true, if_false]
        refine List.pairwise_cons.mpr ⟨?_, hm⟩
        intro p hpm
        rcases List.mem_cons.mp hpm with h | h
        · rw [h]; exact h2
        · exact htrans _ _ _ h2 (hp.1 p h)
      · have hk : k1 = k := htri k1 k (by simpa using h1) (by simpa using h2)
        subst hk
        simp only [h1, if_false]
        exact List.pairwise_cons.mpr ⟨hp.1, hp.2⟩

namespace std_map

variable {K V : Type} [DecidableEq K]

theorem erase_assign_self (lt : K → K → Bool)
    (htri : ∀ a b, lt a b = false → lt b a = false → a = b)
    (m : List (K × V)) (k : K) (v : V) (h : find m k = none) :
    erase (assign lt m k v) k = m := by
  induction m with
  | nil => simp [assign, erase]
  | cons p rest ih =>
    obtain ⟨k1, v1⟩ := p
    have hk : k1 ≠ k := by
      intro e; simp [find, e] at h
    have hrest : find rest k = none := by
      simpa [find, hk] using h
    simp only [assign]
    by_cases h1 : lt k1 k = true
    · simp only [h1, if_true, erase, hk, if_false, ih hrest]
    · by_cases h2 : lt k k1 = true
      · simp only [h1, h2, if_true, erase]
      · exact absurd (htri k1 k (by simpa using h1) (by simpa using h2)) hk

theorem assign_erase_self (lt : K → K → Bool)
    (hasym : ∀ a b, lt a b = true → lt b a = false)
    (m : List (K × V)) (k : K) (v : V) (hm : ordered lt m) (h : find m k = some v) :
    assign lt (erase m k) k v = m := by
  induction m with
  | nil => simp [find] at h
  | cons p rest ih =>
    obtain ⟨k1, v1⟩ := p
    have hp := List.pairwise_cons.mp hm
    by_cases hk : k1 = k
    · subst hk
      have hv : v1 = v := by simpa [find] using h
      subst hv
      simp only [erase, if_true]
      cases rest with
      | nil => rfl
      | cons q rest2 =>
        obtain ⟨k2, v2⟩ := q
        have h12 : lt k1 k2 = true := hp.1 (k2, v2) (List.mem_cons_self _ _)
        simp only [assign, hasym _ _ h12, h12, if_true, Bool.false_eq_true, if_false]
    · have hrest : find rest k = some v := by simpa [find, hk] using h
      have hmem := mem_of_find hrest
      have h1k : lt k1 k = true := hp.1 (k, v) hmem
      simp only [erase, hk, if_false, assign, h1k, if_true, ih hp.2 hrest]

theorem erase_ordered (lt : K → K → Bool) (m : List (K × V)) (k : K) (hm : ordered lt m) :
    ordered lt (erase m k) := by
  have hsub : List.Sublist (erase m k) m := by
    induction m with
    | nil => exact List.Sublist.refl _
    | cons p rest ih =>
      obtain ⟨k1, v1⟩ := p
      simp only [erase]
      by_cases hk : k1 = k
      · simp only [hk, if_true]
        exact List.sublist_cons_self _ _
      · simp only [hk, if_false]
        exact List.Sublist.cons₂ _ (ih (List.pairwise_cons.mp hm).2)
  exact List.Pairwise.sublist hsub hm

theorem length_assign (lt : K → K → Bool) (hirr : ∀ a, lt a a = false)
    (htri : ∀ a b, lt a b = false → lt b a = false → a = b)
    (htrans : ∀ a b c, lt a b = true → lt b c = true → lt a c = true)
    (m : List (K × V)) (k : K) (v : V) (hm : ordered lt m) :
    (assign lt m k v).length = if (find m k).isSome then m.length else m.length + 1 := by
  induction m with
  | nil => simp [assign, find]
  | cons q rest ih =>
    obtain ⟨k1, v1⟩ := q
    have hp := List.pairwise_cons.mp hm
    simp only [assign]
    by_cases h1 : lt k1 k = true
    · have hne : k1 ≠ k := by
        intro e; rw [e, hirr] at h1; cases h1
      simp only [h1, if_true, List.length_cons, ih hp.2, find, hne, if_false]
      split <;> rfl
    · by_cases h2 : lt k k1 = true
      · have hne : k1 ≠ k := by
          intro e; rw [e, hirr] at h2; cases h2
        have hnone : find rest k = none :=
          find_none_of_lt lt hirr rest k (fun p hpm => htrans _ _ _ h2 (hp.1 p hpm))
        simp [h1, h2, find, hne, hnone]
      · have hk : k1 = k := htri k1 k (by simpa using h1) (by simpa using h2)
        subst hk
        simp [h1, find]

theorem length_erase (m : List (K × V)) (k : K) :
    (erase m k).length = if (find m k).isSome then m.length - 1 else m.length := by
  induction m with
  | nil => simp [erase, find]
  | cons q rest ih =>
    obtain ⟨k1, v1⟩ := q
    simp only [erase, find]
    by_cases hk : k1 = k
    · simp [hk]
    · simp only [hk, if_false, List.length_cons, ih]
      cases hf : find rest k with
      | none => simp
      | some w =>
        have hpos : 0 < rest.length := by
          cases rest with
          | nil => simp [find] at hf
          | cons _ _ => simp
        simp only [Option.isSome_some, if_true]
        omega

theorem erase_of_find_eq_none (m : List (K × V)) (k : K) (h : find m k = none) :
    erase m k = m := by
  induction m with
  | nil => rfl
  | cons q rest ih =>
    obtain ⟨k1, v1⟩ := q
    have hk : k1 ≠ k := by
      intro e; simp [find, e] at h
    have hrest : find rest k = none := by simpa [find, hk] using h
    simp only [erase, hk, if_false, ih hrest]

end std_map


/-! ## Moving a node there and back (node_group.tcc) -/

/-- Claim C11. Move round trip: when `a` is occupied and `b` is not, `move(a, b)`
succeeds, `move(b, a)` on the group it leaves succeeds too and gives back the group as it
was before the first move, so `min_coords()` and `max_coords()` are what they were; the
same holds for two `move_to` calls on a handle at `a`, which ends as it began. -/
theorem move_round_trip {T : tile_traits} {α : Type} (g : node_group T α)
    (a b : vector_t) (hord : std_map.ordered vector_t.lt g.m_nodes)
    (ha : g.is_empty a = false) (hb : g.is_empty b = true) :
    (g.move a b).1 = true ∧
    (g.move a b).2.move b a = (true, g) ∧
    ((g.move a b).2.move b a).2.min_coords = g.min_coords ∧
    ((g.move a b).2.move b a).2.max_coords = g.max_coords ∧
    ∀ n : node T α, n.m_coords = a →
      (n.move_to g b).1 = true ∧ (n.move_to g b).2.1.m_coords = b ∧
      (n.move_to g b).2.1.move_to (n.move_to g b).2.2 a = (true, n, g) := by
  unfold node_group.is_empty at ha hb
  cases hs : std_map.find g.m_nodes a with
  | none => simp [hs] at ha
  | some id =>
    cases hd : std_map.find g.m_nodes b with
    | some id2 => simp [hd] at hb
    | none =>
      have hne : a ≠ b := by
        intro e; rw [e] at hs; rw [hs] at hd; cases hd
      have hmove : g.move a b = (true,
          ⟨std_map.assign vector_t.lt (std_map.erase g.m_nodes a) b id,
            g.m_node_data, g.m_id_generator⟩) := by
        simp [node_group.move, hs, hd]
      have hfind : ∀ c, std_map.find
          (std_map.assign vector_t.lt (std_map.erase g.m_nodes a) b id) c
            = if b = c then some id else std_map.find (std_map.erase g.m_nodes a) c :=
        fun c => std_map.find_assign vector_t.lt vector_t.lt_irrefl vector_t.eq_of_not_lt _ _ _ c
      have hb1 : std_map.find (std_map.erase g.m_nodes a) b = none := by
        rw [std_map.find_erase_ne _ _ _ hne]; exact hd
      have hback : (g.move a b).2.move b a = (true, g) := by
        rw [hmove]
        simp only [node_group.move, hfind, if_true, if_neg (Ne.symm hne)]
        rw [std_map.find_erase_self vector_t.lt vector_t.lt_irrefl _ _ hord]
        simp only
        rw [std_map.erase_assign_self vector_t.lt vector_t.eq_of_not_lt _ _ _ hb1,
          std_map.assign_erase_self vector_t.lt vector_t.lt_asymm _ _ _ hord hs]
      refine ⟨by rw [hmove], hback, by rw [hback], by rw [hback], ?_⟩
      intro n hn
      have h1 : n.move_to g b = (true, ⟨n.m_id, b⟩, (g.move a b).2) := by
        simp [node.move_to, hn, hmove]
      rw [h1]
      refine ⟨rfl, rfl, ?_⟩
      simp only [node.move_to, hback, if_true]
      rw [← hn]

/-- A concrete instance of `move_round_trip`: the node at (1, 1) of a map of three nodes
goes to (-1, -1) and back, as in `testMoving`. -/
theorem move_round_trip_witness :
    let g : node_group rectangular_tile_traits Nat :=
      ⟨[(⟨0, 0⟩, 0), (⟨1, 1⟩, 1), (⟨2, 2⟩, 2)],
       [(0, ⟨⟨0, 0⟩, some 7⟩), (1, ⟨⟨1, 1⟩, some 8⟩), (2, ⟨⟨2, 2⟩, some 9⟩)], ⟨3⟩⟩
    std_map.ordered vector_t.lt g.m_nodes ∧ g.is_empty ⟨1, 1⟩ = false ∧
    g.is_empty ⟨-1, -1⟩ = true ∧
    (g.move ⟨1, 1⟩ ⟨-1, -1⟩).1 = true ∧
    (g.move ⟨1, 1⟩ ⟨-1, -1⟩).2.move ⟨-1, -1⟩ ⟨1, 1⟩ = (true, g) ∧
    ((g.move ⟨1, 1⟩ ⟨-1, -1⟩).2.move ⟨-1, -1⟩ ⟨1, 1⟩).2.min_coords = g.min_coords ∧
    ((g.move ⟨1, 1⟩ ⟨-1, -1⟩).2.move ⟨-1, -1⟩ ⟨1, 1⟩).2.max_coords = g.max_coords ∧
    ∀ n : node rectangular_tile_traits Nat, n.m_coords = ⟨1, 1⟩ →
      (n.move_to g ⟨-1, -1⟩).1 = true ∧ (n.move_to g ⟨-1, -1⟩).2.1.m_coords = ⟨-1, -1⟩ ∧
      (n.move_to g ⟨-1, -1⟩).2.1.move_to (n.move_to g ⟨-1, -1⟩).2.2 ⟨1, 1⟩ = (true, n, g) :=
  ⟨by decide, by decide, by decide,
    move_round_trip _ _ _ (by decide) (by decide) (by decide)⟩


/-! ## The invariant of a group is kept by its operations -/

namespace node_group

variable {T : tile_traits} {α : Type}

theorem find_nodes_set (g : node_group T α) (id : node_id_t) (c : vector_t) (data : α)
    (c2 : vector_t) :
    std_map.find (g.set id c data).m_nodes c2
      = if c = c2 then some id else std_map.find g.m_nodes c2 :=
  std_map.find_assign vector_t.lt vector_t.lt_irrefl vector_t.eq_of_not_lt _ _ _ c2

theorem find_data_set (g : node_group T α) (id : node_id_t) (c : vector_t) (data : α)
    (id2 : node_id_t) :
    std_map.find (g.set id c data).m_node_data id2
      = if id = id2 then some ⟨c, some data⟩ else std_map.find g.m_node_data id2 :=
  std_map.find_assign node_id_lt node_id_lt_irrefl node_id_eq_of_not_lt _ _ _ id2

theorem consistent_empty : (empty : node_group T α).consistent :=
  ⟨List.Pairwise.nil, List.Pairwise.nil,
    fun _ _ h => by simp [empty, std_map.find] at h,
    fun _ _ h => by simp [empty, std_map.find] at h,
    fun _ _ _ h => by simp [empty, std_map.find] at h,
    fun _ _ h => by simp [empty, std_map.find] at h,
    le_refl _⟩

theorem consistent_clear (g : node_group T α) : g.clear.consistent :=
  consistent_empty

/-- Writing through a handle keeps the invariant when the handle is current: its
identifier is the one recorded for its coordinates, or the coordinates are empty and the
identifier is an issued one without data. -/
theorem consistent_set (g : node_group T α) (id : node_id_t) (c : vector_t) (data : α)
    (hc : g.consistent)
    (h : std_map.find g.m_nodes c = some id ∨
      (std_map.find g.m_nodes c = none ∧ std_map.find g.m_node_data id = none ∧
        0 ≤ id ∧ id < g.m_id_generator.m_current)) :
    (g.set id c data).consistent := by
  have hnodes := find_nodes_set g id c data
  have hdata := find_data_set g id c data
  refine ⟨?_, ?_, ?_, ?_, ?_, ?_, hc.counter_nonneg⟩
  · exact std_map.assign_ordered vector_t.lt vector_t.eq_of_not_lt vector_t.lt_trans _ _ _
      hc.nodes_ordered
  · exact std_map.assign_ordered node_id_lt node_id_eq_of_not_lt node_id_lt_trans _ _ _
      hc.data_ordered
  · intro c2 id2 h2
    rw [hnodes] at h2
    rw [hdata]
    by_cases e : c = c2
    · simp only [e, if_true, Option.some.injEq] at h2
      exact ⟨⟨c, some data⟩, data, by simp [h2], rfl⟩
    · simp only [e, if_false] at h2
      by_cases e2 : id = id2
      · exact ⟨⟨c, some data⟩, data, by simp [e2], rfl⟩
      · simp only [e2, if_false]
        exact hc.has_data c2 id2 h2
  · intro id2 w h2
    rw [hdata] at h2
    by_cases e2 : id = id2
    · exact ⟨c, by rw [hnodes, ← e2]; simp⟩
    · simp only [e2, if_false] at h2
      obtain ⟨c3, h3⟩ := hc.anchored id2 w h2
      refine ⟨c3, ?_⟩
      rw [hnodes]
      by_cases e : c = c3
      · rcases h with h | h
        · rw [e, h3] at h
          exact absurd (Option.some.inj h).symm e2
        · rw [e, h3] at h
          cases h.1
      · simp only [e, if_false]
        exact h3
  · intro c1 c2 id2 h1 h2
    rw [hnodes] at h1 h2
    have hold : ∀ c3, std_map.find g.m_nodes c3 = some id2 → c ≠ c3 → id = id2 → False := by
      intro c3 h3 hne e
      rcases h with h | h
      · rw [← e] at h3
        exact hne (hc.unique c c3 id h h3)
      · obtain ⟨w, _, hw, _⟩ := hc.has_data c3 id2 h3
        rw [← e, h.2.1] at hw
        cases hw
    by_cases e1 : c = c1
    · by_cases e2 : c = c2
      · rw [← e1, ← e2]
      · simp only [e1, if_true, Option.some.injEq] at h1
        have e2b : ¬ c1 = c2 := by rw [← e1]; exact e2
        simp only [e1, e2b, if_false] at h2
        exact absurd h1 (fun e => hold c2 h2 e2 e)
    · simp only [e1, if_false] at h1
      by_cases e2 : c = c2
      · simp only [e2, if_true, Option.some.injEq] at h2
        exact absurd h2 (fun e => hold c1 h1 e1 e)
      · simp only [e2, if_false] at h2
        exact hc.unique c1 c2 id2 h1 h2
  · intro id2 w h2
    rw [hdata] at h2
    by_cases e2 : id = id2
    · rcases h with h | h
      · obtain ⟨w1, _, hw1, _⟩ := hc.has_data c id h
        rw [← e2]
        exact hc.issued id w1 hw1
      · rw [← e2]
        exact ⟨h.2.2.1, h.2.2.2⟩
    · simp only [e2, if_false] at h2
      exact hc.issued id2 w h2

theorem consistent_operator_call (g : node_group T α) (c : vector_t) (n : node T α)
    (g2 : node_group T α) (hc : g.consistent) (h : g.operator_call c = .ok (n, g2)) :
    g2.consistent ∧ n.m_coords = c ∧ g2.m_nodes = g.m_nodes ∧
    g2.m_node_data = g.m_node_data ∧
    (std_map.find g2.m_nodes c = some n.m_id ∨
      (std_map.find g2.m_nodes c = none ∧ std_map.find g2.m_node_data n.m_id = none ∧
        0 ≤ n.m_id ∧ n.m_id < g2.m_id_generator.m_current)) := by
  unfold operator_call at h
  cases hv : g.is_valid c with
  | false => simp [hv] at h
  | true =>
    simp only [hv, Bool.not_true, Bool.false_eq_true, if_false] at h
    cases hs : std_map.find g.m_nodes c with
    | some id =>
      simp only [hs, Except.ok.injEq, Prod.mk.injEq] at h
      obtain ⟨h1, h2⟩ := h
      subst h1
      subst h2
      exact ⟨hc, rfl, rfl, rfl, Or.inl hs⟩
    | none =>
      simp only [hs, Except.ok.injEq, Prod.mk.injEq] at h
      obtain ⟨h1, h2⟩ := h
      subst h1
      subst h2
      have hcur : (0 : Int) ≤ g.m_id_generator.m_current := hc.counter_nonneg
      have hno : std_map.find g.m_node_data g.m_id_generator.m_current = none := by
        cases hf : std_map.find g.m_node_data g.m_id_generator.m_current with
        | none => rfl
        | some w => exact absurd (hc.issued _ w hf).2 (lt_irrefl _)
      refine ⟨⟨hc.nodes_ordered, hc.data_ordered, hc.has_data, hc.anchored, hc.unique, ?_, ?_⟩,
        rfl, rfl, rfl, Or.inr ⟨hs, hno, hcur, ?_⟩⟩
      · intro id w hw
        have := hc.issued id w hw
        exact ⟨this.1, lt_trans this.2 (by
          show g.m_id_generator.m_current < g.m_id_generator.m_current + 1
          exact Int.lt_succ_self _)⟩
      · show (0 : Int) ≤ g.m_id_generator.m_current + 1
        exact le_trans hcur (Int.le_of_lt (Int.lt_succ_self _))
      · show g.m_id_generator.m_current < g.m_id_generator.m_current + 1
        exact Int.lt_succ_self _

theorem consistent_put (g : node_group T α) (c : vector_t) (data : α) (hc : g.consistent) :
    (g.put c data).consistent := by
  unfold put
  cases hv : g.is_valid c with
  | false => simpa using hc
  | true =>
    simp only [if_true]
    cases hcall : g.operator_call c with
    | error f => exact hc
    | ok r =>
      obtain ⟨n, g2⟩ := r
      obtain ⟨h2, hn, _, _, hcur⟩ := consistent_operator_call g c n g2 hc hcall
      show (g2.set n.m_id n.m_coords data).consistent
      rw [hn]
      exact consistent_set g2 n.m_id c data h2 hcur

theorem consistent_move (g : node_group T α) (src dst : vector_t) (hc : g.consistent) :
    (g.move src dst).2.consistent := by
  unfold move
  cases hs : std_map.find g.m_nodes src with
  | none => exact hc
  | some id =>
    cases hd : std_map.find g.m_nodes dst with
    | some id2 => exact hc
    | none =>
      have hne : src ≠ dst := by
        intro e; rw [e] at hs; rw [hs] at hd; cases hd
      have hfind : ∀ c, std_map.find
          (std_map.assign vector_t.lt (std_map.erase g.m_nodes src) dst id) c
            = if dst = c then some id
              else if src = c then none else std_map.find g.m_nodes c := by
        intro c
        rw [std_map.find_assign vector_t.lt vector_t.lt_irrefl vector_t.eq_of_not_lt]
        by_cases e : dst = c
        · simp [e]
        · simp only [e, if_false]
          by_cases e2 : src = c
          · simp only [e2, if_true]
            rw [← e2]
            exact std_map.find_erase_self vector_t.lt vector_t.lt_irrefl _ _ hc.nodes_ordered
          · simp only [e2, if_false]
            exact std_map.find_erase_ne _ _ _ e2
      refine ⟨?_, hc.data_ordered, ?_, ?_, ?_, hc.issued, hc.counter_nonneg⟩
      · exact std_map.assign_ordered vector_t.lt vector_t.eq_of_not_lt vector_t.lt_trans _ _ _
          (std_map.erase_ordered _ _ _ hc.nodes_ordered)
      · intro c id2 h2
        simp only [hfind] at h2
        by_cases e : dst = c
        · simp only [e, if_true, Option.some.injEq] at h2
          rw [← h2]
          exact hc.has_data src id hs
        · simp only [e, if_false] at h2
          by_cases e2 : src = c
          · simp [e2] at h2
          · simp only [e2, if_false] at h2
            exact hc.has_data c id2 h2
      · intro id2 w hw
        obtain ⟨c, h3⟩ := hc.anchored id2 w hw
        by_cases e2 : src = c
        · refine ⟨dst, ?_⟩
          rw [← e2, hs] at h3
          simp only [hfind, if_true]
          exact h3
        · refine ⟨c, ?_⟩
          have e : dst ≠ c := by
            intro e; rw [e, h3] at hd; cases hd
          simp only [hfind, e, e2, if_false]
          exact h3
      · intro c1 c2 id2 h1 h2
        simp only [hfind] at h1 h2
        have hold : ∀ c3, ¬ dst = c3 →
            (if src = c3 then none else std_map.find g.m_nodes c3) = some id2 →
            id = id2 → False := by
          intro c3 _ h3 e
          by_cases e2 : src = c3
          · simp [e2] at h3
          · simp only [e2, if_false] at h3
            rw [← e] at h3
            exact e2 (hc.unique src c3 id hs h3)
        by_cases e1 : dst = c1
        · by_cases e2 : dst = c2
          · rw [← e1, ← e2]
          · simp only [e1, if_true, Option.some.injEq] at h1
            simp only [e2, if_false] at h2
            exact absurd h1 (fun e => hold c2 e2 h2 e)
        · simp only [e1, if_false] at h1
          by_cases e2 : dst = c2
          · simp only [e2, if_true, Option.some.injEq] at h2
            exact absurd h2 (fun e => hold c1 e1 h1 e)
          · simp only [e2, if_false] at h2
            by_cases e3 : src = c1
            · simp [e3] at h1
            · by_cases e4 : src = c2
              · simp [e4] at h2
              · simp only [e3, e4, if_false] at h1 h2
                exact hc.unique c1 c2 id2 h1 h2

theorem consistent_erase (g : node_group T α) (c : vector_t) (hc : g.consistent) :
    (g.erase c).2.consistent := by
  unfold erase
  cases hs : std_map.find g.m_nodes c with
  | none => exact hc
  | some id =>
    have hfind : ∀ c2, std_map.find (std_map.erase g.m_nodes c) c2
        = if c = c2 then none else std_map.find g.m_nodes c2 := by
      intro c2
      by_cases e : c = c2
      · simp only [e, if_true]
        rw [← e]
        exact std_map.find_erase_self vector_t.lt vector_t.lt_irrefl _ _ hc.nodes_ordered
      · simp only [e, if_false]
        exact std_map.find_erase_ne _ _ _ e
    have hdata : ∀ id2, std_map.find (std_map.erase g.m_node_data id) id2
        = if id = id2 then none else std_map.find g.m_node_data id2 := by
      intro id2
      by_cases e : id = id2
      · simp only [e, if_true]
        rw [← e]
        exact std_map.find_erase_self node_id_lt node_id_lt_irrefl _ _ hc.data_ordered
      · simp only [e, if_false]
        exact std_map.find_erase_ne _ _ _ e
    refine ⟨std_map.erase_ordered _ _ _ hc.nodes_ordered,
      std_map.erase_ordered _ _ _ hc.data_ordered, ?_, ?_, ?_, ?_, hc.counter_nonneg⟩
    · intro c2 id2 h2
      simp only [hfind] at h2
      by_cases e : c = c2
      · simp [e] at h2
      · simp only [e, if_false] at h2
        have hid : id ≠ id2 := by
          intro e2
          rw [← e2] at h2
          exact e (hc.unique c c2 id hs h2)
        simp only [hdata, hid, if_false]
        exact hc.has_data c2 id2 h2
    · intro id2 w hw
      simp only [hdata] at hw
      by_cases e : id = id2
      · simp [e] at hw
      · simp only [e, if_false] at hw
        obtain ⟨c3, h3⟩ := hc.anchored id2 w hw
        refine ⟨c3, ?_⟩
        have hne : c ≠ c3 := by
          intro e3
          rw [← e3, hs] at h3
          exact e (Option.some.inj h3)
        simp only [hfind, hne, if_false]
        exact h3
    · intro c1 c2 id2 h1 h2
      simp only [hfind] at h1 h2
      by_cases e1 : c = c1
      · simp [e1] at h1
      · by_cases e2 : c = c2
        · simp [e2] at h2
        · simp only [e1, e2, if_false] at h1 h2
          exact hc.unique c1 c2 id2 h1 h2
    · intro id2 w hw
      simp only [hdata] at hw
      by_cases e : id = id2
      · simp [e] at hw
      · simp only [e, if_false] at hw
        exact hc.issued id2 w hw

end node_group


/-! ## Erasing a node (node_group.tcc) -/

/-- Claim C12 (evaluation of the code). A client obtains a handle for (1, 1), assigns
data through it, moves the node to (2, 2) through the group, assigns through the same
handle again and erases (1, 1). Then (2, 2) is occupied and `size()` is 0; `erase((2, 2))`
returns true and makes (2, 2) empty, and `size()` is 0 afterwards as it was before: it has
not decreased by one. -/
theorem erase_keeps_size_after_outdated_assignment :
    (client_run [.handle_at ⟨1, 1⟩, .assign 0 7, .move ⟨1, 1⟩ ⟨2, 2⟩, .assign 0 8,
        .erase ⟨1, 1⟩] : client_state rectangular_tile_traits Nat).m_group.m_nodes
      = [(⟨2, 2⟩, 0)] ∧
    (client_run [.handle_at ⟨1, 1⟩, .assign 0 7, .move ⟨1, 1⟩ ⟨2, 2⟩, .assign 0 8,
        .erase ⟨1, 1⟩] : client_state rectangular_tile_traits Nat).m_group.is_empty ⟨2, 2⟩
      = false ∧
    (client_run [.handle_at ⟨1, 1⟩, .assign 0 7, .move ⟨1, 1⟩ ⟨2, 2⟩, .assign 0 8,
        .erase ⟨1, 1⟩] : client_state rectangular_tile_traits Nat).m_group.size = 0 ∧
    ((client_run [.handle_at ⟨1, 1⟩, .assign 0 7, .move ⟨1, 1⟩ ⟨2, 2⟩, .assign 0 8,
        .erase ⟨1, 1⟩] : client_state rectangular_tile_traits Nat).m_group.erase
      ⟨2, 2⟩).1 = true ∧
    ((client_run [.handle_at ⟨1, 1⟩, .assign 0 7, .move ⟨1, 1⟩ ⟨2, 2⟩, .assign 0 8,
        .erase ⟨1, 1⟩] : client_state rectangular_tile_traits Nat).m_group.erase
      ⟨2, 2⟩).2.is_empty ⟨2, 2⟩ = true ∧
    ((client_run [.handle_at ⟨1, 1⟩, .assign 0 7, .move ⟨1, 1⟩ ⟨2, 2⟩, .assign 0 8,
        .erase ⟨1, 1⟩] : client_state rectangular_tile_traits Nat).m_group.erase
      ⟨2, 2⟩).2.size = 0 :=
  ⟨by decide, by decide, by decide, by decide, by decide, by decide⟩

/-- The extent of `erase(coord)`. On a coordinate with no entry it returns false and the
group stays as it is, in every group. On an occupied coordinate of a consistent group, as
every group used through current handles is, it returns true; afterwards
`is_empty(coord)` is true, `size()` is smaller by exactly one, and every other coordinate
has the identifier and the user data that it had. -/
theorem erase_removes_one_node {T : tile_traits} {α : Type} (g : node_group T α)
    (c : vector_t) :
    (g.is_empty c = true → g.erase c = (false, g)) ∧
    (g.is_empty c = false → g.consistent →
      (g.erase c).1 = true ∧
      (g.erase c).2.is_empty c = true ∧
      (g.erase c).2.size + 1 = g.size ∧
      (∀ c2, c2 ≠ c → (g.erase c).2.is_empty c2 = g.is_empty c2) ∧
      (∀ c2, c2 ≠ c →
        std_map.find (g.erase c).2.m_nodes c2 = std_map.find g.m_nodes c2) ∧
      (∀ c2 id2, c2 ≠ c → std_map.find g.m_nodes c2 = some id2 →
        (g.erase c).2.get id2 = g.get id2)) := by
  unfold node_group.is_empty
  cases hs : std_map.find g.m_nodes c with
  | none =>
    refine ⟨fun _ => ?_, fun h => by simp at h⟩
    simp [node_group.erase, hs]
  | some id =>
    refine ⟨fun h => by simp at h, fun _ hc => ?_⟩
    have herase : g.erase c = (true,
        ⟨std_map.erase g.m_nodes c, std_map.erase g.m_node_data id, g.m_id_generator⟩) := by
      simp [node_group.erase, hs]
    obtain ⟨w, d, hw, _⟩ := hc.has_data c id hs
    rw [herase]
    refine ⟨rfl, ?_, ?_, ?_, ?_, ?_⟩
    · show (std_map.find (std_map.erase g.m_nodes c) c).isNone = true
      rw [std_map.find_erase_self vector_t.lt vector_t.lt_irrefl _ _ hc.nodes_ordered]
      rfl
    · show (std_map.erase g.m_node_data id).length + 1 = g.m_node_data.length
      rw [std_map.length_erase, hw]
      have hpos : 0 < g.m_node_data.length := by
        cases hd : g.m_node_data with
        | nil => rw [hd] at hw; simp [std_map.find] at hw
        | cons _ _ => simp
      simp only [Option.isSome_some, if_true]
      omega
    · intro c2 hc2
      show (std_map.find (std_map.erase g.m_nodes c) c2).isNone = _
      rw [std_map.find_erase_ne _ _ _ (Ne.symm hc2)]
    · intro c2 hc2
      exact std_map.find_erase_ne _ _ _ (Ne.symm hc2)
    · intro c2 id2 hc2 h2
      have hid : id ≠ id2 := by
        intro e
        rw [← e] at h2
        exact hc2 (hc.unique c2 c id h2 hs)
      show (match std_map.find (std_map.erase g.m_node_data id) id2 with
        | none => none
        | some w => w.m_data) = _
      rw [std_map.find_erase_ne _ _ _ hid]
      rfl

/-- A concrete instance of `erase_removes_one_node`: the node at (1, 1) of a group of
three nodes is erased, and nothing is at (7, 7). -/
theorem erase_removes_one_node_witness :
    let g : node_group rectangular_tile_traits Nat :=
      ((node_group.empty.put ⟨0, 0⟩ 7).put ⟨1, 1⟩ 8).put ⟨2, 2⟩ 9
    g.is_empty ⟨7, 7⟩ = true ∧ g.erase ⟨7, 7⟩ = (false, g) ∧
    g.is_empty ⟨1, 1⟩ = false ∧
    (g.erase ⟨1, 1⟩).1 = true ∧
    (g.erase ⟨1, 1⟩).2.is_empty ⟨1, 1⟩ = true ∧
    (g.erase ⟨1, 1⟩).2.size + 1 = g.size := by
  intro g
  have hc : g.consistent :=
    node_group.consistent_put _ _ _ (node_group.consistent_put _ _ _
      (node_group.consistent_put _ _ _ node_group.consistent_empty))
  have h1 := (erase_removes_one_node g ⟨7, 7⟩).1 (by decide)
  have h2 := (erase_removes_one_node g ⟨1, 1⟩).2 (by decide) hc
  exact ⟨by decide, h1, by decide, h2.1, h2.2.1, h2.2.2.1⟩


/-! ## Identifiers of a populated group (node_group.tcc, `testUniqueId`) -/

theorem node_group.consistent_foldl_put {T : tile_traits} {α : Type} (f : vector_t → α)
    (cs : List vector_t) :
    ∀ (g : node_group T α), g.consistent →
      (cs.foldl (fun g c => g.put c (f c)) g).consistent := by
  induction cs with
  | nil => intro g hc; exact hc
  | cons c cs ih =>
    intro g hc
    exact ih _ (node_group.consistent_put g c (f c) hc)

theorem node_group.counter_put {T : tile_traits} {α : Type} (g : node_group T α)
    (c : vector_t) (data : α) :
    (g.put c data).m_id_generator.m_current ≤ g.m_id_generator.m_current + 1 := by
  unfold node_group.put node_group.operator_call
  cases hv : g.is_valid c with
  | false => simp
  | true =>
    simp only [if_true, Bool.not_true, Bool.false_eq_true, if_false]
    cases hs : std_map.find g.m_nodes c with
    | none => exact le_refl _
    | some id =>
      show g.m_id_generator.m_current ≤ g.m_id_generator.m_current + 1
      exact Int.le_of_lt (Int.lt_succ_self _)

theorem node_group.counter_foldl_put {T : tile_traits} {α : Type} (f : vector_t → α)
    (cs : List vector_t) :
    ∀ (g : node_group T α),
      (cs.foldl (fun g c => g.put c (f c)) g).m_id_generator.m_current
        ≤ g.m_id_generator.m_current + cs.length := by
  induction cs with
  | nil => intro g; simp
  | cons c cs ih =>
    intro g
    have h1 := ih (g.put c (f c))
    have h2 := node_group.counter_put g c (f c)
    simp only [List.foldl_cons, List.length_cons, Nat.cast_add, Nat.cast_one]
    linarith

theorem node_group.operator_call_occupied {T : tile_traits} {α : Type} (g : node_group T α)
    (c : vector_t) (hv : T.is_valid c = true) (h : g.is_empty c = false) :
    ∃ id, std_map.find g.m_nodes c = some id ∧ g.operator_call c = .ok (⟨id, c⟩, g) := by
  unfold node_group.is_empty at h
  cases hs : std_map.find g.m_nodes c with
  | none => simp [hs] at h
  | some id =>
    refine ⟨id, rfl, ?_⟩
    simp [node_group.operator_call, node_group.is_valid, hv, hs]

/-- Claim C13. In a group populated from the default constructed state by the statement
`group(c) = data` for each coordinate of a list, the handles that `group(c)` returns for
two different valid coordinates of the list carry different identifiers (and the
identifiers are among the first ones the generator issues, below the length of the
list). -/
theorem populated_ids_are_distinct {T : tile_traits} {α : Type} (f : vector_t → α)
    (cs : List vector_t) (c1 c2 : vector_t) (h1 : c1 ∈ cs) (h2 : c2 ∈ cs)
    (hv1 : T.is_valid c1 = true) (hv2 : T.is_valid c2 = true) (hne : c1 ≠ c2) :
    ∃ n1 n2 : node T α,
      (cs.foldl (fun g c => g.put c (f c)) node_group.empty).operator_call c1
        = .ok (n1, cs.foldl (fun g c => g.put c (f c)) node_group.empty) ∧
      (cs.foldl (fun g c => g.put c (f c)) node_group.empty).operator_call c2
        = .ok (n2, cs.foldl (fun g c => g.put c (f c)) node_group.empty) ∧
      n1.coordinates = c1 ∧ n2.coordinates = c2 ∧ n1.id ≠ n2.id ∧
      0 ≤ n1.id ∧ n1.id < cs.length ∧ 0 ≤ n2.id ∧ n2.id < cs.length := by
  have hc : (cs.foldl (fun g c => g.put c (f c)) (node_group.empty : node_group T α)).consistent :=
    node_group.consistent_foldl_put f cs _ node_group.consistent_empty
  have hcount := node_group.counter_foldl_put f cs (node_group.empty : node_group T α)
  have hocc : ∀ c, c ∈ cs → T.is_valid c = true →
      (cs.foldl (fun g c => g.put c (f c)) (node_group.empty : node_group T α)).is_empty c
        = false :=
    fun c hm hv => (node_group.is_empty_foldl_put f cs _ c).mpr (Or.inl ⟨hm, hv⟩)
  obtain ⟨id1, hf1, hcall1⟩ := node_group.operator_call_occupied _ c1 hv1 (hocc c1 h1 hv1)
  obtain ⟨id2, hf2, hcall2⟩ := node_group.operator_call_occupied _ c2 hv2 (hocc c2 h2 hv2)
  have hrange : ∀ c id, std_map.find (cs.foldl (fun g c => g.put c (f c))
      (node_group.empty : node_group T α)).m_nodes c = some id → 0 ≤ id ∧ id < cs.length := by
    intro c id hf
    obtain ⟨w, _, hw, _⟩ := hc.has_data c id hf
    have hi := hc.issued id w hw
    have h0 : (node_group.empty : node_group T α).m_id_generator.m_current = 0 := rfl
    rw [h0] at hcount
    exact ⟨hi.1, by linarith [hi.2]⟩
  refine ⟨⟨id1, c1⟩, ⟨id2, c2⟩, hcall1, hcall2, rfl, rfl, ?_, (hrange c1 id1 hf1).1,
    (hrange c1 id1 hf1).2, (hrange c2 id2 hf2).1, (hrange c2 id2 hf2).2⟩
  intro e
  have e2 : id1 = id2 := e
  rw [e2] at hf1
  exact hne (hc.unique c1 c2 id2 hf1 hf2)

/-- A concrete instance of `populated_ids_are_distinct`: the corners (0, 0) and (1, 1) of
a population of the 2 by 2 square. -/
theorem populated_ids_are_distinct_witness :
    ∃ n1 n2 : node rectangular_tile_traits Nat,
      ((set_up_coords 2 2).foldl (fun g c => g.put c 7) node_group.empty).operator_call ⟨0, 0⟩
        = .ok (n1, (set_up_coords 2 2).foldl (fun g c => g.put c 7) node_group.empty) ∧
      ((set_up_coords 2 2).foldl (fun g c => g.put c 7) node_group.empty).operator_call ⟨1, 1⟩
        = .ok (n2, (set_up_coords 2 2).foldl (fun g c => g.put c 7) node_group.empty) ∧
      n1.coordinates = ⟨0, 0⟩ ∧ n2.coordinates = ⟨1, 1⟩ ∧ n1.id ≠ n2.id ∧
      0 ≤ n1.id ∧ n1.id < (set_up_coords 2 2).length ∧
      0 ≤ n2.id ∧ n2.id < (set_up_coords 2 2).length :=
  populated_ids_are_distinct (fun _ => 7) (set_up_coords 2 2) ⟨0, 0⟩ ⟨1, 1⟩
    (by decide) (by decide) (by decide) (by decide) (by decide)


theorem node_group.is_empty_iff_mem {T : tile_traits} {α : Type} (g : node_group T α)
    (c : vector_t) : g.is_empty c = false ↔ c ∈ g.m_nodes.map Prod.fst := by
  unfold node_group.is_empty
  cases hs : std_map.find g.m_nodes c with
  | none =>
    have := std_map.find_eq_none_iff.mp hs
    simp [this]
  | some id =>
    have : c ∈ g.m_nodes.map Prod.fst := List.mem_map_of_mem Prod.fst (std_map.mem_of_find hs)
    simp [this]

/-! ## Evaluations of calls through handles that are no longer current -/

/-- Claim C14 (evaluation of the code). A client obtains a handle for (1, 1), assigns
data through it, moves the node to (2, 2) through the group and assigns through the same
handle again: afterwards (1, 1) and (2, 2) are both occupied and the handles that the
group returns for them carry the same identifier 0. -/
theorem outdated_handle_duplicates_identifier :
    (client_run [.handle_at ⟨1, 1⟩, .assign 0 7, .move ⟨1, 1⟩ ⟨2, 2⟩, .assign 0 8] :
      client_state rectangular_tile_traits Nat).m_group.m_nodes
      = [(⟨1, 1⟩, 0), (⟨2, 2⟩, 0)] ∧
    (client_run [.handle_at ⟨1, 1⟩, .assign 0 7, .move ⟨1, 1⟩ ⟨2, 2⟩, .assign 0 8] :
      client_state rectangular_tile_traits Nat).m_group.is_empty ⟨1, 1⟩ = false ∧
    (client_run [.handle_at ⟨1, 1⟩, .assign 0 7, .move ⟨1, 1⟩ ⟨2, 2⟩, .assign 0 8] :
      client_state rectangular_tile_traits Nat).m_group.is_empty ⟨2, 2⟩ = false ∧
    (∃ n1 n2 g1 g2,
      (client_run [.handle_at ⟨1, 1⟩, .assign 0 7, .move ⟨1, 1⟩ ⟨2, 2⟩, .assign 0 8] :
        client_state rectangular_tile_traits Nat).m_group.operator_call ⟨1, 1⟩
          = .ok (n1, g1) ∧
      (client_run [.handle_at ⟨1, 1⟩, .assign 0 7, .move ⟨1, 1⟩ ⟨2, 2⟩, .assign 0 8] :
        client_state rectangular_tile_traits Nat).m_group.operator_call ⟨2, 2⟩
          = .ok (n2, g2) ∧
      n1.coordinates = ⟨1, 1⟩ ∧ n2.coordinates = ⟨2, 2⟩ ∧ n1.id = 0 ∧ n2.id = 0) :=
  ⟨by decide, by decide, by decide, _, _, _, _, rfl, rfl, rfl, rfl, rfl, rfl⟩

/-- Claim C15 (evaluation of the code). After a client has obtained a handle for (1, 1),
assigned data through it, moved the node to (2, 2) through the group and assigned through
the same handle again, `size()` is 1 while the two coordinates (1, 1) and (2, 2) are not
empty. After a client has obtained two handles for the empty coordinate (1, 1) and
assigned data through each of them, `size()` is 2 while (1, 1) is the only coordinate
that is not empty, the only one between `min_coords()` and `max_coords()`. -/
theorem size_differs_from_occupied_count :
    (client_run [.handle_at ⟨1, 1⟩, .assign 0 7, .move ⟨1, 1⟩ ⟨2, 2⟩, .assign 0 8] :
      client_state rectangular_tile_traits Nat).m_group.size = 1 ∧
    (∀ c, (client_run [.handle_at ⟨1, 1⟩, .assign 0 7, .move ⟨1, 1⟩ ⟨2, 2⟩, .assign 0 8] :
      client_state rectangular_tile_traits Nat).m_group.is_empty c = false
        ↔ (c = ⟨1, 1⟩ ∨ c = ⟨2, 2⟩)) ∧
    (client_run [.handle_at ⟨1, 1⟩, .handle_at ⟨1, 1⟩, .assign 0 7, .assign 1 8] :
      client_state rectangular_tile_traits Nat).m_group.size = 2 ∧
    (∀ c, (client_run [.handle_at ⟨1, 1⟩, .handle_at ⟨1, 1⟩, .assign 0 7, .assign 1 8] :
      client_state rectangular_tile_traits Nat).m_group.is_empty c = false ↔ c = ⟨1, 1⟩) ∧
    (client_run [.handle_at ⟨1, 1⟩, .handle_at ⟨1, 1⟩, .assign 0 7, .assign 1 8] :
      client_state rectangular_tile_traits Nat).m_group.min_coords = ⟨1, 1⟩ ∧
    (client_run [.handle_at ⟨1, 1⟩, .handle_at ⟨1, 1⟩, .assign 0 7, .assign 1 8] :
      client_state rectangular_tile_traits Nat).m_group.max_coords = ⟨2, 2⟩ := by
  have hm : (client_run [.handle_at ⟨1, 1⟩, .assign 0 7, .move ⟨1, 1⟩ ⟨2, 2⟩, .assign 0 8] :
      client_state rectangular_tile_traits Nat).m_group.m_nodes
        = [(⟨1, 1⟩, 0), (⟨2, 2⟩, 0)] := by decide
  have hn : (client_run [.handle_at ⟨1, 1⟩, .handle_at ⟨1, 1⟩, .assign 0 7, .assign 1 8] :
      client_state rectangular_tile_traits Nat).m_group.m_nodes = [(⟨1, 1⟩, 1)] := by decide
  have key2 : ∀ (g : node_group rectangular_tile_traits Nat) (c : vector_t),
      g.m_nodes = [(⟨1, 1⟩, 0), (⟨2, 2⟩, 0)] →
      (g.is_empty c = false ↔ (c = ⟨1, 1⟩ ∨ c = ⟨2, 2⟩)) := by
    intro g c hg
    rw [node_group.is_empty_iff_mem, hg]
    simp
  have key1 : ∀ (g : node_group rectangular_tile_traits Nat) (c : vector_t),
      g.m_nodes = [(⟨1, 1⟩, 1)] → (g.is_empty c = false ↔ c = ⟨1, 1⟩) := by
    intro g c hg
    rw [node_group.is_empty_iff_mem, hg]
    simp
  exact ⟨by decide, fun c => key2 _ c hm, by decide, fun c => key1 _ c hn, by decide,
    by decide⟩

/-! ## Handles after a move or an erase through the group -/

/-- Claim C16 (counterexample). A handle obtained for the occupied coordinate (1, 1)
still dereferences to the data 7, and converts to true, after the node has been moved to
(2, 2) through the group. -/
theorem handle_after_move_has_data :
    ∃ h : node rectangular_tile_traits Nat,
      ((node_group.empty : node_group rectangular_tile_traits Nat).put ⟨1, 1⟩ 7).is_empty
        ⟨1, 1⟩ = false ∧
      ((node_group.empty : node_group rectangular_tile_traits Nat).put ⟨1, 1⟩ 7).operator_call
        ⟨1, 1⟩ = .ok (h, (node_group.empty : node_group rectangular_tile_traits Nat).put
          ⟨1, 1⟩ 7) ∧
      (((node_group.empty : node_group rectangular_tile_traits Nat).put ⟨1, 1⟩ 7).move
        ⟨1, 1⟩ ⟨2, 2⟩).1 = true ∧
      h.get (((node_group.empty : node_group rectangular_tile_traits Nat).put ⟨1, 1⟩ 7).move
        ⟨1, 1⟩ ⟨2, 2⟩).2 = some 7 ∧
      h.to_bool (((node_group.empty : node_group rectangular_tile_traits Nat).put
        ⟨1, 1⟩ 7).move ⟨1, 1⟩ ⟨2, 2⟩).2 = true :=
  ⟨⟨0, ⟨1, 1⟩⟩, by decide, rfl, by decide, by decide, by decide⟩

/-- Claim C16 (amended). Let `h` be the handle that the group returns for an occupied
coordinate `c`. After `erase(c)` through the group, `h` reports that no data is present:
`get()` is null and the conversion to bool is false. After a successful `move(c, dst)`
through the group, `h` reports what it reported before the move, the data of the moved
node, while its `coordinates()` are still `c`. -/
theorem handle_after_erase_or_move {T : tile_traits} {α : Type} (g : node_group T α)
    (c : vector_t) (hord : std_map.ordered node_id_lt g.m_node_data)
    (hv : T.is_valid c = true) (hocc : g.is_empty c = false) :
    ∃ h : node T α, g.operator_call c = .ok (h, g) ∧
      (g.erase c).1 = true ∧
      h.get (g.erase c).2 = none ∧
      h.to_bool (g.erase c).2 = false ∧
      ∀ dst, (g.move c dst).1 = true →
        h.get (g.move c dst).2 = h.get g ∧
        h.to_bool (g.move c dst).2 = h.to_bool g ∧
        h.coordinates = c ∧
        ∀ h2 g2, (g.move c dst).2.operator_call dst = .ok (h2, g2) →
          h2.id = h.id ∧ h2.get g2 = h.get g := by
  obtain ⟨id, hs, hcall⟩ := node_group.operator_call_occupied g c hv hocc
  have herase : g.erase c = (true,
      ⟨std_map.erase g.m_nodes c, std_map.erase g.m_node_data id, g.m_id_generator⟩) := by
    simp [node_group.erase, hs]
  have hget : (⟨id, c⟩ : node T α).get (g.erase c).2 = none := by
    rw [herase]
    show (match std_map.find (std_map.erase g.m_node_data id) id with
      | none => none
      | some w => w.m_data) = none
    rw [std_map.find_erase_self node_id_lt node_id_lt_irrefl _ _ hord]
  refine ⟨⟨id, c⟩, hcall, by rw [herase], hget, ?_, ?_⟩
  · show (node.get (⟨id, c⟩ : node T α) (g.erase c).2).isSome = false
    rw [hget]
    rfl
  · intro dst hm
    have hdata : (g.move c dst).2.m_node_data = g.m_node_data := by
      unfold node_group.move
      rw [hs]
      cases std_map.find g.m_nodes dst <;> rfl
    have hnodes : std_map.find (g.move c dst).2.m_nodes dst = some id := by
      unfold node_group.move at hm ⊢
      rw [hs] at hm ⊢
      cases hd : std_map.find g.m_nodes dst with
      | some id2 => simp [hd] at hm
      | none =>
        show std_map.find (std_map.assign vector_t.lt (std_map.erase g.m_nodes c) dst id) dst
          = some id
        rw [std_map.find_assign vector_t.lt vector_t.lt_irrefl vector_t.eq_of_not_lt]
        simp
    have hgen : (g.move c dst).2.m_id_generator = g.m_id_generator := by
      unfold node_group.move
      rw [hs]
      cases std_map.find g.m_nodes dst <;> rfl
    refine ⟨?_, ?_, rfl, ?_⟩
    · show (g.move c dst).2.get id = g.get id
      unfold node_group.get
      rw [hdata]
    · show ((g.move c dst).2.get id).isSome = (g.get id).isSome
      unfold node_group.get
      rw [hdata]
    · intro h2 g2 hcall2
      unfold node_group.operator_call at hcall2
      cases hv2 : (g.move c dst).2.is_valid dst with
      | false => simp [hv2] at hcall2
      | true =>
        simp only [hv2, Bool.not_true, Bool.false_eq_true, if_false, hnodes, Except.ok.injEq,
          Prod.mk.injEq] at hcall2
        obtain ⟨e1, e2⟩ := hcall2
        subst e1
        subst e2
        refine ⟨rfl, ?_⟩
        show (g.move c dst).2.get id = g.get id
        unfold node_group.get
        rw [hdata]

/-- A concrete instance of `handle_after_erase_or_move`: the handle for the node at
(1, 0) of the group `three_in_a_row`. -/
theorem handle_after_erase_or_move_witness :
    ∃ h : node rectangular_tile_traits Nat,
      three_in_a_row.operator_call ⟨1, 0⟩ = .ok (h, three_in_a_row) ∧
      (three_in_a_row.erase ⟨1, 0⟩).1 = true ∧
      h.get (three_in_a_row.erase ⟨1, 0⟩).2 = none ∧
      h.to_bool (three_in_a_row.erase ⟨1, 0⟩).2 = false ∧
      ∀ dst, (three_in_a_row.move ⟨1, 0⟩ dst).1 = true →
        h.get (three_in_a_row.move ⟨1, 0⟩ dst).2 = h.get three_in_a_row ∧
        h.to_bool (three_in_a_row.move ⟨1, 0⟩ dst).2 = h.to_bool three_in_a_row ∧
        h.coordinates = ⟨1, 0⟩ ∧
        ∀ h2 g2, (three_in_a_row.move ⟨1, 0⟩ dst).2.operator_call dst = .ok (h2, g2) →
          h2.id = h.id ∧ h2.get g2 = h.get three_in_a_row :=
  handle_after_erase_or_move three_in_a_row ⟨1, 0⟩ (by decide) (by decide) (by decide)


/-! ## Obtaining a handle (node_group.tcc) -/

/-- Claim C17. The call `group(coord)` throws `CG_INVALID_COORDS` exactly when the tile
traits reject `coord`. Otherwise it returns a handle whose `coordinates()` are `coord`,
and the call writes no data: both maps of the group, hence `is_empty` of every coordinate
and `size()`, are the same before and after. -/
theorem operator_call_writes_no_data {T : tile_traits} {α : Type} (g : node_group T α)
    (coord : vector_t) :
    (g.operator_call coord = .error (.thrown CG_INVALID_COORDS) ↔ T.is_valid coord = false) ∧
    ((∃ f, g.operator_call coord = .error f) ↔ T.is_valid coord = false) ∧
    ((∃ n g2, g.operator_call coord = .ok (n, g2)) ↔ T.is_valid coord = true) ∧
    ∀ n g2, g.operator_call coord = .ok (n, g2) →
      n.coordinates = coord ∧
      g2.m_nodes = g.m_nodes ∧ g2.m_node_data = g.m_node_data ∧
      (∀ c, g2.is_empty c = g.is_empty c) ∧ g2.size = g.size := by
  unfold node_group.operator_call
  cases hv : T.is_valid coord with
  | false => simp [node_group.is_valid, hv]
  | true =>
    simp only [node_group.is_valid, hv, Bool.not_true, Bool.false_eq_true, if_false]
    cases hs : std_map.find g.m_nodes coord with
    | some id =>
      refine ⟨by simp, by simp, by simp, ?_⟩
      intro n g2 h
      simp only [Except.ok.injEq, Prod.mk.injEq] at h
      obtain ⟨h1, h2⟩ := h
      subst h1
      subst h2
      exact ⟨rfl, rfl, rfl, fun _ => rfl, rfl⟩
    | none =>
      refine ⟨by simp, by simp, by simp, ?_⟩
      intro n g2 h
      simp only [Except.ok.injEq, Prod.mk.injEq] at h
      obtain ⟨h1, h2⟩ := h
      subst h1
      subst h2
      exact ⟨rfl, rfl, rfl, fun _ => rfl, rfl⟩

/-- A concrete instance of `operator_call_writes_no_data`: a handle for the empty
position (5, 5) of the group `three_in_a_row`, which takes the identifier 3 from the
generator. -/
theorem operator_call_writes_no_data_witness :
    three_in_a_row.operator_call ⟨5, 5⟩
      = .ok (⟨3, ⟨5, 5⟩⟩, ⟨three_in_a_row.m_nodes, three_in_a_row.m_node_data, ⟨4⟩⟩) ∧
    (⟨3, ⟨5, 5⟩⟩ : node rectangular_tile_traits Nat).coordinates = ⟨5, 5⟩ ∧
    (⟨three_in_a_row.m_nodes, three_in_a_row.m_node_data, ⟨4⟩⟩ :
      node_group rectangular_tile_traits Nat).m_nodes = three_in_a_row.m_nodes ∧
    (⟨three_in_a_row.m_nodes, three_in_a_row.m_node_data, ⟨4⟩⟩ :
      node_group rectangular_tile_traits Nat).m_node_data = three_in_a_row.m_node_data ∧
    (∀ c, (⟨three_in_a_row.m_nodes, three_in_a_row.m_node_data, ⟨4⟩⟩ :
      node_group rectangular_tile_traits Nat).is_empty c = three_in_a_row.is_empty c) ∧
    (⟨three_in_a_row.m_nodes, three_in_a_row.m_node_data, ⟨4⟩⟩ :
      node_group rectangular_tile_traits Nat).size = three_in_a_row.size :=
  ⟨rfl, (operator_call_writes_no_data three_in_a_row ⟨5, 5⟩).2.2.2 _ _ rfl⟩


/-! ## Assigning data through a handle (node_group.tcc) -/

/-- Claim C18 (evaluation of the code). A client obtains a handle for (5, 5), clears the
group and assigns data through the handle: (5, 5) is occupied, (1, 1) is empty and
`size()` is 1. The statement `group(1, 1) = 9` then gets a fresh handle that carries the
identifier 0, the one of (5, 5), and afterwards (1, 1) is occupied while `size()` is
still 1: it has not grown by one. In the state after the calls `h = group(1, 1); h = 7;
group.move((1, 1), (2, 2)); h = 8; group.erase((1, 1))`, in which (2, 2) is occupied and
`size()` is 0, the statement `group(2, 2) = 9` raises `size()` to 1: it has changed. -/
theorem assignment_miscounts_after_outdated_assignment :
    (client_run [.handle_at ⟨5, 5⟩, .clear, .assign 0 7] :
      client_state rectangular_tile_traits Nat).m_group.is_empty ⟨5, 5⟩ = false ∧
    (client_run [.handle_at ⟨5, 5⟩, .clear, .assign 0 7] :
      client_state rectangular_tile_traits Nat).m_group.is_empty ⟨1, 1⟩ = true ∧
    (client_run [.handle_at ⟨5, 5⟩, .clear, .assign 0 7] :
      client_state rectangular_tile_traits Nat).m_group.size = 1 ∧
    (∃ n g1,
      (client_run [.handle_at ⟨5, 5⟩, .clear, .assign 0 7] :
        client_state rectangular_tile_traits Nat).m_group.operator_call ⟨1, 1⟩
          = .ok (n, g1) ∧
      n.coordinates = ⟨1, 1⟩ ∧ n.id = 0 ∧
      (n.assign g1 9).m_nodes = [(⟨1, 1⟩, 0), (⟨5, 5⟩, 0)] ∧
      (n.assign g1 9).is_empty ⟨1, 1⟩ = false ∧
      (n.assign g1 9).size = 1) ∧
    (client_run [.handle_at ⟨1, 1⟩, .assign 0 7, .move ⟨1, 1⟩ ⟨2, 2⟩, .assign 0 8,
        .erase ⟨1, 1⟩] : client_state rectangular_tile_traits Nat).m_group.is_empty ⟨2, 2⟩
      = false ∧
    (client_run [.handle_at ⟨1, 1⟩, .assign 0 7, .move ⟨1, 1⟩ ⟨2, 2⟩, .assign 0 8,
        .erase ⟨1, 1⟩] : client_state rectangular_tile_traits Nat).m_group.size = 0 ∧
    (∃ n g1,
      (client_run [.handle_at ⟨1, 1⟩, .assign 0 7, .move ⟨1, 1⟩ ⟨2, 2⟩, .assign 0 8,
          .erase ⟨1, 1⟩] : client_state rectangular_tile_traits Nat).m_group.operator_call
        ⟨2, 2⟩ = .ok (n, g1) ∧
      n.coordinates = ⟨2, 2⟩ ∧ n.id = 0 ∧
      (n.assign g1 9).size = 1) :=
  ⟨by decide, by decide, by decide, ⟨_, _, rfl, rfl, rfl, by decide, by decide, by decide⟩,
    by decide, by decide, ⟨_, _, rfl, rfl, rfl, by decide⟩⟩

/-- The extent of the statement `group(c) = data` for a valid coordinate `c`. In every
group, afterwards `is_empty(c)` is false and the handle that the group returns for `c`
dereferences to `data`; if `c` was occupied, the handle carries the identifier that `c`
had; other coordinates are empty or not as before. In a consistent group, as every group
used through current handles is, `size()` is unchanged if `c` was occupied and has grown
by exactly one if `c` was empty. -/
theorem assignment_overwrites {T : tile_traits} {α : Type} (g : node_group T α)
    (c : vector_t) (data : α) (hv : T.is_valid c = true) :
    ∃ n g1, g.operator_call c = .ok (n, g1) ∧ n.coordinates = c ∧
      (n.assign g1 data).is_empty c = false ∧
      (∃ n2, (n.assign g1 data).operator_call c = .ok (n2, n.assign g1 data) ∧
        n2.id = n.id ∧ n2.get (n.assign g1 data) = some data) ∧
      (∀ id, std_map.find g.m_nodes c = some id → n.id = id) ∧
      (g.consistent → g.is_empty c = false → (n.assign g1 data).size = g.size) ∧
      (g.consistent → g.is_empty c = true → (n.assign g1 data).size = g.size + 1) ∧
      (∀ c2, c2 ≠ c → (n.assign g1 data).is_empty c2 = g.is_empty c2) := by
  have hshape : ∃ id g1, g.operator_call c = .ok (⟨id, c⟩, g1) ∧
      g1.m_nodes = g.m_nodes ∧ g1.m_node_data = g.m_node_data ∧
      (∀ id2, std_map.find g.m_nodes c = some id2 → id = id2) ∧
      (std_map.find g.m_nodes c = none → id = g.m_id_generator.m_current) := by
    cases hs : std_map.find g.m_nodes c with
    | none =>
      refine ⟨g.m_id_generator.m_current,
        ⟨g.m_nodes, g.m_node_data, ⟨g.m_id_generator.m_current + 1⟩⟩, ?_, rfl, rfl,
        fun _ h => (by cases h), fun _ => rfl⟩
      simp [node_group.operator_call, node_group.is_valid, hv, hs,
        simple_id_generator.get_unique_id]
    | some id =>
      refine ⟨id, g, ?_, rfl, rfl, fun _ h => Option.some.inj h, fun h => (by cases h)⟩
      simp [node_group.operator_call, node_group.is_valid, hv, hs]
  obtain ⟨id, g1, hcall, hn, hd, hid, hfresh⟩ := hshape
  have hnodes := node_group.find_nodes_set g1 id c data
  have hdata := node_group.find_data_set g1 id c data
  have hsize : ∀ (_ : std_map.ordered node_id_lt g.m_node_data),
      (g1.set id c data).size
        = if (std_map.find g.m_node_data id).isSome then g.size else g.size + 1 := by
    intro hord
    show (std_map.assign node_id_lt g1.m_node_data id ⟨c, some data⟩).length = _
    rw [hd]
    exact std_map.length_assign node_id_lt node_id_lt_irrefl node_id_eq_of_not_lt
      node_id_lt_trans _ _ _ hord
  refine ⟨⟨id, c⟩, g1, hcall, rfl, ?_, ?_, hid, ?_, ?_, ?_⟩
  · show (std_map.find (g1.set id c data).m_nodes c).isNone = false
    rw [hnodes]
    simp
  · refine ⟨⟨id, c⟩, ?_, rfl, ?_⟩
    · unfold node_group.operator_call
      simp only [node_group.is_valid, hv, Bool.not_true, Bool.false_eq_true, if_false]
      show (match std_map.find (g1.set id c data).m_nodes c with
        | none => _
        | some id2 => _) = _
      rw [hnodes]
      simp
    · show (match std_map.find (g1.set id c data).m_node_data id with
        | none => none
        | some w => w.m_data) = some data
      rw [hdata]
      simp
  · intro hc hocc
    show (g1.set id c data).size = g.size
    rw [hsize hc.data_ordered]
    unfold node_group.is_empty at hocc
    cases hs : std_map.find g.m_nodes c with
    | none => simp [hs] at hocc
    | some id2 =>
      obtain ⟨w, _, hw, _⟩ := hc.has_data c id2 hs
      rw [hid id2 hs, hw]
      rfl
  · intro hc hemp
    show (g1.set id c data).size = g.size + 1
    rw [hsize hc.data_ordered]
    unfold node_group.is_empty at hemp
    cases hs : std_map.find g.m_nodes c with
    | some id2 => simp [hs] at hemp
    | none =>
      have hno : std_map.find g.m_node_data id = none := by
        cases hf : std_map.find g.m_node_data id with
        | none => rfl
        | some w =>
          have := (hc.issued id w hf).2
          rw [hfresh hs] at this
          exact absurd this (lt_irrefl _)
      rw [hno]
      rfl
  · intro c2 hc2
    show (std_map.find (g1.set id c data).m_nodes c2).isNone
      = (std_map.find g.m_nodes c2).isNone
    rw [hnodes, if_neg (Ne.symm hc2), hn]

/-- A concrete instance of `assignment_overwrites`: in a group of two nodes the data of
the node at (1, 0) is replaced by 5, and data is assigned to the empty position (5, 5). -/
theorem assignment_overwrites_witness :
    ((node_group.empty.put ⟨0, 0⟩ 7).put ⟨1, 0⟩ 8 :
      node_group rectangular_tile_traits Nat).consistent ∧
    (∃ (n : node rectangular_tile_traits Nat) (g1 : node_group rectangular_tile_traits Nat),
      ((node_group.empty.put ⟨0, 0⟩ 7).put ⟨1, 0⟩ 8).operator_call ⟨1, 0⟩ = .ok (n, g1) ∧
      (n.assign g1 5).is_empty ⟨1, 0⟩ = false ∧
      (∃ n2, (n.assign g1 5).operator_call ⟨1, 0⟩ = .ok (n2, n.assign g1 5) ∧
        n2.id = n.id ∧ n2.get (n.assign g1 5) = some 5) ∧
      (n.assign g1 5).size = ((node_group.empty.put ⟨0, 0⟩ 7).put ⟨1, 0⟩ 8 :
        node_group rectangular_tile_traits Nat).size) ∧
    (∃ (n : node rectangular_tile_traits Nat) (g1 : node_group rectangular_tile_traits Nat),
      ((node_group.empty.put ⟨0, 0⟩ 7).put ⟨1, 0⟩ 8).operator_call ⟨5, 5⟩ = .ok (n, g1) ∧
      (n.assign g1 5).is_empty ⟨5, 5⟩ = false ∧
      (n.assign g1 5).size = ((node_group.empty.put ⟨0, 0⟩ 7).put ⟨1, 0⟩ 8 :
        node_group rectangular_tile_traits Nat).size + 1) := by
  have hc : ((node_group.empty.put ⟨0, 0⟩ 7).put ⟨1, 0⟩ 8 :
      node_group rectangular_tile_traits Nat).consistent :=
    node_group.consistent_put _ _ _ (node_group.consistent_put _ _ _
      node_group.consistent_empty)
  obtain ⟨n, g1, h1, _, h3, h4, _, h6, _, _⟩ :=
    assignment_overwrites ((node_group.empty.put ⟨0, 0⟩ 7).put ⟨1, 0⟩ 8 :
      node_group rectangular_tile_traits Nat) ⟨1, 0⟩ 5 (by decide)
  obtain ⟨m, g2, k1, _, k3, _, _, _, k7, _⟩ :=
    assignment_overwrites ((node_group.empty.put ⟨0, 0⟩ 7).put ⟨1, 0⟩ 8 :
      node_group rectangular_tile_traits Nat) ⟨5, 5⟩ 5 (by decide)
  exact ⟨hc, ⟨n, g1, h1, h3, h4, h6 hc (by decide)⟩, ⟨m, g2, k1, k3, k7 hc (by decide)⟩⟩


/-! ## The bounding box (node_group.tcc) -/

theorem foldl_min_step_x (l : List vector_t) (acc : vector_t) :
    (l.foldl node_group.min_step acc).m_x
      = (l.map vector_t.m_x).foldl
          (fun (r x : unit_t) => if r = invalid_unit then x else min r x) acc.m_x := by
  induction l generalizing acc with
  | nil => rfl
  | cons c l ih => simp only [List.foldl_cons, List.map_cons, ih]; rfl

theorem foldl_min_step_y (l : List vector_t) (acc : vector_t) :
    (l.foldl node_group.min_step acc).m_y
      = (l.map vector_t.m_y).foldl
          (fun (r x : unit_t) => if r = invalid_unit then x else min r x) acc.m_y := by
  induction l generalizing acc with
  | nil => rfl
  | cons c l ih => simp only [List.foldl_cons, List.map_cons, ih]; rfl

theorem foldl_max_step_x (l : List vector_t) (acc : vector_t) :
    (l.foldl node_group.max_step acc).m_x
      = (l.map vector_t.m_x).foldl
          (fun (r x : unit_t) => if r = invalid_unit then x else max r x) acc.m_x := by
  induction l generalizing acc with
  | nil => rfl
  | cons c l ih => simp only [List.foldl_cons, List.map_cons, ih]; rfl

theorem foldl_max_step_y (l : List vector_t) (acc : vector_t) :
    (l.foldl node_group.max_step acc).m_y
      = (l.map vector_t.m_y).foldl
          (fun (r x : unit_t) => if r = invalid_unit then x else max r x) acc.m_y := by
  induction l generalizing acc with
  | nil => rfl
  | cons c l ih => simp only [List.foldl_cons, List.map_cons, ih]; rfl

/-- The loop of `min_coords()` on one axis, begun with a value that is not the reserved
one, ends with the least of the values it has seen. -/
theorem foldl_min_units (l : List unit_t) :
    ∀ (a : unit_t), invalid_unit < a → (∀ x ∈ l, invalid_unit < x) →
      l.foldl (fun (r x : unit_t) => if r = invalid_unit then x else min r x) a ≤ a ∧
      (∀ x ∈ l,
        l.foldl (fun (r x : unit_t) => if r = invalid_unit then x else min r x) a ≤ x) ∧
      (l.foldl (fun (r x : unit_t) => if r = invalid_unit then x else min r x) a = a ∨
        l.foldl (fun (r x : unit_t) => if r = invalid_unit then x else min r x) a ∈ l) := by
  induction l with
  | nil => intro a _ _; exact ⟨le_refl _, fun _ h => (by cases h), Or.inl rfl⟩
  | cons y l ih =>
    intro a ha hl
    have hy : invalid_unit < y := hl y (List.mem_cons_self _ _)
    have hne : a ≠ invalid_unit := ne_of_gt ha
    have hm : invalid_unit < min a y := lt_min ha hy
    obtain ⟨h1, h2, h3⟩ := ih (min a y) hm (fun x hx => hl x (List.mem_cons_of_mem _ hx))
    simp only [List.foldl_cons, hne, if_false]
    refine ⟨le_trans h1 (min_le_left _ _), ?_, ?_⟩
    · intro x hx
      rcases List.mem_cons.mp hx with e | hx
      · rw [e]; exact le_trans h1 (min_le_right _ _)
      · exact h2 x hx
    · rcases h3 with h3 | h3
      · rcases min_choice a y with e | e
        · exact Or.inl (by rw [h3, e])
        · exact Or.inr (by rw [h3, e]; exact List.mem_cons_self _ _)
      · exact Or.inr (List.mem_cons_of_mem _ h3)

/-- The loop of `max_coords()` on one axis, begun with a value that is not the reserved
one, ends with the greatest of the values it has seen. -/
theorem foldl_max_units (l : List unit_t) :
    ∀ (a : unit_t), invalid_unit < a → (∀ x ∈ l, invalid_unit < x) →
      a ≤ l.foldl (fun (r x : unit_t) => if r = invalid_unit then x else max r x) a ∧
      (∀ x ∈ l,
        x ≤ l.foldl (fun (r x : unit_t) => if r = invalid_unit then x else max r x) a) ∧
      (l.foldl (fun (r x : unit_t) => if r = invalid_unit then x else max r x) a = a ∨
        l.foldl (fun (r x : unit_t) => if r = invalid_unit then x else max r x) a ∈ l) := by
  induction l with
  | nil => intro a _ _; exact ⟨le_refl _, fun _ h => (by cases h), Or.inl rfl⟩
  | cons y l ih =>
    intro a ha hl
    have hy : invalid_unit < y := hl y (List.mem_cons_self _ _)
    have hne : a ≠ invalid_unit := ne_of_gt ha
    have hm : invalid_unit < max a y := lt_of_lt_of_le ha (le_max_left _ _)
    obtain ⟨h1, h2, h3⟩ := ih (max a y) hm (fun x hx => hl x (List.mem_cons_of_mem _ hx))
    simp only [List.foldl_cons, hne, if_false]
    refine ⟨le_trans (le_max_left _ _) h1, ?_, ?_⟩
    · intro x hx
      rcases List.mem_cons.mp hx with e | hx
      · rw [e]; exact le_trans (le_max_right _ _) h1
      · exact h2 x hx
    · rcases h3 with h3 | h3
      · rcases max_choice a y with e | e
        · exact Or.inl (by rw [h3, e])
        · exact Or.inr (by rw [h3, e]; exact List.mem_cons_self _ _)
      · exact Or.inr (List.mem_cons_of_mem _ h3)

theorem min_coords_of_cons {T : tile_traits} {α : Type} (g : node_group T α)
    (p : vector_t × node_id_t) (rest : List (vector_t × node_id_t))
    (hg : g.m_nodes = p :: rest) :
    g.min_coords.m_x = (rest.map (fun q => q.1.m_x)).foldl
        (fun (r x : unit_t) => if r = invalid_unit then x else min r x) p.1.m_x ∧
    g.min_coords.m_y = (rest.map (fun q => q.1.m_y)).foldl
        (fun (r x : unit_t) => if r = invalid_unit then x else min r x) p.1.m_y ∧
    g.max_coords.m_x = (rest.map (fun q => q.1.m_x)).foldl
        (fun (r x : unit_t) => if r = invalid_unit then x else max r x) p.1.m_x + 1 ∧
    g.max_coords.m_y = (rest.map (fun q => q.1.m_y)).foldl
        (fun (r x : unit_t) => if r = invalid_unit then x else max r x) p.1.m_y + 1 := by
  have h1 : node_group.min_step invalid_vector p.1 = p.1 := rfl
  have h2 : node_group.max_step invalid_vector p.1 = p.1 := rfl
  unfold node_group.min_coords node_group.max_coords
  simp only [hg, List.map_cons, List.foldl_cons, h1, h2, foldl_min_step_x, foldl_min_step_y,
    foldl_max_step_x, foldl_max_step_y, List.map_map]
  exact ⟨rfl, rfl, rfl, rfl⟩

/-- Claim C19 (counterexample). In the group with nodes at (`invalid_unit`, 0) and at
(5, 0), both valid coordinates of rectangular tiles, `min_coords()` is (5, 0), which is
not below the occupied coordinate (`invalid_unit`, 0). -/
theorem reserved_unit_hides_the_minimum :
    (((node_group.empty : node_group rectangular_tile_traits Nat).put
      ⟨invalid_unit, 0⟩ 1).put ⟨5, 0⟩ 2).is_empty ⟨invalid_unit, 0⟩ = false ∧
    (((node_group.empty : node_group rectangular_tile_traits Nat).put
      ⟨invalid_unit, 0⟩ 1).put ⟨5, 0⟩ 2).min_coords = ⟨5, 0⟩ ∧
    ¬ ((((node_group.empty : node_group rectangular_tile_traits Nat).put
      ⟨invalid_unit, 0⟩ 1).put ⟨5, 0⟩ 2).min_coords.m_x ≤ invalid_unit) := by
  refine ⟨by decide, by decide, by decide⟩


/-- Claim C19 (amended). In a group that is not empty and whose occupied coordinates have
proper units on both axes, `min_coords()` is the least x and the least y of the occupied
coordinates and `max_coords()` is the greatest x plus one and the greatest y plus one, so
that every occupied coordinate lies in the box from `min_coords()` up to, and not
including, `max_coords()`. -/
theorem bounding_box_is_tight {T : tile_traits} {α : Type} (g : node_group T α)
    (c0 : vector_t) (h0 : g.is_empty c0 = false)
    (hp : ∀ c, g.is_empty c = false → proper_unit c.m_x ∧ proper_unit c.m_y) :
    (∀ c, g.is_empty c = false →
      g.min_coords.m_x ≤ c.m_x ∧ g.min_coords.m_y ≤ c.m_y ∧
      c.m_x < g.max_coords.m_x ∧ c.m_y < g.max_coords.m_y) ∧
    (∃ c, g.is_empty c = false ∧ g.min_coords.m_x = c.m_x) ∧
    (∃ c, g.is_empty c = false ∧ g.min_coords.m_y = c.m_y) ∧
    (∃ c, g.is_empty c = false ∧ g.max_coords.m_x = c.m_x + 1) ∧
    (∃ c, g.is_empty c = false ∧ g.max_coords.m_y = c.m_y + 1) := by
  have hmem := node_group.is_empty_iff_mem g
  cases hg : g.m_nodes with
  | nil =>
    have := (hmem c0).mp h0
    rw [hg] at this
    cases this
  | cons p rest =>
    obtain ⟨e1, e2, e3, e4⟩ := min_coords_of_cons g p rest hg
    have hpocc : g.is_empty p.1 = false :=
      (hmem p.1).mpr (by rw [hg]; exact List.mem_map_of_mem Prod.fst (List.mem_cons_self _ _))
    have hrocc : ∀ q ∈ rest, g.is_empty q.1 = false := fun q hq =>
      (hmem q.1).mpr (by rw [hg]; exact List.mem_map_of_mem Prod.fst (List.mem_cons_of_mem _ hq))
    have hax : invalid_unit < p.1.m_x := (hp p.1 hpocc).1.1
    have hay : invalid_unit < p.1.m_y := (hp p.1 hpocc).2.1
    have hlx : ∀ x ∈ rest.map (fun q => q.1.m_x), invalid_unit < x := by
      intro x hx
      obtain ⟨q, hq, rfl⟩ := List.mem_map.mp hx
      exact (hp q.1 (hrocc q hq)).1.1
    have hly : ∀ x ∈ rest.map (fun q => q.1.m_y), invalid_unit < x := by
      intro x hx
      obtain ⟨q, hq, rfl⟩ := List.mem_map.mp hx
      exact (hp q.1 (hrocc q hq)).2.1
    obtain ⟨a1, a2, a3⟩ := foldl_min_units _ p.1.m_x hax hlx
    obtain ⟨b1, b2, b3⟩ := foldl_min_units _ p.1.m_y hay hly
    obtain ⟨c1, c2, c3⟩ := foldl_max_units _ p.1.m_x hax hlx
    obtain ⟨d1, d2, d3⟩ := foldl_max_units _ p.1.m_y hay hly
    rw [← e1] at a1 a2 a3
    rw [← e2] at b1 b2 b3
    have hcase : ∀ c, g.is_empty c = false → c = p.1 ∨ ∃ q ∈ rest, c = q.1 := by
      intro c hc
      have := (hmem c).mp hc
      rw [hg] at this
      rcases List.mem_cons.mp this with h | h
      · exact Or.inl h
      · obtain ⟨q, hq, rfl⟩ := List.mem_map.mp h
        exact Or.inr ⟨q, hq, rfl⟩
    refine ⟨?_, ?_, ?_, ?_, ?_⟩
    · intro c hc
      rw [e3, e4]
      rcases hcase c hc with h | ⟨q, hq, h⟩
      · rw [h]
        exact ⟨a1, b1, Int.lt_add_one_iff.mpr c1, Int.lt_add_one_iff.mpr d1⟩
      · rw [h]
        have mx : q.1.m_x ∈ rest.map (fun q => q.1.m_x) :=
          List.mem_map.mpr ⟨q, hq, rfl⟩
        have my : q.1.m_y ∈ rest.map (fun q => q.1.m_y) :=
          List.mem_map.mpr ⟨q, hq, rfl⟩
        exact ⟨a2 _ mx, b2 _ my, Int.lt_add_one_iff.mpr (c2 _ mx),
          Int.lt_add_one_iff.mpr (d2 _ my)⟩
    · rcases a3 with h | h
      · exact ⟨p.1, hpocc, h⟩
      · obtain ⟨q, hq, e⟩ := List.mem_map.mp h
        exact ⟨q.1, hrocc q hq, e.symm⟩
    · rcases b3 with h | h
      · exact ⟨p.1, hpocc, h⟩
      · obtain ⟨q, hq, e⟩ := List.mem_map.mp h
        exact ⟨q.1, hrocc q hq, e.symm⟩
    · rw [e3]
      rcases c3 with h | h
      · exact ⟨p.1, hpocc, by rw [h]⟩
      · obtain ⟨q, hq, e⟩ := List.mem_map.mp h
        exact ⟨q.1, hrocc q hq, by rw [← e]⟩
    · rw [e4]
      rcases d3 with h | h
      · exact ⟨p.1, hpocc, by rw [h]⟩
      · obtain ⟨q, hq, e⟩ := List.mem_map.mp h
        exact ⟨q.1, hrocc q hq, by rw [← e]⟩

/-- A concrete instance of `bounding_box_is_tight`: the group `three_in_a_row`, whose box
runs from (0, 0) to (3, 1). -/
theorem bounding_box_is_tight_witness :
    three_in_a_row.is_empty ⟨1, 0⟩ = false ∧
    three_in_a_row.min_coords = ⟨0, 0⟩ ∧ three_in_a_row.max_coords = ⟨3, 1⟩ ∧
    (∀ c, three_in_a_row.is_empty c = false →
      three_in_a_row.min_coords.m_x ≤ c.m_x ∧ three_in_a_row.min_coords.m_y ≤ c.m_y ∧
      c.m_x < three_in_a_row.max_coords.m_x ∧ c.m_y < three_in_a_row.max_coords.m_y) ∧
    (∃ c, three_in_a_row.is_empty c = false ∧ three_in_a_row.min_coords.m_x = c.m_x) ∧
    (∃ c, three_in_a_row.is_empty c = false ∧ three_in_a_row.min_coords.m_y = c.m_y) ∧
    (∃ c, three_in_a_row.is_empty c = false ∧ three_in_a_row.max_coords.m_x = c.m_x + 1) ∧
    (∃ c, three_in_a_row.is_empty c = false ∧ three_in_a_row.max_coords.m_y = c.m_y + 1) := by
  have hp : ∀ c, three_in_a_row.is_empty c = false → proper_unit c.m_x ∧ proper_unit c.m_y := by
    intro c hc
    have hm := (node_group.is_empty_iff_mem three_in_a_row c).mp hc
    simp only [three_in_a_row, List.map_cons, List.map_nil, List.mem_cons,
      List.mem_singleton, List.not_mem_nil, or_false] at hm
    rcases hm with h | h | h <;> rw [h] <;> decide
  exact ⟨by decide, by decide, by decide,
    bounding_box_is_tight three_in_a_row ⟨1, 0⟩ (by decide) hp⟩


/-! ## Clearing a group (node_group.tcc) -/

/-- Claim C20. The call `clear()` leaves the group in the state of a default constructed
group: `size()` is 0, `is_empty(c)` is true for every coordinate, the identifier
generator is at its initial value, and the next handle that the group returns for a valid
coordinate carries the identifier 0, the first one that a default constructed group
issues. -/
theorem clear_resets_the_group {T : tile_traits} {α : Type} (g : node_group T α) :
    g.clear = node_group.empty ∧
    g.clear.size = 0 ∧
    (∀ c, g.clear.is_empty c = true) ∧
    g.clear.m_id_generator = simple_id_generator.init ∧
    (∀ c, g.clear.operator_call c = (node_group.empty : node_group T α).operator_call c) ∧
    (∀ c, T.is_valid c = true →
      ∃ n g2, g.clear.operator_call c = .ok (n, g2) ∧ n.id = 0 ∧ n.coordinates = c ∧
        (node_group.empty : node_group T α).operator_call c = .ok (n, g2)) := by
  have h : g.clear = node_group.empty := rfl
  refine ⟨h, rfl, fun _ => rfl, rfl, fun _ => by rw [h], ?_⟩
  intro c hv
  rw [h]
  refine ⟨⟨0, c⟩, ⟨[], [], ⟨1⟩⟩, ?_, rfl, rfl, ?_⟩ <;>
    simp [node_group.operator_call, node_group.is_valid, hv, node_group.empty,
      std_map.find, simple_id_generator.get_unique_id, simple_id_generator.init]

/-- A concrete instance of `clear_resets_the_group`: after the group `three_in_a_row` is
cleared, the handle for (4, 4) carries the identifier 0. -/
theorem clear_resets_the_group_witness :
    three_in_a_row.clear = node_group.empty ∧
    three_in_a_row.clear.size = 0 ∧
    ∃ n g2, three_in_a_row.clear.operator_call ⟨4, 4⟩ = .ok (n, g2) ∧ n.id = 0 ∧
      n.coordinates = ⟨4, 4⟩ ∧
      (node_group.empty : node_group rectangular_tile_traits Nat).operator_call ⟨4, 4⟩
        = .ok (n, g2) :=
  ⟨(clear_resets_the_group three_in_a_row).1, (clear_resets_the_group three_in_a_row).2.1,
    (clear_resets_the_group three_in_a_row).2.2.2.2.2 ⟨4, 4⟩ (by decide)⟩


/-! ## The invariant under current handles, and what `size()` counts -/

/-- Under current handles a group is consistent. -/
theorem node_group.consistent_of_current_use {T : tile_traits} {α : Type}
    {g : node_group T α} (h : g.current_use) : g.consistent := by
  induction h with
  | empty => exact node_group.consistent_empty
  | handle_at g c n g2 _ hcall ih =>
    exact (node_group.consistent_operator_call g c n g2 ih hcall).1
  | assign g c n g2 data _ hcall ih =>
    obtain ⟨h2, hn, _, _, hcur⟩ := node_group.consistent_operator_call g c n g2 ih hcall
    show (g2.set n.m_id n.m_coords data).consistent
    rw [hn]
    exact node_group.consistent_set g2 n.m_id c data h2 hcur
  | move g src dst _ ih => exact node_group.consistent_move g src dst ih
  | move_to g c n g2 dst _ hcall ih =>
    have h2 := (node_group.consistent_operator_call g c n g2 ih hcall).1
    have h3 := node_group.consistent_move g2 n.m_coords dst h2
    have e : (n.move_to g2 dst).2.2 = (g2.move n.m_coords dst).2 := by
      unfold node.move_to
      cases hr : (g2.move n.m_coords dst).1 <;> simp [hr]
    rw [e]
    exact h3
  | erase g c _ ih => exact node_group.consistent_erase g c ih
  | clear g _ _ => exact node_group.consistent_clear g

theorem std_map.nodup_keys {K V : Type} (lt : K → K → Bool) (hirr : ∀ a, lt a a = false)
    (m : List (K × V)) (hm : std_map.ordered lt m) : (m.map Prod.fst).Nodup := by
  unfold std_map.ordered at hm
  unfold List.Nodup
  rw [List.pairwise_map]
  refine List.Pairwise.imp ?_ hm
  intro a b hab e
  rw [e, hirr] at hab
  cases hab

/-- In a consistent group `size()` is the number of coordinates that are not empty. -/
theorem node_group.size_of_consistent {T : tile_traits} {α : Type} (g : node_group T α)
    (hc : g.consistent) :
    ∃ s : Finset vector_t, (∀ c, c ∈ s ↔ g.is_empty c = false) ∧ s.card = g.size := by
  have hk : (g.m_nodes.map Prod.fst).Nodup :=
    std_map.nodup_keys vector_t.lt vector_t.lt_irrefl _ hc.nodes_ordered
  have hd : (g.m_node_data.map Prod.fst).Nodup :=
    std_map.nodup_keys node_id_lt node_id_lt_irrefl _ hc.data_ordered
  have hn : g.m_nodes.Nodup := List.Nodup.of_map _ hk
  have hi : (g.m_nodes.map Prod.snd).Nodup := by
    refine List.Nodup.map_on ?_ hn
    intro p hp q hq e
    obtain ⟨c1, id1⟩ := p
    obtain ⟨c2, id2⟩ := q
    have e2 : id1 = id2 := e
    subst e2
    have := hc.unique c1 c2 id1 (std_map.find_of_mem hk hp) (std_map.find_of_mem hk hq)
    rw [this]
  have hperm : List.Perm (g.m_nodes.map Prod.snd) (g.m_node_data.map Prod.fst) := by
    rw [List.perm_ext_iff_of_nodup hi hd]
    intro id
    constructor
    · intro h
      obtain ⟨p, hp, e⟩ := List.mem_map.mp h
      obtain ⟨c, id1⟩ := p
      have e2 : id1 = id := e
      subst e2
      obtain ⟨w, _, hw, _⟩ := hc.has_data c id1 (std_map.find_of_mem hk hp)
      exact List.mem_map_of_mem Prod.fst (std_map.mem_of_find hw)
    · intro h
      obtain ⟨p, hp, e⟩ := List.mem_map.mp h
      obtain ⟨id1, w⟩ := p
      have e2 : id1 = id := e
      subst e2
      obtain ⟨c, hcf⟩ := hc.anchored id1 w (std_map.find_of_mem hd hp)
      exact List.mem_map_of_mem Prod.snd (std_map.mem_of_find hcf)
  refine ⟨(g.m_nodes.map Prod.fst).toFinset, ?_, ?_⟩
  · intro c
    rw [List.mem_toFinset]
    exact (node_group.is_empty_iff_mem g c).symm
  · rw [List.toFinset_card_of_nodup hk]
    have := hperm.length_eq
    simp only [List.length_map] at this ⊢
    exact this


/-! ## Neighbours of a handle (node_group.tcc) -/

/-- Claim C21. For a handle `h` and a direction `d`, `h.get_relative(d)` throws
`CG_INVALID_DIR` exactly when the tile traits answer `get_relative(h.coordinates(), d)`
with the invalid vector. Otherwise, when the neighbour is a valid coordinate, it returns
a handle whose `coordinates()` are the neighbour and whose identifier is the one recorded
for the neighbour if that is occupied; the two maps of the group stay as they are. -/
theorem get_relative_of_handle {T : tile_traits} {α : Type} (g : node_group T α)
    (h : node T α) (d : directions_t) :
    (h.get_relative g d = .error (.thrown CG_INVALID_DIR)
      ↔ T.get_relative h.coordinates d = invalid_vector) ∧
    (T.get_relative h.coordinates d ≠ invalid_vector →
      T.is_valid (T.get_relative h.coordinates d) = true →
      ∃ n g2, h.get_relative g d = .ok (n, g2) ∧
        n.coordinates = T.get_relative h.coordinates d ∧
        (∀ id, std_map.find g.m_nodes (T.get_relative h.coordinates d) = some id →
          n.id = id ∧ g2 = g) ∧
        g2.m_nodes = g.m_nodes ∧ g2.m_node_data = g.m_node_data) := by
  have hdef : h.get_relative g d
      = if T.get_relative h.m_coords d = invalid_vector then .error (.thrown CG_INVALID_DIR)
        else g.operator_call (T.get_relative h.m_coords d) := rfl
  have hco : h.coordinates = h.m_coords := rfl
  rw [hco]
  constructor
  · constructor
    · intro he
      by_contra hne
      rw [hdef, if_neg hne] at he
      unfold node_group.operator_call at he
      cases hv : g.is_valid (T.get_relative h.m_coords d) with
      | false => simp [hv] at he
      | true =>
        simp only [hv, Bool.not_true, Bool.false_eq_true, if_false] at he
        cases hs : std_map.find g.m_nodes (T.get_relative h.m_coords d) with
        | none => simp [hs] at he
        | some id => simp [hs] at he
    · intro he
      rw [hdef, if_pos he]
  · intro hne hv
    rw [hdef, if_neg hne]
    unfold node_group.operator_call
    simp only [node_group.is_valid, hv, Bool.not_true, Bool.false_eq_true, if_false]
    cases hs : std_map.find g.m_nodes (T.get_relative h.m_coords d) with
    | none =>
      exact ⟨_, _, rfl, rfl, fun _ hid => (by cases hid),
        rfl, rfl⟩
    | some id =>
      refine ⟨_, _, rfl, rfl, fun id2 hid => ?_, rfl, rfl⟩
      exact ⟨Option.some.inj hid, rfl⟩

/-- A concrete instance of `get_relative_of_handle`: the eastern neighbour of the handle
for (1, 0) in the group `three_in_a_row` is the node at (2, 0), with the identifier 2. -/
theorem get_relative_of_handle_witness :
    ∃ n g2, (⟨1, ⟨1, 0⟩⟩ : node rectangular_tile_traits Nat).get_relative three_in_a_row EAST
        = .ok (n, g2) ∧
      n.coordinates = ⟨2, 0⟩ ∧
      (∀ id, std_map.find three_in_a_row.m_nodes ⟨2, 0⟩ = some id →
        n.id = id ∧ g2 = three_in_a_row) ∧
      g2.m_nodes = three_in_a_row.m_nodes ∧ g2.m_node_data = three_in_a_row.m_node_data :=
  (get_relative_of_handle three_in_a_row (⟨1, ⟨1, 0⟩⟩ : node rectangular_tile_traits Nat)
    EAST).2 (by decide) (by decide)


/-! ## Directions without a neighbour (tile_traits.cpp) -/

theorem rectangular_listed_all (p : vector_t) :
    rectangular_tile_traits.listed p ALL_JOIN_TYPES
      = [NORTH, NORTH_EAST, EAST, SOUTH_EAST, SOUTH, SOUTH_WEST, WEST, NORTH_WEST] := rfl

theorem hexagonal_listed_all (p : vector_t) :
    hexagonal_tile_traits.listed p ALL_JOIN_TYPES
      = [NORTH, NORTH_EAST, SOUTH_EAST, SOUTH, SOUTH_WEST, NORTH_WEST] := rfl

theorem triangular_listed_all (p : vector_t) :
    triangular_tile_traits.listed p ALL_JOIN_TYPES
      = if Int.tmod (p.m_x + p.m_y) 2 ≠ 0 then
          [NORTH, NORTH_NORTH_EAST, NORTH_EAST, EAST_NORTH_EAST, EAST, SOUTH_EAST, SOUTH,
            SOUTH_WEST, WEST, WEST_NORTH_WEST, NORTH_WEST, NORTH_NORTH_WEST]
        else
          [NORTH, NORTH_EAST, EAST, EAST_SOUTH_EAST, SOUTH_EAST, SOUTH_SOUTH_EAST, SOUTH,
            SOUTH_SOUTH_WEST, SOUTH_WEST, WEST_SOUTH_WEST, WEST, NORTH_WEST] := by
  rw [triangular_listed]
  split_ifs <;> rfl

theorem triangular_get_relative_down (c : vector_t) (d : directions_t)
    (hp : Int.tmod (c.m_x + c.m_y) 2 ≠ 0) (hs : d ≠ DIR_START) (he : d ≠ DIR_END) :
    tile_traits.get_relative triangular_tile_traits c d
      = c + triangular_tile_traits.relative_down d := by
  show triangular_tile_traits.get_relative c d = _
  unfold triangular_tile_traits.get_relative
  cases d <;> first
    | exact absurd rfl hs
    | exact absurd rfl he
    | simp [directions_t.toInt, hp]

theorem triangular_get_relative_up (c : vector_t) (d : directions_t)
    (hp : ¬ Int.tmod (c.m_x + c.m_y) 2 ≠ 0) (hs : d ≠ DIR_START) (he : d ≠ DIR_END) :
    tile_traits.get_relative triangular_tile_traits c d
      = c + triangular_tile_traits.relative_up d := by
  show triangular_tile_traits.get_relative c d = _
  unfold triangular_tile_traits.get_relative
  cases d <;> first
    | exact absurd rfl hs
    | exact absurd rfl he
    | simp [directions_t.toInt, hp]

/-- Claim C22 (evaluation of the code). For the up triangle at (1, 1) the direction
`NORTH_NORTH_EAST` is not listed, and `triangular_tile_traits::get_relative` answers it
with (1, 1) plus the invalid vector, which is not the invalid vector, so that
`node::get_relative` returns a handle. In general a direction that is not defined for a
triangle is answered with the coordinates plus the invalid vector; the two sentinels are
answered with the invalid vector, and so is every direction that is not listed for
rectangular or for hexagonal tiles. -/
theorem triangular_undefined_direction_is_not_invalid :
    NORTH_NORTH_EAST ∉ triangular_tile_traits.listed ⟨1, 1⟩ ALL_JOIN_TYPES ∧
    tile_traits.get_relative triangular_tile_traits ⟨1, 1⟩ NORTH_NORTH_EAST
      = ⟨-9223372036854775807, -9223372036854775807⟩ ∧
    tile_traits.get_relative triangular_tile_traits ⟨1, 1⟩ NORTH_NORTH_EAST
      ≠ invalid_vector ∧
    (∃ n g2, (⟨0, ⟨1, 1⟩⟩ : node triangular_tile_traits Nat).get_relative
        node_group.empty NORTH_NORTH_EAST = .ok (n, g2) ∧
      n.coordinates = ⟨-9223372036854775807, -9223372036854775807⟩) ∧
    (∀ c d, d ∉ triangular_tile_traits.listed c ALL_JOIN_TYPES →
      d ≠ DIR_START → d ≠ DIR_END →
      tile_traits.get_relative triangular_tile_traits c d = c + invalid_vector) ∧
    (∀ c, tile_traits.get_relative triangular_tile_traits c DIR_START = invalid_vector ∧
      tile_traits.get_relative triangular_tile_traits c DIR_END = invalid_vector) ∧
    (∀ c d, d ∉ rectangular_tile_traits.listed c ALL_JOIN_TYPES →
      tile_traits.get_relative rectangular_tile_traits c d = invalid_vector) ∧
    (∀ c d, d ∉ hexagonal_tile_traits.listed c ALL_JOIN_TYPES →
      tile_traits.get_relative hexagonal_tile_traits c d = invalid_vector) := by
  refine ⟨by decide, by decide, by decide, ⟨_, _, rfl, rfl⟩, ?_, fun c => ⟨rfl, rfl⟩, ?_, ?_⟩
  · intro c d h hs he
    rw [triangular_listed_all] at h
    by_cases hp : Int.tmod (c.m_x + c.m_y) 2 ≠ 0
    · rw [triangular_get_relative_down c d hp hs he]
      rw [if_pos hp] at h
      revert h
      cases d <;> first
        | (intro _; rfl)
        | (intro h; exact absurd (by decide) h)
    · rw [triangular_get_relative_up c d hp hs he]
      rw [if_neg hp] at h
      revert h
      cases d <;> first
        | (intro _; rfl)
        | (intro h; exact absurd (by decide) h)
  · intro c d h
    rw [rectangular_listed_all] at h
    revert h
    cases d <;> first
      | (intro _; rfl)
      | (intro h; exact absurd (by decide) h)
  · intro c d h
    rw [hexagonal_listed_all] at h
    revert h
    cases d <;> first
      | (intro _; rfl)
      | (intro h; exact absurd (by decide) h)


/-! ## The arrays of directions (tile_traits.cpp) -/

theorem terminated_dirs_some (l : List directions_t) (h1 : l = l.dropLast ++ [DIR_END])
    (h2 : DIR_END ∉ l.dropLast) : terminated_dirs (some l) :=
  ⟨l.dropLast, congrArg some h1, h2⟩

theorem terminated_dirs_none : ¬ terminated_dirs none := by
  rintro ⟨ds, h, _⟩
  cases h

theorem dirs_cases_some (l : List directions_t) (P : Prop) (hP : P)
    (h1 : l = l.dropLast ++ [DIR_END]) (h2 : DIR_END ∉ l.dropLast) :
    (terminated_dirs (some l) ↔ P) ∧ (some l = none ↔ ¬ P) :=
  ⟨⟨fun _ => hP, fun _ => terminated_dirs_some l h1 h2⟩,
    ⟨fun h => (by cases h), fun h => absurd hP h⟩⟩

theorem dirs_cases_none (P : Prop) (hP : ¬ P) :
    (terminated_dirs none ↔ P) ∧ ((none : Option (List directions_t)) = none ↔ ¬ P) :=
  ⟨⟨fun h => absurd h terminated_dirs_none, fun h => absurd h hP⟩,
    ⟨fun _ => hP, fun _ => rfl⟩⟩

theorem rectangular_available_dirs_cases (c : vector_t) (join_type : join_t) :
    (terminated_dirs (tile_traits.available_dirs rectangular_tile_traits c join_type)
      ↔ (join_type.has EDGES = true ∨ join_type.has CORNERS_FACING = true)) ∧
    (tile_traits.available_dirs rectangular_tile_traits c join_type = none
      ↔ ¬ (join_type.has EDGES = true ∨ join_type.has CORNERS_FACING = true)) := by
  show (terminated_dirs (rectangular_tile_traits.available_dirs c join_type) ↔ _) ∧
    (rectangular_tile_traits.available_dirs c join_type = none ↔ _)
  unfold rectangular_tile_traits.available_dirs
  cases join_type.has EDGES <;> cases join_type.has CORNERS_FACING <;>
    first
      | exact dirs_cases_none _ (by decide)
      | exact dirs_cases_some _ _ (by decide) (by decide) (by decide)

theorem hexagonal_available_dirs_cases (c : vector_t) (join_type : join_t) :
    (terminated_dirs (tile_traits.available_dirs hexagonal_tile_traits c join_type)
      ↔ join_type.has EDGES = true) ∧
    (tile_traits.available_dirs hexagonal_tile_traits c join_type = none
      ↔ ¬ join_type.has EDGES = true) := by
  show (terminated_dirs (hexagonal_tile_traits.available_dirs c join_type) ↔ _) ∧
    (hexagonal_tile_traits.available_dirs c join_type = none ↔ _)
  unfold hexagonal_tile_traits.available_dirs
  cases join_type.has EDGES <;>
    first
      | exact dirs_cases_none _ (by decide)
      | exact dirs_cases_some _ _ (by decide) (by decide) (by decide)

theorem triangular_available_dirs_cases (c : vector_t) (join_type : join_t) :
    (terminated_dirs (tile_traits.available_dirs triangular_tile_traits c join_type)
      ↔ (join_type.has EDGES = true ∨ join_type.has CORNERS_FACING = true ∨
          join_type.has CORNERS_OBLIQUE = true)) ∧
    (tile_traits.available_dirs triangular_tile_traits c join_type = none
      ↔ ¬ (join_type.has EDGES = true ∨ join_type.has CORNERS_FACING = true ∨
          join_type.has CORNERS_OBLIQUE = true)) := by
  show (terminated_dirs (triangular_tile_traits.available_dirs c join_type) ↔ _) ∧
    (triangular_tile_traits.available_dirs c join_type = none ↔ _)
  unfold triangular_tile_traits.available_dirs
  simp only []
  by_cases hp : Int.tmod (c.m_x + c.m_y) 2 ≠ 0
  · rw [if_pos hp]
    unfold triangular_tile_traits.available_dirs_triangular_down
    cases join_type.has EDGES <;> cases join_type.has CORNERS_FACING <;>
      cases join_type.has CORNERS_OBLIQUE <;>
      first
        | exact dirs_cases_none _ (by decide)
        | exact dirs_cases_some _ _ (by decide) (by decide) (by decide)
  · rw [if_neg hp]
    unfold triangular_tile_traits.available_dirs_triangular_up
    cases join_type.has EDGES <;> cases join_type.has CORNERS_FACING <;>
      cases join_type.has CORNERS_OBLIQUE <;>
      first
        | exact dirs_cases_none _ (by decide)
        | exact dirs_cases_some _ _ (by decide) (by decide) (by decide)

theorem rectangular_listed_subset (c : vector_t) (join_type : join_t) (d : directions_t)
    (h : d ∈ rectangular_tile_traits.listed c join_type) :
    d ∈ rectangular_tile_traits.listed c ALL_JOIN_TYPES := by
  rw [rectangular_listed_all]
  revert h
  show d ∈ (match rectangular_tile_traits.available_dirs c join_type with
    | none => []
    | some dirs => listed_dirs dirs) → _
  unfold rectangular_tile_traits.available_dirs
  cases join_type.has EDGES <;> cases join_type.has CORNERS_FACING <;>
    cases d <;> decide

theorem hexagonal_listed_subset (c : vector_t) (join_type : join_t) (d : directions_t)
    (h : d ∈ hexagonal_tile_traits.listed c join_type) :
    d ∈ hexagonal_tile_traits.listed c ALL_JOIN_TYPES := by
  rw [hexagonal_listed_all]
  revert h
  show d ∈ (match hexagonal_tile_traits.available_dirs c join_type with
    | none => []
    | some dirs => listed_dirs dirs) → _
  unfold hexagonal_tile_traits.available_dirs
  cases join_type.has EDGES <;> cases d <;> decide

theorem triangular_listed_subset (c : vector_t) (join_type : join_t) (d : directions_t)
    (h : d ∈ triangular_tile_traits.listed c join_type) :
    d ∈ triangular_tile_traits.listed c ALL_JOIN_TYPES := by
  rw [triangular_listed_all]
  rw [triangular_listed] at h
  revert h
  by_cases hp : Int.tmod (c.m_x + c.m_y) 2 ≠ 0
  · rw [if_pos hp, if_pos hp]
    unfold triangular_tile_traits.available_dirs_triangular_down
    cases join_type.has EDGES <;> cases join_type.has CORNERS_FACING <;>
      cases join_type.has CORNERS_OBLIQUE <;> cases d <;> decide
  · rw [if_neg hp, if_neg hp]
    unfold triangular_tile_traits.available_dirs_triangular_up
    cases join_type.has EDGES <;> cases join_type.has CORNERS_FACING <;>
      cases join_type.has CORNERS_OBLIQUE <;> cases d <;> decide

theorem add_ne_invalid_vector (c v : vector_t) (hc : invalid_unit + 2 < c.m_x)
    (hv : -2 ≤ v.m_x) : c + v ≠ invalid_vector := by
  intro h
  have hx : c.m_x + v.m_x = invalid_unit := congrArg vector_t.m_x h
  linarith

theorem rectangular_listed_step (c : vector_t) (d : directions_t)
    (h : d ∈ rectangular_tile_traits.listed c ALL_JOIN_TYPES) :
    ∃ v : vector_t, -2 ≤ v.m_x ∧ v.m_x ≤ 2 ∧ -2 ≤ v.m_y ∧ v.m_y ≤ 2 ∧
      tile_traits.get_relative rectangular_tile_traits c d = c + v := by
  rw [rectangular_listed_all] at h
  revert h
  cases d <;> first
    | (intro h; exact absurd h (by decide))
    | (intro _; exact ⟨_, by decide, by decide, by decide, by decide, rfl⟩)

theorem hexagonal_listed_step (c : vector_t) (d : directions_t)
    (h : d ∈ hexagonal_tile_traits.listed c ALL_JOIN_TYPES) :
    ∃ v : vector_t, -2 ≤ v.m_x ∧ v.m_x ≤ 2 ∧ -2 ≤ v.m_y ∧ v.m_y ≤ 2 ∧
      tile_traits.get_relative hexagonal_tile_traits c d = c + v := by
  rw [hexagonal_listed_all] at h
  revert h
  cases d <;> first
    | (intro h; exact absurd h (by decide))
    | (intro _; exact ⟨_, by decide, by decide, by decide, by decide, rfl⟩)

theorem triangular_listed_step (c : vector_t) (d : directions_t)
    (h : d ∈ triangular_tile_traits.listed c ALL_JOIN_TYPES) :
    ∃ v : vector_t, -2 ≤ v.m_x ∧ v.m_x ≤ 2 ∧ -2 ≤ v.m_y ∧ v.m_y ≤ 2 ∧
      tile_traits.get_relative triangular_tile_traits c d = c + v := by
  rw [triangular_listed_all] at h
  by_cases hp : Int.tmod (c.m_x + c.m_y) 2 ≠ 0
  · rw [if_pos hp] at h
    have hs : d ≠ DIR_START := by intro e; rw [e] at h; exact absurd h (by decide)
    have he : d ≠ DIR_END := by intro e; rw [e] at h; exact absurd h (by decide)
    rw [triangular_get_relative_down c d hp hs he]
    revert h
    cases d <;> first
      | (intro h; exact absurd h (by decide))
      | (intro _; exact ⟨_, by decide, by decide, by decide, by decide, rfl⟩)
  · rw [if_neg hp] at h
    have hs : d ≠ DIR_START := by intro e; rw [e] at h; exact absurd h (by decide)
    have he : d ≠ DIR_END := by intro e; rw [e] at h; exact absurd h (by decide)
    rw [triangular_get_relative_up c d hp hs he]
    revert h
    cases d <;> first
      | (intro h; exact absurd h (by decide))
      | (intro _; exact ⟨_, by decide, by decide, by decide, by decide, rfl⟩)

/-- Claim C24 (counterexample). The coordinate (`invalid_unit`, `invalid_unit` + 1) is
valid for rectangular tiles and `NORTH` is listed there, yet `get_relative` answers the
invalid vector, so that `node::get_relative(NORTH)` throws `CG_INVALID_DIR`; the same
happens for hexagonal tiles at (`invalid_unit` + 1, `invalid_unit` + 1) and the listed
direction `NORTH_WEST`. -/
theorem listed_direction_reaches_invalid_vector :
    tile_traits.is_valid rectangular_tile_traits ⟨invalid_unit, invalid_unit + 1⟩ = true ∧
    NORTH ∈ rectangular_tile_traits.listed ⟨invalid_unit, invalid_unit + 1⟩ EDGES ∧
    tile_traits.get_relative rectangular_tile_traits ⟨invalid_unit, invalid_unit + 1⟩ NORTH
      = invalid_vector ∧
    (⟨0, ⟨invalid_unit, invalid_unit + 1⟩⟩ : node rectangular_tile_traits Nat).get_relative
      node_group.empty NORTH = .error (.thrown CG_INVALID_DIR) ∧
    tile_traits.is_valid hexagonal_tile_traits ⟨invalid_unit + 1, invalid_unit + 1⟩ = true ∧
    NORTH_WEST ∈ hexagonal_tile_traits.listed ⟨invalid_unit + 1, invalid_unit + 1⟩ EDGES ∧
    tile_traits.get_relative hexagonal_tile_traits ⟨invalid_unit + 1, invalid_unit + 1⟩
      NORTH_WEST = invalid_vector := by
  refine ⟨by decide, by decide, by decide, rfl, by decide, by decide, by decide⟩

/-- Claim C24 (amended). For each tile shape, every coordinate `c` whose units are inner
ones (more than two away from the least and the greatest `unit_t`), every join type and
every direction `d` listed by `available_dirs(c, join_type)`, `get_relative(c, d)` is not
the invalid vector, as the assertion of the search loop says, its units are proper ones
(nothing overflows), and `get_relative(d)` on a handle at `c` does not throw
`CG_INVALID_DIR`. -/
theorem listed_direction_has_neighbour (c : vector_t) (join_type : join_t)
    (d : directions_t) (hx : inner_unit c.m_x) (hy : inner_unit c.m_y) :
    (d ∈ rectangular_tile_traits.listed c join_type →
      tile_traits.get_relative rectangular_tile_traits c d ≠ invalid_vector ∧
      proper_unit (tile_traits.get_relative rectangular_tile_traits c d).m_x ∧
      proper_unit (tile_traits.get_relative rectangular_tile_traits c d).m_y ∧
      ∀ (α : Type) (g : node_group rectangular_tile_traits α)
        (h : node rectangular_tile_traits α), h.coordinates = c →
        h.get_relative g d ≠ .error (.thrown CG_INVALID_DIR)) ∧
    (d ∈ triangular_tile_traits.listed c join_type →
      tile_traits.get_relative triangular_tile_traits c d ≠ invalid_vector ∧
      proper_unit (tile_traits.get_relative triangular_tile_traits c d).m_x ∧
      proper_unit (tile_traits.get_relative triangular_tile_traits c d).m_y ∧
      ∀ (α : Type) (g : node_group triangular_tile_traits α)
        (h : node triangular_tile_traits α), h.coordinates = c →
        h.get_relative g d ≠ .error (.thrown CG_INVALID_DIR)) ∧
    (d ∈ hexagonal_tile_traits.listed c join_type →
      tile_traits.get_relative hexagonal_tile_traits c d ≠ invalid_vector ∧
      proper_unit (tile_traits.get_relative hexagonal_tile_traits c d).m_x ∧
      proper_unit (tile_traits.get_relative hexagonal_tile_traits c d).m_y ∧
      ∀ (α : Type) (g : node_group hexagonal_tile_traits α)
        (h : node hexagonal_tile_traits α), h.coordinates = c →
        h.get_relative g d ≠ .error (.thrown CG_INVALID_DIR)) := by
  have key : ∀ (T : tile_traits),
      (∃ v : vector_t, -2 ≤ v.m_x ∧ v.m_x ≤ 2 ∧ -2 ≤ v.m_y ∧ v.m_y ≤ 2 ∧
        T.get_relative c d = c + v) →
      T.get_relative c d ≠ invalid_vector ∧
      proper_unit (T.get_relative c d).m_x ∧ proper_unit (T.get_relative c d).m_y ∧
      ∀ (α : Type) (g : node_group T α) (h : node T α), h.coordinates = c →
        h.get_relative g d ≠ .error (.thrown CG_INVALID_DIR) := by
    rintro T ⟨v, hv, hv2, hw, hw2, e⟩
    have hne : T.get_relative c d ≠ invalid_vector := by
      rw [e]
      exact add_ne_invalid_vector c v hx.1 hv
    have ex : (T.get_relative c d).m_x = c.m_x + v.m_x := by rw [e]; rfl
    have ey : (T.get_relative c d).m_y = c.m_y + v.m_y := by rw [e]; rfl
    have px : proper_unit (T.get_relative c d).m_x := by
      rw [ex]
      have h1 := hx.1
      have h2 := hx.2
      exact ⟨by linarith, by linarith⟩
    have py : proper_unit (T.get_relative c d).m_y := by
      rw [ey]
      have h1 := hy.1
      have h2 := hy.2
      exact ⟨by linarith, by linarith⟩
    refine ⟨hne, px, py, ?_⟩
    intro α g h hc he
    have hco : h.m_coords = c := hc
    have hdef : h.get_relative g d
        = if T.get_relative h.m_coords d = invalid_vector then
            .error (.thrown CG_INVALID_DIR)
          else g.operator_call (T.get_relative h.m_coords d) := rfl
    rw [hdef, hco, if_neg hne] at he
    unfold node_group.operator_call at he
    cases hval : g.is_valid (T.get_relative c d) with
    | false => simp [hval] at he
    | true =>
      simp only [hval, Bool.not_true, Bool.false_eq_true, if_false] at he
      cases hs : std_map.find g.m_nodes (T.get_relative c d) with
      | none => simp [hs] at he
      | some id => simp [hs] at he
  exact ⟨fun h => key _ (rectangular_listed_step c d (rectangular_listed_subset c _ d h)),
    fun h => key _ (triangular_listed_step c d (triangular_listed_subset c _ d h)),
    fun h => key _ (hexagonal_listed_step c d (hexagonal_listed_subset c _ d h))⟩

/-- A concrete instance of `listed_direction_has_neighbour`: the direction `SOUTH_EAST`
at (5, 5), which is listed for each shape with the default join types of a search. -/
theorem listed_direction_has_neighbour_witness :
    inner_unit 5 ∧
    SOUTH_EAST ∈ rectangular_tile_traits.listed ⟨5, 5⟩ PATHFINDING_DEFAULT ∧
    tile_traits.get_relative rectangular_tile_traits ⟨5, 5⟩ SOUTH_EAST ≠ invalid_vector ∧
    SOUTH_EAST ∈ triangular_tile_traits.listed ⟨5, 5⟩ PATHFINDING_DEFAULT ∧
    tile_traits.get_relative triangular_tile_traits ⟨5, 5⟩ SOUTH_EAST ≠ invalid_vector ∧
    SOUTH_EAST ∈ hexagonal_tile_traits.listed ⟨5, 5⟩ PATHFINDING_DEFAULT ∧
    tile_traits.get_relative hexagonal_tile_traits ⟨5, 5⟩ SOUTH_EAST ≠ invalid_vector :=
  ⟨by decide, by decide,
    ((listed_direction_has_neighbour ⟨5, 5⟩ PATHFINDING_DEFAULT SOUTH_EAST (by decide)
      (by decide)).1 (by decide)).1,
    by decide,
    ((listed_direction_has_neighbour ⟨5, 5⟩ PATHFINDING_DEFAULT SOUTH_EAST (by decide)
      (by decide)).2.1 (by decide)).1,
    by decide,
    ((listed_direction_has_neighbour ⟨5, 5⟩ PATHFINDING_DEFAULT SOUTH_EAST (by decide)
      (by decide)).2.2 (by decide)).1⟩


/-! ## Number and order of the listed directions (tile_traits.cpp) -/

/-- Claim C25. At every coordinate `available_dirs` with `ALL_JOIN_TYPES` lists exactly
12 directions for triangular tiles, 8 for rectangular tiles and 6 for hexagonal tiles,
and with `EDGES` exactly 3, 4 and 6 directions, the numbers that the tests expect. -/
theorem neighbour_counts (c : vector_t) :
    (triangular_tile_traits.listed c ALL_JOIN_TYPES).length = 12 ∧
    (rectangular_tile_traits.listed c ALL_JOIN_TYPES).length = 8 ∧
    (hexagonal_tile_traits.listed c ALL_JOIN_TYPES).length = 6 ∧
    (triangular_tile_traits.listed c EDGES).length = 3 ∧
    (rectangular_tile_traits.listed c EDGES).length = 4 ∧
    (hexagonal_tile_traits.listed c EDGES).length = 6 := by
  refine ⟨?_, rfl, rfl, ?_, rfl, rfl⟩
  · rw [triangular_listed_all]
    split_ifs <;> rfl
  · rw [triangular_listed]
    split_ifs <;> rfl

theorem increasing_dirs_cases (dirs : List directions_t)
    (h : dirs.Pairwise (fun a b => a.toInt < b.toInt))
    (x : List directions_t) (hx : some dirs = some x) :
    x.Pairwise (fun a b => a.toInt < b.toInt) := by
  cases hx
  exact h

/-- Claim C26. For each tile shape, every coordinate and every join type for which
`available_dirs` returns an array, the directions of the array, its terminator included,
are in strictly increasing order of the enumeration `directions_t`, which runs clockwise
from `NORTH`; so the listed directions are increasing too, none occurs twice, and the
first one is the least. -/
theorem available_dirs_are_clockwise (c : vector_t) (join_type : join_t)
    (dirs : List directions_t) :
    ((tile_traits.available_dirs rectangular_tile_traits c join_type = some dirs ∨
      tile_traits.available_dirs triangular_tile_traits c join_type = some dirs ∨
      tile_traits.available_dirs hexagonal_tile_traits c join_type = some dirs) →
      dirs.Pairwise (fun a b => a.toInt < b.toInt) ∧
      (listed_dirs dirs).Pairwise (fun a b => a.toInt < b.toInt) ∧
      (listed_dirs dirs).Nodup ∧
      ∀ d0 rest, listed_dirs dirs = d0 :: rest → ∀ d ∈ rest, d0.toInt < d.toInt) := by
  intro h
  have hinc : dirs.Pairwise (fun a b => a.toInt < b.toInt) := by
    rcases h with h | h | h
    · revert h
      show rectangular_tile_traits.available_dirs c join_type = some dirs → _
      unfold rectangular_tile_traits.available_dirs
      cases join_type.has EDGES <;> cases join_type.has CORNERS_FACING <;>
        first
          | (intro h; cases h; done)
          | exact increasing_dirs_cases _ (by decide) dirs
    · revert h
      show triangular_tile_traits.available_dirs c join_type = some dirs → _
      unfold triangular_tile_traits.available_dirs
      simp only []
      by_cases hp : Int.tmod (c.m_x + c.m_y) 2 ≠ 0
      · rw [if_pos hp]
        unfold triangular_tile_traits.available_dirs_triangular_down
        cases join_type.has EDGES <;> cases join_type.has CORNERS_FACING <;>
          cases join_type.has CORNERS_OBLIQUE <;>
          first
            | (intro h; cases h; done)
            | exact increasing_dirs_cases _ (by decide) dirs
      · rw [if_neg hp]
        unfold triangular_tile_traits.available_dirs_triangular_up
        cases join_type.has EDGES <;> cases join_type.has CORNERS_FACING <;>
          cases join_type.has CORNERS_OBLIQUE <;>
          first
            | (intro h; cases h; done)
            | exact increasing_dirs_cases _ (by decide) dirs
    · revert h
      show hexagonal_tile_traits.available_dirs c join_type = some dirs → _
      unfold hexagonal_tile_traits.available_dirs
      cases join_type.has EDGES <;>
        first
          | (intro h; cases h; done)
          | exact increasing_dirs_cases _ (by decide) dirs
  have hsub : List.Sublist (listed_dirs dirs) dirs := List.takeWhile_sublist _
  have hl := List.Pairwise.sublist hsub hinc
  refine ⟨hinc, hl, ?_, ?_⟩
  · refine List.Pairwise.imp ?_ hl
    intro a b hab e
    rw [e] at hab
    exact lt_irrefl _ hab
  · intro d0 rest e d hd
    rw [e] at hl
    exact (List.pairwise_cons.mp hl).1 d hd

/-- A concrete instance of `available_dirs_are_clockwise`: the array of an up triangle
for all join types. -/
theorem available_dirs_are_clockwise_witness :
    tile_traits.available_dirs triangular_tile_traits ⟨0, 0⟩ ALL_JOIN_TYPES
      = some triangular_tile_traits.up_all ∧
    triangular_tile_traits.up_all.Pairwise (fun a b => a.toInt < b.toInt) ∧
    (listed_dirs triangular_tile_traits.up_all).Pairwise (fun a b => a.toInt < b.toInt) ∧
    (listed_dirs triangular_tile_traits.up_all).Nodup ∧
    ∀ d0 rest, listed_dirs triangular_tile_traits.up_all = d0 :: rest →
      ∀ d ∈ rest, d0.toInt < d.toInt :=
  ⟨by decide, available_dirs_are_clockwise ⟨0, 0⟩ ALL_JOIN_TYPES
    triangular_tile_traits.up_all (Or.inr (Or.inl (by decide)))⟩


/-! ## Evaluations of the Manhattan formula (heuristics.tcc) -/

/-- Claim C27 (evaluation of the code). The function `manhattan` multiplies the average
cost with the column distance only and adds the bare row distance: with the average cost
12 of the default rectangular costs, for the current coordinate (0, 0) and the end
(0, 1) it returns 1, where the average cost times the sum of the two distances is 12,
and for the end (3, 4) it returns 40, not 84. -/
theorem manhattan_weighs_one_axis :
    (∀ (α : Type) (g : node_group rectangular_tile_traits α) (s c e : vector_t)
      (tt : traversal_traits),
      manhattan g s c e tt
        = tt.average_traversal_cost * abs (e.m_x - c.m_x) + abs (e.m_y - c.m_y)) ∧
    manhattan three_in_a_row ⟨0, 0⟩ ⟨0, 0⟩ ⟨0, 1⟩ simple_rectangular = 1 ∧
    simple_rectangular.average_traversal_cost * (abs ((0 : unit_t) - 0) + abs ((1 : unit_t) - 0))
      = 12 ∧
    manhattan three_in_a_row ⟨0, 0⟩ ⟨0, 0⟩ ⟨3, 4⟩ simple_rectangular = 40 ∧
    simple_rectangular.average_traversal_cost * (abs ((3 : unit_t) - 0) + abs ((4 : unit_t) - 0))
      = 84 := by
  refine ⟨fun _ _ _ _ _ _ => rfl, by decide, by decide, by decide, by decide⟩

/-- Claim C28 (evaluation of the code). The diagonal heuristic of triangular tiles
multiplies the average cost with the column distance only and adds the bare row
distance: with the average cost 325 of the default triangular costs, for the current
coordinate (0, 0) and the end (0, 1) it returns 1, where the average cost times the sum
of the two distances is 325, and for the end (3, 4) it returns 979, not 2275. -/
theorem diagonal_triangular_weighs_one_axis :
    (∀ (α : Type) (g : node_group triangular_tile_traits α) (s c e : vector_t)
      (tt : traversal_traits),
      diagonal_triangular g s c e tt
        = tt.average_traversal_cost * abs (e.m_x - c.m_x) + abs (e.m_y - c.m_y)) ∧
    diagonal_triangular (node_group.empty : node_group triangular_tile_traits Nat)
      ⟨0, 0⟩ ⟨0, 0⟩ ⟨0, 1⟩ (simple_traversal_traits default_costs_triangular) = 1 ∧
    (simple_traversal_traits default_costs_triangular).average_traversal_cost
      * (abs ((0 : unit_t) - 0) + abs ((1 : unit_t) - 0)) = 325 ∧
    diagonal_triangular (node_group.empty : node_group triangular_tile_traits Nat)
      ⟨0, 0⟩ ⟨0, 0⟩ ⟨3, 4⟩ (simple_traversal_traits default_costs_triangular) = 979 ∧
    (simple_traversal_traits default_costs_triangular).average_traversal_cost
      * (abs ((3 : unit_t) - 0) + abs ((4 : unit_t) - 0)) = 2275 := by
  refine ⟨fun _ _ _ _ _ _ => rfl, by decide, by decide, by decide, by decide⟩


/-! ## The diagonal heuristic of rectangular tiles (heuristics.tcc) -/

theorem abs_shift (x a : Int) : abs x ≤ abs (x + a) + abs a := by
  have h := abs_add (x + a) (-a)
  rw [abs_neg] at h
  have e : x + a + -a = x := by ring
  rw [e] at h
  exact h

theorem diagonal_estimate_step (x y a b k : Int)
    (ha : a = 0 ∨ a = 1 ∨ a = -1) (hb : b = 0 ∨ b = 1 ∨ b = -1)
    (hk : (a = 0 → 10 ≤ k) ∧ (b = 0 → 10 ≤ k) ∧ (a ≠ 0 → b ≠ 0 → 14 ≤ k)) :
    14 * min (abs x) (abs y) + 10 * (abs x + abs y - 2 * min (abs x) (abs y))
      ≤ k + (14 * min (abs (x + a)) (abs (y + b))
        + 10 * (abs (x + a) + abs (y + b) - 2 * min (abs (x + a)) (abs (y + b)))) := by
  have hx := abs_shift x a
  have hy := abs_shift y b
  have hab : (abs a = 0 ∧ abs b = 0 ∧ 10 ≤ k) ∨ (abs a = 1 ∧ abs b = 0 ∧ 10 ≤ k) ∨
      (abs a = 0 ∧ abs b = 1 ∧ 10 ≤ k) ∨ (abs a = 1 ∧ abs b = 1 ∧ 14 ≤ k) := by
    obtain ⟨k1, k2, k3⟩ := hk
    rcases ha with rfl | rfl | rfl <;> rcases hb with rfl | rfl | rfl <;>
      simp at k1 k2 k3 ⊢ <;> assumption
  have h5 := min_cases (abs x) (abs y)
  have h6 := min_cases (abs (x + a)) (abs (y + b))
  generalize abs a = ka at *
  generalize abs b = kb at *
  generalize abs x = ax at *
  generalize abs y = ay at *
  generalize abs (x + a) = bx at *
  generalize abs (y + b) = bY at *
  generalize min ax ay = m at *
  generalize min bx bY = n at *
  omega

theorem diagonal_rectangular_default {α : Type} (g : node_group rectangular_tile_traits α)
    (s c e : vector_t) :
    diagonal_rectangular g s c e simple_rectangular
      = 14 * min (abs (c.m_x - e.m_x)) (abs (c.m_y - e.m_y))
        + 10 * (abs (c.m_x - e.m_x) + abs (c.m_y - e.m_y)
          - 2 * min (abs (c.m_x - e.m_x)) (abs (c.m_y - e.m_y))) := rfl

theorem rectangular_move (c : vector_t) (d : directions_t)
    (h : d ∈ rectangular_tile_traits.listed c ALL_JOIN_TYPES) :
    ∃ a b k : Int, (a = 0 ∨ a = 1 ∨ a = -1) ∧ (b = 0 ∨ b = 1 ∨ b = -1) ∧
      ((a = 0 → 10 ≤ k) ∧ (b = 0 → 10 ≤ k) ∧ (a ≠ 0 → b ≠ 0 → 14 ≤ k)) ∧
      tile_traits.get_relative rectangular_tile_traits c d = ⟨c.m_x + a, c.m_y + b⟩ ∧
      simple_rectangular.traversal_cost c d = k := by
  rw [rectangular_listed_all] at h
  refine ⟨(tile_traits.get_relative rectangular_tile_traits ⟨0, 0⟩ d).m_x,
    (tile_traits.get_relative rectangular_tile_traits ⟨0, 0⟩ d).m_y,
    default_costs_rectangular_traversal_cost ⟨0, 0⟩ d, ?_⟩
  revert h
  cases d <;> first
    | (intro h; exact absurd h (by decide))
    | (intro _; exact ⟨by decide, by decide, by decide, rfl, rfl⟩)

theorem diagonal_rectangular_le_route {α : Type} (g : node_group rectangular_tile_traits α)
    (s e : vector_t) (ds : List directions_t) :
    ∀ c, (∀ d ∈ ds, d ∈ rectangular_tile_traits.listed c ALL_JOIN_TYPES) →
      tile_traits.follow rectangular_tile_traits c ds = e →
      diagonal_rectangular g s c e simple_rectangular
        ≤ route_cost rectangular_tile_traits simple_rectangular c ds := by
  induction ds with
  | nil =>
    intro c _ hf
    have hce : c = e := hf
    rw [diagonal_rectangular_default, hce]
    simp [route_cost]
  | cons d ds ih =>
    intro c hl hf
    have hd : d ∈ rectangular_tile_traits.listed c ALL_JOIN_TYPES :=
      hl d (List.mem_cons_self _ _)
    obtain ⟨a, b, k, ha, hb, hk, hrel, hcost⟩ := rectangular_move c d hd
    have hl2 : ∀ d2 ∈ ds, d2 ∈ rectangular_tile_traits.listed
        (tile_traits.get_relative rectangular_tile_traits c d) ALL_JOIN_TYPES := by
      intro d2 h2
      have := hl d2 (List.mem_cons_of_mem _ h2)
      rw [rectangular_listed_all] at this ⊢
      exact this
    have hrest := ih (tile_traits.get_relative rectangular_tile_traits c d) hl2 hf
    rw [diagonal_rectangular_default] at hrest ⊢
    rw [hrel] at hrest
    have hstep := diagonal_estimate_step (c.m_x - e.m_x) (c.m_y - e.m_y) a b k ha hb hk
    have ex : c.m_x + a - e.m_x = c.m_x - e.m_x + a := by ring
    have ey : c.m_y + b - e.m_y = c.m_y - e.m_y + b := by ring
    simp only [ex, ey] at hrest
    show _ ≤ simple_rectangular.traversal_cost c d
      + route_cost rectangular_tile_traits simple_rectangular
          (tile_traits.get_relative rectangular_tile_traits c d) ds
    rw [hcost, hrel]
    linarith

/-- Claim C29. For rectangular tiles the diagonal heuristic is
`d_cost * h_diag + s_cost * (h_straight - 2 * h_diag)`, where `h_diag` is the lesser of
the column and row distances, `h_straight` their sum, `s_cost` the cost of a move north
and `d_cost` the cost of a move north-east. With the default costs, 10 and 14, it is
admissible: it does not exceed the sum of the default costs of any sequence of
rectangular moves that leads from `current` to `end`. -/
theorem diagonal_rectangular_admissible {α : Type}
    (g : node_group rectangular_tile_traits α) (s current m_end : vector_t) :
    (∀ tt : traversal_traits,
      diagonal_rectangular g s current m_end tt
        = tt.traversal_cost ⟨0, 0⟩ NORTH_EAST
            * min (abs (current.m_x - m_end.m_x)) (abs (current.m_y - m_end.m_y))
          + tt.traversal_cost ⟨0, 0⟩ NORTH
            * (abs (current.m_x - m_end.m_x) + abs (current.m_y - m_end.m_y)
              - 2 * min (abs (current.m_x - m_end.m_x)) (abs (current.m_y - m_end.m_y)))) ∧
    simple_rectangular.traversal_cost ⟨0, 0⟩ NORTH = 10 ∧
    simple_rectangular.traversal_cost ⟨0, 0⟩ NORTH_EAST = 14 ∧
    ∀ ds : List directions_t,
      (∀ d ∈ ds, d ∈ [NORTH, NORTH_EAST, EAST, SOUTH_EAST, SOUTH, SOUTH_WEST, WEST,
        NORTH_WEST]) →
      tile_traits.follow rectangular_tile_traits current ds = m_end →
      diagonal_rectangular g s current m_end simple_rectangular
        ≤ route_cost rectangular_tile_traits simple_rectangular current ds := by
  refine ⟨fun _ => rfl, rfl, rfl, ?_⟩
  intro ds hl hf
  exact diagonal_rectangular_le_route g s m_end ds current
    (fun d hd => by rw [rectangular_listed_all]; exact hl d hd) hf

/-- A concrete instance of `diagonal_rectangular_admissible`: from (0, 0) to (3, 1) the
estimate is 34, and the sequence east, east, south-east, north, south costs 54. -/
theorem diagonal_rectangular_admissible_witness :
    tile_traits.follow rectangular_tile_traits ⟨0, 0⟩ [EAST, EAST, SOUTH_EAST, NORTH,
      SOUTH] = ⟨3, 1⟩ ∧
    diagonal_rectangular three_in_a_row ⟨0, 0⟩ ⟨0, 0⟩ ⟨3, 1⟩ simple_rectangular = 34 ∧
    route_cost rectangular_tile_traits simple_rectangular ⟨0, 0⟩
      [EAST, EAST, SOUTH_EAST, NORTH, SOUTH] = 54 ∧
    diagonal_rectangular three_in_a_row ⟨0, 0⟩ ⟨0, 0⟩ ⟨3, 1⟩ simple_rectangular
      ≤ route_cost rectangular_tile_traits simple_rectangular ⟨0, 0⟩
        [EAST, EAST, SOUTH_EAST, NORTH, SOUTH] :=
  ⟨by decide, by decide, by decide,
    (diagonal_rectangular_admissible three_in_a_row ⟨0, 0⟩ ⟨0, 0⟩ ⟨3, 1⟩).2.2.2
      [EAST, EAST, SOUTH_EAST, NORTH, SOUTH] (by decide) (by decide)⟩


/-! ## The diagonal heuristic of hexagonal tiles (heuristics.tcc) -/

theorem hexagonal_estimate_eq (x y : Int) :
    min (abs x) (abs y)
      + (if abs x < abs y then Int.tdiv (max (abs x) (abs y) - min (abs x) (abs y)) 2
          else max (abs x) (abs y) - min (abs x) (abs y))
      = max (abs x) ((abs x + abs y) / 2) := by
  have h5 := min_cases (abs x) (abs y)
  have h6 := max_cases (abs x) (abs y)
  have h7 := max_cases (abs x) ((abs x + abs y) / 2)
  have hx : 0 ≤ abs x := abs_nonneg x
  have hy : 0 ≤ abs y := abs_nonneg y
  have hnn : 0 ≤ max (abs x) (abs y) - min (abs x) (abs y) := by
    have := min_le_max (a := abs x) (b := abs y)
    linarith
  rw [Int.tdiv_eq_ediv hnn (by decide)]
  generalize abs x = ax at *
  generalize abs y = ay at *
  generalize min ax ay = m at *
  generalize max ax ay = n at *
  split_ifs <;> omega

theorem hexagonal_estimate_step (x y a b : Int)
    (h : (a = 0 ∧ (b = 2 ∨ b = -2)) ∨ ((a = 1 ∨ a = -1) ∧ (b = 1 ∨ b = -1))) :
    max (abs x) ((abs x + abs y) / 2)
      ≤ 1 + max (abs (x + a)) ((abs (x + a) + abs (y + b)) / 2) := by
  have hx := abs_shift x a
  have hy := abs_shift y b
  have hab : abs a ≤ 1 ∧ abs a + abs b ≤ 2 := by
    rcases h with ⟨rfl, rfl | rfl⟩ | ⟨rfl | rfl, rfl | rfl⟩ <;> decide
  have h5 := max_cases (abs x) ((abs x + abs y) / 2)
  have h6 := max_cases (abs (x + a)) ((abs (x + a) + abs (y + b)) / 2)
  generalize abs a = ka at *
  generalize abs b = kb at *
  generalize abs x = ax at *
  generalize abs y = ay at *
  generalize abs (x + a) = bx at *
  generalize abs (y + b) = bY at *
  generalize max ax ((ax + ay) / 2) = m at *
  generalize max bx ((bx + bY) / 2) = n at *
  omega

theorem abs_toward_one (x a : Int) (ha : (x < 0 ∧ a = 1) ∨ (0 < x ∧ a = -1)) :
    abs (x + a) = abs x - 1 := by
  rcases ha with ⟨hx, rfl⟩ | ⟨hx, rfl⟩
  · rw [abs_of_neg hx, abs_of_nonpos (by omega)]; ring
  · rw [abs_of_pos hx, abs_of_nonneg (by omega)]; ring

theorem abs_toward_two (y b : Int) (hb : (y ≤ -2 ∧ b = 2) ∨ (2 ≤ y ∧ b = -2)) :
    abs (y + b) = abs y - 2 := by
  rcases hb with ⟨hy, rfl⟩ | ⟨hy, rfl⟩
  · rw [abs_of_nonpos (by omega : y ≤ 0), abs_of_nonpos (by omega)]; ring
  · rw [abs_of_nonneg (by omega : 0 ≤ y), abs_of_nonneg (by omega)]; ring

theorem abs_mod_two_eq_zero (y : Int) (h : y % 2 = 0) : abs y % 2 = 0 := by
  rcases abs_cases y with ⟨e, _⟩ | ⟨e, _⟩ <;> rw [e] <;> omega

theorem hexagonal_toward_step (x y a b : Int) (k : Nat)
    (hpar : (x + y) % 2 = 0)
    (hk : max (abs x) ((abs x + abs y) / 2) = k + 1)
    (ha : (x < 0 ∧ a = 1) ∨ (0 < x ∧ a = -1) ∨ (x = 0 ∧ a = 0))
    (hb : (x ≠ 0 ∧ ((y < 0 ∧ b = 1) ∨ (0 ≤ y ∧ b = -1))) ∨
          (x = 0 ∧ ((y < 0 ∧ b = 2) ∨ (0 ≤ y ∧ b = -2)))) :
    (x + a + (y + b)) % 2 = 0 ∧
    max (abs (x + a)) ((abs (x + a) + abs (y + b)) / 2) = k := by
  have hpar2 : (x + a + (y + b)) % 2 = 0 := by
    rcases ha with ⟨_, rfl⟩ | ⟨_, rfl⟩ | ⟨h0, rfl⟩ <;>
      rcases hb with ⟨h1, ⟨_, rfl⟩ | ⟨_, rfl⟩⟩ | ⟨h1, ⟨_, rfl⟩ | ⟨_, rfl⟩⟩ <;> omega
  refine ⟨hpar2, ?_⟩
  by_cases hx0 : x = 0
  · subst hx0
    have ha0 : a = 0 := by omega
    subst ha0
    have hy2 : y % 2 = 0 := by omega
    have hay := abs_mod_two_eq_zero y hy2
    simp only [abs_zero, zero_add] at hk ⊢
    have hy0 := abs_nonneg y
    have h5 := max_cases (0 : Int) (abs y / 2)
    have hb2 : (y ≤ -2 ∧ b = 2) ∨ (2 ≤ y ∧ b = -2) := by
      rcases abs_cases y with ⟨e, _⟩ | ⟨e, _⟩ <;> rw [e] at hk hay h5 <;> omega
    rw [abs_toward_two y b hb2]
    have h6 := max_cases (0 : Int) ((abs y - 2) / 2)
    generalize abs y = ay at *
    generalize max (0 : Int) (ay / 2) = m at *
    generalize max (0 : Int) ((ay - 2) / 2) = n at *
    omega
  · have ha1 : (x < 0 ∧ a = 1) ∨ (0 < x ∧ a = -1) := by omega
    rw [abs_toward_one x a ha1]
    have hx1 : 1 ≤ abs x := by
      rcases abs_cases x with ⟨e, _⟩ | ⟨e, _⟩ <;> rw [e] <;> omega
    by_cases hy0 : y = 0
    · subst hy0
      have hb1 : b = -1 := by omega
      subst hb1
      have hx2 := abs_mod_two_eq_zero x (by omega)
      simp only [abs_zero, add_zero, zero_add, abs_neg, abs_one] at hk ⊢
      have h5 := max_cases (abs x) (abs x / 2)
      have h6 := max_cases (abs x - 1) ((abs x - 1 + 1) / 2)
      generalize abs x = ax at *
      generalize max ax (ax / 2) = m at *
      generalize max (ax - 1) ((ax - 1 + 1) / 2) = n at *
      omega
    · have hb1 : (y < 0 ∧ b = 1) ∨ (0 < y ∧ b = -1) := by omega
      rw [abs_toward_one y b hb1]
      have h5 := max_cases (abs x) ((abs x + abs y) / 2)
      have h6 := max_cases (abs x - 1) ((abs x - 1 + (abs y - 1)) / 2)
      generalize abs x = ax at *
      generalize abs y = ay at *
      generalize max ax ((ax + ay) / 2) = m at *
      generalize max (ax - 1) ((ax - 1 + (ay - 1)) / 2) = n at *
      omega

theorem hexagonal_estimate_zero (x y : Int) (hpar : (x + y) % 2 = 0)
    (hk : max (abs x) ((abs x + abs y) / 2) = 0) : x = 0 ∧ y = 0 := by
  have hx := abs_nonneg x
  have hy := abs_nonneg y
  have h5 := max_cases (abs x) ((abs x + abs y) / 2)
  have hx0 : abs x = 0 := by
    generalize abs x = ax at *
    generalize abs y = ay at *
    generalize max ax ((ax + ay) / 2) = m at *
    omega
  have hx1 : x = 0 := abs_eq_zero.mp hx0
  subst hx1
  have hay := abs_mod_two_eq_zero y (by omega)
  have hy0 : abs y = 0 := by
    simp only [abs_zero, zero_add] at h5 hk
    generalize abs y = ay at *
    generalize max (0 : Int) (ay / 2) = m at *
    omega
  exact ⟨rfl, abs_eq_zero.mp hy0⟩

theorem diagonal_hexagonal_default {α : Type} (g : node_group hexagonal_tile_traits α)
    (s c e : vector_t) :
    diagonal_hexagonal g s c e (simple_traversal_traits default_costs_hexagonal)
      = max (abs (c.m_x - e.m_x)) ((abs (c.m_x - e.m_x) + abs (c.m_y - e.m_y)) / 2) := by
  rw [← hexagonal_estimate_eq]
  show (1 : Int) * _ = _
  rw [one_mul]

theorem hexagonal_move (c : vector_t) (d : directions_t)
    (h : d ∈ hexagonal_tile_traits.listed c ALL_JOIN_TYPES) :
    ∃ a b : Int, ((a = 0 ∧ (b = 2 ∨ b = -2)) ∨ ((a = 1 ∨ a = -1) ∧ (b = 1 ∨ b = -1))) ∧
      tile_traits.get_relative hexagonal_tile_traits c d = ⟨c.m_x + a, c.m_y + b⟩ := by
  rw [hexagonal_listed_all] at h
  refine ⟨(tile_traits.get_relative hexagonal_tile_traits ⟨0, 0⟩ d).m_x,
    (tile_traits.get_relative hexagonal_tile_traits ⟨0, 0⟩ d).m_y, ?_⟩
  revert h
  cases d <;> first
    | (intro h; exact absurd h (by decide))
    | (intro _; exact ⟨by decide, rfl⟩)

theorem route_cost_hexagonal_default (ds : List directions_t) :
    ∀ c, route_cost hexagonal_tile_traits (simple_traversal_traits default_costs_hexagonal)
      c ds = ds.length := by
  induction ds with
  | nil => intro c; rfl
  | cons d ds ih =>
    intro c
    show (1 : Int) + route_cost hexagonal_tile_traits
      (simple_traversal_traits default_costs_hexagonal)
      (tile_traits.get_relative hexagonal_tile_traits c d) ds = _
    rw [ih]
    simp only [List.length_cons, Nat.cast_add, Nat.cast_one]
    ring

theorem diagonal_hexagonal_le_length {α : Type} (g : node_group hexagonal_tile_traits α)
    (s e : vector_t) (ds : List directions_t) :
    ∀ c, (∀ d ∈ ds, d ∈ hexagonal_tile_traits.listed c ALL_JOIN_TYPES) →
      tile_traits.follow hexagonal_tile_traits c ds = e →
      diagonal_hexagonal g s c e (simple_traversal_traits default_costs_hexagonal)
        ≤ ds.length := by
  induction ds with
  | nil =>
    intro c _ hf
    have hce : c = e := hf
    rw [diagonal_hexagonal_default, hce]
    simp
  | cons d ds ih =>
    intro c hl hf
    have hd : d ∈ hexagonal_tile_traits.listed c ALL_JOIN_TYPES :=
      hl d (List.mem_cons_self _ _)
    obtain ⟨a, b, hab, hrel⟩ := hexagonal_move c d hd
    have hl2 : ∀ d2 ∈ ds, d2 ∈ hexagonal_tile_traits.listed
        (tile_traits.get_relative hexagonal_tile_traits c d) ALL_JOIN_TYPES := by
      intro d2 h2
      have := hl d2 (List.mem_cons_of_mem _ h2)
      rw [hexagonal_listed_all] at this ⊢
      exact this
    have hrest := ih (tile_traits.get_relative hexagonal_tile_traits c d) hl2 hf
    rw [diagonal_hexagonal_default] at hrest ⊢
    rw [hrel] at hrest
    have hstep := hexagonal_estimate_step (c.m_x - e.m_x) (c.m_y - e.m_y) a b hab
    have ex : c.m_x + a - e.m_x = c.m_x - e.m_x + a := by ring
    have ey : c.m_y + b - e.m_y = c.m_y - e.m_y + b := by ring
    simp only [ex, ey] at hrest
    simp only [List.length_cons, Nat.cast_add, Nat.cast_one]
    linarith

theorem toward_hexagonal_step (s t : vector_t) :
    toward_hexagonal s t ∈ [NORTH, NORTH_EAST, SOUTH_EAST, SOUTH, SOUTH_WEST, NORTH_WEST] ∧
    ∃ a b : Int,
      tile_traits.get_relative hexagonal_tile_traits s (toward_hexagonal s t)
        = ⟨s.m_x + a, s.m_y + b⟩ ∧
      ((s.m_x - t.m_x < 0 ∧ a = 1) ∨ (0 < s.m_x - t.m_x ∧ a = -1) ∨
        (s.m_x - t.m_x = 0 ∧ a = 0)) ∧
      ((s.m_x - t.m_x ≠ 0 ∧ ((s.m_y - t.m_y < 0 ∧ b = 1) ∨ (0 ≤ s.m_y - t.m_y ∧ b = -1))) ∨
        (s.m_x - t.m_x = 0 ∧
          ((s.m_y - t.m_y < 0 ∧ b = 2) ∨ (0 ≤ s.m_y - t.m_y ∧ b = -2)))) := by
  unfold toward_hexagonal
  unfold unit_t at *
  split_ifs with h1 h2 h3 h4 h5
  · exact ⟨by decide, 1, 1, rfl, by omega, by omega⟩
  · exact ⟨by decide, 1, -1, rfl, by omega, by omega⟩
  · exact ⟨by decide, -1, 1, rfl, by omega, by omega⟩
  · exact ⟨by decide, -1, -1, rfl, by omega, by omega⟩
  · exact ⟨by decide, 0, 2, rfl, by omega, by omega⟩
  · exact ⟨by decide, 0, -2, rfl, by omega, by omega⟩

theorem hexagonal_shortest_route (e : vector_t) :
    ∀ (k : Nat) (c : vector_t), (c.m_x - e.m_x + (c.m_y - e.m_y)) % 2 = 0 →
      max (abs (c.m_x - e.m_x)) ((abs (c.m_x - e.m_x) + abs (c.m_y - e.m_y)) / 2) = k →
      ∃ ds : List directions_t,
        (∀ d ∈ ds, d ∈ [NORTH, NORTH_EAST, SOUTH_EAST, SOUTH, SOUTH_WEST, NORTH_WEST]) ∧
        tile_traits.follow hexagonal_tile_traits c ds = e ∧ ds.length = k := by
  intro k
  induction k with
  | zero =>
    intro c hpar hk
    obtain ⟨hx, hy⟩ := hexagonal_estimate_zero _ _ hpar (by simpa using hk)
    refine ⟨[], fun _ h => (by cases h), ?_, rfl⟩
    show (⟨c.m_x, c.m_y⟩ : vector_t) = e
    have ex : e.m_x = c.m_x := by linarith
    have ey : e.m_y = c.m_y := by linarith
    exact vector_t.eq_mk ex ey
  | succ k ih =>
    intro c hpar hk
    obtain ⟨hl, a, b, hrel, ha, hb⟩ := toward_hexagonal_step c e
    obtain ⟨hpar2, hk2⟩ := hexagonal_toward_step (c.m_x - e.m_x) (c.m_y - e.m_y) a b k hpar
      (by simpa using hk) ha hb
    have ex : c.m_x + a - e.m_x = c.m_x - e.m_x + a := by ring
    have ey : c.m_y + b - e.m_y = c.m_y - e.m_y + b := by ring
    obtain ⟨ds, hds, hf, hlen⟩ := ih ⟨c.m_x + a, c.m_y + b⟩
      (by simp only [ex, ey]; exact hpar2) (by simp only [ex, ey]; exact hk2)
    refine ⟨toward_hexagonal c e :: ds, ?_, ?_, by rw [List.length_cons, hlen]⟩
    · intro d hd
      rcases List.mem_cons.mp hd with h | h
      · rw [h]; exact hl
      · exact hds d h
    · show tile_traits.follow hexagonal_tile_traits
        (tile_traits.get_relative hexagonal_tile_traits c (toward_hexagonal c e)) ds = e
      rw [hrel]
      exact hf

theorem hexagonal_valid_parity (c : vector_t)
    (h : tile_traits.is_valid hexagonal_tile_traits c = true) : (c.m_x + c.m_y) % 2 = 0 := by
  have h2 : hexagonal_tile_traits.is_valid c = true := h
  unfold hexagonal_tile_traits.is_valid at h2
  by_cases hi : c = invalid_vector
  · simp [hi] at h2
  · simp only [hi, if_false] at h2
    by_cases hp : Int.tmod (c.m_x + c.m_y) 2 ≠ 0
    · simp [hp] at h2
    · have h0 : Int.tmod (c.m_x + c.m_y) 2 = 0 := not_not.mp hp
      exact Int.emod_eq_zero_of_dvd (Int.dvd_of_tmod_eq_zero h0)

/-- Claim C30. For hexagonal tiles the diagonal heuristic is the average cost times
`h_diag + h_straight`, where `h_diag` is the lesser of the column and row distances and
`h_straight` the rest of the greater one, halved when the rows are the greater distance.
With the default costs, 1 for every move, it is admissible and, between valid
coordinates, exact: it does not exceed the number of moves, nor the cost, of any sequence
of hexagonal moves that leads from `current` to `end`, and for valid `current` and `end`
there is such a sequence with exactly that many moves. -/
theorem diagonal_hexagonal_exact {α : Type} (g : node_group hexagonal_tile_traits α)
    (s current m_end : vector_t) :
    (∀ tt : traversal_traits,
      diagonal_hexagonal g s current m_end tt
        = tt.average_traversal_cost
          * (min (abs (current.m_x - m_end.m_x)) (abs (current.m_y - m_end.m_y))
            + (if abs (current.m_x - m_end.m_x) < abs (current.m_y - m_end.m_y) then
                Int.tdiv (max (abs (current.m_x - m_end.m_x)) (abs (current.m_y - m_end.m_y))
                  - min (abs (current.m_x - m_end.m_x)) (abs (current.m_y - m_end.m_y))) 2
              else max (abs (current.m_x - m_end.m_x)) (abs (current.m_y - m_end.m_y))
                - min (abs (current.m_x - m_end.m_x)) (abs (current.m_y - m_end.m_y))))) ∧
    (simple_traversal_traits default_costs_hexagonal).average_traversal_cost = 1 ∧
    (∀ ds : List directions_t,
      (∀ d ∈ ds, d ∈ [NORTH, NORTH_EAST, SOUTH_EAST, SOUTH, SOUTH_WEST, NORTH_WEST]) →
      tile_traits.follow hexagonal_tile_traits current ds = m_end →
      diagonal_hexagonal g s current m_end (simple_traversal_traits default_costs_hexagonal)
        ≤ ds.length ∧
      diagonal_hexagonal g s current m_end (simple_traversal_traits default_costs_hexagonal)
        ≤ route_cost hexagonal_tile_traits (simple_traversal_traits default_costs_hexagonal)
          current ds) ∧
    (tile_traits.is_valid hexagonal_tile_traits current = true →
      tile_traits.is_valid hexagonal_tile_traits m_end = true →
      ∃ ds : List directions_t,
        (∀ d ∈ ds, d ∈ [NORTH, NORTH_EAST, SOUTH_EAST, SOUTH, SOUTH_WEST, NORTH_WEST]) ∧
        tile_traits.follow hexagonal_tile_traits current ds = m_end ∧
        (ds.length : Int) = diagonal_hexagonal g s current m_end
          (simple_traversal_traits default_costs_hexagonal) ∧
        route_cost hexagonal_tile_traits (simple_traversal_traits default_costs_hexagonal)
          current ds = diagonal_hexagonal g s current m_end
            (simple_traversal_traits default_costs_hexagonal)) := by
  refine ⟨fun _ => rfl, rfl, ?_, ?_⟩
  · intro ds hl hf
    have h := diagonal_hexagonal_le_length g s m_end ds current
      (fun d hd => by rw [hexagonal_listed_all]; exact hl d hd) hf
    exact ⟨h, by rw [route_cost_hexagonal_default]; exact h⟩
  · intro hv1 hv2
    have p1 := hexagonal_valid_parity current hv1
    have p2 := hexagonal_valid_parity m_end hv2
    have hpar : (current.m_x - m_end.m_x + (current.m_y - m_end.m_y)) % 2 = 0 := by
      unfold unit_t at *
      omega
    have hnn : 0 ≤ max (abs (current.m_x - m_end.m_x))
        ((abs (current.m_x - m_end.m_x) + abs (current.m_y - m_end.m_y)) / 2) :=
      le_trans (abs_nonneg _) (le_max_left _ _)
    obtain ⟨k, hk⟩ := Int.eq_ofNat_of_zero_le hnn
    obtain ⟨ds, hds, hf, hlen⟩ := hexagonal_shortest_route m_end k current hpar hk
    refine ⟨ds, hds, hf, ?_, ?_⟩
    · rw [diagonal_hexagonal_default, hk, hlen]
    · rw [route_cost_hexagonal_default, diagonal_hexagonal_default, hk, hlen]

/-- A concrete instance of `diagonal_hexagonal_exact`: from (0, 0) to (1, 5) the estimate
is 3, and the sequence south-east, south, south leads there in three moves. -/
theorem diagonal_hexagonal_exact_witness :
    tile_traits.is_valid hexagonal_tile_traits ⟨0, 0⟩ = true ∧
    tile_traits.is_valid hexagonal_tile_traits ⟨1, 5⟩ = true ∧
    tile_traits.follow hexagonal_tile_traits ⟨0, 0⟩ [SOUTH_EAST, SOUTH, SOUTH] = ⟨1, 5⟩ ∧
    diagonal_hexagonal (node_group.empty : node_group hexagonal_tile_traits Nat)
      ⟨0, 0⟩ ⟨0, 0⟩ ⟨1, 5⟩ (simple_traversal_traits default_costs_hexagonal) = 3 ∧
    diagonal_hexagonal (node_group.empty : node_group hexagonal_tile_traits Nat)
      ⟨0, 0⟩ ⟨0, 0⟩ ⟨1, 5⟩ (simple_traversal_traits default_costs_hexagonal)
        ≤ ([SOUTH_EAST, SOUTH, SOUTH] : List directions_t).length ∧
    ∃ ds : List directions_t,
      (∀ d ∈ ds, d ∈ [NORTH, NORTH_EAST, SOUTH_EAST, SOUTH, SOUTH_WEST, NORTH_WEST]) ∧
      tile_traits.follow hexagonal_tile_traits ⟨0, 0⟩ ds = ⟨1, 5⟩ ∧
      (ds.length : Int) = diagonal_hexagonal
        (node_group.empty : node_group hexagonal_tile_traits Nat) ⟨0, 0⟩ ⟨0, 0⟩ ⟨1, 5⟩
        (simple_traversal_traits default_costs_hexagonal) ∧
      route_cost hexagonal_tile_traits (simple_traversal_traits default_costs_hexagonal)
        ⟨0, 0⟩ ds = diagonal_hexagonal
          (node_group.empty : node_group hexagonal_tile_traits Nat) ⟨0, 0⟩ ⟨0, 0⟩ ⟨1, 5⟩
          (simple_traversal_traits default_costs_hexagonal) :=
  ⟨by decide, by decide, by decide, by decide,
    ((diagonal_hexagonal_exact (node_group.empty : node_group hexagonal_tile_traits Nat)
      ⟨0, 0⟩ ⟨0, 0⟩ ⟨1, 5⟩).2.2.1 [SOUTH_EAST, SOUTH, SOUTH] (by decide) (by decide)).1,
    (diagonal_hexagonal_exact (node_group.empty : node_group hexagonal_tile_traits Nat)
      ⟨0, 0⟩ ⟨0, 0⟩ ⟨1, 5⟩).2.2.2 (by decide) (by decide)⟩


/-! ## The default costs and the adjacency classes (traversal_traits.cpp) -/

theorem triangular_cost_down (c : vector_t) (d : directions_t)
    (hp : Int.tmod (c.m_x + c.m_y) 2 ≠ 0) (hs : d ≠ DIR_START) (he : d ≠ DIR_END) :
    default_costs_triangular_traversal_cost c d = default_costs_triangular_cost_down d := by
  unfold default_costs_triangular_traversal_cost
  cases d <;> first
    | exact absurd rfl hs
    | exact absurd rfl he
    | simp [directions_t.toInt, hp]

theorem triangular_cost_up (c : vector_t) (d : directions_t)
    (hp : ¬ Int.tmod (c.m_x + c.m_y) 2 ≠ 0) (hs : d ≠ DIR_START) (he : d ≠ DIR_END) :
    default_costs_triangular_traversal_cost c d = default_costs_triangular_cost_up d := by
  unfold default_costs_triangular_traversal_cost
  cases d <;> first
    | exact absurd rfl hs
    | exact absurd rfl he
    | simp [directions_t.toInt, hp]

/-- The default cost of a move in a direction that is listed for a triangle and a closed
join type is the entry of the cost table of the triangle. -/
theorem triangular_listed_cost (c : vector_t) (join_type : join_t) (d : directions_t)
    (h : d ∈ triangular_tile_traits.listed c join_type) :
    default_costs_triangular_traversal_cost c d
      = if Int.tmod (c.m_x + c.m_y) 2 ≠ 0 then default_costs_triangular_cost_down d
        else default_costs_triangular_cost_up d := by
  have h2 := triangular_listed_subset c join_type d h
  rw [triangular_listed_all] at h2
  by_cases hp : Int.tmod (c.m_x + c.m_y) 2 ≠ 0
  · rw [if_pos hp] at h2
    rw [if_pos hp]
    exact triangular_cost_down c d hp (by intro e; rw [e] at h2; exact absurd h2 (by decide))
      (by intro e; rw [e] at h2; exact absurd h2 (by decide))
  · rw [if_neg hp] at h2
    rw [if_neg hp]
    exact triangular_cost_up c d hp (by intro e; rw [e] at h2; exact absurd h2 (by decide))
      (by intro e; rw [e] at h2; exact absurd h2 (by decide))

theorem triangular_cost_sum (c : vector_t) :
    ((triangular_tile_traits.listed c ALL_JOIN_TYPES).map
      (default_costs_triangular.traversal_cost c)).sum = 3900 := by
  have key : (triangular_tile_traits.listed c ALL_JOIN_TYPES).map
      (default_costs_triangular.traversal_cost c)
      = (triangular_tile_traits.listed c ALL_JOIN_TYPES).map
        (fun d => if Int.tmod (c.m_x + c.m_y) 2 ≠ 0 then default_costs_triangular_cost_down d
          else default_costs_triangular_cost_up d) :=
    List.map_congr_left (fun d hd => triangular_listed_cost c ALL_JOIN_TYPES d hd)
  rw [key, triangular_listed_all]
  by_cases hp : Int.tmod (c.m_x + c.m_y) 2 ≠ 0
  · simp only [if_pos hp]; decide
  · simp only [if_neg hp]; decide

/-- Claim C31. At every coordinate the default costs follow the adjacency classes: a
move in a direction of the `EDGES` list costs 10 on rectangular, 200 on triangular and 1
on hexagonal tiles, a move in a direction of the `CORNERS_FACING` list costs 14 on
rectangular and 400 on triangular tiles, and a move in a direction of the triangular
`CORNERS_OBLIQUE` list costs 350. The average costs are 12, 325 and 1, and each is the
arithmetic mean of the default costs over the directions listed for `ALL_JOIN_TYPES`:
the sum of these costs, 96, 3900 and 6, is the average times their number. -/
theorem default_costs_follow_adjacency (c : vector_t) :
    (∀ d ∈ rectangular_tile_traits.listed c EDGES,
      default_costs_rectangular.traversal_cost c d = 10) ∧
    (∀ d ∈ triangular_tile_traits.listed c EDGES,
      default_costs_triangular.traversal_cost c d = 200) ∧
    (∀ d ∈ hexagonal_tile_traits.listed c EDGES,
      default_costs_hexagonal.traversal_cost c d = 1) ∧
    (∀ d ∈ rectangular_tile_traits.listed c CORNERS_FACING,
      default_costs_rectangular.traversal_cost c d = 14) ∧
    (∀ d ∈ triangular_tile_traits.listed c CORNERS_FACING,
      default_costs_triangular.traversal_cost c d = 400) ∧
    (∀ d ∈ triangular_tile_traits.listed c CORNERS_OBLIQUE,
      default_costs_triangular.traversal_cost c d = 350) ∧
    default_costs_rectangular.average_traversal_cost = 12 ∧
    default_costs_triangular.average_traversal_cost = 325 ∧
    default_costs_hexagonal.average_traversal_cost = 1 ∧
    ((rectangular_tile_traits.listed c ALL_JOIN_TYPES).map
      (default_costs_rectangular.traversal_cost c)).sum = 96 ∧
    ((triangular_tile_traits.listed c ALL_JOIN_TYPES).map
      (default_costs_triangular.traversal_cost c)).sum = 3900 ∧
    ((hexagonal_tile_traits.listed c ALL_JOIN_TYPES).map
      (default_costs_hexagonal.traversal_cost c)).sum = 6 ∧
    ((rectangular_tile_traits.listed c ALL_JOIN_TYPES).map
      (default_costs_rectangular.traversal_cost c)).sum
      = default_costs_rectangular.average_traversal_cost
        * (rectangular_tile_traits.listed c ALL_JOIN_TYPES).length ∧
    ((triangular_tile_traits.listed c ALL_JOIN_TYPES).map
      (default_costs_triangular.traversal_cost c)).sum
      = default_costs_triangular.average_traversal_cost
        * (triangular_tile_traits.listed c ALL_JOIN_TYPES).length ∧
    ((hexagonal_tile_traits.listed c ALL_JOIN_TYPES).map
      (default_costs_hexagonal.traversal_cost c)).sum
      = default_costs_hexagonal.average_traversal_cost
        * (hexagonal_tile_traits.listed c ALL_JOIN_TYPES).length := by
  have htl : (triangular_tile_traits.listed c ALL_JOIN_TYPES).length = 12 := by
    rw [triangular_listed_all]
    split_ifs <;> rfl
  have htri : ∀ (join_type : join_t) (k : unit_t),
      (∀ d ∈ (match triangular_tile_traits.available_dirs_triangular_down join_type with
          | none => []
          | some dirs => listed_dirs dirs), default_costs_triangular_cost_down d = k) →
      (∀ d ∈ (match triangular_tile_traits.available_dirs_triangular_up join_type with
          | none => []
          | some dirs => listed_dirs dirs), default_costs_triangular_cost_up d = k) →
      ∀ d ∈ triangular_tile_traits.listed c join_type,
        default_costs_triangular.traversal_cost c d = k := by
    intro join_type k hdown hup d hd
    show default_costs_triangular_traversal_cost c d = k
    rw [triangular_listed_cost c join_type d hd]
    rw [triangular_listed] at hd
    by_cases hp : Int.tmod (c.m_x + c.m_y) 2 ≠ 0
    · rw [if_pos hp] at hd ⊢
      exact hdown d hd
    · rw [if_neg hp] at hd ⊢
      exact hup d hd
  refine ⟨?_, htri EDGES 200 (by decide) (by decide), ?_, ?_,
    htri CORNERS_FACING 400 (by decide) (by decide),
    htri CORNERS_OBLIQUE 350 (by decide) (by decide), rfl, rfl, rfl, ?_,
    triangular_cost_sum c, ?_, ?_, ?_, ?_⟩
  · intro d hd
    show default_costs_rectangular_traversal_cost c d = 10
    have h4 : default_costs_rectangular_traversal_cost c d
        = default_costs_rectangular_traversal_cost ⟨0, 0⟩ d := rfl
    rw [h4]
    have h3 : d ∈ [NORTH, EAST, SOUTH, WEST] := hd
    revert h3
    cases d <;> decide
  · intro d _
    rfl
  · intro d hd
    show default_costs_rectangular_traversal_cost c d = 14
    have h4 : default_costs_rectangular_traversal_cost c d
        = default_costs_rectangular_traversal_cost ⟨0, 0⟩ d := rfl
    rw [h4]
    have h3 : d ∈ [NORTH_EAST, SOUTH_EAST, SOUTH_WEST, NORTH_WEST] := hd
    revert h3
    cases d <;> decide
  · rw [rectangular_listed_all]; rfl
  · rw [hexagonal_listed_all]; rfl
  · rw [rectangular_listed_all]; rfl
  · rw [triangular_cost_sum c, htl]; rfl
  · rw [hexagonal_listed_all]; rfl

/-! ## Valid coordinates of hexagonal tiles (tile_traits.cpp) -/

theorem tmod_two_eq_zero_iff (n : Int) : Int.tmod n 2 = 0 ↔ n % 2 = 0 :=
  ⟨fun h => Int.emod_eq_zero_of_dvd (Int.dvd_of_tmod_eq_zero h),
    fun h => Int.tmod_eq_zero_of_dvd (Int.dvd_of_emod_eq_zero h)⟩

theorem even_shift (x y a b : Int) (h : (a + b) % 2 = 0) :
    (x + a + (y + b)) % 2 = (x + y) % 2 := by
  omega

theorem odd_shift (x y a b : Int) (h : (a + b) % 2 = 1) :
    (x + a + (y + b)) % 2 = (x + y + 1) % 2 := by
  omega

theorem hexagonal_is_valid_iff (c : vector_t) :
    tile_traits.is_valid hexagonal_tile_traits c = true
      ↔ c ≠ invalid_vector ∧ (c.m_x + c.m_y) % 2 = 0 := by
  show hexagonal_tile_traits.is_valid c = true ↔ _
  unfold hexagonal_tile_traits.is_valid
  by_cases hi : c = invalid_vector
  · simp [hi]
  · simp only [hi, if_false, ne_eq, not_false_eq_true, true_and]
    rw [← tmod_two_eq_zero_iff]
    by_cases hp : Int.tmod (c.m_x + c.m_y) 2 = 0
    · simp [hp]
    · simp [hp]

/-- A move in a listed direction of hexagonal tiles keeps the parity of the sum of the
coordinates and changes the column by at most one. -/
theorem hexagonal_neighbour_parity (c : vector_t) (join_type : join_t) (d : directions_t)
    (h : d ∈ hexagonal_tile_traits.listed c join_type) :
    ((tile_traits.get_relative hexagonal_tile_traits c d).m_x
      + (tile_traits.get_relative hexagonal_tile_traits c d).m_y) % 2
      = (c.m_x + c.m_y) % 2 ∧
    c.m_x - 1 ≤ (tile_traits.get_relative hexagonal_tile_traits c d).m_x := by
  have h2 := hexagonal_listed_subset c join_type d h
  rw [hexagonal_listed_all] at h2
  have hx : ∀ v : vector_t, (c + v).m_x = c.m_x + v.m_x := fun _ => rfl
  have hy : ∀ v : vector_t, (c + v).m_y = c.m_y + v.m_y := fun _ => rfl
  revert h2
  cases d <;> first
    | (intro h2; exact absurd h2 (by decide))
    | (intro _
       show ((hexagonal_tile_traits.get_relative c _).m_x
         + (hexagonal_tile_traits.get_relative c _).m_y) % 2 = _ ∧
         _ ≤ (hexagonal_tile_traits.get_relative c _).m_x
       simp only [hexagonal_tile_traits.get_relative, hx, hy]
       exact ⟨even_shift _ _ _ _ (by decide), by linarith⟩)

/-- A move in a listed direction of hexagonal tiles changes the sum of the coordinates by
at most two. -/
theorem hexagonal_neighbour_sum (c : vector_t) (join_type : join_t) (d : directions_t)
    (h : d ∈ hexagonal_tile_traits.listed c join_type) :
    c.m_x + c.m_y - 2 ≤ (tile_traits.get_relative hexagonal_tile_traits c d).m_x
      + (tile_traits.get_relative hexagonal_tile_traits c d).m_y := by
  have h2 := hexagonal_listed_subset c join_type d h
  rw [hexagonal_listed_all] at h2
  have hx : ∀ v : vector_t, (c + v).m_x = c.m_x + v.m_x := fun _ => rfl
  have hy : ∀ v : vector_t, (c + v).m_y = c.m_y + v.m_y := fun _ => rfl
  revert h2
  cases d <;> first
    | (intro h2; exact absurd h2 (by decide))
    | (intro _
       show _ ≤ (hexagonal_tile_traits.get_relative c _).m_x
         + (hexagonal_tile_traits.get_relative c _).m_y
       simp only [hexagonal_tile_traits.get_relative, hx, hy]
       linarith)

/-- Claim C32. For hexagonal tiles `is_valid(c)` holds exactly when `c` is not the invalid
vector and the sum of its coordinates is even, negative coordinates included. Let `c` be
valid, the sum `m_x + m_y` that `is_valid(c)` computes being a `unit_t`, not less than the
least one. Then `available_dirs(c, EDGES)` lists six directions, and for each of them the
neighbour is valid again: `operator()` returns a handle at the neighbour, and
`get_relative` on a handle at `c` is that call, so that neither fails with
`CG_INVALID_COORDS`. -/
theorem hexagonal_validity_is_closed (c : vector_t)
    (hv : tile_traits.is_valid hexagonal_tile_traits c = true)
    (hsum : invalid_unit ≤ c.m_x + c.m_y) :
    (∀ p : vector_t, tile_traits.is_valid hexagonal_tile_traits p = true
      ↔ p ≠ invalid_vector ∧ (p.m_x + p.m_y) % 2 = 0) ∧
    (hexagonal_tile_traits.listed c EDGES).length = 6 ∧
    ∀ d ∈ hexagonal_tile_traits.listed c EDGES,
      tile_traits.is_valid hexagonal_tile_traits
          (tile_traits.get_relative hexagonal_tile_traits c d) = true ∧
      ∀ (α : Type) (g : node_group hexagonal_tile_traits α),
        (∃ n g2, g.operator_call (tile_traits.get_relative hexagonal_tile_traits c d)
            = .ok (n, g2) ∧
          n.coordinates = tile_traits.get_relative hexagonal_tile_traits c d) ∧
        ∀ h : node hexagonal_tile_traits α, h.coordinates = c →
          h.get_relative g d
            = g.operator_call (tile_traits.get_relative hexagonal_tile_traits c d) ∧
          h.get_relative g d ≠ .error (.thrown CG_INVALID_COORDS) := by
  refine ⟨hexagonal_is_valid_iff, rfl, ?_⟩
  intro d hd
  obtain ⟨hpar, _⟩ := hexagonal_neighbour_parity c EDGES d hd
  have hlow := hexagonal_neighbour_sum c EDGES d hd
  have hc := ((hexagonal_is_valid_iff c).mp hv).2
  have hne : tile_traits.get_relative hexagonal_tile_traits c d ≠ invalid_vector := by
    intro e
    rw [e] at hlow
    have h1 : invalid_vector.m_x + invalid_vector.m_y = -18446744073709551616 := by decide
    have h2 : invalid_unit = -9223372036854775808 := rfl
    rw [h1] at hlow
    rw [h2] at hsum
    linarith
  have hval : tile_traits.is_valid hexagonal_tile_traits
      (tile_traits.get_relative hexagonal_tile_traits c d) = true := by
    rw [hexagonal_is_valid_iff, hpar, hc]
    exact ⟨hne, rfl⟩
  refine ⟨hval, ?_⟩
  intro α g
  obtain ⟨id, g2, hcall, _⟩ := node_group.operator_call_valid g _ hval
  refine ⟨⟨_, g2, hcall, rfl⟩, ?_⟩
  intro h hco
  have hco2 : h.m_coords = c := hco
  have hrel : h.get_relative g d
      = g.operator_call (tile_traits.get_relative hexagonal_tile_traits c d) := by
    unfold node.get_relative
    simp only [hco2, hne, if_false]
  refine ⟨hrel, ?_⟩
  rw [hrel, hcall]
  intro e
  cases e

/-- A concrete instance of `hexagonal_validity_is_closed`: the neighbours of (3, -5). -/
theorem hexagonal_validity_is_closed_witness :
    tile_traits.is_valid hexagonal_tile_traits ⟨3, -5⟩ = true ∧
    invalid_unit ≤ (⟨3, -5⟩ : vector_t).m_x + (⟨3, -5⟩ : vector_t).m_y ∧
    SOUTH_WEST ∈ hexagonal_tile_traits.listed ⟨3, -5⟩ EDGES ∧
    tile_traits.get_relative hexagonal_tile_traits ⟨3, -5⟩ SOUTH_WEST = ⟨2, -4⟩ ∧
    tile_traits.is_valid hexagonal_tile_traits
      (tile_traits.get_relative hexagonal_tile_traits ⟨3, -5⟩ SOUTH_WEST) = true :=
  ⟨by decide, by decide, by decide, by decide,
    ((hexagonal_validity_is_closed ⟨3, -5⟩ (by decide) (by decide)).2.2 SOUTH_WEST
      (by decide)).1⟩

/-! ## Symmetry of the adjacency (tile_traits.cpp, traversal_traits.cpp) -/

theorem vector_t.add_add_cancel (c v w : vector_t) (hx : v.m_x + w.m_x = 0)
    (hy : v.m_y + w.m_y = 0) : c + v + w = c := by
  obtain ⟨x, y⟩ := c
  show (⟨x + v.m_x + w.m_x, y + v.m_y + w.m_y⟩ : vector_t) = ⟨x, y⟩
  have h1 : x + v.m_x + w.m_x = x := by linarith
  have h2 : y + v.m_y + w.m_y = y := by linarith
  rw [h1, h2]

theorem down_to_up (x y a b : Int) (hp : Int.tmod (x + y) 2 ≠ 0) (ho : (a + b) % 2 = 1) :
    ¬ Int.tmod (x + a + (y + b)) 2 ≠ 0 := by
  rw [Ne, tmod_two_eq_zero_iff] at *
  omega

theorem down_to_down (x y a b : Int) (hp : Int.tmod (x + y) 2 ≠ 0) (ho : ¬ (a + b) % 2 = 1) :
    Int.tmod (x + a + (y + b)) 2 ≠ 0 := by
  rw [Ne, tmod_two_eq_zero_iff] at *
  omega

theorem up_to_down (x y a b : Int) (hp : ¬ Int.tmod (x + y) 2 ≠ 0) (ho : (a + b) % 2 = 1) :
    Int.tmod (x + a + (y + b)) 2 ≠ 0 := by
  rw [Ne, tmod_two_eq_zero_iff] at *
  omega

theorem up_to_up (x y a b : Int) (hp : ¬ Int.tmod (x + y) 2 ≠ 0) (ho : ¬ (a + b) % 2 = 1) :
    ¬ Int.tmod (x + a + (y + b)) 2 ≠ 0 := by
  rw [Ne, tmod_two_eq_zero_iff] at *
  omega

/-- The tables of a down triangle: a direction of one of the three classes leads, by its
entry of `relative_down`, to an up triangle when the entry has an odd sum and to a down
triangle otherwise, and that triangle has a direction of the same class with the opposite
entry and the same cost. -/
theorem triangular_down_tables :
    ∀ cls ∈ [EDGES, CORNERS_FACING, CORNERS_OBLIQUE],
      ∀ d ∈ (match triangular_tile_traits.available_dirs_triangular_down cls with
              | none => []
              | some dirs => listed_dirs dirs),
        d ≠ DIR_START ∧ d ≠ DIR_END ∧
        if ((triangular_tile_traits.relative_down d).m_x
            + (triangular_tile_traits.relative_down d).m_y) % 2 = 1 then
          ∃ d2 ∈ (match triangular_tile_traits.available_dirs_triangular_up cls with
              | none => []
              | some dirs => listed_dirs dirs),
            d2 ≠ DIR_START ∧ d2 ≠ DIR_END ∧
            (triangular_tile_traits.relative_down d).m_x
              + (triangular_tile_traits.relative_up d2).m_x = 0 ∧
            (triangular_tile_traits.relative_down d).m_y
              + (triangular_tile_traits.relative_up d2).m_y = 0 ∧
            default_costs_triangular_cost_down d = default_costs_triangular_cost_up d2
        else
          ∃ d2 ∈ (match triangular_tile_traits.available_dirs_triangular_down cls with
              | none => []
              | some dirs => listed_dirs dirs),
            d2 ≠ DIR_START ∧ d2 ≠ DIR_END ∧
            (triangular_tile_traits.relative_down d).m_x
              + (triangular_tile_traits.relative_down d2).m_x = 0 ∧
            (triangular_tile_traits.relative_down d).m_y
              + (triangular_tile_traits.relative_down d2).m_y = 0 ∧
            default_costs_triangular_cost_down d = default_costs_triangular_cost_down d2 := by
  decide

/-- The tables of an up triangle, as `triangular_down_tables`. -/
theorem triangular_up_tables :
    ∀ cls ∈ [EDGES, CORNERS_FACING, CORNERS_OBLIQUE],
      ∀ d ∈ (match triangular_tile_traits.available_dirs_triangular_up cls with
              | none => []
              | some dirs => listed_dirs dirs),
        d ≠ DIR_START ∧ d ≠ DIR_END ∧
        if ((triangular_tile_traits.relative_up d).m_x
            + (triangular_tile_traits.relative_up d).m_y) % 2 = 1 then
          ∃ d2 ∈ (match triangular_tile_traits.available_dirs_triangular_down cls with
              | none => []
              | some dirs => listed_dirs dirs),
            d2 ≠ DIR_START ∧ d2 ≠ DIR_END ∧
            (triangular_tile_traits.relative_up d).m_x
              + (triangular_tile_traits.relative_down d2).m_x = 0 ∧
            (triangular_tile_traits.relative_up d).m_y
              + (triangular_tile_traits.relative_down d2).m_y = 0 ∧
            default_costs_triangular_cost_up d = default_costs_triangular_cost_down d2
        else
          ∃ d2 ∈ (match triangular_tile_traits.available_dirs_triangular_up cls with
              | none => []
              | some dirs => listed_dirs dirs),
            d2 ≠ DIR_START ∧ d2 ≠ DIR_END ∧
            (triangular_tile_traits.relative_up d).m_x
              + (triangular_tile_traits.relative_up d2).m_x = 0 ∧
            (triangular_tile_traits.relative_up d).m_y
              + (triangular_tile_traits.relative_up d2).m_y = 0 ∧
            default_costs_triangular_cost_up d = default_costs_triangular_cost_up d2 := by
  decide

/-- Within one class of joins the adjacency of triangular tiles is symmetric, with equal
default costs in both directions. -/
theorem triangular_class_symmetric (c : vector_t) (cls : join_t)
    (hcls : cls ∈ [EDGES, CORNERS_FACING, CORNERS_OBLIQUE]) (d : directions_t)
    (h : d ∈ triangular_tile_traits.listed c cls) :
    ∃ d2, d2 ∈ triangular_tile_traits.listed
        (tile_traits.get_relative triangular_tile_traits c d) cls ∧
      tile_traits.get_relative triangular_tile_traits
        (tile_traits.get_relative triangular_tile_traits c d) d2 = c ∧
      default_costs_triangular_traversal_cost c d
        = default_costs_triangular_traversal_cost
          (tile_traits.get_relative triangular_tile_traits c d) d2 := by
  rw [triangular_listed] at h
  by_cases hp : Int.tmod (c.m_x + c.m_y) 2 ≠ 0
  · rw [if_pos hp] at h
    obtain ⟨hs, he, hcase⟩ := triangular_down_tables cls hcls d h
    rw [triangular_get_relative_down c d hp hs he]
    by_cases ho : ((triangular_tile_traits.relative_down d).m_x
        + (triangular_tile_traits.relative_down d).m_y) % 2 = 1
    · rw [if_pos ho] at hcase
      obtain ⟨d2, hd2, hs2, he2, hx, hy, hc⟩ := hcase
      have hpn : ¬ Int.tmod ((c + triangular_tile_traits.relative_down d).m_x
          + (c + triangular_tile_traits.relative_down d).m_y) 2 ≠ 0 :=
        down_to_up _ _ _ _ hp ho
      refine ⟨d2, ?_, ?_, ?_⟩
      · rw [triangular_listed, if_neg hpn]; exact hd2
      · rw [triangular_get_relative_up _ d2 hpn hs2 he2]
        exact vector_t.add_add_cancel c _ _ hx hy
      · rw [triangular_cost_down c d hp hs he, triangular_cost_up _ d2 hpn hs2 he2]
        exact hc
    · rw [if_neg ho] at hcase
      obtain ⟨d2, hd2, hs2, he2, hx, hy, hc⟩ := hcase
      have hpn : Int.tmod ((c + triangular_tile_traits.relative_down d).m_x
          + (c + triangular_tile_traits.relative_down d).m_y) 2 ≠ 0 :=
        down_to_down _ _ _ _ hp ho
      refine ⟨d2, ?_, ?_, ?_⟩
      · rw [triangular_listed, if_pos hpn]; exact hd2
      · rw [triangular_get_relative_down _ d2 hpn hs2 he2]
        exact vector_t.add_add_cancel c _ _ hx hy
      · rw [triangular_cost_down c d hp hs he, triangular_cost_down _ d2 hpn hs2 he2]
        exact hc
  · rw [if_neg hp] at h
    obtain ⟨hs, he, hcase⟩ := triangular_up_tables cls hcls d h
    rw [triangular_get_relative_up c d hp hs he]
    by_cases ho : ((triangular_tile_traits.relative_up d).m_x
        + (triangular_tile_traits.relative_up d).m_y) % 2 = 1
    · rw [if_pos ho] at hcase
      obtain ⟨d2, hd2, hs2, he2, hx, hy, hc⟩ := hcase
      have hpn : Int.tmod ((c + triangular_tile_traits.relative_up d).m_x
          + (c + triangular_tile_traits.relative_up d).m_y) 2 ≠ 0 :=
        up_to_down _ _ _ _ hp ho
      refine ⟨d2, ?_, ?_, ?_⟩
      · rw [triangular_listed, if_pos hpn]; exact hd2
      · rw [triangular_get_relative_down _ d2 hpn hs2 he2]
        exact vector_t.add_add_cancel c _ _ hx hy
      · rw [triangular_cost_up c d hp hs he, triangular_cost_down _ d2 hpn hs2 he2]
        exact hc
    · rw [if_neg ho] at hcase
      obtain ⟨d2, hd2, hs2, he2, hx, hy, hc⟩ := hcase
      have hpn : ¬ Int.tmod ((c + triangular_tile_traits.relative_up d).m_x
          + (c + triangular_tile_traits.relative_up d).m_y) 2 ≠ 0 :=
        up_to_up _ _ _ _ hp ho
      refine ⟨d2, ?_, ?_, ?_⟩
      · rw [triangular_listed, if_neg hpn]; exact hd2
      · rw [triangular_get_relative_up _ d2 hpn hs2 he2]
        exact vector_t.add_add_cancel c _ _ hx hy
      · rw [triangular_cost_up c d hp hs he, triangular_cost_up _ d2 hpn hs2 he2]
        exact hc

/-- The directions that the triangular `available_dirs` lists for a join type are those
of the classes whose bit the join type has. -/
theorem triangular_listed_classes (c : vector_t) (join_type : join_t) (d : directions_t) :
    d ∈ triangular_tile_traits.listed c join_type ↔
      (join_type.has EDGES = true ∧ d ∈ triangular_tile_traits.listed c EDGES) ∨
      (join_type.has CORNERS_FACING = true ∧
        d ∈ triangular_tile_traits.listed c CORNERS_FACING) ∨
      (join_type.has CORNERS_OBLIQUE = true ∧
        d ∈ triangular_tile_traits.listed c CORNERS_OBLIQUE) := by
  rw [triangular_listed, triangular_listed, triangular_listed, triangular_listed]
  by_cases hp : Int.tmod (c.m_x + c.m_y) 2 ≠ 0
  · rw [if_pos hp, if_pos hp, if_pos hp, if_pos hp]
    unfold triangular_tile_traits.available_dirs_triangular_down
    cases join_type.has EDGES <;> cases join_type.has CORNERS_FACING <;>
      cases join_type.has CORNERS_OBLIQUE <;> cases d <;> decide
  · rw [if_neg hp, if_neg hp, if_neg hp, if_neg hp]
    unfold triangular_tile_traits.available_dirs_triangular_up
    cases join_type.has EDGES <;> cases join_type.has CORNERS_FACING <;>
      cases join_type.has CORNERS_OBLIQUE <;> cases d <;> decide

/-- The adjacency of rectangular tiles is symmetric, with equal default costs in both
directions; the directions listed for a join type do not depend on the coordinates. -/
theorem rectangular_symmetric (c : vector_t) (join_type : join_t) (d : directions_t)
    (h : d ∈ rectangular_tile_traits.listed c join_type) :
    ∃ d2, d2 ∈ rectangular_tile_traits.listed
        (tile_traits.get_relative rectangular_tile_traits c d) join_type ∧
      tile_traits.get_relative rectangular_tile_traits
        (tile_traits.get_relative rectangular_tile_traits c d) d2 = c ∧
      default_costs_rectangular_traversal_cost c d
        = default_costs_rectangular_traversal_cost
          (tile_traits.get_relative rectangular_tile_traits c d) d2 := by
  have hl : ∀ d2, d2 ∈ rectangular_tile_traits.listed c join_type →
      d2 ∈ rectangular_tile_traits.listed
        (tile_traits.get_relative rectangular_tile_traits c d) join_type := fun _ h2 => h2
  have hopp : ∀ d2, (d2 ∈ [NORTH, NORTH_EAST, EAST, SOUTH_EAST, SOUTH, SOUTH_WEST, WEST,
          NORTH_WEST] →
        default_costs_rectangular_traversal_cost ⟨0, 0⟩ d
          = default_costs_rectangular_traversal_cost ⟨0, 0⟩ d2 →
        d2 ∈ rectangular_tile_traits.listed c join_type) := by
    intro d2
    revert h
    show d ∈ (match rectangular_tile_traits.available_dirs c join_type with
      | none => []
      | some dirs => listed_dirs dirs) → _ → _ →
      d2 ∈ (match rectangular_tile_traits.available_dirs c join_type with
      | none => []
      | some dirs => listed_dirs dirs)
    unfold rectangular_tile_traits.available_dirs
    cases join_type.has EDGES <;> cases join_type.has CORNERS_FACING <;>
      cases d <;> cases d2 <;> decide
  have h2 := rectangular_listed_subset c join_type d h
  rw [rectangular_listed_all] at h2
  revert h2 hopp
  cases d <;> first
    | (intro _ h2; exact absurd h2 (by decide))
    | (intro hopp _
       first
        | exact ⟨NORTH, hl _ (hopp _ (by decide) (by decide)),
            vector_t.add_add_cancel c _ _ (by decide) (by decide), rfl⟩
        | exact ⟨NORTH_EAST, hl _ (hopp _ (by decide) (by decide)),
            vector_t.add_add_cancel c _ _ (by decide) (by decide), rfl⟩
        | exact ⟨EAST, hl _ (hopp _ (by decide) (by decide)),
            vector_t.add_add_cancel c _ _ (by decide) (by decide), rfl⟩
        | exact ⟨SOUTH_EAST, hl _ (hopp _ (by decide) (by decide)),
            vector_t.add_add_cancel c _ _ (by decide) (by decide), rfl⟩
        | exact ⟨SOUTH, hl _ (hopp _ (by decide) (by decide)),
            vector_t.add_add_cancel c _ _ (by decide) (by decide), rfl⟩
        | exact ⟨SOUTH_WEST, hl _ (hopp _ (by decide) (by decide)),
            vector_t.add_add_cancel c _ _ (by decide) (by decide), rfl⟩
        | exact ⟨WEST, hl _ (hopp _ (by decide) (by decide)),
            vector_t.add_add_cancel c _ _ (by decide) (by decide), rfl⟩
        | exact ⟨NORTH_WEST, hl _ (hopp _ (by decide) (by decide)),
            vector_t.add_add_cancel c _ _ (by decide) (by decide), rfl⟩)

/-- The adjacency of hexagonal tiles is symmetric. -/
theorem hexagonal_symmetric (c : vector_t) (join_type : join_t) (d : directions_t)
    (h : d ∈ hexagonal_tile_traits.listed c join_type) :
    ∃ d2, d2 ∈ hexagonal_tile_traits.listed
        (tile_traits.get_relative hexagonal_tile_traits c d) join_type ∧
      tile_traits.get_relative hexagonal_tile_traits
        (tile_traits.get_relative hexagonal_tile_traits c d) d2 = c := by
  have hl : ∀ d2, d2 ∈ [NORTH, NORTH_EAST, SOUTH_EAST, SOUTH, SOUTH_WEST, NORTH_WEST] →
      d2 ∈ hexagonal_tile_traits.listed
        (tile_traits.get_relative hexagonal_tile_traits c d) join_type := by
    intro d2
    revert h
    show d ∈ (match hexagonal_tile_traits.available_dirs c join_type with
      | none => []
      | some dirs => listed_dirs dirs) → _ →
      d2 ∈ (match hexagonal_tile_traits.available_dirs c join_type with
      | none => []
      | some dirs => listed_dirs dirs)
    unfold hexagonal_tile_traits.available_dirs
    cases join_type.has EDGES <;> cases d <;> cases d2 <;> decide
  have h2 := hexagonal_listed_subset c join_type d h
  rw [hexagonal_listed_all] at h2
  revert h2
  cases d <;> first
    | (intro h2; exact absurd h2 (by decide))
    | (intro _
       first
        | exact ⟨NORTH, hl _ (by decide),
            vector_t.add_add_cancel c _ _ (by decide) (by decide)⟩
        | exact ⟨NORTH_EAST, hl _ (by decide),
            vector_t.add_add_cancel c _ _ (by decide) (by decide)⟩
        | exact ⟨SOUTH_EAST, hl _ (by decide),
            vector_t.add_add_cancel c _ _ (by decide) (by decide)⟩
        | exact ⟨SOUTH, hl _ (by decide),
            vector_t.add_add_cancel c _ _ (by decide) (by decide)⟩
        | exact ⟨SOUTH_WEST, hl _ (by decide),
            vector_t.add_add_cancel c _ _ (by decide) (by decide)⟩
        | exact ⟨NORTH_WEST, hl _ (by decide),
            vector_t.add_add_cancel c _ _ (by decide) (by decide)⟩)

/-- The adjacency of triangular tiles is symmetric for every join type, with equal
default costs in both directions. -/
theorem triangular_symmetric (c : vector_t) (join_type : join_t) (d : directions_t)
    (h : d ∈ triangular_tile_traits.listed c join_type) :
    ∃ d2, d2 ∈ triangular_tile_traits.listed
        (tile_traits.get_relative triangular_tile_traits c d) join_type ∧
      tile_traits.get_relative triangular_tile_traits
        (tile_traits.get_relative triangular_tile_traits c d) d2 = c ∧
      default_costs_triangular_traversal_cost c d
        = default_costs_triangular_traversal_cost
          (tile_traits.get_relative triangular_tile_traits c d) d2 := by
  rcases (triangular_listed_classes c join_type d).mp h with ⟨hf, hd⟩ | ⟨hf, hd⟩ | ⟨hf, hd⟩
  · obtain ⟨d2, h1, h2, h3⟩ := triangular_class_symmetric c EDGES (by decide) d hd
    exact ⟨d2, (triangular_listed_classes _ join_type d2).mpr (Or.inl ⟨hf, h1⟩), h2, h3⟩
  · obtain ⟨d2, h1, h2, h3⟩ := triangular_class_symmetric c CORNERS_FACING (by decide) d hd
    exact ⟨d2, (triangular_listed_classes _ join_type d2).mpr (Or.inr (Or.inl ⟨hf, h1⟩)),
      h2, h3⟩
  · obtain ⟨d2, h1, h2, h3⟩ := triangular_class_symmetric c CORNERS_OBLIQUE (by decide) d hd
    exact ⟨d2, (triangular_listed_classes _ join_type d2).mpr (Or.inr (Or.inr ⟨hf, h1⟩)),
      h2, h3⟩

/-- Claim C38. For each tile shape, every coordinate `c`, every join type and every
direction `d` listed by `available_dirs(c, join_type)`, with the neighbour
`n = get_relative(c, d)`: some direction listed by `available_dirs(n, join_type)` leads
from `n` back to `c`, and the default costs of the two moves are equal. -/
theorem adjacency_is_symmetric (c : vector_t) (join_type : join_t) (d : directions_t) :
    (d ∈ rectangular_tile_traits.listed c join_type →
      ∃ d2, d2 ∈ rectangular_tile_traits.listed
          (tile_traits.get_relative rectangular_tile_traits c d) join_type ∧
        tile_traits.get_relative rectangular_tile_traits
          (tile_traits.get_relative rectangular_tile_traits c d) d2 = c ∧
        default_costs_rectangular.traversal_cost c d
          = default_costs_rectangular.traversal_cost
            (tile_traits.get_relative rectangular_tile_traits c d) d2) ∧
    (d ∈ triangular_tile_traits.listed c join_type →
      ∃ d2, d2 ∈ triangular_tile_traits.listed
          (tile_traits.get_relative triangular_tile_traits c d) join_type ∧
        tile_traits.get_relative triangular_tile_traits
          (tile_traits.get_relative triangular_tile_traits c d) d2 = c ∧
        default_costs_triangular.traversal_cost c d
          = default_costs_triangular.traversal_cost
            (tile_traits.get_relative triangular_tile_traits c d) d2) ∧
    (d ∈ hexagonal_tile_traits.listed c join_type →
      ∃ d2, d2 ∈ hexagonal_tile_traits.listed
          (tile_traits.get_relative hexagonal_tile_traits c d) join_type ∧
        tile_traits.get_relative hexagonal_tile_traits
          (tile_traits.get_relative hexagonal_tile_traits c d) d2 = c ∧
        default_costs_hexagonal.traversal_cost c d
          = default_costs_hexagonal.traversal_cost
            (tile_traits.get_relative hexagonal_tile_traits c d) d2) := by
  refine ⟨rectangular_symmetric c join_type d, triangular_symmetric c join_type d, ?_⟩
  intro h
  obtain ⟨d2, h1, h2⟩ := hexagonal_symmetric c join_type d h
  exact ⟨d2, h1, h2, rfl⟩

/-- A concrete instance of `adjacency_is_symmetric`: from the down triangle (2, 1) the
facing corner in the north-east is the up triangle (4, 0), and from there a listed
direction leads back at the same cost. -/
theorem adjacency_is_symmetric_witness :
    NORTH_EAST ∈ triangular_tile_traits.listed ⟨2, 1⟩ CORNERS_FACING ∧
    tile_traits.get_relative triangular_tile_traits ⟨2, 1⟩ NORTH_EAST = ⟨4, 0⟩ ∧
    ∃ d2, d2 ∈ triangular_tile_traits.listed
        (tile_traits.get_relative triangular_tile_traits ⟨2, 1⟩ NORTH_EAST) CORNERS_FACING ∧
      tile_traits.get_relative triangular_tile_traits
        (tile_traits.get_relative triangular_tile_traits ⟨2, 1⟩ NORTH_EAST) d2 = ⟨2, 1⟩ ∧
      default_costs_triangular.traversal_cost ⟨2, 1⟩ NORTH_EAST
        = default_costs_triangular.traversal_cost
          (tile_traits.get_relative triangular_tile_traits ⟨2, 1⟩ NORTH_EAST) d2 :=
  ⟨by decide, by decide,
    (adjacency_is_symmetric ⟨2, 1⟩ CORNERS_FACING NORTH_EAST).2.1 (by decide)⟩

/-! ## The tiebreaker (heuristics.tcc) -/

/-- The arithmetic of `generic_tiebreaker`: scaling an estimate up by a truncating
division, adding the cross product and scaling down again loses at most one and gains at
most the scaled cross product. -/
theorem tiebreaker_bounds (h total avg cross : Int) (havg : 0 < avg) (hh : 0 ≤ h)
    (ht : 0 ≤ total) (hc : 0 ≤ cross) :
    h - 1 ≤ Int.tdiv ((Int.tdiv (h * (total + avg)) avg + cross) * avg) (total + avg) ∧
    Int.tdiv ((Int.tdiv (h * (total + avg)) avg + cross) * avg) (total + avg)
      ≤ h + Int.tdiv (cross * avg) (total + avg) ∧
    0 ≤ Int.tdiv ((Int.tdiv (h * (total + avg)) avg + cross) * avg) (total + avg) := by
  have hB : 0 < total + avg := by linarith
  have hX : 0 ≤ h * (total + avg) := mul_nonneg hh (le_of_lt hB)
  rw [Int.tdiv_eq_ediv hX (le_of_lt havg)]
  have hq : 0 ≤ h * (total + avg) / avg := Int.ediv_nonneg hX (le_of_lt havg)
  have hY : 0 ≤ (h * (total + avg) / avg + cross) * avg :=
    mul_nonneg (by linarith) (le_of_lt havg)
  have hZ : 0 ≤ cross * avg := mul_nonneg hc (le_of_lt havg)
  rw [Int.tdiv_eq_ediv hY (le_of_lt hB), Int.tdiv_eq_ediv hZ (le_of_lt hB)]
  have h1 : h * (total + avg) / avg * avg ≤ h * (total + avg) :=
    Int.ediv_mul_le _ (ne_of_gt havg)
  have h2 : h * (total + avg) < (h * (total + avg) / avg + 1) * avg :=
    Int.lt_ediv_add_one_mul_self _ havg
  have h3 : cross * avg < (cross * avg / (total + avg) + 1) * (total + avg) :=
    Int.lt_ediv_add_one_mul_self _ hB
  refine ⟨?_, ?_, Int.ediv_nonneg hY (le_of_lt hB)⟩
  · rw [Int.le_ediv_iff_mul_le hB]
    nlinarith
  · have h4 : (h * (total + avg) / avg + cross) * avg / (total + avg)
        < h + cross * avg / (total + avg) + 1 := by
      rw [Int.ediv_lt_iff_lt_mul hB]
      nlinarith
    linarith

/-- Claim C40. With a positive average cost `avg`, a base estimate `h` at `current` and a
base estimate `total` at `start` that are not negative, and the cross product
`cross = |dx1 * dy2 - dx2 * dy1|` of `current - end` and `start - end`: neither division
of `generic_tiebreaker` is by zero, and it returns a value `t` with
`h - 1 ≤ t ≤ h + (cross * avg) / (total + avg)`, which is not negative. -/
theorem tiebreaker_stays_close {T : tile_traits} {α : Type} (group : node_group T α)
    (start current m_end : vector_t) (tt : traversal_traits) (heuristic : heuristic_t T α)
    (havg : 0 < tt.average_traversal_cost)
    (hh : 0 ≤ heuristic group start current m_end tt)
    (htotal : 0 ≤ heuristic group start start m_end tt) :
    line_of_sight_crossproduct start current m_end
      = abs ((current.m_x - m_end.m_x) * (start.m_y - m_end.m_y)
          - (start.m_x - m_end.m_x) * (current.m_y - m_end.m_y)) ∧
    tt.average_traversal_cost ≠ 0 ∧
    heuristic group start start m_end tt + tt.average_traversal_cost ≠ 0 ∧
    ∃ t, generic_tiebreaker group start current m_end tt heuristic = some t ∧
      heuristic group start current m_end tt - 1 ≤ t ∧
      t ≤ heuristic group start current m_end tt
        + Int.tdiv (line_of_sight_crossproduct start current m_end * tt.average_traversal_cost)
            (heuristic group start start m_end tt + tt.average_traversal_cost) ∧
      0 ≤ t := by
  have h1 : tt.average_traversal_cost ≠ 0 := ne_of_gt havg
  have h2 : heuristic group start start m_end tt + tt.average_traversal_cost ≠ 0 := by
    have : 0 < heuristic group start start m_end tt + tt.average_traversal_cost := by
      linarith
    exact ne_of_gt this
  have hc : 0 ≤ line_of_sight_crossproduct start current m_end := abs_nonneg _
  refine ⟨rfl, h1, h2, _, ?_, tiebreaker_bounds _ _ _ _ havg hh htotal hc⟩
  unfold generic_tiebreaker
  simp only [h1, h2, if_false]

/-- A concrete instance of `tiebreaker_stays_close`: the Manhattan tiebreaker with the
default costs of rectangular tiles, for the search from (0, 0) to (3, 4) at (1, 0). The
base estimate is 28, the estimate at the start 40, the cross product 4, and the tiebreaker
returns 28. -/
theorem tiebreaker_stays_close_witness :
    manhattan three_in_a_row ⟨0, 0⟩ ⟨1, 0⟩ ⟨3, 4⟩ simple_rectangular = 28 ∧
    manhattan three_in_a_row ⟨0, 0⟩ ⟨0, 0⟩ ⟨3, 4⟩ simple_rectangular = 40 ∧
    line_of_sight_crossproduct ⟨0, 0⟩ ⟨1, 0⟩ ⟨3, 4⟩ = 4 ∧
    manhattan_tiebreaker three_in_a_row ⟨0, 0⟩ ⟨1, 0⟩ ⟨3, 4⟩ simple_rectangular
      = some 28 ∧
    ∃ t, generic_tiebreaker three_in_a_row ⟨0, 0⟩ ⟨1, 0⟩ ⟨3, 4⟩ simple_rectangular
        manhattan = some t ∧
      manhattan three_in_a_row ⟨0, 0⟩ ⟨1, 0⟩ ⟨3, 4⟩ simple_rectangular - 1 ≤ t ∧
      t ≤ manhattan three_in_a_row ⟨0, 0⟩ ⟨1, 0⟩ ⟨3, 4⟩ simple_rectangular
        + Int.tdiv (line_of_sight_crossproduct ⟨0, 0⟩ ⟨1, 0⟩ ⟨3, 4⟩
            * simple_rectangular.average_traversal_cost)
          (manhattan three_in_a_row ⟨0, 0⟩ ⟨0, 0⟩ ⟨3, 4⟩ simple_rectangular
            + simple_rectangular.average_traversal_cost) ∧
      0 ≤ t :=
  ⟨by decide, by decide, by decide, by decide,
    (tiebreaker_stays_close three_in_a_row ⟨0, 0⟩ ⟨1, 0⟩ ⟨3, 4⟩ simple_rectangular
      manhattan (by decide) (by decide) (by decide)).2.2.2⟩

/-! ## Occupied coordinates and `is_valid` (node_group.tcc) -/

theorem std_map.erase_subset {K V : Type} [DecidableEq K] (m : List (K × V)) (k : K) :
    ∀ p ∈ std_map.erase m k, p ∈ m := by
  induction m with
  | nil => intro p hp; exact hp
  | cons q rest ih =>
    obtain ⟨k1, v1⟩ := q
    intro p hp
    simp only [std_map.erase] at hp
    split at hp
    · exact List.mem_cons_of_mem _ hp
    · rcases List.mem_cons.mp hp with h | h
      · rw [h]; exact List.mem_cons_self _ _
      · exact List.mem_cons_of_mem _ (ih p h)

/-- A call that does not move a node to invalid coordinates keeps the coordinates of all
nodes and of all handles of the client valid. -/
theorem client_step_keeps_valid {T : tile_traits} {α : Type} (s : client_state T α)
    (call : client_call α) (hv : call.valid_destination T)
    (hn : ∀ p ∈ s.m_group.m_nodes, T.is_valid p.1 = true)
    (hh : ∀ n ∈ s.m_handles, T.is_valid n.m_coords = true) :
    (∀ p ∈ (s.step call).m_group.m_nodes, T.is_valid p.1 = true) ∧
    (∀ n ∈ (s.step call).m_handles, T.is_valid n.m_coords = true) := by
  cases call with
  | handle_at coords =>
    simp only [client_state.step]
    cases hc : s.m_group.operator_call coords with
    | error f => exact ⟨hn, hh⟩
    | ok r =>
      obtain ⟨n, g2⟩ := r
      obtain ⟨h1, h2⟩ := node_group.operator_call_coords hc
      have hg : g2.m_nodes = s.m_group.m_nodes := by
        unfold node_group.operator_call at hc
        split at hc
        · cases hc
        · split at hc
          · simp only [Except.ok.injEq, Prod.mk.injEq] at hc
            rw [← hc.2]
          · simp only [Except.ok.injEq, Prod.mk.injEq] at hc
            rw [← hc.2]
      refine ⟨by simpa only [hg] using hn, ?_⟩
      intro m hm
      rcases List.mem_append.mp hm with h | h
      · exact hh m h
      · rw [List.mem_singleton.mp h, h1]; exact h2
  | assign h data =>
    simp only [client_state.step]
    cases hg : s.m_handles[h]? with
    | none => exact ⟨hn, hh⟩
    | some n =>
      refine ⟨?_, hh⟩
      intro p hp
      rcases std_map.mem_assign _ _ _ _ p hp with h1 | h1
      · rw [h1]; exact hh n (List.getElem?_mem hg)
      · exact hn p h1
  | move src dst =>
    simp only [client_state.step]
    refine ⟨?_, hh⟩
    intro p hp
    unfold node_group.move at hp
    split at hp
    · exact hn p hp
    · split at hp
      · exact hn p hp
      · rcases std_map.mem_assign _ _ _ _ p hp with h1 | h1
        · rw [h1]; exact hv
        · exact hn p (std_map.erase_subset _ _ p h1)
  | move_to h coords =>
    simp only [client_state.step]
    cases hg : s.m_handles[h]? with
    | none => exact ⟨hn, hh⟩
    | some n =>
      have hnv := hh n (List.getElem?_mem hg)
      simp only [node.move_to]
      constructor
      · intro p hp
        have hp2 : p ∈ (s.m_group.move n.m_coords coords).2.m_nodes := by
          split at hp <;> exact hp
        unfold node_group.move at hp2
        split at hp2
        · exact hn p hp2
        · split at hp2
          · exact hn p hp2
          · rcases std_map.mem_assign _ _ _ _ p hp2 with h1 | h1
            · rw [h1]; exact hv
            · exact hn p (std_map.erase_subset _ _ p h1)
      · intro m hm
        rcases List.mem_or_eq_of_mem_set hm with h1 | h1
        · exact hh m h1
        · rw [h1]
          split
          · exact hv
          · exact hnv
  | erase coords =>
    simp only [client_state.step]
    refine ⟨?_, hh⟩
    intro p hp
    unfold node_group.erase at hp
    split at hp
    · exact hn p hp
    · exact hn p (std_map.erase_subset _ _ p hp)
  | clear =>
    simp only [client_state.step]
    exact ⟨fun p hp => (by cases hp), hh⟩

theorem client_run_keeps_valid {T : tile_traits} {α : Type} (calls : List (client_call α)) :
    ∀ (s : client_state T α), (∀ call ∈ calls, call.valid_destination T) →
      (∀ p ∈ s.m_group.m_nodes, T.is_valid p.1 = true) →
      (∀ n ∈ s.m_handles, T.is_valid n.m_coords = true) →
      ∀ p ∈ (calls.foldl client_state.step s).m_group.m_nodes, T.is_valid p.1 = true := by
  induction calls with
  | nil => intro s _ hn _; exact hn
  | cons call rest ih =>
    intro s hv hn hh
    obtain ⟨h1, h2⟩ := client_step_keeps_valid s call (hv call (List.mem_cons_self _ _)) hn hh
    exact ih (s.step call) (fun c hc => hv c (List.mem_cons_of_mem _ hc)) h1 h2

/-- Claim C39 (counterexample). A client obtains a handle for (0, 0), assigns data
through it and moves the node to the invalid vector: `move` succeeds, and afterwards the
invalid vector is occupied although `is_valid` rejects it. On hexagonal tiles the same
happens with the destination (0, 1), whose sum is odd, through `move_to`. -/
theorem move_occupies_invalid_coordinates :
    (((client_run [.handle_at ⟨0, 0⟩, .assign 0 7] :
        client_state rectangular_tile_traits Nat).m_group.move ⟨0, 0⟩ invalid_vector).1 = true) ∧
    ((client_run [.handle_at ⟨0, 0⟩, .assign 0 7, .move ⟨0, 0⟩ invalid_vector] :
        client_state rectangular_tile_traits Nat).m_group.is_empty invalid_vector = false) ∧
    tile_traits.is_valid rectangular_tile_traits invalid_vector = false ∧
    ((client_run [.handle_at ⟨0, 0⟩, .assign 0 7, .move_to 0 ⟨0, 1⟩] :
        client_state hexagonal_tile_traits Nat).m_group.is_empty ⟨0, 1⟩ = false) ∧
    tile_traits.is_valid hexagonal_tile_traits ⟨0, 1⟩ = false := by
  decide

/-- Claim C39 (amended). In every state that a default constructed group reaches through
`operator()`, assignments through handles (current or not), `move`, `move_to`, `erase`
and `clear`, where every destination of `move` and `move_to` is valid, every occupied
coordinate satisfies `is_valid` of the tile traits. -/
theorem occupied_coordinates_are_valid {T : tile_traits} {α : Type}
    (calls : List (client_call α)) (hv : ∀ call ∈ calls, call.valid_destination T)
    (c : vector_t)
    (hc : (client_run calls : client_state T α).m_group.is_empty c = false) :
    T.is_valid c = true := by
  have hmem := (node_group.is_empty_iff_mem _ c).mp hc
  obtain ⟨p, hp, hpc⟩ := List.mem_map.mp hmem
  have := client_run_keeps_valid calls (⟨node_group.empty, []⟩ : client_state T α) hv
    (fun q hq => (by cases hq)) (fun n hn => (by cases hn)) p hp
  rw [← hpc]
  exact this

/-- A concrete instance of `occupied_coordinates_are_valid`: on hexagonal tiles a node is
put at (0, 0) and moved to (1, 1). -/
theorem occupied_coordinates_are_valid_witness :
    ((client_run [.handle_at ⟨0, 0⟩, .assign 0 7, .move_to 0 ⟨1, 1⟩] :
        client_state hexagonal_tile_traits Nat).m_group.is_empty ⟨1, 1⟩ = false) ∧
    tile_traits.is_valid hexagonal_tile_traits ⟨1, 1⟩ = true :=
  ⟨by decide,
    occupied_coordinates_are_valid
      ([.handle_at ⟨0, 0⟩, .assign 0 7, .move_to 0 ⟨1, 1⟩] : List (client_call Nat))
      (by
        intro call hcall
        simp only [List.mem_cons, List.mem_singleton, List.not_mem_nil, or_false] at hcall
        rcases hcall with h | h | h <;> rw [h]
        · trivial
        · trivial
        · show tile_traits.is_valid hexagonal_tile_traits ⟨1, 1⟩ = true
          decide)
      ⟨1, 1⟩ (by decide)⟩

/-! ## The states of a search and the loop of `find_path` -/

namespace pathfinder

variable {T : tile_traits} {α : Type}

theorem listed_dirs_cons {d : directions_t} (dirs : List directions_t) (hd : d ≠ DIR_END) :
    listed_dirs (d :: dirs) = d :: listed_dirs dirs := by
  simp [listed_dirs, List.takeWhile_cons, hd]

/-- The loop over the directions runs through states of the search: when it ends at
`DIR_END`, the state there is reached, and when it finds the end node, it does so in the
body of the loop at a reached state. -/
theorem expand_reached {pf : pathfinder T α} {k : Nat} {closed : closed_list_t}
    {cur : ol_entry_ptr} (dirs : List directions_t) :
    ∀ (ol : open_list_t), pf.reached k (some dirs) ol closed cur →
      (∀ ol2, pf.expand cur closed dirs ol = .next ol2 →
        ∃ rest, pf.reached k (some (DIR_END :: rest)) ol2 closed cur) ∧
      (pf.expand cur closed dirs ol = .found →
        ∃ d rest ol1, pf.reached k (some (d :: rest)) ol1 closed cur ∧ d ≠ DIR_END ∧
          pf.visit cur closed d ol1 = .found) := by
  induction dirs with
  | nil =>
    intro ol _
    exact ⟨fun ol2 h => by simp [expand] at h, fun h => by simp [expand] at h⟩
  | cons d dirs ih =>
    intro ol hr
    by_cases hd : d = DIR_END
    · subst hd
      refine ⟨?_, ?_⟩
      · intro ol2 h
        simp only [expand, if_true, expand_result.next.injEq] at h
        rw [← h]
        exact ⟨dirs, hr⟩
      · intro h
        simp [expand] at h
    · cases hv : pf.visit cur closed d ol with
      | next ol1 =>
        have hr1 := reached.visit k d dirs ol ol1 closed cur hr hd hv
        obtain ⟨h1, h2⟩ := ih ol1 hr1
        refine ⟨?_, ?_⟩
        · intro ol2 h
          simp only [expand, hd, if_false, hv] at h
          exact h1 ol2 h
        · intro h
          simp only [expand, hd, if_false, hv] at h
          exact h2 h
      | found =>
        refine ⟨?_, ?_⟩
        · intro ol2 h
          simp [expand, hd, hv] at h
        · intro _
          exact ⟨d, dirs, ol, hr, hd, hv⟩
      | failed f =>
        refine ⟨?_, ?_⟩
        · intro ol2 h
          simp [expand, hd, hv] at h
        · intro h
          simp [expand, hd, hv] at h

/-- A round of the loop of `find_path` that does not return leads from a reached state at
the head of the loop to the next one. -/
theorem reached_round {pf : pathfinder T α} {k : Nat} {ol ol2 : open_list_t}
    {closed : closed_list_t} {cur next_ptr : ol_entry_ptr} {current_node : node T α}
    {group2 : node_group T α} {dirs : List directions_t}
    (hr : pf.reached k none ol closed cur) (hn : cur ≠ .null)
    (hcall : pf.m_group.operator_call cur.m_coords = .ok (current_node, group2))
    (hdirs : current_node.available_dirs pf.m_join_types = some dirs)
    (hexp : pf.expand cur (std_map.insert vector_t.lt closed cur.m_coords cur) dirs
      (open_list_t.erase ol cur.m_coords) = .next ol2)
    (hsel : open_list_t.lower_bound_zero ol2 = some next_ptr) :
    pf.reached (k + 1) none ol2 (std_map.insert vector_t.lt closed cur.m_coords cur)
      next_ptr := by
  have h1 := reached.close k ol closed cur current_node group2 dirs hr hn hcall hdirs
  obtain ⟨rest, h2⟩ := (expand_reached dirs _ h1).1 ol2 hexp
  exact reached.select (k + 1) rest ol2 _ cur next_ptr h2 hsel

/-- The loop of `find_path`, entered at a reached state, returns from the body of the
loop over the directions at a reached state, with the chain of the current entry there,
put before `result`, and the end node. -/
theorem find_path_loop_reached (pf : pathfinder T α) (result : List vector_t) (fuel : Nat) :
    ∀ (k : Nat) (ol : open_list_t) (closed : closed_list_t) (cur : ol_entry_ptr)
      (status : error_t) (path : List vector_t),
      pf.reached k none ol closed cur →
      pf.find_path_loop result fuel ol closed cur = .ok (status, path) →
      ∃ k2 d rest ol1 closed1 last,
        pf.reached k2 (some (d :: rest)) ol1 closed1 last ∧ d ≠ DIR_END ∧
        pf.visit last closed1 d ol1 = .found ∧
        path = last.walk_back result ++ [pf.m_end] := by
  induction fuel with
  | zero => intro k ol closed cur status path _ h; simp [find_path_loop] at h
  | succ fuel ih =>
    intro k ol closed cur status path hr h
    cases cur with
    | null => simp [find_path_loop] at h
    | entry c g f p =>
      simp only [find_path_loop] at h
      cases hcall : pf.m_group.operator_call c with
      | error e => rw [hcall] at h; cases h
      | ok r =>
        obtain ⟨nd, g2⟩ := r
        rw [hcall] at h
        simp only at h
        cases hdirs : nd.available_dirs pf.m_join_types with
        | none => rw [hdirs] at h; cases h
        | some dirs =>
          rw [hdirs] at h
          simp only at h
          have h1 := reached.close k ol closed (.entry c g f p) nd g2 dirs hr (by simp)
            hcall hdirs
          cases hexp : pf.expand (.entry c g f p)
              (std_map.insert vector_t.lt closed c (.entry c g f p)) dirs
              (open_list_t.erase ol c) with
          | failed e => rw [hexp] at h; cases h
          | found =>
            rw [hexp] at h
            simp only [Except.ok.injEq, Prod.mk.injEq] at h
            obtain ⟨d, rest, ol1, h2, hd, hv⟩ := (expand_reached dirs _ h1).2 hexp
            exact ⟨k + 1, d, rest, ol1, _, _, h2, hd, hv, h.2.symm⟩
          | next ol2 =>
            rw [hexp] at h
            simp only at h
            cases hlb : open_list_t.lower_bound_zero ol2 with
            | none => rw [hlb] at h; cases h
            | some nxt =>
              rw [hlb] at h
              simp only at h
              obtain ⟨rest, h2⟩ := (expand_reached dirs _ h1).1 ol2 hexp
              exact ih (k + 1) ol2 _ nxt status path
                (reached.select (k + 1) rest ol2 _ _ nxt h2 hlb) h

/-- What holds in every state of a search: the invariant `inv` of the two lists, the
current entry is sound, at the head of the loop it is on the open list, and in the loop
over the directions it is on the closed list and the rest of the array holds listed
directions. -/
theorem reached_inv {pf : pathfinder T α} {k : Nat} {phase : Option (List directions_t)}
    {ol : open_list_t} {closed : closed_list_t} {cur : ol_entry_ptr}
    (h : pf.reached k phase ol closed cur) :
    pf.inv ol closed ∧ pf.sound cur ∧ (phase = none → cur ∈ ol) ∧
    (∀ dirs, phase = some dirs → (cur.m_coords, cur) ∈ closed ∧
      ∀ d ∈ listed_dirs dirs, d ∈ T.listed cur.m_coords pf.m_join_types) := by
  induction h with
  | start =>
    refine ⟨inv_init pf, sound.start, fun _ => List.mem_singleton.mpr rfl, ?_⟩
    intro dirs hd
    cases hd
  | close k ol closed cur nd g2 dirs hr hn hcall hdirs ih =>
    obtain ⟨hinv, hs, hmem, _⟩ := ih
    obtain ⟨hinv1, hperm⟩ := inv_close hinv (hmem rfl)
    refine ⟨hinv1, hs, fun hp => (by cases hp), ?_⟩
    intro dirs2 hd
    simp only [Option.some.injEq] at hd
    subst hd
    refine ⟨hperm.mem_iff.mpr (List.mem_cons_self _ _), ?_⟩
    have hnd := (node_group.operator_call_coords hcall).1
    intro d hd
    simp only [node.available_dirs, hnd] at hdirs
    simp only [tile_traits.listed, hdirs]
    exact hd
  | visit k d dirs ol ol2 closed cur hr hd hv ih =>
    obtain ⟨hinv, hs, _, hl⟩ := ih
    obtain ⟨hc, hlisted⟩ := hl (d :: dirs) rfl
    rw [listed_dirs_cons dirs hd] at hlisted
    refine ⟨inv_visit hinv hs (hlisted d (List.mem_cons_self _ _)) hv, hs,
      fun hp => (by cases hp), ?_⟩
    intro dirs2 hd2
    simp only [Option.some.injEq] at hd2
    subst hd2
    exact ⟨hc, fun d2 hd2 => hlisted d2 (List.mem_cons_of_mem _ hd2)⟩
  | select k dirs ol closed cur nxt hr hsel ih =>
    obtain ⟨hinv, _, _, _⟩ := ih
    have hmem := open_list_t.lower_bound_zero_mem hsel
    refine ⟨hinv, hinv.ol_sound nxt hmem, fun _ => hmem, ?_⟩
    intro dirs2 hd2
    cases hd2

end pathfinder

/-! ## The parent references of a search -/

namespace ol_entry_ptr

theorem walk_back_of_ne_null {e : ol_entry_ptr} (h : e ≠ .null) :
    e.walk_back [] = e.m_parent.walk_back [] ++ [e.m_coords] := by
  cases e with
  | null => exact absurd rfl h
  | entry c g f p =>
    simp only [walk_back, m_parent, m_coords]
    exact walk_back_append p [c]

end ol_entry_ptr

namespace pathfinder

variable {T : tile_traits} {α : Type}

theorem linked_init (e : ol_entry_ptr) (hp : e.m_parent = .null)
    (hc : (e.walk_back []).Nodup) : linked [e] [] := by
  refine ⟨?_, ?_, ?_, ?_⟩
  · intro x hx
    rw [List.mem_singleton.mp hx]
    exact Or.inl hp
  · intro p hp2
    cases hp2
  · intro x hx
    rw [List.mem_singleton.mp hx]
    exact hc
  · intro p hp2
    cases hp2

/-- Moving the current entry from the open to the closed list keeps the parent
references. -/
theorem linked_close {pf : pathfinder T α} {ol : open_list_t} {closed : closed_list_t}
    {cur : ol_entry_ptr} (hl : linked ol closed) (hinv : pf.inv ol closed) (hcur : cur ∈ ol) :
    linked (open_list_t.erase ol cur.m_coords)
      (std_map.insert vector_t.lt closed cur.m_coords cur) := by
  obtain ⟨_, hperm⟩ := inv_close hinv hcur
  have hmem : ∀ p, p ∈ closed → p ∈ std_map.insert vector_t.lt closed cur.m_coords cur :=
    fun p hp => hperm.mem_iff.mpr (List.mem_cons_of_mem _ hp)
  have hself : (cur.m_coords, cur) ∈ std_map.insert vector_t.lt closed cur.m_coords cur :=
    hperm.mem_iff.mpr (List.mem_cons_self _ _)
  have hkeys : ∀ c, c ∈ closed.map Prod.fst →
      c ∈ (std_map.insert vector_t.lt closed cur.m_coords cur).map Prod.fst := by
    intro c hc
    obtain ⟨p, hp, hpc⟩ := List.mem_map.mp hc
    exact List.mem_map.mpr ⟨p, hmem p hp, hpc⟩
  have hnn : cur ≠ .null := sound_ne_null (hinv.ol_sound cur hcur)
  refine ⟨?_, ?_, ?_, ?_⟩
  · intro e he
    rcases hl.ol_parent e (open_list_t.mem_of_mem_erase he) with h | h
    · exact Or.inl h
    · exact Or.inr (hmem _ h)
  · intro p hp
    rcases List.mem_cons.mp (hperm.mem_iff.mp hp) with h | h
    · rw [h]
      rcases hl.ol_parent cur hcur with h2 | h2
      · exact Or.inl h2
      · exact Or.inr (hmem _ h2)
    · rcases hl.closed_parent p h with h2 | h2
      · exact Or.inl h2
      · exact Or.inr (hmem _ h2)
  · intro e he
    exact hl.ol_chain e (open_list_t.mem_of_mem_erase he)
  · intro p hp
    rcases List.mem_cons.mp (hperm.mem_iff.mp hp) with h | h
    · rw [h]
      refine ⟨hl.ol_chain cur hcur, ?_⟩
      intro c hc
      rw [ol_entry_ptr.walk_back_of_ne_null hnn] at hc
      rcases List.mem_append.mp hc with h2 | h2
      · rcases hl.ol_parent cur hcur with h3 | h3
        · rw [h3] at h2
          cases h2
        · exact hkeys c ((hl.closed_chain _ h3).2 c h2)
      · rw [List.mem_singleton.mp h2]
        exact List.mem_map.mpr ⟨_, hself, rfl⟩
    · exact ⟨(hl.closed_chain p h).1, fun c hc => hkeys c ((hl.closed_chain p h).2 c hc)⟩

/-- The body of the loop over the directions keeps the parent references: a new entry
has the current entry, which the closed list holds, as its parent, and its coordinates
are not on the closed list, where the chain of the current entry runs. -/
theorem linked_visit {pf : pathfinder T α} {cur : ol_entry_ptr} {closed : closed_list_t}
    {d : directions_t} {ol ol2 : open_list_t} (hl : linked ol closed)
    (hc : (cur.m_coords, cur) ∈ closed) (h : pf.visit cur closed d ol = .next ol2) :
    linked ol2 closed := by
  obtain ⟨_, hcase⟩ := visit_next h
  rcases hcase with h1 | ⟨_, _, hcl, _, h2⟩
  · rw [h1]; exact hl
  · have hnot : T.get_relative cur.m_coords d ∉ closed.map Prod.fst :=
      std_map.find_eq_none_iff.mp hcl
    have hnew : ∀ e ∈ ol2, e = pf.new_entry cur (T.get_relative cur.m_coords d)
        (cur.m_g_cost + pf.m_traversal_traits.traversal_cost cur.m_coords d) ∨ e ∈ ol := by
      intro e he
      rw [h2] at he
      rcases open_list_t.mem_insert he with h3 | h3
      · exact Or.inl h3
      · exact Or.inr (open_list_t.mem_of_mem_erase h3)
    refine ⟨?_, hl.closed_parent, ?_, hl.closed_chain⟩
    · intro e he
      rcases hnew e he with h3 | h3
      · rw [h3]
        exact Or.inr hc
      · exact hl.ol_parent e h3
    · intro e he
      rcases hnew e he with h3 | h3
      · rw [h3]
        have hw : (pf.new_entry cur (T.get_relative cur.m_coords d)
            (cur.m_g_cost + pf.m_traversal_traits.traversal_cost cur.m_coords d)).walk_back []
            = cur.walk_back [] ++ [T.get_relative cur.m_coords d] := by
          simp only [new_entry, ol_entry_ptr.walk_back]
          exact ol_entry_ptr.walk_back_append cur _
        rw [hw]
        obtain ⟨hn, hk⟩ := hl.closed_chain _ hc
        refine List.Nodup.append hn (List.nodup_singleton _) ?_
        intro c hc1 hc2
        rw [List.mem_singleton.mp hc2] at hc1
        exact hnot (hk _ hc1)
      · exact hl.ol_chain e h3

/-- The parent references hold in every state of a search. -/
theorem reached_linked {pf : pathfinder T α} {k : Nat} {phase : Option (List directions_t)}
    {ol : open_list_t} {closed : closed_list_t} {cur : ol_entry_ptr}
    (h : pf.reached k phase ol closed cur) : linked ol closed := by
  induction h with
  | start => exact linked_init _ rfl (by simp [ol_entry_ptr.walk_back])
  | close k ol closed cur nd g2 dirs hr hn hcall hdirs ih =>
    obtain ⟨hinv, _, hmem, _⟩ := reached_inv hr
    exact linked_close ih hinv (hmem rfl)
  | visit k d dirs ol ol2 closed cur hr hd hv ih =>
    obtain ⟨_, _, _, hl⟩ := reached_inv hr
    exact linked_visit ih (hl _ rfl).1 hv
  | select k dirs ol closed cur nxt hr hsel ih => exact ih

/-- The closed list has as many entries as rounds have been begun. -/
theorem reached_closed_length {pf : pathfinder T α} {k : Nat}
    {phase : Option (List directions_t)} {ol : open_list_t} {closed : closed_list_t}
    {cur : ol_entry_ptr} (h : pf.reached k phase ol closed cur) : closed.length = k := by
  induction h with
  | start => rfl
  | close k ol closed cur nd g2 dirs hr hn hcall hdirs ih =>
    obtain ⟨hinv, _, hmem, _⟩ := reached_inv hr
    obtain ⟨_, hperm⟩ := inv_close hinv (hmem rfl)
    rw [hperm.length_eq, List.length_cons, ih]
  | visit k d dirs ol ol2 closed cur hr hd hv ih => exact ih
  | select k dirs ol closed cur nxt hr hsel ih => exact ih

end pathfinder

/-! ## The selection of the next entry (pathfinding.tcc) -/

namespace open_list_t

/-- In an open list in the order of its costs, `lower_bound(0)` yields an entry whose cost
is not negative and not greater than any other cost that is not negative. -/
theorem lower_bound_zero_least {ol : open_list_t} {x : ol_entry_ptr}
    (hs : ol.Pairwise (fun a b => a.m_f_cost ≤ b.m_f_cost))
    (h : lower_bound_zero ol = some x) :
    0 ≤ x.m_f_cost ∧ ∀ e ∈ ol, 0 ≤ e.m_f_cost → x.m_f_cost ≤ e.m_f_cost := by
  induction ol with
  | nil => simp [lower_bound_zero] at h
  | cons y rest ih =>
    have hp := List.pairwise_cons.mp hs
    simp only [lower_bound_zero] at h
    split at h
    · rename_i hneg
      obtain ⟨h1, h2⟩ := ih hp.2 h
      refine ⟨h1, ?_⟩
      intro e he hnn
      rcases List.mem_cons.mp he with h3 | h3
      · rw [h3] at hnn
        exact absurd hneg (not_lt.mpr hnn)
      · exact h2 e h3 hnn
    · rename_i hnn
      simp only [Option.some.injEq] at h
      subst h
      refine ⟨not_lt.mp hnn, ?_⟩
      intro e he _
      rcases List.mem_cons.mp he with h3 | h3
      · rw [h3]
      · exact hp.1 e h3

end open_list_t

namespace pathfinder

variable {T : tile_traits} {α : Type}

/-- With costs of listed moves and values of the heuristic that are not negative, the two
costs of a sound entry are not negative. -/
theorem sound_costs_nonneg {pf : pathfinder T α}
    (hcost : ∀ c d, d ∈ T.listed c pf.m_join_types →
      0 ≤ pf.m_traversal_traits.traversal_cost c d)
    (hheur : ∀ c, 0 ≤ pf.m_heuristic pf.m_group pf.m_start c pf.m_end pf.m_traversal_traits)
    {e : ol_entry_ptr} (h : pf.sound e) : 0 ≤ e.m_g_cost ∧ 0 ≤ e.m_f_cost := by
  induction h with
  | start =>
    exact ⟨le_refl _, hheur pf.m_start⟩
  | step p d hp hd hend hemp himp ih =>
    have hg : 0 ≤ p.m_g_cost + pf.m_traversal_traits.traversal_cost p.m_coords d :=
      add_nonneg ih.1 (hcost p.m_coords d hd)
    exact ⟨hg, add_nonneg hg (hheur _)⟩

/-- The state of `row_search` after its first round: the entry of (1, 0) is on the open
list and has been selected, the entry of the start node is on the closed list. -/
theorem row_search_round :
    row_search.reached 1 none
      [.entry ⟨1, 0⟩ 10 10 (.entry ⟨0, 0⟩ 0 0 .null)]
      [(⟨0, 0⟩, .entry ⟨0, 0⟩ 0 0 .null)]
      (.entry ⟨1, 0⟩ 10 10 (.entry ⟨0, 0⟩ 0 0 .null)) :=
  reached_round (reached.start : row_search.reached 0 none _ _ _) (by simp)
    (rfl : row_search.m_group.operator_call ⟨0, 0⟩
      = Except.ok (⟨0, ⟨0, 0⟩⟩, three_in_a_row))
    (rfl : _ = some rectangular_tile_traits.all) (by decide) (by decide)

/-- The state of `biased_search` after its first round. -/
theorem biased_search_round :
    biased_search.reached 1 none
      [.entry ⟨0, 1⟩ 10 (-90) (.entry ⟨0, 0⟩ 0 0 .null),
        .entry ⟨1, 0⟩ 10 10 (.entry ⟨0, 0⟩ 0 0 .null)]
      [(⟨0, 0⟩, .entry ⟨0, 0⟩ 0 0 .null)]
      (.entry ⟨1, 0⟩ 10 10 (.entry ⟨0, 0⟩ 0 0 .null)) :=
  reached_round (reached.start : biased_search.reached 0 none _ _ _) (by simp)
    (rfl : biased_search.m_group.operator_call ⟨0, 0⟩
      = Except.ok (⟨0, ⟨0, 0⟩⟩, corner_group))
    (rfl : _ = some rectangular_tile_traits.all) (by decide) (by decide)

end pathfinder

/-- Claim C33 (evaluation of the code). In `biased_search` the heuristic is negative at
(0, 1). After the first round the open list holds the entries of (0, 1), of cost `f` = -90,
and of (1, 0), of cost `f` = 10, and `lower_bound(0)` selects the entry of (1, 0), although
the entry of (0, 1) has the lesser cost: the selected entry is not the one "with the lowest
F cost of them all" that the comment of the loop names. -/
theorem selected_entry_can_be_dearer :
    biased_search.reached 1 none
      [.entry ⟨0, 1⟩ 10 (-90) (.entry ⟨0, 0⟩ 0 0 .null),
        .entry ⟨1, 0⟩ 10 10 (.entry ⟨0, 0⟩ 0 0 .null)]
      [(⟨0, 0⟩, .entry ⟨0, 0⟩ 0 0 .null)]
      (.entry ⟨1, 0⟩ 10 10 (.entry ⟨0, 0⟩ 0 0 .null)) ∧
    ol_entry_ptr.entry ⟨0, 1⟩ 10 (-90) (.entry ⟨0, 0⟩ 0 0 .null)
      ∈ ([.entry ⟨0, 1⟩ 10 (-90) (.entry ⟨0, 0⟩ 0 0 .null),
        .entry ⟨1, 0⟩ 10 10 (.entry ⟨0, 0⟩ 0 0 .null)] : open_list_t) ∧
    (ol_entry_ptr.entry ⟨0, 1⟩ 10 (-90) (.entry ⟨0, 0⟩ 0 0 .null)).m_f_cost
      < (ol_entry_ptr.entry ⟨1, 0⟩ 10 10 (.entry ⟨0, 0⟩ 0 0 .null)).m_f_cost :=
  ⟨pathfinder.biased_search_round, by decide, by decide⟩

/-- The extent of the selection by `lower_bound(0)`: in every round of a search the entry
selected for expansion is on the open list, and its cost `f` is less than or equal to the
cost `f` of every entry of the open list whose cost is not negative. So where no listed
move has a negative cost and no heuristic value is negative, the selected entry has the
least cost `f` of the open list, as the comment of the loop says. -/
theorem selected_entry_is_cheapest {T : tile_traits} {α : Type} {pf : pathfinder T α}
    {k : Nat} {ol : open_list_t} {closed : closed_list_t} {cur : ol_entry_ptr}
    (h : pf.reached k none ol closed cur) :
    cur ∈ ol ∧
    (∀ e ∈ ol, 0 ≤ e.m_f_cost → cur.m_f_cost ≤ e.m_f_cost) ∧
    ((∀ c d, d ∈ T.listed c pf.m_join_types →
        0 ≤ pf.m_traversal_traits.traversal_cost c d) →
      (∀ c, 0 ≤ pf.m_heuristic pf.m_group pf.m_start c pf.m_end pf.m_traversal_traits) →
      ∀ e ∈ ol, cur.m_f_cost ≤ e.m_f_cost) := by
  obtain ⟨hinv, _, hmem, _⟩ := pathfinder.reached_inv h
  have key : ∀ e ∈ ol, 0 ≤ e.m_f_cost → cur.m_f_cost ≤ e.m_f_cost := by
    cases h with
    | start =>
      intro e he _
      rw [List.mem_singleton.mp he]
    | select k dirs ol closed cur0 nxt hr hsel =>
      exact (open_list_t.lower_bound_zero_least hinv.ol_sorted hsel).2
  refine ⟨hmem rfl, key, ?_⟩
  intro hcost hheur e he
  exact key e he (pathfinder.sound_costs_nonneg hcost hheur (hinv.ol_sound e he)).2

/-- A concrete instance of `selected_entry_is_cheapest`: the first selection of
`row_search`. -/
theorem selected_entry_is_cheapest_witness :
    row_search.reached 1 none
      [.entry ⟨1, 0⟩ 10 10 (.entry ⟨0, 0⟩ 0 0 .null)]
      [(⟨0, 0⟩, .entry ⟨0, 0⟩ 0 0 .null)]
      (.entry ⟨1, 0⟩ 10 10 (.entry ⟨0, 0⟩ 0 0 .null)) ∧
    ∀ e ∈ ([.entry ⟨1, 0⟩ 10 10 (.entry ⟨0, 0⟩ 0 0 .null)] : open_list_t),
      0 ≤ e.m_f_cost →
      (ol_entry_ptr.entry ⟨1, 0⟩ 10 10 (.entry ⟨0, 0⟩ 0 0 .null)).m_f_cost ≤ e.m_f_cost :=
  ⟨pathfinder.row_search_round,
    (selected_entry_is_cheapest pathfinder.row_search_round).2.1⟩

/-! ## The invariant of the states of a search (pathfinding.tcc) -/

namespace pathfinder

variable {T : tile_traits} {α : Type}

/-- A sound entry is the entry of the start node, or it was made from a sound parent for
a neighbour in a listed direction, at the cost of the parent plus the cost of the move. -/
theorem sound_parent {pf : pathfinder T α} {e : ol_entry_ptr} (h : pf.sound e) :
    e = .entry pf.m_start 0
        (pf.m_heuristic pf.m_group pf.m_start pf.m_start pf.m_end pf.m_traversal_traits) .null ∨
    (e.m_parent ≠ .null ∧ ∃ d, d ∈ T.listed e.m_parent.m_coords pf.m_join_types ∧
      e.m_coords = T.get_relative e.m_parent.m_coords d ∧
      e.m_g_cost = e.m_parent.m_g_cost
        + pf.m_traversal_traits.traversal_cost e.m_parent.m_coords d) := by
  cases h with
  | start => exact Or.inl rfl
  | step p d hp hd hend hemp himp =>
    exact Or.inr ⟨sound_ne_null hp, d, hd, rfl, rfl⟩

/-- Following the parent references from a sound entry reaches the entry of the start
node. -/
theorem sound_reaches_start {pf : pathfinder T α} {e : ol_entry_ptr} (h : pf.sound e) :
    ∃ n : Nat, ol_entry_ptr.m_parent^[n] e = .entry pf.m_start 0
      (pf.m_heuristic pf.m_group pf.m_start pf.m_start pf.m_end pf.m_traversal_traits)
      .null := by
  induction h with
  | start => exact ⟨0, rfl⟩
  | step p d hp hd hend hemp himp ih =>
    obtain ⟨n, hn⟩ := ih
    exact ⟨n + 1, by rw [Function.iterate_succ_apply]; exact hn⟩

end pathfinder

/-- Claim C34. In every state of a search the open and the closed list hold at most one
entry per coordinates and share no coordinates, and a closed entry is filed under its own
coordinates. Every entry of either list is the entry of the start node, or its parent is
held by the closed list, its coordinates are those of the neighbour of the parent in a
listed direction and its cost `g` is the cost `g` of the parent plus `traversal_cost` of
that move; and following the parent references from the entry reaches the entry of the
start node after finitely many steps. -/
theorem search_state_invariant {T : tile_traits} {α : Type} {pf : pathfinder T α}
    {k : Nat} {phase : Option (List directions_t)} {ol : open_list_t}
    {closed : closed_list_t} {cur : ol_entry_ptr}
    (h : pf.reached k phase ol closed cur) :
    (ol.map ol_entry_ptr.m_coords).Nodup ∧ (closed.map Prod.fst).Nodup ∧
    (∀ e ∈ ol, std_map.find closed e.m_coords = none) ∧
    (∀ p ∈ closed, p.2.m_coords = p.1) ∧
    ∀ e, (e ∈ ol ∨ ∃ c, (c, e) ∈ closed) →
      (e = .entry pf.m_start 0
          (pf.m_heuristic pf.m_group pf.m_start pf.m_start pf.m_end pf.m_traversal_traits)
          .null ∨
        ((e.m_parent.m_coords, e.m_parent) ∈ closed ∧
          ∃ d, d ∈ T.listed e.m_parent.m_coords pf.m_join_types ∧
            e.m_coords = T.get_relative e.m_parent.m_coords d ∧
            e.m_g_cost = e.m_parent.m_g_cost
              + pf.m_traversal_traits.traversal_cost e.m_parent.m_coords d)) ∧
      ∃ n : Nat, ol_entry_ptr.m_parent^[n] e = .entry pf.m_start 0
        (pf.m_heuristic pf.m_group pf.m_start pf.m_start pf.m_end pf.m_traversal_traits)
        .null := by
  obtain ⟨hinv, _, _, _⟩ := pathfinder.reached_inv h
  have hl := pathfinder.reached_linked h
  refine ⟨hinv.ol_nodup, hinv.closed_nodup, hinv.disjoint,
    fun p hp => (hinv.closed_sound p hp).1, ?_⟩
  intro e he
  have hs : pf.sound e := by
    rcases he with he | ⟨c, he⟩
    · exact hinv.ol_sound e he
    · exact (hinv.closed_sound _ he).2
  have hpar : e.m_parent = .null ∨ (e.m_parent.m_coords, e.m_parent) ∈ closed := by
    rcases he with he | ⟨c, he⟩
    · exact hl.ol_parent e he
    · exact hl.closed_parent _ he
  refine ⟨?_, pathfinder.sound_reaches_start hs⟩
  rcases pathfinder.sound_parent hs with h1 | ⟨hnn, d, hd, hc, hg⟩
  · exact Or.inl h1
  · rcases hpar with h2 | h2
    · exact absurd h2 hnn
    · exact Or.inr ⟨h2, d, hd, hc, hg⟩

/-- A concrete instance of `search_state_invariant`: the state of `row_search` after its
first round, where the parent of the entry of (1, 0) is the entry of the start node. -/
theorem search_state_invariant_witness :
    row_search.reached 1 none
      [.entry ⟨1, 0⟩ 10 10 (.entry ⟨0, 0⟩ 0 0 .null)]
      [(⟨0, 0⟩, .entry ⟨0, 0⟩ 0 0 .null)]
      (.entry ⟨1, 0⟩ 10 10 (.entry ⟨0, 0⟩ 0 0 .null)) ∧
    (([.entry ⟨1, 0⟩ 10 10 (.entry ⟨0, 0⟩ 0 0 .null)] : open_list_t).map
      ol_entry_ptr.m_coords).Nodup ∧
    (([(⟨0, 0⟩, .entry ⟨0, 0⟩ 0 0 .null)] : closed_list_t).map Prod.fst).Nodup :=
  ⟨pathfinder.row_search_round,
    (search_state_invariant pathfinder.row_search_round).1,
    (search_state_invariant pathfinder.row_search_round).2.1⟩

/-! ## The number of rounds of a search (pathfinding.tcc) -/

/-- Claim C35. In every state of a search the closed list has one entry for each round
begun so far, under coordinates that are pairwise different, each the start node or
occupied; so no more rounds are begun than the group has occupied coordinates, plus one.
At the head of the loop the coordinates of the selected entry are not on the closed list,
the round puts them there, and the round that begins is within the same bound. -/
theorem no_coordinate_is_expanded_twice {T : tile_traits} {α : Type} {pf : pathfinder T α}
    {k : Nat} {phase : Option (List directions_t)} {ol : open_list_t}
    {closed : closed_list_t} {cur : ol_entry_ptr}
    (h : pf.reached k phase ol closed cur) :
    closed.length = k ∧ (closed.map Prod.fst).Nodup ∧
    (∀ p ∈ closed, p.1 = pf.m_start ∨ pf.m_group.is_empty p.1 = false) ∧
    k ≤ (pf.m_group.m_nodes.map Prod.fst).dedup.length + 1 ∧
    (phase = none →
      std_map.find closed cur.m_coords = none ∧
      List.Perm (std_map.insert vector_t.lt closed cur.m_coords cur)
        ((cur.m_coords, cur) :: closed) ∧
      (cur.m_coords = pf.m_start ∨ pf.m_group.is_empty cur.m_coords = false) ∧
      k + 1 ≤ (pf.m_group.m_nodes.map Prod.fst).dedup.length + 1) := by
  obtain ⟨hinv, hcs, hmem, _⟩ := pathfinder.reached_inv h
  have hlen := pathfinder.reached_closed_length h
  have hocc : ∀ e, pf.sound e →
      e.m_coords ∈ pf.m_start :: (pf.m_group.m_nodes.map Prod.fst).dedup := by
    intro e he
    rcases pathfinder.sound_coords he with h1 | h1
    · rw [h1]; exact List.mem_cons_self _ _
    · exact List.mem_cons_of_mem _
        (List.mem_dedup.mpr ((node_group.is_empty_iff_mem _ _).mp h1))
  have hsub : closed.map Prod.fst ⊆ pf.m_start :: (pf.m_group.m_nodes.map Prod.fst).dedup := by
    intro c hc
    obtain ⟨p, hp, hpc⟩ := List.mem_map.mp hc
    obtain ⟨h1, h2⟩ := hinv.closed_sound p hp
    rw [← hpc, ← h1]
    exact hocc _ h2
  have hbound := (List.subperm_of_subset hinv.closed_nodup hsub).length_le
  simp only [List.length_map, List.length_cons] at hbound
  refine ⟨hlen, hinv.closed_nodup, ?_, by omega, ?_⟩
  · intro p hp
    obtain ⟨h1, h2⟩ := hinv.closed_sound p hp
    rw [← h1]
    exact pathfinder.sound_coords h2
  · intro hph
    have hcur := hmem hph
    have hnone := hinv.disjoint cur hcur
    obtain ⟨hinv1, hperm⟩ := pathfinder.inv_close hinv hcur
    refine ⟨hnone, hperm, pathfinder.sound_coords hcs, ?_⟩
    have hnd : (cur.m_coords :: closed.map Prod.fst).Nodup :=
      List.nodup_cons.mpr ⟨std_map.find_eq_none_iff.mp hnone, hinv.closed_nodup⟩
    have hsub2 : cur.m_coords :: closed.map Prod.fst
        ⊆ pf.m_start :: (pf.m_group.m_nodes.map Prod.fst).dedup := by
      intro c hc
      rcases List.mem_cons.mp hc with h1 | h1
      · rw [h1]; exact hocc _ hcs
      · exact hsub h1
    have hb2 := (List.subperm_of_subset hnd hsub2).length_le
    simp only [List.length_map, List.length_cons] at hb2
    omega

/-- A concrete instance of `no_coordinate_is_expanded_twice`: `row_search` after its first
round, on a group with three occupied coordinates. -/
theorem no_coordinate_is_expanded_twice_witness :
    row_search.reached 1 none
      [.entry ⟨1, 0⟩ 10 10 (.entry ⟨0, 0⟩ 0 0 .null)]
      [(⟨0, 0⟩, .entry ⟨0, 0⟩ 0 0 .null)]
      (.entry ⟨1, 0⟩ 10 10 (.entry ⟨0, 0⟩ 0 0 .null)) ∧
    (row_search.m_group.m_nodes.map Prod.fst).dedup.length = 3 ∧
    ([(⟨0, 0⟩, .entry ⟨0, 0⟩ 0 0 .null)] : closed_list_t).length = 1 ∧
    1 ≤ (row_search.m_group.m_nodes.map Prod.fst).dedup.length + 1 :=
  ⟨pathfinder.row_search_round, by decide,
    (no_coordinate_is_expanded_twice pathfinder.row_search_round).1,
    (no_coordinate_is_expanded_twice pathfinder.row_search_round).2.2.2.1⟩

/-! ## Paths without repetition (pathfinding.tcc) -/

namespace pathfinder

variable {T : tile_traits} {α : Type}

/-- The chain of a sound entry does not run over the end node, unless that is the start
node. -/
theorem sound_chain_avoids_end {pf : pathfinder T α} (hne : pf.m_start ≠ pf.m_end)
    {e : ol_entry_ptr} (h : pf.sound e) : pf.m_end ∉ e.walk_back [] := by
  induction h with
  | start =>
    simp only [ol_entry_ptr.walk_back, List.mem_singleton]
    exact fun h => hne h.symm
  | step p d hp hd hend hemp himp ih =>
    have hw : (pf.new_entry p (T.get_relative p.m_coords d)
        (p.m_g_cost + pf.m_traversal_traits.traversal_cost p.m_coords d)).walk_back []
        = p.walk_back [] ++ [T.get_relative p.m_coords d] := by
      simp only [new_entry, ol_entry_ptr.walk_back]
      exact ol_entry_ptr.walk_back_append p _
    rw [hw]
    intro hm
    rcases List.mem_append.mp hm with h1 | h1
    · exact ih h1
    · exact hend (List.mem_singleton.mp h1).symm

end pathfinder

/-- Claim C36. When `a_star`, called with an empty result sequence and a start node that
is not the end node, returns `CG_OK`, no coordinates occur twice in the returned
sequence. -/
theorem returned_path_is_simple {T : tile_traits} {α : Type} (group : node_group T α)
    (start m_end : vector_t) (tt : traversal_traits) (heuristic : heuristic_t T α)
    (path : List vector_t)
    (h : a_star [] group start m_end tt heuristic = .ok (CG_OK, path))
    (hne : start ≠ m_end) : path.Nodup := by
  unfold a_star at h
  split at h
  · cases h
  · unfold pathfinder.find_path at h
    simp only at h
    obtain ⟨k2, d, rest, ol1, closed1, last, hr, _, _, hp⟩ :=
      pathfinder.find_path_loop_reached _ [] _ 0 _ _ _ _ _ pathfinder.reached.start h
    obtain ⟨_, hs, _, hl⟩ := pathfinder.reached_inv hr
    have hlink := pathfinder.reached_linked hr
    have hc := (hlink.closed_chain _ (hl _ rfl).1).1
    rw [hp]
    refine List.Nodup.append hc (List.nodup_singleton _) ?_
    intro c hc1 hc2
    rw [List.mem_singleton.mp hc2] at hc1
    exact pathfinder.sound_chain_avoids_end hne hs hc1

/-- A concrete instance of `returned_path_is_simple`: three nodes in a row. -/
theorem returned_path_is_simple_witness :
    a_star [] three_in_a_row ⟨0, 0⟩ ⟨2, 0⟩ simple_rectangular dijkstra
      = .ok (CG_OK, [⟨0, 0⟩, ⟨1, 0⟩, ⟨2, 0⟩]) ∧
    (⟨0, 0⟩ : vector_t) ≠ ⟨2, 0⟩ ∧
    ([⟨0, 0⟩, ⟨1, 0⟩, ⟨2, 0⟩] : List vector_t).Nodup :=
  ⟨by decide, by decide,
    returned_path_is_simple three_in_a_row ⟨0, 0⟩ ⟨2, 0⟩ simple_rectangular dijkstra
      [⟨0, 0⟩, ⟨1, 0⟩, ⟨2, 0⟩] (by decide) (by decide)⟩

/-! ## The search from a node for itself (pathfinding.tcc) -/

namespace open_list_t

theorem insert_ne_nil (ol : open_list_t) (e : ol_entry_ptr) : insert ol e ≠ [] := by
  unfold insert
  split
  · rename_i h
    intro hnil
    rw [hnil] at h
    simp [find] at h
  · intro hnil
    have : e ∈ link ol e := mem_link.mpr (Or.inl rfl)
    rw [hnil] at this
    cases this

end open_list_t

namespace pathfinder

variable {T : tile_traits} {α : Type}

/-- A round of the loop of `find_path` in which the loop over the directions finds the end
node returns the chain of the current entry and the end node. -/
theorem find_path_loop_found (pf : pathfinder T α) (result : List vector_t) (fuel : Nat)
    (ol : open_list_t) (closed : closed_list_t) (c : vector_t) (g f : unit_t)
    (p : ol_entry_ptr) (nd : node T α) (g2 : node_group T α) (dirs : List directions_t)
    (hcall : pf.m_group.operator_call c = .ok (nd, g2))
    (hdirs : nd.available_dirs pf.m_join_types = some dirs)
    (hexp : pf.expand (.entry c g f p) (std_map.insert vector_t.lt closed c (.entry c g f p))
      dirs (open_list_t.erase ol c) = .found) :
    pf.find_path_loop result (fuel + 1) ol closed (.entry c g f p)
      = .ok (CG_OK, (ol_entry_ptr.entry c g f p).walk_back result ++ [pf.m_end]) := by
  simp only [find_path_loop, hcall, hdirs, hexp]

/-- A round of the loop of `find_path` in which the loop over the directions ends at
`DIR_END` goes on with the entry that `lower_bound(0)` yields. -/
theorem find_path_loop_next (pf : pathfinder T α) (result : List vector_t) (fuel : Nat)
    (ol ol2 : open_list_t) (closed : closed_list_t) (c : vector_t) (g f : unit_t)
    (p nxt : ol_entry_ptr) (nd : node T α) (g2 : node_group T α) (dirs : List directions_t)
    (hcall : pf.m_group.operator_call c = .ok (nd, g2))
    (hdirs : nd.available_dirs pf.m_join_types = some dirs)
    (hexp : pf.expand (.entry c g f p) (std_map.insert vector_t.lt closed c (.entry c g f p))
      dirs (open_list_t.erase ol c) = .next ol2)
    (hlb : open_list_t.lower_bound_zero ol2 = some nxt) :
    pf.find_path_loop result (fuel + 1) ol closed (.entry c g f p)
      = pf.find_path_loop result fuel ol2
          (std_map.insert vector_t.lt closed c (.entry c g f p)) nxt := by
  simp only [find_path_loop, hcall, hdirs, hexp, hlb]

theorem visit_found_of_end {pf : pathfinder T α} {cur : ol_entry_ptr}
    {closed : closed_list_t} {d : directions_t} {ol : open_list_t}
    (h1 : T.get_relative cur.m_coords d ≠ invalid_vector)
    (h2 : T.get_relative cur.m_coords d = pf.m_end) : pf.visit cur closed d ol = .found := by
  have h3 : pf.m_end ≠ invalid_vector := h2 ▸ h1
  unfold visit
  simp only [h2, h3, if_false, if_true]

/-- The loop over the directions finds the end node when it is the neighbour in a listed
direction and every listed direction has a neighbour. -/
theorem expand_finds_end {pf : pathfinder T α} {cur : ol_entry_ptr} {closed : closed_list_t}
    (dirs : List directions_t)
    (hrel : ∀ d ∈ listed_dirs dirs, T.get_relative cur.m_coords d ≠ invalid_vector)
    (hex : ∃ d ∈ listed_dirs dirs, T.get_relative cur.m_coords d = pf.m_end) :
    ∀ (ol : open_list_t), pf.expand cur closed dirs ol = .found := by
  induction dirs with
  | nil =>
    obtain ⟨d, hd, _⟩ := hex
    simp [listed_dirs] at hd
  | cons d dirs ih =>
    intro ol
    by_cases hde : d = DIR_END
    · obtain ⟨d2, hd2, _⟩ := hex
      simp [listed_dirs, hde] at hd2
    · rw [listed_dirs_cons dirs hde] at hrel hex
      simp only [expand, hde, if_false]
      by_cases he : T.get_relative cur.m_coords d = pf.m_end
      · rw [visit_found_of_end (hrel d (List.mem_cons_self _ _)) he]
      · have hex2 : ∃ d2 ∈ listed_dirs dirs, T.get_relative cur.m_coords d2 = pf.m_end := by
          obtain ⟨d2, hd2, h2⟩ := hex
          rcases List.mem_cons.mp hd2 with h3 | h3
          · rw [h3] at h2
            exact absurd h2 he
          · exact ⟨d2, h3, h2⟩
        cases hv : pf.visit cur closed d ol with
        | found => rfl
        | failed f => exact absurd (visit_failed hv) (hrel d (List.mem_cons_self _ _))
        | next ol1 =>
          simp only
          exact ih (fun d2 hd2 => hrel d2 (List.mem_cons_of_mem _ hd2)) hex2 ol1

/-- After the body of the loop for an occupied neighbour that is entered by a passable
move and is not on the closed list, the open list is not empty. -/
theorem visit_nonempty {pf : pathfinder T α} {cur : ol_entry_ptr} {closed : closed_list_t}
    {d : directions_t} {ol ol2 : open_list_t} (h : pf.visit cur closed d ol = .next ol2)
    (hemp : pf.m_group.is_empty (T.get_relative cur.m_coords d) = false)
    (himp : pf.m_traversal_traits.is_impassable cur.m_coords d = false)
    (hcl : std_map.find closed (T.get_relative cur.m_coords d) = none) : ol2 ≠ [] := by
  unfold visit at h
  simp only [hemp, himp, hcl, Option.isSome_none, Bool.false_eq_true, if_false] at h
  split at h
  · cases h
  · split at h
    · cases h
    · split at h
      · rename_i e he
        split at h
        · cases h
          exact open_list_t.insert_ne_nil _ _
        · cases h
          intro hnil
          rw [hnil] at he
          simp [open_list_t.find] at he
      · cases h
        exact open_list_t.insert_ne_nil _ _

theorem visit_keeps_nonempty {pf : pathfinder T α} {cur : ol_entry_ptr}
    {closed : closed_list_t} {d : directions_t} {ol ol2 : open_list_t}
    (h : pf.visit cur closed d ol = .next ol2) (hne : ol ≠ []) : ol2 ≠ [] := by
  obtain ⟨_, hcase⟩ := visit_next h
  rcases hcase with h1 | ⟨_, _, _, _, h2⟩
  · rw [h1]; exact hne
  · rw [h2]; exact open_list_t.insert_ne_nil _ _

/-- After the loop over the directions the open list is not empty when it was not empty
before, or when some listed neighbour is occupied, entered by a passable move and not on
the closed list. -/
theorem expand_nonempty {pf : pathfinder T α} {cur : ol_entry_ptr} {closed : closed_list_t}
    (dirs : List directions_t) :
    ∀ (ol ol2 : open_list_t), pf.expand cur closed dirs ol = .next ol2 →
      (ol ≠ [] ∨ ∃ d ∈ listed_dirs dirs,
        pf.m_group.is_empty (T.get_relative cur.m_coords d) = false ∧
        pf.m_traversal_traits.is_impassable cur.m_coords d = false ∧
        std_map.find closed (T.get_relative cur.m_coords d) = none) →
      ol2 ≠ [] := by
  induction dirs with
  | nil => intro ol ol2 h _; simp [expand] at h
  | cons d dirs ih =>
    intro ol ol2 h hor
    by_cases hde : d = DIR_END
    · simp only [expand, hde, if_true, expand_result.next.injEq] at h
      rw [← h]
      rcases hor with h1 | ⟨d2, hd2, _⟩
      · exact h1
      · simp [listed_dirs, hde] at hd2
    · rw [listed_dirs_cons dirs hde] at hor
      simp only [expand, hde, if_false] at h
      cases hv : pf.visit cur closed d ol with
      | found => rw [hv] at h; cases h
      | failed f => rw [hv] at h; cases h
      | next ol1 =>
        rw [hv] at h
        refine ih ol1 ol2 h ?_
        rcases hor with h1 | ⟨d2, hd2, h2, h3, h4⟩
        · exact Or.inl (visit_keeps_nonempty hv h1)
        · rcases List.mem_cons.mp hd2 with h5 | h5
          · rw [h5] at h2 h3 h4
            exact Or.inl (visit_nonempty hv h2 h3 h4)
          · exact Or.inr ⟨d2, h5, h2, h3, h4⟩

end pathfinder

namespace pathfinder

variable {T : tile_traits} {α : Type}

theorem listed_of_available_dirs {c : vector_t} {join_type : join_t}
    {dirs : List directions_t} (h : T.available_dirs c join_type = some dirs) :
    T.listed c join_type = listed_dirs dirs := by
  simp only [tile_traits.listed, h]

/-- The search from a node for itself. When the start node is valid, every array of
directions has a `DIR_END`, no listed move from the start node leads to the invalid vector
or to the start node itself, every listed neighbour of the start node is valid, has no
listed move to the invalid vector and has a listed move back to the start node, some
listed neighbour is occupied and entered by a passable move, and neither the costs of the
listed moves from the start node nor the values of the heuristic are negative: the first
round ends with an open list from which `lower_bound(0)` selects the entry `e` of an
occupied neighbour, and the second round finds the end node from there. -/
theorem find_path_degenerate (pf : pathfinder T α) (hse : pf.m_end = pf.m_start)
    (hvalid : T.is_valid pf.m_start = true)
    (hterm : ∀ c, ∃ dirs, T.available_dirs c pf.m_join_types = some dirs ∧ DIR_END ∈ dirs)
    (hrel : ∀ d ∈ T.listed pf.m_start pf.m_join_types,
      T.get_relative pf.m_start d ≠ invalid_vector ∧ T.get_relative pf.m_start d ≠ pf.m_start)
    (hback : ∀ d ∈ T.listed pf.m_start pf.m_join_types,
      T.is_valid (T.get_relative pf.m_start d) = true ∧
      (∀ d2 ∈ T.listed (T.get_relative pf.m_start d) pf.m_join_types,
        T.get_relative (T.get_relative pf.m_start d) d2 ≠ invalid_vector) ∧
      ∃ d2 ∈ T.listed (T.get_relative pf.m_start d) pf.m_join_types,
        T.get_relative (T.get_relative pf.m_start d) d2 = pf.m_start)
    (hnb : ∃ d ∈ T.listed pf.m_start pf.m_join_types,
      pf.m_group.is_empty (T.get_relative pf.m_start d) = false ∧
      pf.m_traversal_traits.is_impassable pf.m_start d = false)
    (hcost : ∀ d ∈ T.listed pf.m_start pf.m_join_types,
      0 ≤ pf.m_traversal_traits.traversal_cost pf.m_start d)
    (hheur : ∀ c, 0 ≤ pf.m_heuristic pf.m_group pf.m_start c pf.m_end pf.m_traversal_traits)
    (result : List vector_t) :
    ∃ dirs ol2 e d,
      T.available_dirs pf.m_start pf.m_join_types = some dirs ∧
      pf.expand (.entry pf.m_start 0
          (pf.m_heuristic pf.m_group pf.m_start pf.m_start pf.m_end pf.m_traversal_traits)
          .null)
        [(pf.m_start, .entry pf.m_start 0
          (pf.m_heuristic pf.m_group pf.m_start pf.m_start pf.m_end pf.m_traversal_traits)
          .null)] dirs [] = .next ol2 ∧
      open_list_t.lower_bound_zero ol2 = some e ∧
      d ∈ T.listed pf.m_start pf.m_join_types ∧
      e.m_coords = T.get_relative pf.m_start d ∧
      pf.m_group.is_empty e.m_coords = false ∧
      pf.m_traversal_traits.is_impassable pf.m_start d = false ∧
      pf.find_path result
        = .ok (CG_OK, pf.m_start :: e.m_coords :: (result ++ [pf.m_start])) := by
  obtain ⟨dirs, hdirs, hend⟩ := hterm pf.m_start
  have hl := listed_of_available_dirs hdirs
  rw [hl] at hrel hback hnb hcost
  generalize he0 : ol_entry_ptr.entry pf.m_start 0
    (pf.m_heuristic pf.m_group pf.m_start pf.m_start pf.m_end pf.m_traversal_traits) .null
    = e0
  have hc0 : e0.m_coords = pf.m_start := by rw [← he0]; rfl
  have hg0 : e0.m_g_cost = 0 := by rw [← he0]; rfl
  have hw0 : ∀ acc, e0.walk_back acc = pf.m_start :: acc := by
    intro acc; rw [← he0]; rfl
  have hnn0 : e0 ≠ .null := by rw [← he0]; simp
  have hclosed : ∀ n, n ≠ pf.m_start → std_map.find [(pf.m_start, e0)] n = none := by
    intro n hn
    simp [std_map.find, Ne.symm hn]
  -- the first round
  have hnf := @expand_ne_failed T α pf e0 [(pf.m_start, e0)] dirs hend
    (fun d hd => by rw [hc0]; exact (hrel d hd).1)
  cases hexp : pf.expand e0 [(pf.m_start, e0)] dirs [] with
  | failed f => exact absurd hexp (hnf [] f)
  | found =>
    obtain ⟨d, hd, he⟩ := expand_found dirs _ hexp
    rw [hc0, hse] at he
    exact absurd he (hrel d hd).2
  | next ol2 =>
    have hP : ∀ e ∈ ol2, ∃ d ∈ listed_dirs dirs,
        e = pf.new_entry e0 (T.get_relative pf.m_start d)
          (0 + pf.m_traversal_traits.traversal_cost pf.m_start d) ∧
        pf.m_group.is_empty (T.get_relative pf.m_start d) = false ∧
        pf.m_traversal_traits.is_impassable pf.m_start d = false := by
      refine @expand_next_induction T α pf e0 [(pf.m_start, e0)]
        (fun l => ∀ e ∈ l, ∃ d ∈ listed_dirs dirs,
          e = pf.new_entry e0 (T.get_relative pf.m_start d)
            (0 + pf.m_traversal_traits.traversal_cost pf.m_start d) ∧
          pf.m_group.is_empty (T.get_relative pf.m_start d) = false ∧
          pf.m_traversal_traits.is_impassable pf.m_start d = false) dirs [] ol2 ?_ ?_ hexp
      · intro d hd a b ha hv
        obtain ⟨_, hcase⟩ := visit_next hv
        rw [hc0, hg0] at hcase
        rcases hcase with h1 | ⟨hemp, himp, _, _, h2⟩
        · rw [h1]; exact ha
        · intro e he
          rw [h2] at he
          rcases open_list_t.mem_insert he with h3 | h3
          · exact ⟨d, hd, h3, hemp, himp⟩
          · exact ha e (open_list_t.mem_of_mem_erase h3)
      · intro e he
        cases he
    have hne : ol2 ≠ [] := by
      obtain ⟨d0, hd0, hemp0, himp0⟩ := hnb
      refine expand_nonempty dirs [] ol2 hexp (Or.inr ⟨d0, hd0, ?_, ?_, ?_⟩)
      · rw [hc0]; exact hemp0
      · rw [hc0]; exact himp0
      · rw [hc0]; exact hclosed _ (hrel d0 hd0).2
    have hf : ∀ e ∈ ol2, 0 ≤ e.m_f_cost := by
      intro e he
      obtain ⟨d, hd, h1, _, _⟩ := hP e he
      rw [h1]
      show 0 ≤ (0 + pf.m_traversal_traits.traversal_cost pf.m_start d)
        + pf.m_heuristic pf.m_group pf.m_start (T.get_relative pf.m_start d) pf.m_end
            pf.m_traversal_traits
      have := hcost d hd
      have := hheur (T.get_relative pf.m_start d)
      linarith
    have hlb := open_list_t.lower_bound_zero_head hf
    cases ol2 with
    | nil => exact absurd rfl hne
    | cons e rest =>
      simp only [List.head?_cons] at hlb
      obtain ⟨d1, hd1, h1, hemp1, himp1⟩ := hP e (List.mem_cons_self _ _)
      have hce : e.m_coords = T.get_relative pf.m_start d1 := by rw [h1]; rfl
      refine ⟨dirs, e :: rest, e, d1, hdirs, hexp, hlb, by rw [hl]; exact hd1, hce,
        by rw [hce]; exact hemp1, himp1, ?_⟩
      -- the second round
      obtain ⟨hv2, hrel2, d2, hd2, hb2⟩ := hback d1 hd1
      obtain ⟨dirs2, hdirs2, _⟩ := hterm (T.get_relative pf.m_start d1)
      have hl2 := listed_of_available_dirs hdirs2
      rw [hl2] at hrel2 hd2
      obtain ⟨id1, g1, hcall1, _⟩ := node_group.operator_call_valid pf.m_group pf.m_start hvalid
      obtain ⟨id2, g2, hcall2, _⟩ := node_group.operator_call_valid pf.m_group
        (T.get_relative pf.m_start d1) hv2
      have her : open_list_t.erase (open_list_t.insert [] e0) pf.m_start = [] := by
        simp [open_list_t.insert, open_list_t.find, open_list_t.link, open_list_t.erase, hc0]
      have hins : std_map.insert vector_t.lt [] pf.m_start e0 = [(pf.m_start, e0)] := rfl
      have hexp2 : pf.expand e0 (std_map.insert vector_t.lt [] pf.m_start e0) dirs
          (open_list_t.erase (open_list_t.insert [] e0) pf.m_start) = .next (e :: rest) := by
        rw [her, hins]; exact hexp
      subst he0
      unfold find_path
      simp only
      rw [find_path_loop_next pf result (pf.m_group.m_nodes.length + 1) _ (e :: rest) []
        pf.m_start 0 _ .null e ⟨id1, pf.m_start⟩ g1 dirs hcall1 hdirs hexp2 hlb]
      rw [h1]
      refine (find_path_loop_found pf result pf.m_group.m_nodes.length _ _
        (T.get_relative pf.m_start d1)
        (0 + pf.m_traversal_traits.traversal_cost pf.m_start d1)
        ((0 + pf.m_traversal_traits.traversal_cost pf.m_start d1)
          + pf.m_heuristic pf.m_group pf.m_start (T.get_relative pf.m_start d1) pf.m_end
              pf.m_traversal_traits)
        (.entry pf.m_start 0
          (pf.m_heuristic pf.m_group pf.m_start pf.m_start pf.m_end pf.m_traversal_traits)
          .null)
        ⟨id2, T.get_relative pf.m_start d1⟩ g2 dirs2 hcall2 hdirs2
        (expand_finds_end dirs2 hrel2 ⟨d2, hd2, by rw [hse]; exact hb2⟩ _)).trans ?_
      simp only [ol_entry_ptr.walk_back, hse, ol_entry_ptr.m_coords, new_entry,
        ol_entry_ptr.walk_back_append _ (_ :: _), List.cons_append, List.nil_append,
        List.append_assoc]

end pathfinder

/-! ## The three tile shapes are regular -/

theorem vector_t.add_ne_self (c v : vector_t) (h : v.m_x ≠ 0 ∨ v.m_y ≠ 0) : c + v ≠ c := by
  intro e
  have hx : c.m_x + v.m_x = c.m_x := congrArg vector_t.m_x e
  have hy : c.m_y + v.m_y = c.m_y := congrArg vector_t.m_y e
  rcases h with h | h
  · exact h (by linarith)
  · exact h (by linarith)

theorem terminated_dirs_has_end {c : vector_t} {join_type : join_t} {T : tile_traits}
    (h : terminated_dirs (T.available_dirs c join_type)) :
    ∃ dirs, T.available_dirs c join_type = some dirs ∧ DIR_END ∈ dirs := by
  obtain ⟨ds, h1, _⟩ := h
  exact ⟨_, h1, List.mem_append.mpr (Or.inr (List.mem_singleton.mpr rfl))⟩

theorem rectangular_regular : rectangular_tile_traits.regular := by
  refine ⟨?_, ?_, ?_, ?_⟩
  · intro c d join_type h
    have h2 := rectangular_listed_subset c join_type d h
    rw [rectangular_listed_all] at h2
    revert h2
    cases d <;> first
      | (intro h2; exact absurd h2 (by decide))
      | (intro _; exact ⟨_, by decide, rfl, vector_t.add_ne_self c _ (by decide)⟩)
  · intro c d join_type h
    obtain ⟨d2, h1, h2, _⟩ := rectangular_symmetric c join_type d h
    exact ⟨d2, h1, h2⟩
  · intro c c2 join_type h
    have h1 := rectangular_available_dirs_cases c join_type
    have h2 := rectangular_available_dirs_cases c2 join_type
    have hflag := not_not.mp (fun hn => h (h1.2.mpr hn))
    exact terminated_dirs_has_end (h2.1.mpr hflag)
  · intro c d join_type _ _ hn
    show rectangular_tile_traits.is_valid _ = true
    unfold rectangular_tile_traits.is_valid
    simpa using hn

theorem triangular_regular : triangular_tile_traits.regular := by
  refine ⟨?_, ?_, ?_, ?_⟩
  · intro c d join_type h
    have h2 := triangular_listed_subset c join_type d h
    rw [triangular_listed_all] at h2
    by_cases hp : Int.tmod (c.m_x + c.m_y) 2 ≠ 0
    · rw [if_pos hp] at h2
      have hs : d ≠ DIR_START := by intro e; rw [e] at h2; exact absurd h2 (by decide)
      have he : d ≠ DIR_END := by intro e; rw [e] at h2; exact absurd h2 (by decide)
      rw [triangular_get_relative_down c d hp hs he]
      revert h2
      cases d <;> first
        | (intro h2; exact absurd h2 (by decide))
        | (intro _; exact ⟨_, by decide, rfl, vector_t.add_ne_self c _ (by decide)⟩)
    · rw [if_neg hp] at h2
      have hs : d ≠ DIR_START := by intro e; rw [e] at h2; exact absurd h2 (by decide)
      have he : d ≠ DIR_END := by intro e; rw [e] at h2; exact absurd h2 (by decide)
      rw [triangular_get_relative_up c d hp hs he]
      revert h2
      cases d <;> first
        | (intro h2; exact absurd h2 (by decide))
        | (intro _; exact ⟨_, by decide, rfl, vector_t.add_ne_self c _ (by decide)⟩)
  · intro c d join_type h
    obtain ⟨d2, h1, h2, _⟩ := triangular_symmetric c join_type d h
    exact ⟨d2, h1, h2⟩
  · intro c c2 join_type h
    have h1 := triangular_available_dirs_cases c join_type
    have h2 := triangular_available_dirs_cases c2 join_type
    have hflag := not_not.mp (fun hn => h (h1.2.mpr hn))
    exact terminated_dirs_has_end (h2.1.mpr hflag)
  · intro c d join_type _ _ hn
    show triangular_tile_traits.is_valid _ = true
    unfold triangular_tile_traits.is_valid
    simpa using hn

theorem hexagonal_regular : hexagonal_tile_traits.regular := by
  refine ⟨?_, ?_, ?_, ?_⟩
  · intro c d join_type h
    have h2 := hexagonal_listed_subset c join_type d h
    rw [hexagonal_listed_all] at h2
    revert h2
    cases d <;> first
      | (intro h2; exact absurd h2 (by decide))
      | (intro _; exact ⟨_, by decide, rfl, vector_t.add_ne_self c _ (by decide)⟩)
  · exact fun c d join_type h => hexagonal_symmetric c join_type d h
  · intro c c2 join_type h
    have h1 := hexagonal_available_dirs_cases c join_type
    have h2 := hexagonal_available_dirs_cases c2 join_type
    have hflag := not_not.mp (fun hn => h (h1.2.mpr hn))
    exact terminated_dirs_has_end (h2.1.mpr hflag)
  · intro c d join_type hv hd hn
    rw [hexagonal_is_valid_iff] at hv ⊢
    exact ⟨hn, by rw [(hexagonal_neighbour_parity c join_type d hd).1]; exact hv.2⟩

theorem listed_not_none {T : tile_traits} {c : vector_t} {join_type : join_t}
    {d : directions_t} (h : d ∈ T.listed c join_type) : T.available_dirs c join_type ≠ none := by
  intro hn
  simp [tile_traits.listed, hn] at h

/-- The search from a valid node for itself on regular tiles, more than four columns from
the least `unit_t`: the hypotheses of `find_path_degenerate` about the tiles hold. -/
theorem a_star_degenerate {T : tile_traits} {α : Type} (hT : T.regular)
    (group : node_group T α) (s : vector_t) (tt : traversal_traits)
    (heuristic : heuristic_t T α)
    (hvalid : T.is_valid s = true) (hfar : invalid_unit + 4 < s.m_x)
    (hnb : ∃ d ∈ T.listed s tt.join_types,
      group.is_empty (T.get_relative s d) = false ∧ tt.is_impassable s d = false)
    (hcost : ∀ d ∈ T.listed s tt.join_types, 0 ≤ tt.traversal_cost s d)
    (hheur : ∀ c, 0 ≤ heuristic group s c s tt) :
    ∃ dirs ol2 e d,
      T.available_dirs s tt.join_types = some dirs ∧
      pathfinder.expand ⟨group, s, s, tt, heuristic, tt.join_types⟩
        (.entry s 0 (heuristic group s s s tt) .null)
        [(s, .entry s 0 (heuristic group s s s tt) .null)] dirs [] = .next ol2 ∧
      open_list_t.lower_bound_zero ol2 = some e ∧
      d ∈ T.listed s tt.join_types ∧
      e.m_coords = T.get_relative s d ∧
      group.is_empty e.m_coords = false ∧
      tt.is_impassable s d = false ∧
      a_star [] group s s tt heuristic = .ok (CG_OK, [s, e.m_coords, s]) := by
  obtain ⟨d0, hd0, _, _⟩ := id hnb
  have hsome := listed_not_none hd0
  have hfar2 : invalid_unit + 2 < s.m_x := by linarith
  obtain ⟨dirs, ol2, e, d, h1, h2, h3, h4, h5, h6, h7, h8⟩ :=
    pathfinder.find_path_degenerate ⟨group, s, s, tt, heuristic, tt.join_types⟩ rfl hvalid
      (fun c => hT.terminated s c tt.join_types hsome)
      (fun d hd => by
        obtain ⟨v, hv, hr, hne⟩ := hT.step s d tt.join_types hd
        show T.get_relative s d ≠ invalid_vector ∧ T.get_relative s d ≠ s
        rw [hr]
        exact ⟨add_ne_invalid_vector s v hfar2 hv, hne⟩)
      (fun d hd => by
        obtain ⟨v, hv, hr, _⟩ := hT.step s d tt.join_types hd
        have hn : T.get_relative s d ≠ invalid_vector := by
          rw [hr]; exact add_ne_invalid_vector s v hfar2 hv
        have hx : invalid_unit + 2 < (T.get_relative s d).m_x := by
          rw [hr]
          show invalid_unit + 2 < s.m_x + v.m_x
          linarith
        refine ⟨hT.valid_neighbour s d tt.join_types hvalid hd hn, ?_,
          hT.symmetric s d tt.join_types hd⟩
        intro d2 hd2
        obtain ⟨w, hw, hr2, _⟩ := hT.step (T.get_relative s d) d2 tt.join_types hd2
        show T.get_relative (T.get_relative s d) d2 ≠ invalid_vector
        rw [hr2]
        exact add_ne_invalid_vector _ w hx hw)
      hnb hcost hheur []
  refine ⟨dirs, ol2, e, d, h1, h2, h3, h4, h5, h6, h7, ?_⟩
  unfold a_star
  simp only [node_group.is_valid, hvalid, Bool.not_true, Bool.or_self, Bool.false_eq_true,
    if_false]
  exact h8

/-- Claim C37 (counterexample). On rectangular tiles the coordinates
(`invalid_unit`, `invalid_unit` + 1) are valid and their neighbour in the east is occupied
in `edge_group`; the default costs and the zero heuristic are not negative. The search
from these coordinates for themselves returns no path: the first listed direction,
`NORTH`, leads to the invalid vector, and the assertion of the loop fails. -/
theorem degenerate_query_can_fail :
    tile_traits.is_valid rectangular_tile_traits ⟨invalid_unit, invalid_unit + 1⟩ = true ∧
    EAST ∈ rectangular_tile_traits.listed ⟨invalid_unit, invalid_unit + 1⟩
      simple_rectangular.join_types ∧
    edge_group.is_empty (tile_traits.get_relative rectangular_tile_traits
      ⟨invalid_unit, invalid_unit + 1⟩ EAST) = false ∧
    simple_rectangular.is_impassable ⟨invalid_unit, invalid_unit + 1⟩ EAST = false ∧
    tile_traits.get_relative rectangular_tile_traits ⟨invalid_unit, invalid_unit + 1⟩ NORTH
      = invalid_vector ∧
    a_star [] edge_group ⟨invalid_unit, invalid_unit + 1⟩ ⟨invalid_unit, invalid_unit + 1⟩
      simple_rectangular dijkstra = .error .assertion_failed := by
  decide

/-- Claim C37 (amended). On each of the three tile shapes, for a valid coordinate `s`
whose column is more than four above the least `unit_t` and that has an occupied neighbour
in a listed direction of a passable move, with costs of the listed moves from `s` and
values of the heuristic that are not negative: `a_star(s, s)`, called with an empty result
sequence, returns `CG_OK` and the three coordinates `s`, `n`, `s`, where `n` are the
coordinates of the entry that `lower_bound(0)` selects after the first round, an occupied
neighbour of `s`; it does not return the path of the one element `s`. -/
theorem degenerate_query_returns_round_trip {T : tile_traits} {α : Type}
    (hT : T = rectangular_tile_traits ∨ T = triangular_tile_traits ∨
      T = hexagonal_tile_traits)
    (group : node_group T α) (s : vector_t) (tt : traversal_traits)
    (heuristic : heuristic_t T α)
    (hvalid : T.is_valid s = true) (hfar : invalid_unit + 4 < s.m_x)
    (hnb : ∃ d ∈ T.listed s tt.join_types,
      group.is_empty (T.get_relative s d) = false ∧ tt.is_impassable s d = false)
    (hcost : ∀ d ∈ T.listed s tt.join_types, 0 ≤ tt.traversal_cost s d)
    (hheur : ∀ c, 0 ≤ heuristic group s c s tt) :
    ∃ n, a_star [] group s s tt heuristic = .ok (CG_OK, [s, n, s]) ∧
      a_star [] group s s tt heuristic ≠ .ok (CG_OK, [s]) ∧
      group.is_empty n = false ∧
      (∃ d ∈ T.listed s tt.join_types, n = T.get_relative s d ∧ tt.is_impassable s d = false) ∧
      ∃ dirs ol2 e,
        T.available_dirs s tt.join_types = some dirs ∧
        pathfinder.expand ⟨group, s, s, tt, heuristic, tt.join_types⟩
          (.entry s 0 (heuristic group s s s tt) .null)
          [(s, .entry s 0 (heuristic group s s s tt) .null)] dirs [] = .next ol2 ∧
        open_list_t.lower_bound_zero ol2 = some e ∧ e.m_coords = n := by
  have hreg : T.regular := by
    rcases hT with h | h | h
    · rw [h]; exact rectangular_regular
    · rw [h]; exact triangular_regular
    · rw [h]; exact hexagonal_regular
  obtain ⟨dirs, ol2, e, d, h1, h2, h3, h4, h5, h6, h7, h8⟩ :=
    a_star_degenerate hreg group s tt heuristic hvalid hfar hnb hcost hheur
  refine ⟨e.m_coords, h8, ?_, h6, ⟨d, h4, h5, h7⟩, dirs, ol2, e, h1, h2, h3, rfl⟩
  rw [h8]
  simp

/-- A concrete instance of `degenerate_query_returns_round_trip`: on `three_in_a_row` the
search from (0, 0) for itself returns (0, 0), (1, 0), (0, 0). -/
theorem degenerate_query_returns_round_trip_witness :
    tile_traits.is_valid rectangular_tile_traits ⟨0, 0⟩ = true ∧
    a_star [] three_in_a_row ⟨0, 0⟩ ⟨0, 0⟩ simple_rectangular dijkstra
      = .ok (CG_OK, [⟨0, 0⟩, ⟨1, 0⟩, ⟨0, 0⟩]) ∧
    ∃ n, a_star [] three_in_a_row ⟨0, 0⟩ ⟨0, 0⟩ simple_rectangular dijkstra
        = .ok (CG_OK, [⟨0, 0⟩, n, ⟨0, 0⟩]) ∧
      a_star [] three_in_a_row ⟨0, 0⟩ ⟨0, 0⟩ simple_rectangular dijkstra
        ≠ .ok (CG_OK, [⟨0, 0⟩]) ∧
      three_in_a_row.is_empty n = false :=
  ⟨by decide, by decide,
    (degenerate_query_returns_round_trip (Or.inl rfl) three_in_a_row ⟨0, 0⟩
      simple_rectangular dijkstra (by decide) (by decide)
      ⟨EAST, by decide, by decide, by decide⟩
      (by
        intro d hd
        have h2 : d ∈ [NORTH, NORTH_EAST, EAST, SOUTH_EAST, SOUTH, SOUTH_WEST, WEST,
          NORTH_WEST] := hd
        rw [simple_rectangular_cost]
        revert h2
        cases d <;> decide)
      (fun _ => le_refl _)).imp (fun _ h => ⟨h.1, h.2.1, h.2.2.1⟩)⟩

end cartograph
